import Mathlib

/-!
# go-urn: parser and serializer of RFC 8141 URNs

A shallow embedding of `parse.go`, `urn.go` and `error.go`.

* A Go `string` is a sequence of bytes: it is modelled as `List Nat`, a Go `byte` as `Nat`.
* A Go `int` index is a `Nat`; `p.n - i` is only evaluated with `i ≤ p.n` where its
  value matters (and a negative Go difference and the truncated `0` both take the
  `< 3` / `< 2` branch).
* Every indexing `s[i]` and slicing `s[a:b]` is checked: the functions return in `Option`,
  and `none` is abnormal termination (a run-time panic, or a `for` loop that was given
  too little fuel).
* `*parser` methods mutate the receiver: they take the parser state and return the new one.
-/

set_option autoImplicit false

namespace urn

/-! ## Data model (`urn.go`, `error.go`) -/

/-- Bytes of an ASCII string literal (for ASCII, code points are the UTF-8 bytes). -/
def bytes (t : String) : List Nat := t.data.map Char.toNat

/-- The Go struct `URN`. -/
structure URN where
  Scheme : List Nat := []
  NID : List Nat := []
  NSS : List Nat := []
  Resolve : List Nat := []
  Query : List Nat := []
  Fragment : List Nat := []
  ForceFragment : Bool := false
  normalized : Bool := false
  deriving DecidableEq, Repr

/-- The six sentinel error values of `error.go`. -/
inductive ErrorKind where
  | ErrInvalidIdentifier
  | ErrInvalidScheme
  | ErrInvalidNID
  | ErrInvalidNSS
  | ErrInvalidResolve
  | ErrInvalidQuery
  deriving DecidableEq, Repr

open ErrorKind

/-- The explanation of an error: a fixed text, or one of the two `fmt.Sprintf` forms
of `parse.go` kept with its argument (`"unknown scheme %q"`, `"invalid byte at pos %d"`). -/
inductive Explanation where
  | text (t : String)
  | unknownScheme (q : List Nat)
  | invalidByteAtPos (i : Nat)
  deriving DecidableEq, Repr

/-- The Go struct `Error`. -/
structure Error where
  Op : String
  Data : List Nat
  Err : ErrorKind
  Msg : Explanation
  deriving DecidableEq, Repr

/-- Go slicing `s[lo:hi]`; panics (`none`) unless `lo ≤ hi ≤ len(s)`. -/
def slice (s : List Nat) (lo hi : Nat) : Option (List Nat) :=
  if lo ≤ hi ∧ hi ≤ s.length then some ((s.take hi).drop lo) else none

/-! ## Character classes (`parse.go`) -/

def isDigit (c : Nat) : Bool := decide (c ≥ 48) && decide (c ≤ 57)

def isAlpha (c : Nat) : Bool :=
  if 65 ≤ c ∧ c ≤ 90 then true
  else if 97 ≤ c ∧ c ≤ 122 then true
  else false

def isAlphaNum (c : Nat) : Bool := isAlpha c || isDigit c

def isHex (c : Nat) : Bool :=
  if 48 ≤ c ∧ c ≤ 57 then true
  else if 65 ≤ c ∧ c ≤ 70 then true
  else if 97 ≤ c ∧ c ≤ 102 then true
  else false

/-- `'-'`, `'.'`, `'_'`, `'~'` besides letters and digits. -/
def isUnreserved (c : Nat) : Bool :=
  if isAlpha c || isDigit c then true
  else if c = 45 ∨ c = 46 ∨ c = 95 ∨ c = 126 then true
  else false

/-- One of `! $ & ' ( ) * + , ; =`. -/
def isSubDelim (c : Nat) : Bool :=
  if c = 33 ∨ c = 36 ∨ c = 38 ∨ c = 39 ∨ c = 40 ∨ c = 41 ∨ c = 42 ∨ c = 43 ∨ c = 44 ∨
      c = 59 ∨ c = 61 then true
  else false

/-- Unreserved, sub-delimiter, `':'` or `'@'`. -/
def isPCharSingle (c : Nat) : Bool :=
  isUnreserved c || isSubDelim c || c == 58 || c == 64

/-! ## The parser (`parse.go`) -/

def MaxLenNID : Nat := 32

/-- The Go struct `parser`; `id` is the URN under construction. -/
structure parser where
  source : List Nat
  n : Nat
  id : URN
  offset : Nat
  deriving DecidableEq, Repr

namespace parser

def newErr (p : parser) (err : ErrorKind) (msg : Explanation) : Error :=
  ⟨"parse", p.source, err, msg⟩

def eol (p : parser) : Bool := decide (p.offset ≥ p.n)

/-- Reads `source[i]`, `source[i+1]`, `source[i+2]` when at least three bytes remain. -/
def maybePercentEncoded (p : parser) (i : Nat) : Option Bool :=
  if p.n - i < 3 then some false
  else do
    let c1 ← p.source[i]?
    let c2 ← p.source[i + 1]?
    let c3 ← p.source[i + 2]?
    pure (c1 == 37 && isHex c2 && isHex c3)

/-- Reads `source[i]`, `source[i+1]` when at least two bytes remain: is it `"?="`. -/
def maybeQuerySequence (p : parser) (i : Nat) : Option Bool :=
  if p.n - i < 2 then some false
  else do
    let c1 ← p.source[i]?
    let c2 ← p.source[i + 1]?
    pure (c1 == 63 && c2 == 61)

/-- Requires `urn:` in any letter case in the first four bytes. -/
def consumeScheme (p : parser) : Option (Option Error × parser) :=
  if p.n < 4 then
    some (some (p.newErr ErrInvalidScheme (.text "too short")), p)
  else do
    let c1 ← p.source[0]?
    let c2 ← p.source[1]?
    let c3 ← p.source[2]?
    let c4 ← p.source[3]?
    if !(c1 == 117 || c1 == 85) || !(c2 == 114 || c2 == 82) || !(c3 == 110 || c3 == 78)
        || !(c4 == 58) then do
      let q ← slice p.source 0 3
      pure (some (p.newErr ErrInvalidScheme (.unknownScheme q)), p)
    else do
      let sch ← slice p.source 0 3
      pure (none, { p with id := { p.id with Scheme := sch }, offset := 4 })

/-- The `for i < max` loop of `consumeNID`: `.inl e` is the `return` inside the loop,
`.inr i` the value of `i` at the `break` or at the loop exit. -/
def consumeNIDLoop (p : parser) (max : Nat) : Nat → Nat → Option (Error ⊕ Nat)
  | 0, _ => none
  | fuel + 1, i =>
    if i < max then do
      let c ← p.source[i]?
      if c == 58 then pure (.inr i)
      else if !(isAlphaNum c || c == 45) then
        pure (.inl (p.newErr ErrInvalidNID (.invalidByteAtPos i)))
      else consumeNIDLoop p max fuel (i + 1)
    else pure (.inr i)

def consumeNID (p : parser) : Option (Option Error × parser) :=
  let i := p.offset
  if p.eol then some (some (p.newErr ErrInvalidNID (.text "unexpected eol")), p)
  else do
    let c0 ← p.source[i]?
    if !isAlphaNum c0 then
      pure (some (p.newErr ErrInvalidNID (.text "unexpected eol")), p)
    else do
      let max := if p.n < i + MaxLenNID then p.n else i + MaxLenNID
      match ← consumeNIDLoop p max (p.n + 1) (i + 1) with
      | .inl e => pure (some e, p)
      | .inr i =>
        if i ≥ p.n then
          pure (some (p.newErr ErrInvalidNID (.text "invalid final byte")), p)
        else do
          let cl ← p.source[i - 1]?
          let final ← if cl != 45 then (do let c ← p.source[i]?; pure (c == 58))
                      else pure false
          if !final then
            pure (some (p.newErr ErrInvalidNID (.text "invalid final byte")), p)
          else if i - p.offset < 2 then
            pure (some (p.newErr ErrInvalidNID (.text "too short")), p)
          else do
            let nid ← slice p.source p.offset i
            pure (none, { p with id := { p.id with NID := nid }, offset := i + 1 })

/-- The `for i < p.n` loop of `consumeNSS`; the result is `i` at the `break` or loop exit. -/
def consumeNSSLoop (p : parser) : Nat → Nat → Option Nat
  | 0, _ => none
  | fuel + 1, i =>
    if i < p.n then do
      let c ← p.source[i]?
      if isPCharSingle c || c == 47 then consumeNSSLoop p fuel (i + 1)
      else do
        let m ← p.maybePercentEncoded i
        if m then consumeNSSLoop p fuel (i + 3)
        else pure i
    else pure i

def consumeNSS (p : parser) : Option (Option Error × parser) :=
  if p.eol then some (some (p.newErr ErrInvalidNSS (.text "unexpected eol")), p)
  else do
    let i := p.offset
    let c ← p.source[i]?
    let first ← if isPCharSingle c then pure (some (i + 1))
                else do
                  let m ← p.maybePercentEncoded i
                  if m then pure (some (i + 3)) else pure none
    match first with
    | none => pure (some (p.newErr ErrInvalidNSS (.text "invalid initial byte")), p)
    | some i => do
      let i ← consumeNSSLoop p (p.n + 1) i
      if i - p.offset < 1 then
        pure (some (p.newErr ErrInvalidNSS (.text "too short")), p)
      else do
        let nss ← slice p.source p.offset i
        pure (none, { p with id := { p.id with NSS := nss }, offset := i })

/-- The `for i < p.n` loop of `consumeResolve`: a `'?'` is consumed unless `"?="` starts
there. -/
def consumeResolveLoop (p : parser) : Nat → Nat → Option Nat
  | 0, _ => none
  | fuel + 1, i =>
    if i < p.n then do
      let c ← p.source[i]?
      if isPCharSingle c || c == 47 then consumeResolveLoop p fuel (i + 1)
      else if c == 63 then do
        let q ← p.maybeQuerySequence i
        if q then pure i
        else consumeResolveLoop p fuel (i + 1)
      else do
        let m ← p.maybePercentEncoded i
        if m then consumeResolveLoop p fuel (i + 3)
        else pure i
    else pure i

def consumeResolve (p : parser) : Option (Option Error × parser) :=
  if p.offset + 1 ≥ p.n then some (none, p)
  else do
    let i := p.offset
    let c1 ← p.source[i]?
    let c2 ← p.source[i + 1]?
    if c1 != 63 || c2 != 43 then pure (none, p)
    else
      let p := { p with offset := p.offset + 2 }
      let i := i + 2
      if p.eol then
        pure (some (p.newErr ErrInvalidResolve (.text "unexpected eol")), p)
      else do
        let c ← p.source[i]?
        let first ← if isPCharSingle c then pure (some (i + 1))
                    else do
                      let m ← p.maybePercentEncoded i
                      if m then pure (some (i + 3)) else pure none
        match first with
        | none => pure (some (p.newErr ErrInvalidResolve (.text "invalid first byte")), p)
        | some i => do
          let i ← consumeResolveLoop p (p.n + 1) i
          let r ← slice p.source p.offset i
          pure (none, { p with id := { p.id with Resolve := r }, offset := i })

/-- The `for i < p.n` loop of `consumeQuery`: every `'?'` is consumed. -/
def consumeQueryLoop (p : parser) : Nat → Nat → Option Nat
  | 0, _ => none
  | fuel + 1, i =>
    if i < p.n then do
      let c ← p.source[i]?
      if isPCharSingle c || c == 47 || c == 63 then consumeQueryLoop p fuel (i + 1)
      else do
        let m ← p.maybePercentEncoded i
        if m then consumeQueryLoop p fuel (i + 3)
        else pure i
    else pure i

def consumeQuery (p : parser) : Option (Option Error × parser) :=
  if p.offset + 1 ≥ p.n then some (none, p)
  else do
    let i := p.offset
    let c1 ← p.source[i]?
    let c2 ← p.source[i + 1]?
    if c1 != 63 || c2 != 61 then pure (none, p)
    else
      let p := { p with offset := p.offset + 2 }
      let i := i + 2
      if p.eol then
        pure (some (p.newErr ErrInvalidQuery (.text "unexpected eol")), p)
      else do
        let c ← p.source[i]?
        let first ← if isPCharSingle c then pure (some (i + 1))
                    else do
                      let m ← p.maybePercentEncoded i
                      if m then pure (some (i + 3)) else pure none
        match first with
        | none => pure (some (p.newErr ErrInvalidQuery (.text "invalid first byte")), p)
        | some i => do
          let i ← consumeQueryLoop p (p.n + 1) i
          let q ← slice p.source p.offset i
          pure (none, { p with id := { p.id with Query := q }, offset := i })

/-- The `for i < p.n` loop of `consumeFragment`. -/
def consumeFragmentLoop (p : parser) : Nat → Nat → Option Nat
  | 0, _ => none
  | fuel + 1, i =>
    if i < p.n then do
      let c ← p.source[i]?
      if isPCharSingle c || c == 47 || c == 63 then consumeFragmentLoop p fuel (i + 1)
      else do
        let m ← p.maybePercentEncoded i
        if m then consumeFragmentLoop p fuel (i + 3)
        else pure i
    else pure i

def consumeFragment (p : parser) : Option (Option Error × parser) :=
  if p.eol then some (none, p)
  else do
    let c ← p.source[p.offset]?
    if c != 35 then pure (none, p)
    else
      let p := { p with offset := p.offset + 1 }
      let i := p.offset
      do
        let i ← consumeFragmentLoop p (p.n + 1) i
        let p := if i - p.offset < 1 then { p with id := { p.id with ForceFragment := true } }
                 else p
        let f ← slice p.source p.offset i
        pure (none, { p with id := { p.id with Fragment := f }, offset := i })

/-- The method `(*parser).Parse`: the six stages in order, then the trailing check.
The result is the Go pair `(*URN, error)`. -/
def Parse (p : parser) : Option (Option URN × Option Error) :=
  let p := { p with id := {} }
  do
    match ← p.consumeScheme with
    | (some e, _) => pure (none, some e)
    | (none, p) =>
    match ← p.consumeNID with
    | (some e, _) => pure (none, some e)
    | (none, p) =>
    match ← p.consumeNSS with
    | (some e, _) => pure (none, some e)
    | (none, p) =>
    match ← p.consumeResolve with
    | (some e, _) => pure (none, some e)
    | (none, p) =>
    match ← p.consumeQuery with
    | (some e, _) => pure (none, some e)
    | (none, p) =>
    match ← p.consumeFragment with
    | (some e, _) => pure (none, some e)
    | (none, p) =>
      if p.offset < p.n then do
        let c ← p.source[p.offset]?
        if c == 63 then
          pure (none, some (p.newErr ErrInvalidIdentifier (.text "invalid sequence after '?'")))
        else
          pure (none, some (p.newErr ErrInvalidNSS (.text "trailing characters")))
      else pure (some p.id, none)

end parser

/-- The function `Parse(s string) (*URN, error)`. -/
def Parse (s : List Nat) : Option (Option URN × Option Error) :=
  parser.Parse { source := s, n := s.length, id := {}, offset := 0 }

/-! ## The serializer (`urn.go`) -/

/-- The method `(*URN).String`. -/
def URN.String (u : URN) : List Nat :=
  let b := u.Scheme ++ [58] ++ u.NID ++ [58] ++ u.NSS
  let b := if u.Resolve ≠ [] then b ++ [63, 43] ++ u.Resolve else b
  let b := if u.Query ≠ [] then b ++ [63, 61] ++ u.Query else b
  let b := if u.Fragment ≠ [] ∨ u.ForceFragment = true then b ++ [35] ++ u.Fragment else b
  b


/-! ## Reading the remaining input as a list

The parser works with indices into `source`; the functions below read the same grammar off
the remaining input `source[offset:]`, and are shown to agree with the loops above. -/

/-- The parts of a URN whose bodies are scanned by a loop. -/
inductive Part where
  | nss
  | resolve
  | component
  deriving DecidableEq, Repr

/-- The list starts with a `%XX` triplet. -/
def pctAt : List Nat → Bool
  | c :: h1 :: h2 :: _ => c == 37 && isHex h1 && isHex h2
  | _ => false

/-- The list starts with `"?="`. -/
def qeAt : List Nat → Bool
  | c1 :: c2 :: _ => c1 == 63 && c2 == 61
  | _ => false

/-- Length of the first item of a body: 1 for a pchar, 3 for a triplet, 0 when there is none. -/
def firstLen : List Nat → Nat
  | [] => 0
  | c :: rest => if isPCharSingle c then 1 else if pctAt (c :: rest) then 3 else 0

/-- Number of bytes the body loop of the given part consumes from the front of the list. -/
def runLen (m : Part) : List Nat → Nat
  | [] => 0
  | c :: rest =>
    if isPCharSingle c || c == 47 then runLen m rest + 1
    else if c == 63 then
      match m with
      | .nss => 0
      | .resolve => if qeAt (c :: rest) then 0 else runLen m rest + 1
      | .component => runLen m rest + 1
    else
      match rest with
      | h1 :: h2 :: rest2 =>
        if c == 37 && isHex h1 && isHex h2 then runLen m rest2 + 3 else 0
      | _ => 0

/-- The loop of `consumeNID` on the remaining input, with `b` the number of bytes it may
still look at: the number of bytes passed before the `':'` or the end, `none` when it meets
a byte that is neither alphanumeric nor `'-'`. -/
def nidRun : Nat → List Nat → Option Nat
  | 0, _ => some 0
  | _ + 1, [] => some 0
  | b + 1, c :: rest =>
    if c == 58 then some 0
    else if !(isAlphaNum c || c == 45) then none
    else (nidRun b rest).map (· + 1)

/-- Length of the NID at the front of the list, when `consumeNID` accepts one. -/
def nidLen (l : List Nat) : Option Nat :=
  match l with
  | [] => none
  | c0 :: rest =>
    if !isAlphaNum c0 then none
    else
      match nidRun (MaxLenNID - 1) rest with
      | none => none
      | some r =>
        if l[r + 1]? = some 58 ∧ l[r]? ≠ some 45 ∧ 2 ≤ r + 1 then some (r + 1) else none


/-- The first four bytes are `urn:` in any letter case. -/
def schemeOK : List Nat → Bool
  | c1 :: c2 :: c3 :: c4 :: _ =>
    (c1 == 117 || c1 == 85) && (c2 == 114 || c2 == 82) && (c3 == 110 || c3 == 78) && c4 == 58
  | _ => false

/-- The list starts with `"?+"`. -/
def rpAt : List Nat → Bool
  | c1 :: c2 :: _ => c1 == 63 && c2 == 43
  | _ => false

/-- Length of a body: its first item and what the loop of the part consumes after it. -/
def compLen (m : Part) (l : List Nat) : Nat :=
  firstLen l + runLen m (l.drop (firstLen l))

/-- An optional part introduced by two bytes (`"?+"` or `"?="`): its body and the input after
it, `none` when it is introduced and has no valid first item. -/
def optPart (intro : List Nat → Bool) (m : Part) (l : List Nat) :
    Option (List Nat × List Nat) :=
  if intro l then
    if firstLen (l.drop 2) = 0 then none
    else some ((l.drop 2).take (compLen m (l.drop 2)), (l.drop 2).drop (compLen m (l.drop 2)))
  else some ([], l)

/-- The fragment stage on the remaining input: body, `ForceFragment`, and the input after. -/
def fragPart (l : List Nat) : List Nat × Bool × List Nat :=
  if l.head? = some 35 then
    ((l.drop 1).take (runLen .component (l.drop 1)),
      decide (runLen .component (l.drop 1) = 0),
      (l.drop 1).drop (runLen .component (l.drop 1)))
  else ([], false, l)

/-- The six stages and the trailing check, read off the input as a list. -/
def parseRef (s : List Nat) : Except ErrorKind URN :=
  if schemeOK s then
    match nidLen (s.drop 4) with
    | none => .error ErrInvalidNID
    | some k =>
      let l2 := (s.drop 4).drop (k + 1)
      if firstLen l2 = 0 then .error ErrInvalidNSS
      else
        match optPart rpAt .resolve (l2.drop (compLen .nss l2)) with
        | none => .error ErrInvalidResolve
        | some (r, l4) =>
          match optPart qeAt .component l4 with
          | none => .error ErrInvalidQuery
          | some (q, l5) =>
            match (fragPart l5).2.2 with
            | [] => .ok
                { Scheme := s.take 3, NID := (s.drop 4).take k, NSS := l2.take (compLen .nss l2),
                  Resolve := r, Query := q, Fragment := (fragPart l5).1,
                  ForceFragment := (fragPart l5).2.1 }
            | c :: _ => if c == 63 then .error ErrInvalidIdentifier else .error ErrInvalidNSS
  else .error ErrInvalidScheme

/-! ## Vocabulary of the specification -/

/-- ASCII lower-casing of one byte. -/
def lowerByte (c : Nat) : Nat := if 65 ≤ c ∧ c ≤ 90 then c + 32 else c

/-- A byte that may stand alone in an NSS: a pchar or `'/'`. -/
def nssByte (c : Nat) : Bool := isPCharSingle c || c == 47

/-- A byte that may stand alone in a resolve, query or fragment body: pchar, `'/'`, `'?'`. -/
def compByte (c : Nat) : Bool := isPCharSingle c || c == 47 || c == 63

/-- The list is a concatenation of single bytes accepted by `single` and of `%XX`
triplets, `X` a hex digit. -/
inductive Tokens (single : Nat → Bool) : List Nat → Prop where
  | nil : Tokens single []
  | byte (c : Nat) (l : List Nat) : single c = true → Tokens single l → Tokens single (c :: l)
  | triplet (h1 h2 : Nat) (l : List Nat) : isHex h1 = true → isHex h2 = true →
      Tokens single l → Tokens single (37 :: h1 :: h2 :: l)

/-- The list begins with a pchar or with a `%XX` triplet. -/
def StartsWithItem (l : List Nat) : Prop :=
  ∃ c rest, l = c :: rest ∧
    (isPCharSingle c = true ∨
      (c = 37 ∧ ∃ h1 h2 t, rest = h1 :: h2 :: t ∧ isHex h1 = true ∧ isHex h2 = true))

/-- The text up to (not including) the first `"?="`, or the first `'#'`, or the end. -/
def upToQueryOrFragment : List Nat → List Nat
  | [] => []
  | c :: rest =>
    if c = 35 ∨ (c = 63 ∧ rest.head? = some 61) then []
    else c :: upToQueryOrFragment rest

/-- The list begins with a run of 2 to 32 bytes, each alphanumeric or `'-'`, whose first
and last bytes are alphanumeric, immediately followed by `':'`. -/
def NIDRun (l : List Nat) : Prop :=
  ∃ nid rest, l = nid ++ 58 :: rest ∧ 2 ≤ nid.length ∧ nid.length ≤ 32 ∧
    (∀ c ∈ nid, isAlphaNum c = true ∨ c = 45) ∧
    (∃ c, nid.head? = some c ∧ isAlphaNum c = true) ∧
    (∃ c, nid.getLast? = some c ∧ isAlphaNum c = true)

/-- The single bytes the body loop of a part accepts. -/
def partByte : Part → Nat → Bool
  | .nss => nssByte
  | .resolve => compByte
  | .component => compByte

/-- The first four bytes are `'u'`/`'U'`, `'r'`/`'R'`, `'n'`/`'N'`, `':'`. -/
def HasUrnPrefix (s : List Nat) : Prop :=
  (s[0]? = some 117 ∨ s[0]? = some 85) ∧ (s[1]? = some 114 ∨ s[1]? = some 82) ∧
    (s[2]? = some 110 ∨ s[2]? = some 78) ∧ s[3]? = some 58

instance (s : List Nat) : Decidable (HasUrnPrefix s) := by
  unfold HasUrnPrefix; infer_instance

/-- The parser state `Parse` starts from. -/
def parser.start (s : List Nat) : parser := { source := s, n := s.length, id := {}, offset := 0 }

/-- The values the grammar allows in the seven exported fields of a URN: the scheme is `urn`
in some letter case, the NID is 2 to 32 alphanumerics or hyphens with alphanumeric ends, the
NSS is a non-empty run of pchars, `'/'` and triplets starting with a pchar or triplet,
Resolve and Query are empty or runs of pchars, `'/'`, `'?'` and triplets starting with a
pchar or triplet, Resolve has no `"?="`, Fragment is such a run, and `ForceFragment` is only
set with an empty Fragment. -/
structure Grammatical (u : URN) : Prop where
  scheme : u.Scheme.map lowerByte = bytes "urn"
  nid_len : 2 ≤ u.NID.length ∧ u.NID.length ≤ 32
  nid_bytes : ∀ c ∈ u.NID, isAlphaNum c = true ∨ c = 45
  nid_first : ∃ c, u.NID.head? = some c ∧ isAlphaNum c = true
  nid_last : ∃ c, u.NID.getLast? = some c ∧ isAlphaNum c = true
  nss : Tokens nssByte u.NSS ∧ StartsWithItem u.NSS
  resolve : u.Resolve = [] ∨ (Tokens compByte u.Resolve ∧ StartsWithItem u.Resolve)
  resolve_no_qe : ¬ [63, 61] <:+: u.Resolve
  query : u.Query = [] ∨ (Tokens compByte u.Query ∧ StartsWithItem u.Query)
  fragment : Tokens compByte u.Fragment
  force : u.ForceFragment = true → u.Fragment = []

/-! ## The percent-encoding codec (`encode.go`) -/

/-- A slice fresh from `make([]byte, n)`: `n` zero bytes; a negative length panics. -/
def makeBytes (n : Int) : Option (List Nat) :=
  if n < 0 then none else some (List.replicate n.toNat 0)

/-- The assignment `data[pos] = v`; an index out of range panics. -/
def setByte (data : List Nat) (pos v : Nat) : Option (List Nat) :=
  if pos < data.length then some (data.set pos v) else none

def unhex (c : Nat) : Nat :=
  if 48 ≤ c ∧ c ≤ 57 then c - 48
  else if 97 ≤ c ∧ c ≤ 102 then c - 97 + 10
  else if 65 ≤ c ∧ c ≤ 70 then c - 65 + 10
  else 0

def upperHex : List Nat := bytes "0123456789ABCDEF"

/-- The loop condition `i+2 < n && c == '%' && isHex(d[i+1]) && isHex(d[i+2])` of `Decode`,
evaluated left to right. -/
def DecodeCond (d : List Nat) (n i c : Nat) : Option Bool :=
  if i + 2 < n ∧ c = 37 then
    match d[i + 1]? with
    | none => none
    | some c1 =>
      if isHex c1 then
        match d[i + 2]? with
        | none => none
        | some c2 => some (isHex c2)
      else some false
  else some false

/-- The `for i < n` loop of `Decode`, writing into the buffer `data`; the byte arithmetic
`unhex(..)<<4 + unhex(..)` is modulo 256. -/
def DecodeLoop (d : List Nat) (n : Nat) : Nat → Nat → Nat → List Nat → Option (List Nat)
  | 0, _, _, _ => none
  | fuel + 1, i, pos, data =>
    if i < n then do
      let c ← d[i]?
      let t ← DecodeCond d n i c
      if t then do
        let c1 ← d[i + 1]?
        let c2 ← d[i + 2]?
        let data ← setByte data pos (((unhex c1 * 16) % 256 + unhex c2) % 256)
        DecodeLoop d n fuel (i + 3) (pos + 1) data
      else do
        let data ← setByte data pos c
        DecodeLoop d n fuel (i + 1) (pos + 1) data
    else some data

/-- The function `Decode(d string) []byte`: the buffer has `len(d) - 2*count` bytes, `count`
the number of `'%'` in `d`. -/
def Decode (d : List Nat) : Option (List Nat) := do
  let count := d.count 37
  let data ← makeBytes ((d.length : Int) - (count : Int) * 2)
  DecodeLoop d d.length (d.length + 1) 0 0 data

/-- The Go struct `Encoder`. -/
structure Encoder where
  Allowed : List Nat := []
  deriving DecidableEq, Repr

/-- The Go struct `escaper`. -/
structure escaper where
  input : List Nat
  n : Nat
  allow : List Nat
  data : List Nat := []
  deriving DecidableEq, Repr

def escaper.shouldEscape (e : escaper) (c : Nat) : Bool :=
  if isPCharSingle c then false
  else if e.allow.any (fun b => c == b) then false
  else true

def escaper.computeOutputSize (e : escaper) : Nat :=
  e.input.foldl (fun sz c => if e.shouldEscape c then sz + 2 else sz) e.input.length

/-- The `for i := 0; i < e.n; i++` loop of `(*escaper).Encode`; `c>>4` is `c / 16` and
`c&0xF` is `c % 16`. -/
def escaper.EncodeLoop (e : escaper) : Nat → Nat → Nat → List Nat → Option (List Nat)
  | 0, _, _, _ => none
  | fuel + 1, i, pos, data =>
    if i < e.n then do
      let c ← e.input[i]?
      if e.shouldEscape c then do
        let data ← setByte data pos 37
        let hi ← upperHex[c / 16]?
        let data ← setByte data (pos + 1) hi
        let lo ← upperHex[c % 16]?
        let data ← setByte data (pos + 2) lo
        escaper.EncodeLoop e fuel (i + 1) (pos + 3) data
      else do
        let data ← setByte data pos c
        escaper.EncodeLoop e fuel (i + 1) (pos + 1) data
    else some data

/-- The method `(*escaper).Encode`, which fills `e.data`. -/
def escaper.Encode (e : escaper) : Option escaper := do
  let data ← e.EncodeLoop (e.n + 1) 0 0 e.data
  pure { e with data := data }

/-- The method `(*Encoder).Encode`. -/
def Encoder.Encode (e : Encoder) (d : List Nat) : Option (List Nat) :=
  if d.length = 0 then some []
  else
    let impl : escaper := { input := d, n := d.length, allow := e.Allowed }
    let size := impl.computeOutputSize
    if size = d.length then some d
    else do
      let data ← makeBytes size
      let impl ← escaper.Encode { impl with data := data }
      pure impl.data

def WithKeepUnescaped (b : List Nat) : Encoder → Encoder :=
  fun e => { e with Allowed := e.Allowed ++ b }

def NewEncoder (opts : List (Encoder → Encoder)) : Encoder :=
  opts.foldl (fun e opt => opt e) {}

def EncodeComponent (d : List Nat) : Option (List Nat) :=
  (NewEncoder [WithKeepUnescaped [47, 63]]).Encode d

def EncodeStringComponent (d : List Nat) : Option (List Nat) := EncodeComponent d

def EncodeNSS (d : List Nat) : Option (List Nat) :=
  (NewEncoder [WithKeepUnescaped [47]]).Encode d

def EncodeStringNSS (d : List Nat) : Option (List Nat) := EncodeNSS d

def RecodeStringComponent (d : List Nat) : Option (List Nat) := do
  let b ← Decode d
  EncodeComponent b

def RecodeStringNSS (d : List Nat) : Option (List Nat) := do
  let b ← Decode d
  EncodeNSS b

/-! ## Normalization (`urn.go`) -/

/-- Go's Unicode case mapping of text that is not pure ASCII. It is standard-library code
outside this repository and is a parameter of the functions that call it. -/
structure UnicodeCase where
  ToUpper : List Nat → List Nat
  ToLower : List Nat → List Nat

/-- ASCII upper-casing of one byte. -/
def upperByte (c : Nat) : Nat := if 97 ≤ c ∧ c ≤ 122 then c - 32 else c

/-- Go's `strings.ToLower`: on ASCII-only text it maps `A`-`Z` to `a`-`z`. -/
def stringsToLower (uc : UnicodeCase) (s : List Nat) : List Nat :=
  if s.all (fun c => decide (c < 128)) then s.map (fun c => if 65 ≤ c ∧ c ≤ 90 then c + 32 else c)
  else uc.ToLower s

/-- Go's `bytes.ToUpper`: on ASCII-only text it maps `a`-`z` to `A`-`Z`. -/
def bytesToUpper (uc : UnicodeCase) (s : List Nat) : List Nat :=
  if s.all (fun c => decide (c < 128)) then s.map upperByte else uc.ToUpper s

/-- The `for i < n` loop of `normalizePercentEncoding` on the byte slice `data`. -/
def normalizePercentEncodingLoop (uc : UnicodeCase) (n : Nat) :
    Nat → Nat → List Nat → Option (List Nat)
  | 0, _, _ => none
  | fuel + 1, i, data =>
    if i < n then do
      let c ← data[i]?
      if c != 37 then normalizePercentEncodingLoop uc n fuel (i + 1) data
      else if i + 2 ≥ n then some data
      else do
        let sl ← slice data (i + 1) (i + 3)
        let up := bytesToUpper uc sl
        let u0 ← up[0]?
        let u1 ← up[1]?
        let data ← setByte data (i + 1) u0
        let data ← setByte data (i + 2) u1
        normalizePercentEncodingLoop uc n fuel (i + 2) data
    else some data

def normalizePercentEncoding (uc : UnicodeCase) (s : List Nat) : Option (List Nat) :=
  if ¬ s.contains 37 then some s
  else normalizePercentEncodingLoop uc s.length (s.length + 1) 0 s

/-- The method `(*URN).Normalize`; the result is the receiver after the call. -/
def URN.Normalize (uc : UnicodeCase) (u : URN) : Option URN := do
  let u := { u with Scheme := stringsToLower uc u.Scheme }
  let u := { u with NID := stringsToLower uc u.NID }
  let nss ← normalizePercentEncoding uc u.NSS
  let u := { u with NSS := nss }
  let r ← normalizePercentEncoding uc u.Resolve
  let u := { u with Resolve := r }
  let q ← normalizePercentEncoding uc u.Query
  let u := { u with Query := q }
  let f ← normalizePercentEncoding uc u.Fragment
  let u := { u with Fragment := f }
  pure { u with normalized := true }

/-- The method `(*URN).EncodingNormalize`; the result is the receiver after the call. -/
def URN.EncodingNormalize (uc : UnicodeCase) (u : URN) : Option URN := do
  let u := { u with Scheme := stringsToLower uc u.Scheme }
  let u := { u with NID := stringsToLower uc u.NID }
  let nss ← RecodeStringNSS u.NSS
  let u := { u with NSS := nss }
  let r ← RecodeStringComponent u.Resolve
  let u := { u with Resolve := r }
  let q ← RecodeStringComponent u.Query
  let u := { u with Query := q }
  let f ← RecodeStringComponent u.Fragment
  let u := { u with Fragment := f }
  pure { u with normalized := true }

def URN.IsNormalized (u : URN) : Bool := u.normalized

/-! ## Vocabulary of the codec's specification -/

/-- The value of a hex digit, in either letter case. -/
def hexValue (c : Nat) : Nat :=
  if isDigit c then c - 48 else if 97 ≤ c then c - 87 else c - 55

/-- Every `'%'` of the text is followed by two hex digits. -/
def wellFormed : List Nat → Bool
  | [] => true
  | c :: rest =>
    (if c = 37 then
      match rest with
      | x :: y :: _ => isHex x && isHex y
      | _ => false
    else true) && wellFormed rest

/-- The left-to-right scan that replaces each triplet `%XY` by the byte `16*value(X)+value(Y)`
and copies every other byte. -/
def decodeRef : List Nat → List Nat
  | [] => []
  | [c] => [c]
  | [c, x] => c :: decodeRef [x]
  | c :: x :: y :: rest =>
    if c = 37 ∧ isHex x = true ∧ isHex y = true then
      (16 * hexValue x + hexValue y) :: decodeRef rest
    else c :: decodeRef (x :: y :: rest)

/-- The uppercase hex digit of a value below 16. -/
def hexDigit (k : Nat) : Nat := if k < 10 then 48 + k else 55 + k

/-- The text that the encoder's description asks for: each byte that is a pchar or in the
keep-unescaped set `A` as itself, any other byte as `'%'` and its two uppercase hex digits,
high nibble first. -/
def encodeRef (A : List Nat) : List Nat → List Nat
  | [] => []
  | c :: rest =>
    (if isPCharSingle c = true ∨ c ∈ A then [c]
     else [37, hexDigit (c / 16), hexDigit (c % 16)]) ++ encodeRef A rest

/-- The bytes of `d` that are neither pchar nor in `A`. -/
def escapedBytes (A : List Nat) (d : List Nat) : List Nat :=
  d.filter (fun c => !(isPCharSingle c) && !(decide (c ∈ A)))

/-- An uppercase hex digit: `0`-`9` or `A`-`F`. -/
def isUpperHex (c : Nat) : Bool := isDigit c || (decide (65 ≤ c) && decide (c ≤ 70))

/-- Text whose percent-triplets are all needed under the keep-unescaped set `A`: it is made
of bytes other than `'%'` and of triplets `%XY` with `X`, `Y` uppercase hex digits whose
byte `16*value(X)+value(Y)` is neither a pchar nor in `A`. -/
inductive MinEscaped (A : List Nat) : List Nat → Prop
  | nil : MinEscaped A []
  | lit (c : Nat) (rest : List Nat) : c ≠ 37 → MinEscaped A rest → MinEscaped A (c :: rest)
  | triplet (x y : Nat) (rest : List Nat) : isUpperHex x = true → isUpperHex y = true →
      ¬ (isPCharSingle (16 * hexValue x + hexValue y) = true ∨ 16 * hexValue x + hexValue y ∈ A) →
      MinEscaped A rest → MinEscaped A (37 :: x :: y :: rest)

/-- The text with the two hex digits of every percent-triplet in uppercase and every other
byte as it is. -/
def upperTriplets : List Nat → List Nat
  | [] => []
  | [c] => [c]
  | [c, x] => c :: upperTriplets [x]
  | c :: x :: y :: rest =>
    if c = 37 ∧ isHex x = true ∧ isHex y = true then
      37 :: upperByte x :: upperByte y :: upperTriplets rest
    else c :: upperTriplets (x :: y :: rest)

/-! ## Vocabulary for the normalizers -/

/-- A URN on which the normalizers stay on their ASCII paths and meet only whole triplets:
Scheme and NID are ASCII, the other four fields are made of single bytes and `%XX`
triplets. Every parsed URN is one, and so is every normalizer's result on one. -/
structure Normalizable (u : URN) : Prop where
  scheme : ∀ c ∈ u.Scheme, c < 128
  nid : ∀ c ∈ u.NID, c < 128
  nss : Tokens compByte u.NSS
  resolve : Tokens compByte u.Resolve
  query : Tokens compByte u.Query
  fragment : Tokens compByte u.Fragment

/-- The case-normalized form: Scheme and NID in lowercase, the hex digits of the triplets of
the other four fields in uppercase, the cache bit set. -/
def normalForm (u : URN) : URN :=
  { Scheme := u.Scheme.map lowerByte, NID := u.NID.map lowerByte,
    NSS := upperTriplets u.NSS, Resolve := upperTriplets u.Resolve,
    Query := upperTriplets u.Query, Fragment := upperTriplets u.Fragment,
    ForceFragment := u.ForceFragment, normalized := true }

/-- The URN with Scheme and NID in lowercase and each of the other four fields decoded and
encoded again (NSS keeping `'/'`, the components keeping `'/'` and `'?'`), the cache bit set. -/
def recodedForm (u : URN) : URN :=
  { Scheme := u.Scheme.map lowerByte, NID := u.NID.map lowerByte,
    NSS := encodeRef [47] (decodeRef u.NSS),
    Resolve := encodeRef [47, 63] (decodeRef u.Resolve),
    Query := encodeRef [47, 63] (decodeRef u.Query),
    Fragment := encodeRef [47, 63] (decodeRef u.Fragment),
    ForceFragment := u.ForceFragment, normalized := true }

/-! ## URNs behind pointers (`urn.go`, `equivalence.go`)

`Copy`, `Normalized`, `EncodingNormalized` and `Parse` return a `*URN` and `Equal` compares
two of them, so the structs allocated so far are kept in a list: a pointer that is not `nil`
is an index into it, and a method called through a pointer reads and writes the list. -/

/-- The URN structs allocated so far. -/
abbrev Heap := List URN

/-- A Go `*URN`: `nil` (`none`) or the address of a struct. -/
abbrev Ptr := Option Nat

/-- The read `*p`; it panics on `nil`. -/
def Heap.load (h : Heap) (p : Ptr) : Option URN :=
  match p with
  | none => none
  | some a => h[a]?

/-- The write `*p = v`; it panics on `nil`. -/
def Heap.store (h : Heap) (p : Ptr) (v : URN) : Option Heap :=
  match p with
  | none => none
  | some a => if a < h.length then some (h.set a v) else none

/-- The allocation `&URN{...}` of a new struct. -/
def Heap.alloc (h : Heap) (v : URN) : Heap × Ptr := (h ++ [v], some h.length)

/-- The function `Parse` with its result allocated: the heap after the call and the Go pair
`(*URN, error)`. -/
def Ptr.Parse (h : Heap) (s : List Nat) : Option (Heap × Ptr × Option Error) := do
  let (n, err) ← urn.Parse s
  match n with
  | none => some (h, none, err)
  | some v =>
    let (h, p) := Heap.alloc h v
    some (h, p, err)

/-- The method `(*URN).AssignedName` on the value of the receiver. -/
def URN.AssignedName (u : URN) : List Nat :=
  u.Scheme ++ [58] ++ u.NID ++ [58] ++ u.NSS

/-- The struct literal of `(*URN).Copy`. -/
def URN.Copy (u : URN) : URN :=
  { Scheme := u.Scheme, NID := u.NID, NSS := u.NSS, Resolve := u.Resolve, Query := u.Query,
    Fragment := u.Fragment, ForceFragment := u.ForceFragment, normalized := u.normalized }

/-- The call `u.AssignedName()` through a pointer. -/
def Ptr.AssignedName (h : Heap) (u : Ptr) : Option (List Nat) :=
  (Heap.load h u).map URN.AssignedName

/-- The call `u.String()` through a pointer. -/
def Ptr.String (h : Heap) (u : Ptr) : Option (List Nat) :=
  (Heap.load h u).map URN.String

/-- The call `u.IsNormalized()` through a pointer. -/
def Ptr.IsNormalized (h : Heap) (u : Ptr) : Option Bool :=
  (Heap.load h u).map URN.IsNormalized

/-- The call `u.Copy()` through a pointer: the heap after it and the new pointer. -/
def Ptr.Copy (h : Heap) (u : Ptr) : Option (Heap × Ptr) := do
  let v ← Heap.load h u
  some (Heap.alloc h v.Copy)

/-- The call `u.Normalize()` through a pointer: the heap after it. -/
def Ptr.Normalize (uc : UnicodeCase) (h : Heap) (u : Ptr) : Option Heap := do
  let v ← Heap.load h u
  let v ← v.Normalize uc
  Heap.store h u v

/-- The call `u.EncodingNormalize()` through a pointer: the heap after it. -/
def Ptr.EncodingNormalize (uc : UnicodeCase) (h : Heap) (u : Ptr) : Option Heap := do
  let v ← Heap.load h u
  let v ← v.EncodingNormalize uc
  Heap.store h u v

/-- The method `(*URN).EncodingNormalized`: the heap after the call and the pointer returned. -/
def Ptr.EncodingNormalized (uc : UnicodeCase) (h : Heap) (u : Ptr) : Option (Heap × Ptr) :=
  match u with
  | none => some (h, u)
  | some _ => do
    let (h, n) ← Ptr.Copy h u
    let h ← Ptr.EncodingNormalize uc h n
    some (h, n)

/-- The method `(*URN).Normalized`: the heap after the call and the pointer returned. -/
def Ptr.Normalized (uc : UnicodeCase) (h : Heap) (u : Ptr) : Option (Heap × Ptr) :=
  match u with
  | none => some (h, u)
  | some _ => do
    let b ← Ptr.IsNormalized h u
    if b then some (h, u)
    else do
      let (h, n) ← Ptr.Copy h u
      let h ← Ptr.Normalize uc h n
      some (h, n)

/-- The error that `fmt.Errorf` makes from a format with the verb `%w`: the format and the
error it wraps. -/
structure wrapError where
  format : String
  err : Error
  deriving DecidableEq, Repr

/-- The method `(*URN).MarshalText`: the Go pair `([]byte, error)`. -/
def Ptr.MarshalText (h : Heap) (u : Ptr) : Option (List Nat × Option wrapError) := do
  let s ← Ptr.String h u
  some (s, none)

/-- The method `(*URN).UnmarshalText`: the heap after the call and the error returned. -/
def Ptr.UnmarshalText (h : Heap) (u : Ptr) (b : List Nat) : Option (Heap × Option wrapError) := do
  let (h1, n, err) ← Ptr.Parse h b
  match err with
  | some e => some (h1, some { format := "urn.UnmarshalText: %w", err := e })
  | none => do
    let v ← Heap.load h1 n
    let h2 ← Heap.store h1 u v
    some (h2, none)

/-! ## Equivalence (`equivalence.go`) -/

/-- The Go type `ComparisonPart`, an `int`. -/
abbrev ComparisonPart := Int

def AssignedName : ComparisonPart := 0

def AllParts : ComparisonPart := 1

/-- The Go type `ComparisonMethod`, an `int`. -/
abbrev ComparisonMethod := Int

def Simple : ComparisonMethod := 0

def CaseNormalized : ComparisonMethod := 1

def EncodingNormalized : ComparisonMethod := 2

def EqualAssignedName (h : Heap) (a b : Ptr) : Option Bool :=
  if a = b then some true
  else do
    let x ← Ptr.AssignedName h a
    let y ← Ptr.AssignedName h b
    some (x == y)

/-- The `switch method` of `Equal`: the heap and the two pointers after it. -/
def Equal.transform (uc : UnicodeCase) (h : Heap) (a b : Ptr) (method : ComparisonMethod) :
    Option (Heap × Ptr × Ptr) :=
  if method = Simple then some (h, a, b)
  else if method = CaseNormalized then do
    let (h, a) ← Ptr.Normalized uc h a
    let (h, b) ← Ptr.Normalized uc h b
    some (h, a, b)
  else if method = EncodingNormalized then do
    let (h, a) ← Ptr.EncodingNormalized uc h a
    let (h, b) ← Ptr.EncodingNormalized uc h b
    some (h, a, b)
  else some (h, a, b)

/-- The function `Equal`: the heap after the call and the result; a `part` that is neither
constant panics. -/
def Equal (uc : UnicodeCase) (h : Heap) (a b : Ptr) (part : ComparisonPart)
    (method : ComparisonMethod) : Option (Heap × Bool) :=
  if a = b then some (h, true)
  else do
    let (h, a, b) ← Equal.transform uc h a b method
    if part = AssignedName then do
      let x ← Ptr.AssignedName h a
      let y ← Ptr.AssignedName h b
      some (h, x == y)
    else if part = AllParts then do
      let x ← Ptr.String h a
      let y ← Ptr.String h b
      some (h, x == y)
    else none

/-- The heaps that arise from `Parse`, `Copy`, `Normalize`, `EncodingNormalize`,
`Normalized` and `EncodingNormalized` in any order, on any pointers. -/
inductive Reachable (uc : UnicodeCase) : Heap → Prop
  | start : Reachable uc []
  | parse (h h1 : Heap) (s : List Nat) (p : Ptr) (e : Option Error) :
      Reachable uc h → Ptr.Parse h s = some (h1, p, e) → Reachable uc h1
  | copy (h h1 : Heap) (p q : Ptr) :
      Reachable uc h → Ptr.Copy h p = some (h1, q) → Reachable uc h1
  | normalize (h h1 : Heap) (p : Ptr) :
      Reachable uc h → Ptr.Normalize uc h p = some h1 → Reachable uc h1
  | encodingNormalize (h h1 : Heap) (p : Ptr) :
      Reachable uc h → Ptr.EncodingNormalize uc h p = some h1 → Reachable uc h1
  | normalized (h h1 : Heap) (p q : Ptr) :
      Reachable uc h → Ptr.Normalized uc h p = some (h1, q) → Reachable uc h1
  | encodingNormalized (h h1 : Heap) (p q : Ptr) :
      Reachable uc h → Ptr.EncodingNormalized uc h p = some (h1, q) → Reachable uc h1

/-- The part of the text before the first `'?'` or `'#'`. -/
def beforeComponents (s : List Nat) : List Nat :=
  s.takeWhile (fun c => c != 63 && c != 35)

/-- The URN whose text `Equal` compares under a method, for a URN `u` behind an operand: the
value behind the pointer that `Normalized` or `EncodingNormalized` returns. -/
def viewed (method : ComparisonMethod) (u : URN) : URN :=
  if method = CaseNormalized then (if u.normalized = true then u else normalForm u)
  else if method = EncodingNormalized then recodedForm u
  else u

/-- The text that `Equal` compares for a part; no text for a `part` that is neither
constant. -/
def compared (part : ComparisonPart) (u : URN) : Option (List Nat) :=
  if part = AssignedName then some u.AssignedName
  else if part = AllParts then some u.String
  else none

/-- Every struct of the heap is normalizable, and one with the cache bit set is its own
case-normalized form. -/
def Sound (h : Heap) : Prop :=
  ∀ u ∈ h, Normalizable u ∧ (u.normalized = true → normalForm u = u)

/-- The URNs obtained from `u` by `Normalize` and `EncodingNormalize`, any number of times
and in any order. -/
inductive Derived (uc : UnicodeCase) (u : URN) : URN → Prop
  | self : Derived uc u u
  | normalize (v w : URN) : Derived uc u v → v.Normalize uc = some w → Derived uc u w
  | encodingNormalize (v w : URN) :
      Derived uc u v → v.EncodingNormalize uc = some w → Derived uc u w

/-- The text with every percent-triplet whose octet is a pchar or in `A` replaced by that
octet, every other triplet left in place with its two hex digits in uppercase, and every
other byte as it is. -/
def decodeKept (A : List Nat) : List Nat → List Nat
  | [] => []
  | [c] => [c]
  | [c, x] => c :: decodeKept A [x]
  | c :: x :: y :: rest =>
    if c = 37 ∧ isHex x = true ∧ isHex y = true then
      if isPCharSingle (16 * hexValue x + hexValue y) = true ∨
          16 * hexValue x + hexValue y ∈ A then
        (16 * hexValue x + hexValue y) :: decodeKept A rest
      else 37 :: upperByte x :: upperByte y :: decodeKept A rest
    else c :: decodeKept A (x :: y :: rest)

end urn

namespace urn

open ErrorKind

/-! ## The loops agree with the list reading -/

theorem pctAt_of_length_lt (l : List Nat) (h : l.length < 3) : pctAt l = false := by
  rcases l with _ | ⟨a, _ | ⟨b, _ | ⟨c, t⟩⟩⟩ <;> simp [pctAt] at h ⊢
  omega

theorem qeAt_of_length_lt (l : List Nat) (h : l.length < 2) : qeAt l = false := by
  rcases l with _ | ⟨a, _ | ⟨b, t⟩⟩ <;> simp [qeAt] at h ⊢
  omega

theorem maybePercentEncoded_eq (p : parser) (i : Nat) (hn : p.n = p.source.length) :
    p.maybePercentEncoded i = some (pctAt (p.source.drop i)) := by
  have hlen : (p.source.drop i).length = p.n - i := by simp [hn]
  have h0 : p.source[i]? = (p.source.drop i)[0]? := by simp
  have h1 : p.source[i + 1]? = (p.source.drop i)[1]? := by simp
  have h2 : p.source[i + 2]? = (p.source.drop i)[2]? := by simp
  unfold parser.maybePercentEncoded
  rw [h0, h1, h2, ← hlen]
  generalize p.source.drop i = l
  rcases l with _ | ⟨a, _ | ⟨b, _ | ⟨c, t⟩⟩⟩ <;> simp [pctAt]

theorem maybeQuerySequence_eq (p : parser) (i : Nat) (hn : p.n = p.source.length) :
    p.maybeQuerySequence i = some (qeAt (p.source.drop i)) := by
  have hlen : (p.source.drop i).length = p.n - i := by simp [hn]
  have h0 : p.source[i]? = (p.source.drop i)[0]? := by simp
  have h1 : p.source[i + 1]? = (p.source.drop i)[1]? := by simp
  unfold parser.maybeQuerySequence
  rw [h0, h1, ← hlen]
  generalize p.source.drop i = l
  rcases l with _ | ⟨a, _ | ⟨b, t⟩⟩ <;> simp [qeAt]

theorem runLen_cons (m : Part) (c : Nat) (rest : List Nat) :
    runLen m (c :: rest) =
      if isPCharSingle c || c == 47 then runLen m rest + 1
      else if c == 63 then
        match m with
        | .nss => 0
        | .resolve => if qeAt (c :: rest) then 0 else runLen m rest + 1
        | .component => runLen m rest + 1
      else if pctAt (c :: rest) then runLen m (rest.drop 2) + 3 else 0 := by
  rcases rest with _ | ⟨a, _ | ⟨b, t⟩⟩ <;> simp [runLen, pctAt]

theorem pctAt_question (rest : List Nat) : pctAt (63 :: rest) = false := by
  rcases rest with _ | ⟨a, _ | ⟨b, t⟩⟩ <;> simp [pctAt]

theorem isPCharSingle_question : isPCharSingle 63 = false := by decide

theorem drop_cons_of_lt (s : List Nat) (i : Nat) (h : i < s.length) :
    ∃ c, s[i]? = some c ∧ s.drop i = c :: s.drop (i + 1) :=
  ⟨s[i], List.getElem?_eq_getElem h, List.drop_eq_getElem_cons h⟩

theorem drop_two_drop (s : List Nat) (i : Nat) :
    List.drop 2 (s.drop (i + 1)) = s.drop (i + 3) := by
  rw [List.drop_drop]

theorem consumeNSSLoop_eq (p : parser) (hn : p.n = p.source.length) :
    ∀ fuel i, p.n - i < fuel →
      p.consumeNSSLoop fuel i = some (i + runLen .nss (p.source.drop i)) := by
  intro fuel
  induction fuel with
  | zero => intro i h; omega
  | succ fuel ih =>
    intro i h
    unfold parser.consumeNSSLoop
    by_cases hi : i < p.n
    · obtain ⟨c, hg, hd⟩ := drop_cons_of_lt p.source i (hn ▸ hi)
      have hpct := maybePercentEncoded_eq p i hn
      rw [hd] at hpct
      rw [hd, runLen_cons, drop_two_drop]
      simp only [hi, if_true, hg, hpct, Option.bind_eq_bind, Option.some_bind, Option.pure_def]
      rcases Bool.eq_false_or_eq_true (isPCharSingle c || c == 47) with h1 | h1
      · simp only [h1, if_true]
        rw [ih (i + 1) (by omega)]
        simp only [Option.some.injEq]; omega
      · by_cases h2 : c = 63
        · subst h2
          simp [isPCharSingle_question, pctAt_question]
        · rcases Bool.eq_false_or_eq_true (pctAt (c :: p.source.drop (i + 1))) with h3 | h3
          · simp only [h3, if_true]
            rw [ih (i + 3) (by omega)]
            simp [h1, h2]; omega
          · simp [h1, h2, h3]
    · have : p.source.drop i = [] := List.drop_eq_nil_of_le (by omega)
      simp [hi, this, runLen]

theorem consumeResolveLoop_eq (p : parser) (hn : p.n = p.source.length) :
    ∀ fuel i, p.n - i < fuel →
      p.consumeResolveLoop fuel i = some (i + runLen .resolve (p.source.drop i)) := by
  intro fuel
  induction fuel with
  | zero => intro i h; omega
  | succ fuel ih =>
    intro i h
    unfold parser.consumeResolveLoop
    by_cases hi : i < p.n
    · obtain ⟨c, hg, hd⟩ := drop_cons_of_lt p.source i (hn ▸ hi)
      have hpct := maybePercentEncoded_eq p i hn
      have hqe := maybeQuerySequence_eq p i hn
      rw [hd] at hpct hqe
      rw [hd, runLen_cons, drop_two_drop]
      simp only [hi, if_true, hg, hpct, hqe, Option.bind_eq_bind, Option.some_bind,
        Option.pure_def]
      rcases Bool.eq_false_or_eq_true (isPCharSingle c || c == 47) with h1 | h1
      · simp only [h1, if_true]
        rw [ih (i + 1) (by omega)]
        simp only [Option.some.injEq]; omega
      · by_cases h2 : c = 63
        · subst h2
          rcases Bool.eq_false_or_eq_true (qeAt (63 :: p.source.drop (i + 1))) with h4 | h4
          · simp [isPCharSingle_question, h4]
          · simp only [h1, h4, if_false, Bool.false_eq_true]
            rw [ih (i + 1) (by omega)]
            simp; omega
        · rcases Bool.eq_false_or_eq_true (pctAt (c :: p.source.drop (i + 1))) with h3 | h3
          · simp only [h3, if_true]
            rw [ih (i + 3) (by omega)]
            simp [h1, h2]; omega
          · simp [h1, h2, h3]
    · have : p.source.drop i = [] := List.drop_eq_nil_of_le (by omega)
      simp [hi, this, runLen]

theorem consumeQueryLoop_eq (p : parser) (hn : p.n = p.source.length) :
    ∀ fuel i, p.n - i < fuel →
      p.consumeQueryLoop fuel i = some (i + runLen .component (p.source.drop i)) := by
  intro fuel
  induction fuel with
  | zero => intro i h; omega
  | succ fuel ih =>
    intro i h
    unfold parser.consumeQueryLoop
    by_cases hi : i < p.n
    · obtain ⟨c, hg, hd⟩ := drop_cons_of_lt p.source i (hn ▸ hi)
      have hpct := maybePercentEncoded_eq p i hn
      rw [hd] at hpct
      rw [hd, runLen_cons, drop_two_drop]
      simp only [hi, if_true, hg, hpct, Option.bind_eq_bind, Option.some_bind, Option.pure_def]
      rcases Bool.eq_false_or_eq_true (isPCharSingle c || c == 47) with h1 | h1
      · simp only [h1, Bool.true_or, if_true]
        rw [ih (i + 1) (by omega)]
        simp only [Option.some.injEq]; omega
      · by_cases h2 : c = 63
        · subst h2
          simp only [beq_self_eq_true, Bool.or_true, if_true]
          rw [ih (i + 1) (by omega)]
          simp [h1]; omega
        · rcases Bool.eq_false_or_eq_true (pctAt (c :: p.source.drop (i + 1))) with h3 | h3
          · simp only [h3, if_true]
            rw [ih (i + 3) (by omega)]
            simp [h1, h2]; omega
          · simp [h1, h2, h3]
    · have : p.source.drop i = [] := List.drop_eq_nil_of_le (by omega)
      simp [hi, this, runLen]

theorem consumeFragmentLoop_eq (p : parser) (hn : p.n = p.source.length) :
    ∀ fuel i, p.n - i < fuel →
      p.consumeFragmentLoop fuel i = some (i + runLen .component (p.source.drop i)) := by
  intro fuel
  induction fuel with
  | zero => intro i h; omega
  | succ fuel ih =>
    intro i h
    unfold parser.consumeFragmentLoop
    by_cases hi : i < p.n
    · obtain ⟨c, hg, hd⟩ := drop_cons_of_lt p.source i (hn ▸ hi)
      have hpct := maybePercentEncoded_eq p i hn
      rw [hd] at hpct
      rw [hd, runLen_cons, drop_two_drop]
      simp only [hi, if_true, hg, hpct, Option.bind_eq_bind, Option.some_bind, Option.pure_def]
      rcases Bool.eq_false_or_eq_true (isPCharSingle c || c == 47) with h1 | h1
      · simp only [h1, Bool.true_or, if_true]
        rw [ih (i + 1) (by omega)]
        simp only [Option.some.injEq]; omega
      · by_cases h2 : c = 63
        · subst h2
          simp only [beq_self_eq_true, Bool.or_true, if_true]
          rw [ih (i + 1) (by omega)]
          simp [h1]; omega
        · rcases Bool.eq_false_or_eq_true (pctAt (c :: p.source.drop (i + 1))) with h3 | h3
          · simp only [h3, if_true]
            rw [ih (i + 3) (by omega)]
            simp [h1, h2]; omega
          · simp [h1, h2, h3]
    · have : p.source.drop i = [] := List.drop_eq_nil_of_le (by omega)
      simp [hi, this, runLen]


theorem slice_drop (s : List Nat) (off m : Nat) (h : off + m ≤ s.length) :
    slice s off (off + m) = some ((s.drop off).take m) := by
  unfold slice
  rw [if_pos ⟨by omega, h⟩, List.drop_take]
  simp

theorem consumeNIDLoop_eq (p : parser) (hn : p.n = p.source.length) (max : Nat) :
    ∀ fuel i b, max = min p.n (i + b) → p.n - i < fuel →
      match nidRun b (p.source.drop i) with
      | none => ∃ msg, p.consumeNIDLoop max fuel i =
          some (.inl ⟨"parse", p.source, ErrInvalidNID, msg⟩)
      | some r => p.consumeNIDLoop max fuel i = some (.inr (i + r)) := by
  intro fuel
  induction fuel with
  | zero => intro i b _ h; omega
  | succ fuel ih =>
    intro i b hmax hb
    unfold parser.consumeNIDLoop
    rcases b with _ | b
    · have : ¬ i < max := by omega
      simp [this, nidRun]
    · by_cases hi : i < p.n
      · obtain ⟨c, hg, hd⟩ := drop_cons_of_lt p.source i (hn ▸ hi)
        have hlt : i < max := by omega
        rw [hd]
        simp only [hlt, if_true, hg, Option.bind_eq_bind, Option.some_bind, Option.pure_def,
          nidRun]
        by_cases h1 : c = 58
        · simp [h1]
        · rcases Bool.eq_false_or_eq_true (isAlphaNum c || c == 45) with h2 | h2
          · have := ih (i + 1) b (by omega) (by omega)
            simp only [h1, h2, beq_iff_eq, if_false, Bool.not_true, Bool.false_eq_true]
            cases hr : nidRun b (p.source.drop (i + 1)) with
            | none => rw [hr] at this; simpa using this
            | some r =>
              rw [hr] at this
              simp only [Option.map_some', this, Option.some.injEq, Sum.inr.injEq]
              omega
          · simp [h1, h2, parser.newErr]
      · have hd : p.source.drop i = [] := List.drop_eq_nil_of_le (by omega)
        have : ¬ i < max := by omega
        simp [this, hd, nidRun]


theorem runLen_le (m : Part) : ∀ (k : Nat) (l : List Nat), l.length ≤ k → runLen m l ≤ l.length := by
  intro k
  induction k with
  | zero => intro l h; have : l = [] := List.length_eq_zero.mp (by omega); subst this; simp [runLen]
  | succ k ih =>
    intro l h
    rcases l with _ | ⟨c, rest⟩
    · simp [runLen]
    · rw [runLen_cons]
      have h1 := ih rest (by simp at h; omega)
      have h2 := ih (rest.drop 2) (by simp at h ⊢; omega)
      have h3 : pctAt (c :: rest) = true → 2 ≤ rest.length := by
        intro hp
        by_contra hc
        have := pctAt_of_length_lt (c :: rest) (by simp; omega)
        rw [this] at hp; exact absurd hp (by simp)
      simp only [List.length_cons, List.length_drop] at h2 ⊢
      split
      · omega
      · split
        · cases m <;> simp <;> (try split) <;> omega
        · split
          · rename_i hp; have := h3 hp; omega
          · omega

theorem runLen_le_length (m : Part) (l : List Nat) : runLen m l ≤ l.length :=
  runLen_le m l.length l (Nat.le_refl _)

theorem firstLen_cons (c : Nat) (rest : List Nat) :
    firstLen (c :: rest) = if isPCharSingle c then 1 else if pctAt (c :: rest) then 3 else 0 :=
  rfl

theorem pctAt_length (l : List Nat) (h : pctAt l = true) : 3 ≤ l.length := by
  by_contra hc
  rw [pctAt_of_length_lt l (by omega)] at h
  exact absurd h (by simp)

theorem firstLen_le_length (l : List Nat) : firstLen l ≤ l.length := by
  rcases l with _ | ⟨c, rest⟩
  · simp [firstLen]
  · rw [firstLen_cons]
    split
    · simp
    · split
      · rename_i hp; exact pctAt_length _ hp
      · simp

theorem compLen_le_length (m : Part) (l : List Nat) : compLen m l ≤ l.length := by
  unfold compLen
  have h1 := firstLen_le_length l
  have h2 := runLen_le_length m (l.drop (firstLen l))
  simp only [List.length_drop] at h2
  omega

theorem firstLen_cases (l : List Nat) : firstLen l = 0 ∨ firstLen l = 1 ∨ firstLen l = 3 := by
  rcases l with _ | ⟨c, rest⟩
  · simp [firstLen]
  · rw [firstLen_cons]; split
    · simp
    · split <;> simp

theorem consumeScheme_eq (s : List Nat) (id : URN) (off : Nat) :
    if schemeOK s then
      parser.consumeScheme ⟨s, s.length, id, off⟩ =
        some (none, ⟨s, s.length, { id with Scheme := s.take 3 }, 4⟩)
    else ∃ msg, parser.consumeScheme ⟨s, s.length, id, off⟩ =
        some (some ⟨"parse", s, ErrInvalidScheme, msg⟩, ⟨s, s.length, id, off⟩) := by
  rcases s with _ | ⟨c1, _ | ⟨c2, _ | ⟨c3, _ | ⟨c4, t⟩⟩⟩⟩ <;>
    simp [schemeOK, parser.consumeScheme, parser.newErr, slice]
  have hlen : ¬ (t.length + 1 + 1 + 1 + 1 < 4) := by omega
  simp only [hlen, if_false]
  split
  · rename_i h; rw [if_neg (by omega)]
  · rename_i h; rw [if_pos (by omega)]; exact ⟨_, rfl⟩

theorem compLen_pos (m : Part) (l : List Nat) (h : firstLen l ≠ 0) : 1 ≤ compLen m l := by
  unfold compLen; omega

theorem compLen_eq_zero (m : Part) (l : List Nat) (h : firstLen l = 0) : compLen m l = runLen m l := by
  unfold compLen; simp [h]

theorem firstLen_drop (s : List Nat) (i c : Nat) (hd : s.drop i = c :: s.drop (i + 1)) :
    firstLen (s.drop i) =
      if isPCharSingle c = true then 1 else if pctAt (s.drop i) = true then 3 else 0 := by
  conv_lhs => rw [hd, firstLen_cons, ← hd]

theorem compLen_drop (m : Part) (s : List Nat) (i : Nat) :
    compLen m (s.drop i) = firstLen (s.drop i) + runLen m (s.drop (i + firstLen (s.drop i))) := by
  unfold compLen; rw [List.drop_drop]

theorem consumeNSS_eq (s : List Nat) (id : URN) (off : Nat) :
    if firstLen (s.drop off) = 0 then
      ∃ msg, parser.consumeNSS ⟨s, s.length, id, off⟩ =
        some (some ⟨"parse", s, ErrInvalidNSS, msg⟩, ⟨s, s.length, id, off⟩)
    else
      parser.consumeNSS ⟨s, s.length, id, off⟩ =
        some (none, ⟨s, s.length, { id with NSS := (s.drop off).take (compLen .nss (s.drop off)) },
          off + compLen .nss (s.drop off)⟩) := by
  have hle := compLen_le_length .nss (s.drop off)
  simp only [List.length_drop] at hle
  have hc := compLen_drop .nss s off
  unfold parser.consumeNSS
  by_cases hoff : off < s.length
  · obtain ⟨c, hg, hd⟩ := drop_cons_of_lt s off hoff
    have hfl := firstLen_drop s off c hd
    have hpct := maybePercentEncoded_eq ⟨s, s.length, id, off⟩ off rfl
    have hloop := consumeNSSLoop_eq ⟨s, s.length, id, off⟩ rfl
    simp only at hpct hloop
    have heol : parser.eol ⟨s, s.length, id, off⟩ = false := by simp [parser.eol, hoff]
    simp only [heol, hg, hpct, Option.bind_eq_bind, Option.some_bind, Option.pure_def,
      Bool.false_eq_true, if_false]
    by_cases h1 : isPCharSingle c = true
    · rw [if_pos h1] at hfl
      rw [hfl] at hc
      simp only [h1, if_true, hfl, one_ne_zero, if_false, Option.some_bind]
      rw [hloop _ _ (by omega), Option.some_bind, Nat.add_assoc, ← hc, if_neg (by omega),
        slice_drop s off _ (by omega)]
      rfl
    · rw [if_neg h1] at hfl
      by_cases h2 : pctAt (s.drop off) = true
      · rw [if_pos h2] at hfl
        rw [hfl] at hc
        simp only [h1, h2, if_true, hfl, if_false, Option.some_bind, Bool.false_eq_true,
          OfNat.ofNat_ne_zero]
        rw [hloop _ _ (by omega), Option.some_bind, Nat.add_assoc, ← hc, if_neg (by omega),
          slice_drop s off _ (by omega)]
        rfl
      · rw [if_neg h2] at hfl
        simp only [h1, h2, if_true, hfl, if_false, Option.some_bind, Bool.false_eq_true]
        exact ⟨_, rfl⟩
  · have hd : s.drop off = [] := List.drop_eq_nil_of_le (by omega)
    have heol : parser.eol ⟨s, s.length, id, off⟩ = true := by simp [parser.eol]; omega
    simp [hd, firstLen, heol, parser.newErr]

theorem drop_cons_cons_of_lt (s : List Nat) (i : Nat) (h : i + 1 < s.length) :
    ∃ c1 c2, s[i]? = some c1 ∧ s[i + 1]? = some c2 ∧ s.drop i = c1 :: c2 :: s.drop (i + 2) := by
  obtain ⟨c1, h1, hd1⟩ := drop_cons_of_lt s i (by omega)
  obtain ⟨c2, h2, hd2⟩ := drop_cons_of_lt s (i + 1) h
  exact ⟨c1, c2, h1, h2, by rw [hd1, hd2]⟩

theorem consumeResolve_eq (s : List Nat) (id : URN) (off : Nat) :
    if rpAt (s.drop off) then
      if firstLen (s.drop (off + 2)) = 0 then
        ∃ msg p1, parser.consumeResolve ⟨s, s.length, id, off⟩ =
          some (some ⟨"parse", s, ErrInvalidResolve, msg⟩, p1)
      else
        parser.consumeResolve ⟨s, s.length, id, off⟩ =
          some (none, ⟨s, s.length,
            { id with Resolve := (s.drop (off + 2)).take (compLen .resolve (s.drop (off + 2))) },
            off + 2 + compLen .resolve (s.drop (off + 2))⟩)
    else
      parser.consumeResolve ⟨s, s.length, id, off⟩ = some (none, ⟨s, s.length, id, off⟩) := by
  have hle := compLen_le_length .resolve (s.drop (off + 2))
  simp only [List.length_drop] at hle
  have hc := compLen_drop .resolve s (off + 2)
  unfold parser.consumeResolve
  by_cases hoff : off + 1 < s.length
  · obtain ⟨c1, c2, hg1, hg2, hdd⟩ := drop_cons_cons_of_lt s off hoff
    have hrp : rpAt (s.drop off) = (c1 == 63 && c2 == 43) := by rw [hdd]; rfl
    have hge : ¬ (off + 1 ≥ s.length) := by omega
    simp only [hge, if_false, hg1, hg2, Option.bind_eq_bind, Option.some_bind, Option.pure_def,
      hrp]
    by_cases hq : (c1 == 63 && c2 == 43) = true
    · have hq2 : (c1 != 63 || c2 != 43) = false := by
        simp only [Bool.and_eq_true, beq_iff_eq] at hq
        simp [hq.1, hq.2]
      simp only [hq, hq2, if_true, Bool.false_eq_true, if_false]
      by_cases hoff2 : off + 2 < s.length
      · obtain ⟨c, hg, hd⟩ := drop_cons_of_lt s (off + 2) hoff2
        have hfl := firstLen_drop s (off + 2) c hd
        have hpct := maybePercentEncoded_eq ⟨s, s.length, id, off + 2⟩ (off + 2) rfl
        have hloop := consumeResolveLoop_eq ⟨s, s.length, id, off + 2⟩ rfl
        simp only at hpct hloop
        have heol : parser.eol ⟨s, s.length, id, off + 2⟩ = false := by
          simp [parser.eol, hoff2]
        simp only [heol, hg, hpct, Option.some_bind, Bool.false_eq_true, if_false]
        by_cases h1 : isPCharSingle c = true
        · rw [if_pos h1] at hfl
          rw [hfl] at hc
          simp only [h1, if_true, hfl, one_ne_zero, if_false, Option.some_bind]
          rw [hloop _ _ (by omega), Option.some_bind, Nat.add_assoc (off + 2), ← hc,
            slice_drop s (off + 2) _ (by omega)]
          rfl
        · rw [if_neg h1] at hfl
          by_cases h2 : pctAt (s.drop (off + 2)) = true
          · rw [if_pos h2] at hfl
            rw [hfl] at hc
            simp only [h1, h2, if_true, hfl, if_false, Option.some_bind, Bool.false_eq_true,
              OfNat.ofNat_ne_zero]
            rw [hloop _ _ (by omega), Option.some_bind, Nat.add_assoc (off + 2), ← hc,
              slice_drop s (off + 2) _ (by omega)]
            rfl
          · rw [if_neg h2] at hfl
            simp only [h1, h2, if_true, hfl, if_false, Option.some_bind, Bool.false_eq_true]
            exact ⟨_, _, rfl⟩
      · have hd : s.drop (off + 2) = [] := List.drop_eq_nil_of_le (by omega)
        have heol : parser.eol ⟨s, s.length, id, off + 2⟩ = true := by
          simp [parser.eol]; omega
        simp only [hd, firstLen, heol, if_true]
        exact ⟨_, _, rfl⟩
    · have hq2 : (c1 != 63 || c2 != 43) = true := by
        simp only [Bool.and_eq_true, beq_iff_eq, not_and] at hq
        by_cases h63 : c1 = 63
        · simp [h63, hq h63]
        · simp [h63]
      simp only [hq, hq2, if_true, Bool.false_eq_true, if_false]
  · have hrp : rpAt (s.drop off) = false := by
      have : (s.drop off).length < 2 := by simp; omega
      rcases hl : s.drop off with _ | ⟨a, _ | ⟨b, t⟩⟩
      · rfl
      · rfl
      · rw [hl] at this; simp at this; omega
    have hge : off + 1 ≥ s.length := by omega
    simp only [hrp, hge, if_true, Bool.false_eq_true, if_false]

theorem consumeQuery_eq (s : List Nat) (id : URN) (off : Nat) :
    if qeAt (s.drop off) then
      if firstLen (s.drop (off + 2)) = 0 then
        ∃ msg p1, parser.consumeQuery ⟨s, s.length, id, off⟩ =
          some (some ⟨"parse", s, ErrInvalidQuery, msg⟩, p1)
      else
        parser.consumeQuery ⟨s, s.length, id, off⟩ =
          some (none, ⟨s, s.length,
            { id with Query := (s.drop (off + 2)).take (compLen .component (s.drop (off + 2))) },
            off + 2 + compLen .component (s.drop (off + 2))⟩)
    else
      parser.consumeQuery ⟨s, s.length, id, off⟩ = some (none, ⟨s, s.length, id, off⟩) := by
  have hle := compLen_le_length .component (s.drop (off + 2))
  simp only [List.length_drop] at hle
  have hc := compLen_drop .component s (off + 2)
  unfold parser.consumeQuery
  by_cases hoff : off + 1 < s.length
  · obtain ⟨c1, c2, hg1, hg2, hdd⟩ := drop_cons_cons_of_lt s off hoff
    have hrp : qeAt (s.drop off) = (c1 == 63 && c2 == 61) := by rw [hdd]; rfl
    have hge : ¬ (off + 1 ≥ s.length) := by omega
    simp only [hge, if_false, hg1, hg2, Option.bind_eq_bind, Option.some_bind, Option.pure_def,
      hrp]
    by_cases hq : (c1 == 63 && c2 == 61) = true
    · have hq2 : (c1 != 63 || c2 != 61) = false := by
        simp only [Bool.and_eq_true, beq_iff_eq] at hq
        simp [hq.1, hq.2]
      simp only [hq, hq2, if_true, Bool.false_eq_true, if_false]
      by_cases hoff2 : off + 2 < s.length
      · obtain ⟨c, hg, hd⟩ := drop_cons_of_lt s (off + 2) hoff2
        have hfl := firstLen_drop s (off + 2) c hd
        have hpct := maybePercentEncoded_eq ⟨s, s.length, id, off + 2⟩ (off + 2) rfl
        have hloop := consumeQueryLoop_eq ⟨s, s.length, id, off + 2⟩ rfl
        simp only at hpct hloop
        have heol : parser.eol ⟨s, s.length, id, off + 2⟩ = false := by
          simp [parser.eol, hoff2]
        simp only [heol, hg, hpct, Option.some_bind, Bool.false_eq_true, if_false]
        by_cases h1 : isPCharSingle c = true
        · rw [if_pos h1] at hfl
          rw [hfl] at hc
          simp only [h1, if_true, hfl, one_ne_zero, if_false, Option.some_bind]
          rw [hloop _ _ (by omega), Option.some_bind, Nat.add_assoc (off + 2), ← hc,
            slice_drop s (off + 2) _ (by omega)]
          rfl
        · rw [if_neg h1] at hfl
          by_cases h2 : pctAt (s.drop (off + 2)) = true
          · rw [if_pos h2] at hfl
            rw [hfl] at hc
            simp only [h1, h2, if_true, hfl, if_false, Option.some_bind, Bool.false_eq_true,
              OfNat.ofNat_ne_zero]
            rw [hloop _ _ (by omega), Option.some_bind, Nat.add_assoc (off + 2), ← hc,
              slice_drop s (off + 2) _ (by omega)]
            rfl
          · rw [if_neg h2] at hfl
            simp only [h1, h2, if_true, hfl, if_false, Option.some_bind, Bool.false_eq_true]
            exact ⟨_, _, rfl⟩
      · have hd : s.drop (off + 2) = [] := List.drop_eq_nil_of_le (by omega)
        have heol : parser.eol ⟨s, s.length, id, off + 2⟩ = true := by
          simp [parser.eol]; omega
        simp only [hd, firstLen, heol, if_true]
        exact ⟨_, _, rfl⟩
    · have hq2 : (c1 != 63 || c2 != 61) = true := by
        simp only [Bool.and_eq_true, beq_iff_eq, not_and] at hq
        by_cases h63 : c1 = 63
        · simp [h63, hq h63]
        · simp [h63]
      simp only [hq, hq2, if_true, Bool.false_eq_true, if_false]
  · have hrp : qeAt (s.drop off) = false := by
      have : (s.drop off).length < 2 := by simp; omega
      rcases hl : s.drop off with _ | ⟨a, _ | ⟨b, t⟩⟩
      · rfl
      · rfl
      · rw [hl] at this; simp at this; omega
    have hge : off + 1 ≥ s.length := by omega
    simp only [hrp, hge, if_true, Bool.false_eq_true, if_false]



theorem consumeFragment_eq (s : List Nat) (id : URN) (off : Nat) :
    if (s.drop off).head? = some 35 then
      parser.consumeFragment ⟨s, s.length, id, off⟩ =
        some (none, ⟨s, s.length,
          { id with
            ForceFragment := decide (runLen .component (s.drop (off + 1)) = 0) || id.ForceFragment,
            Fragment := (s.drop (off + 1)).take (runLen .component (s.drop (off + 1))) },
          off + 1 + runLen .component (s.drop (off + 1))⟩)
    else
      parser.consumeFragment ⟨s, s.length, id, off⟩ = some (none, ⟨s, s.length, id, off⟩) := by
  have hle := runLen_le_length .component (s.drop (off + 1))
  simp only [List.length_drop] at hle
  unfold parser.consumeFragment
  by_cases hoff : off < s.length
  · obtain ⟨c, hg, hd⟩ := drop_cons_of_lt s off hoff
    have heol : parser.eol ⟨s, s.length, id, off⟩ = false := by simp [parser.eol, hoff]
    have hloop := consumeFragmentLoop_eq ⟨s, s.length, id, off + 1⟩ rfl
    simp only at hloop
    simp only [heol, hg, hd, List.head?_cons, Option.some.injEq, Option.bind_eq_bind,
      Option.some_bind, Option.pure_def, Bool.false_eq_true, if_false]
    by_cases h35 : c = 35
    · subst h35
      simp only [bne_self_eq_false, Bool.false_eq_true, if_false, if_true]
      rw [hloop _ _ (by omega), Option.some_bind]
      by_cases hm : runLen .component (s.drop (off + 1)) = 0
      · rw [hm]
        have h1 : off + 1 ≤ s.length := by omega
        simp [slice, h1]
      · rw [if_neg (by omega)]
        simp only
        rw [slice_drop s (off + 1) _ (by omega)]
        simp [hm]
    · have : (c != 35) = true := by simp [h35]
      simp only [this, h35, if_true, if_false]
  · have hd : s.drop off = [] := List.drop_eq_nil_of_le (by omega)
    have heol : parser.eol ⟨s, s.length, id, off⟩ = true := by simp [parser.eol]; omega
    simp [hd, heol]

theorem consumeNID_eq (s : List Nat) (id : URN) (off : Nat) :
    match nidLen (s.drop off) with
    | none => ∃ msg, parser.consumeNID ⟨s, s.length, id, off⟩ =
        some (some ⟨"parse", s, ErrInvalidNID, msg⟩, ⟨s, s.length, id, off⟩)
    | some k => parser.consumeNID ⟨s, s.length, id, off⟩ =
        some (none, ⟨s, s.length, { id with NID := (s.drop off).take k }, off + k + 1⟩) := by
  unfold parser.consumeNID
  by_cases hoff : off < s.length
  · obtain ⟨c0, hg, hd⟩ := drop_cons_of_lt s off hoff
    have heol : parser.eol ⟨s, s.length, id, off⟩ = false := by simp [parser.eol, hoff]
    have hloop := consumeNIDLoop_eq ⟨s, s.length, id, off⟩ rfl
      (if s.length < off + MaxLenNID then s.length else off + MaxLenNID) (s.length + 1)
      (off + 1) (MaxLenNID - 1) (by simp only [MaxLenNID]; split <;> omega) (by simp only; omega)
    have hl1 : ∀ j, (s.drop off)[j]? = s[off + j]? := fun j => List.getElem?_drop _ _ _
    simp only [heol, hg, Option.bind_eq_bind, Option.some_bind, Option.pure_def,
      Bool.false_eq_true, if_false]
    cases ha : isAlphaNum c0 with
    | false =>
      simp only [hd, nidLen, ha, Bool.not_false, if_true]
      exact ⟨_, rfl⟩
    | true =>
      simp only [Bool.not_true, Bool.false_eq_true, if_false]
      simp only at hloop
      cases hr : nidRun (MaxLenNID - 1) (s.drop (off + 1)) with
      | none =>
        rw [hr] at hloop
        obtain ⟨msg, hmsg⟩ := hloop
        rw [hmsg]
        simp only [hd, nidLen, ha, hr, Bool.not_true, Bool.false_eq_true, if_false,
          Option.some_bind]
        exact ⟨_, rfl⟩
      | some r =>
        rw [hr] at hloop
        simp only at hloop
        rw [hloop]
        have hnl : nidLen (s.drop off) =
            if (s.drop off)[r + 1]? = some 58 ∧ (s.drop off)[r]? ≠ some 45 ∧ 2 ≤ r + 1
            then some (r + 1) else none := by
          conv_lhs => rw [hd]; simp only [nidLen, ha, hr, Bool.not_true, Bool.false_eq_true,
            if_false]; rw [← hd]
        rw [hnl, hl1, hl1]
        simp only [Option.some_bind]
        have e1 : off + 1 + r - 1 = off + r := by omega
        have e2 : off + 1 + r = off + (r + 1) := by omega
        have e3 : off + (r + 1) - off = r + 1 := by omega
        rw [e1, e2, e3]
        by_cases hi : off + (r + 1) < s.length
        · obtain ⟨c, hgc, -⟩ := drop_cons_of_lt s (off + (r + 1)) hi
          obtain ⟨cl, hgl, -⟩ := drop_cons_of_lt s (off + r) (by omega)
          have hge : ¬ (off + (r + 1) ≥ s.length) := by omega
          simp only [hge, if_false, hgc, hgl, Option.some_bind, Option.some.injEq]
          by_cases hcl : cl = 45
          · subst hcl
            simp only [bne_self_eq_false, Bool.false_eq_true, if_false, Bool.not_false, if_true,
              ne_eq, not_true_eq_false, false_and, and_false]
            exact ⟨_, rfl⟩
          · have hne : (cl != 45) = true := by simp [hcl]
            simp only [hne, if_true, Option.some_bind, ne_eq, hcl, not_false_eq_true, true_and]
            by_cases hc : c = 58
            · subst hc
              simp only [beq_self_eq_true, Bool.not_true, Bool.false_eq_true, if_false, true_and]
              by_cases h2 : 2 ≤ r + 1
              · simp only [Option.some.injEq, hcl, not_false_eq_true, true_and, h2, if_true]
                rw [if_neg (by omega), slice_drop s off _ (by omega)]
                simp only [Option.some_bind]
              · simp only [Option.some.injEq, hcl, not_false_eq_true, true_and, h2, if_false]
                rw [if_pos (by omega)]
                exact ⟨_, rfl⟩
            · have hb : (c == 58) = false := by simp [hc]
              simp only [hb, hc, Bool.not_false, if_true, false_and, if_false]
              exact ⟨_, rfl⟩
        · have hnone : s[off + (r + 1)]? = none := List.getElem?_eq_none (by omega)
          have hge : off + (r + 1) ≥ s.length := by omega
          simp only [hnone, hge, if_true, false_and, if_false, reduceCtorEq]
          exact ⟨_, rfl⟩
  · have hd : s.drop off = [] := List.drop_eq_nil_of_le (by omega)
    have heol : parser.eol ⟨s, s.length, id, off⟩ = true := by simp [parser.eol]; omega
    simp only [hd, nidLen, heol, if_true]
    exact ⟨_, rfl⟩


/-! ## The stages relative to the remaining input -/

theorem nidStage (s : List Nat) (id : URN) (off : Nat) :
    match nidLen (s.drop off) with
    | none => ∃ msg p1, parser.consumeNID ⟨s, s.length, id, off⟩ =
        some (some ⟨"parse", s, ErrInvalidNID, msg⟩, p1)
    | some k => ∃ off1, parser.consumeNID ⟨s, s.length, id, off⟩ =
        some (none, ⟨s, s.length, { id with NID := (s.drop off).take k }, off1⟩) ∧
        s.drop off1 = (s.drop off).drop (k + 1) := by
  have h := consumeNID_eq s id off
  cases hk : nidLen (s.drop off) with
  | none => rw [hk] at h; obtain ⟨msg, hm⟩ := h; exact ⟨msg, _, hm⟩
  | some k =>
    rw [hk] at h
    exact ⟨off + k + 1, h, by rw [List.drop_drop, Nat.add_assoc]⟩

theorem nssStage (s : List Nat) (id : URN) (off : Nat) :
    if firstLen (s.drop off) = 0 then
      ∃ msg p1, parser.consumeNSS ⟨s, s.length, id, off⟩ =
        some (some ⟨"parse", s, ErrInvalidNSS, msg⟩, p1)
    else ∃ off1, parser.consumeNSS ⟨s, s.length, id, off⟩ =
        some (none, ⟨s, s.length,
          { id with NSS := (s.drop off).take (compLen .nss (s.drop off)) }, off1⟩) ∧
        s.drop off1 = (s.drop off).drop (compLen .nss (s.drop off)) := by
  have h := consumeNSS_eq s id off
  split
  · rename_i h0; rw [if_pos h0] at h; obtain ⟨msg, hm⟩ := h; exact ⟨msg, _, hm⟩
  · rename_i h0; rw [if_neg h0] at h
    exact ⟨_, h, by rw [List.drop_drop]⟩

theorem resolveStage (s : List Nat) (id : URN) (off : Nat) (hid : id.Resolve = []) :
    match optPart rpAt .resolve (s.drop off) with
    | none => ∃ msg p1, parser.consumeResolve ⟨s, s.length, id, off⟩ =
        some (some ⟨"parse", s, ErrInvalidResolve, msg⟩, p1)
    | some (r, rest) => ∃ off1, parser.consumeResolve ⟨s, s.length, id, off⟩ =
        some (none, ⟨s, s.length, { id with Resolve := r }, off1⟩) ∧ s.drop off1 = rest := by
  have h := consumeResolve_eq s id off
  have e2 : s.drop (off + 2) = (s.drop off).drop 2 := by rw [List.drop_drop]
  unfold optPart
  by_cases hi : rpAt (s.drop off) = true
  · rw [if_pos hi] at h ⊢
    rw [e2] at h
    by_cases h0 : firstLen ((s.drop off).drop 2) = 0
    · rw [if_pos h0] at h ⊢; exact h
    · rw [if_neg h0] at h ⊢
      exact ⟨_, h, by rw [← List.drop_drop, ← List.drop_drop]⟩
  · rw [if_neg hi] at h ⊢
    refine ⟨off, ?_, rfl⟩
    rw [h, ← hid]

theorem queryStage (s : List Nat) (id : URN) (off : Nat) (hid : id.Query = []) :
    match optPart qeAt .component (s.drop off) with
    | none => ∃ msg p1, parser.consumeQuery ⟨s, s.length, id, off⟩ =
        some (some ⟨"parse", s, ErrInvalidQuery, msg⟩, p1)
    | some (q, rest) => ∃ off1, parser.consumeQuery ⟨s, s.length, id, off⟩ =
        some (none, ⟨s, s.length, { id with Query := q }, off1⟩) ∧ s.drop off1 = rest := by
  have h := consumeQuery_eq s id off
  have e2 : s.drop (off + 2) = (s.drop off).drop 2 := by rw [List.drop_drop]
  unfold optPart
  by_cases hi : qeAt (s.drop off) = true
  · rw [if_pos hi] at h ⊢
    rw [e2] at h
    by_cases h0 : firstLen ((s.drop off).drop 2) = 0
    · rw [if_pos h0] at h ⊢; exact h
    · rw [if_neg h0] at h ⊢
      exact ⟨_, h, by rw [← List.drop_drop, ← List.drop_drop]⟩
  · rw [if_neg hi] at h ⊢
    refine ⟨off, ?_, rfl⟩
    rw [h, ← hid]

theorem fragmentStage (s : List Nat) (id : URN) (off : Nat) (hid : id.Fragment = [])
    (hff : id.ForceFragment = false) :
    ∃ off1, parser.consumeFragment ⟨s, s.length, id, off⟩ =
      some (none, ⟨s, s.length,
        { id with ForceFragment := (fragPart (s.drop off)).2.1,
                  Fragment := (fragPart (s.drop off)).1 }, off1⟩) ∧
      s.drop off1 = (fragPart (s.drop off)).2.2 := by
  have h := consumeFragment_eq s id off
  have e1 : s.drop (off + 1) = (s.drop off).drop 1 := by rw [List.drop_drop]
  unfold fragPart
  by_cases hi : (s.drop off).head? = some 35
  · rw [if_pos hi] at h
    simp only [hi, if_true]
    rw [e1] at h
    refine ⟨off + 1 + runLen .component ((s.drop off).drop 1), ?_,
      by simp only [List.drop_drop, Nat.add_assoc]⟩
    rw [h, hff, Bool.or_false]
  · rw [if_neg hi] at h
    simp only [hi, if_false]
    refine ⟨off, ?_, rfl⟩
    rw [h, ← hid, ← hff]


/-! ## `Parse` agrees with the list reading -/

theorem Parse_eq (s : List Nat) :
    match parseRef s with
    | .ok u => Parse s = some (some u, none)
    | .error k => ∃ msg, Parse s = some (none, some ⟨"parse", s, k, msg⟩) := by
  unfold Parse parser.Parse parseRef
  simp only [Option.bind_eq_bind, Option.pure_def]
  have hs := consumeScheme_eq s {} 0
  by_cases hok : schemeOK s = true
  · rw [if_pos hok] at hs
    simp only [hok, if_true, hs, Option.some_bind]
    have hn := nidStage s { Scheme := s.take 3 } 4
    cases hk : nidLen (s.drop 4) with
    | none =>
      rw [hk] at hn
      obtain ⟨msg, p1, hm⟩ := hn
      simp only [hm, Option.some_bind]
      exact ⟨_, rfl⟩
    | some k =>
      rw [hk] at hn
      obtain ⟨off1, hm, hd1⟩ := hn
      simp only [hm, Option.some_bind]
      have hnss := nssStage s { Scheme := s.take 3, NID := (s.drop 4).take k } off1
      rw [hd1] at hnss
      by_cases h0 : firstLen ((s.drop 4).drop (k + 1)) = 0
      · rw [if_pos h0] at hnss
        obtain ⟨msg, p1, hm⟩ := hnss
        simp only [hm, Option.some_bind, h0, if_true]
        exact ⟨_, rfl⟩
      · rw [if_neg h0] at hnss
        obtain ⟨off2, hm, hd2⟩ := hnss
        simp only [hm, Option.some_bind, h0, if_false]
        generalize hl3 : ((s.drop 4).drop (k + 1)).drop
          (compLen .nss ((s.drop 4).drop (k + 1))) = l3 at hd2 ⊢
        generalize hnssv : ((s.drop 4).drop (k + 1)).take
          (compLen .nss ((s.drop 4).drop (k + 1))) = nss at hm ⊢
        have hr := resolveStage s
          { Scheme := s.take 3, NID := (s.drop 4).take k, NSS := nss } off2 rfl
        rw [hd2] at hr
        cases hro : optPart rpAt .resolve l3 with
        | none =>
          rw [hro] at hr
          obtain ⟨msg, p1, hm⟩ := hr
          simp only [hm, Option.some_bind]
          exact ⟨_, rfl⟩
        | some rr =>
          obtain ⟨r, l4⟩ := rr
          rw [hro] at hr
          obtain ⟨off3, hm3, hd3⟩ := hr
          simp only [hm3, Option.some_bind]
          have hq := queryStage s
            { Scheme := s.take 3, NID := (s.drop 4).take k, NSS := nss, Resolve := r } off3 rfl
          rw [hd3] at hq
          cases hqo : optPart qeAt .component l4 with
          | none =>
            rw [hqo] at hq
            obtain ⟨msg, p1, hm⟩ := hq
            simp only [hm, Option.some_bind]
            exact ⟨_, rfl⟩
          | some qq =>
            obtain ⟨q, l5⟩ := qq
            rw [hqo] at hq
            obtain ⟨off4, hm4, hd4⟩ := hq
            simp only [hm4, Option.some_bind]
            have hf := fragmentStage s
              { Scheme := s.take 3, NID := (s.drop 4).take k, NSS := nss, Resolve := r,
                Query := q } off4 rfl rfl
            rw [hd4] at hf
            obtain ⟨off5, hm5, hd5⟩ := hf
            simp only [hm5, Option.some_bind]
            cases hl6 : (fragPart l5).2.2 with
            | nil =>
              rw [hl6] at hd5
              have hge : ¬ off5 < s.length := by
                intro hlt
                have : (s.drop off5).length = 0 := by rw [hd5]; rfl
                simp at this; omega
              simp only [hge, if_false]
            | cons c rest =>
              rw [hl6] at hd5
              have hlt : off5 < s.length := by
                by_contra hc
                rw [List.drop_eq_nil_of_le (by omega)] at hd5
                exact absurd hd5 (by simp)
              obtain ⟨c2, hg, hdc⟩ := drop_cons_of_lt s off5 hlt
              have hcc : c2 = c := by
                rw [hdc] at hd5; exact (List.cons.inj hd5).1
              subst hcc
              simp only [hlt, if_true, hg, Option.some_bind]
              by_cases h63 : c2 = 63
              · simp only [h63, beq_self_eq_true, if_true]
                exact ⟨_, rfl⟩
              · have hb : (c2 == 63) = false := by simp [h63]
                simp only [hb, Bool.false_eq_true, if_false]
                exact ⟨_, rfl⟩
  · rw [if_neg hok] at hs
    obtain ⟨msg, hm⟩ := hs
    simp only [hok, hm, Option.some_bind, Bool.false_eq_true, if_false]
    exact ⟨_, rfl⟩


theorem Parse_ok_iff (s : List Nat) (u : URN) :
    Parse s = some (some u, none) ↔ parseRef s = .ok u := by
  have h := Parse_eq s
  cases hr : parseRef s with
  | ok v =>
    rw [hr] at h
    simp only at h
    rw [h]
    constructor
    · intro e; simp only [Option.some.injEq, Prod.mk.injEq, and_true] at e; rw [e]
    · intro e; rw [Except.ok.injEq] at e; rw [e]
  | error k =>
    rw [hr] at h
    obtain ⟨msg, hm⟩ := h
    rw [hm]
    constructor
    · intro e; simp at e
    · intro e; simp at e

theorem Parse_err_iff (s : List Nat) (k : ErrorKind) :
    (∃ e, Parse s = some (none, some e) ∧ e.Err = k) ↔ parseRef s = .error k := by
  have h := Parse_eq s
  cases hr : parseRef s with
  | ok v =>
    rw [hr] at h
    simp only at h
    rw [h]
    constructor
    · rintro ⟨e, he, -⟩; simp at he
    · intro e; simp at e
  | error k2 =>
    rw [hr] at h
    obtain ⟨msg, hm⟩ := h
    rw [hm]
    constructor
    · rintro ⟨e, he, hk⟩
      simp only [Option.some.injEq, Prod.mk.injEq, true_and] at he
      rw [← he] at hk
      simp only at hk
      rw [hk]
    · intro e
      rw [Except.error.injEq] at e
      exact ⟨_, rfl, e⟩

theorem parseRef_ok (s : List Nat) (u : URN) (h : parseRef s = .ok u) :
    ∃ k l4 l5, schemeOK s = true ∧ nidLen (s.drop 4) = some k ∧
      firstLen ((s.drop 4).drop (k + 1)) ≠ 0 ∧
      optPart rpAt .resolve (((s.drop 4).drop (k + 1)).drop
        (compLen .nss ((s.drop 4).drop (k + 1)))) = some (u.Resolve, l4) ∧
      optPart qeAt .component l4 = some (u.Query, l5) ∧
      (fragPart l5).2.2 = [] ∧
      u.Scheme = s.take 3 ∧ u.NID = (s.drop 4).take k ∧
      u.NSS = ((s.drop 4).drop (k + 1)).take (compLen .nss ((s.drop 4).drop (k + 1))) ∧
      u.Fragment = (fragPart l5).1 ∧ u.ForceFragment = (fragPart l5).2.1 ∧
      u.normalized = false := by
  unfold parseRef at h
  split at h
  · rename_i hok
    split at h
    · exact absurd h (by simp)
    · rename_i k hk
      simp only at h
      split at h
      · exact absurd h (by simp)
      · rename_i h0
        split at h
        · exact absurd h (by simp)
        · rename_i r l4 hr
          split at h
          · exact absurd h (by simp)
          · rename_i q l5 hq
            split at h
            · rename_i hl6
              rw [Except.ok.injEq] at h
              subst h
              exact ⟨k, l4, l5, hok, hk, h0, hr, hq, hl6, rfl, rfl, rfl, rfl, rfl, rfl⟩
            · split at h <;> exact absurd h (by simp)
  · exact absurd h (by simp)


/-! ## Properties of the list reading -/

theorem runLen_induct (P : List Nat → Prop) (hnil : P [])
    (hstep : ∀ c rest, P rest → P (rest.drop 2) → P (c :: rest)) : ∀ l, P l := by
  have key : ∀ n (l : List Nat), l.length ≤ n → P l := by
    intro n
    induction n with
    | zero =>
      intro l h
      have : l = [] := List.length_eq_zero.mp (by omega)
      subst this; exact hnil
    | succ n ih =>
      intro l h
      rcases l with _ | ⟨c, rest⟩
      · exact hnil
      · simp only [List.length_cons] at h
        exact hstep c rest (ih rest (by omega)) (ih _ (by simp only [List.length_drop]; omega))
  intro l; exact key l.length l (Nat.le_refl _)

theorem pctAt_iff (l : List Nat) :
    pctAt l = true ↔ ∃ h1 h2 t, l = 37 :: h1 :: h2 :: t ∧ isHex h1 = true ∧ isHex h2 = true := by
  rcases l with _ | ⟨a, _ | ⟨b, _ | ⟨c, t⟩⟩⟩
  · simp [pctAt]
  · simp [pctAt]
  · simp [pctAt]
  · constructor
    · intro h
      simp only [pctAt, Bool.and_eq_true, beq_iff_eq] at h
      obtain ⟨⟨h1, h2⟩, h3⟩ := h
      subst h1
      exact ⟨b, c, t, rfl, h2, h3⟩
    · rintro ⟨x1, x2, t2, he, hx1, hx2⟩
      simp only [List.cons.injEq] at he
      obtain ⟨rfl, rfl, rfl, rfl⟩ := he
      simp [pctAt, hx1, hx2]

theorem isPCharSingle_pct : isPCharSingle 37 = false := by decide

theorem isPCharSingle_slash : isPCharSingle 47 = false := by decide

theorem isPCharSingle_hash : isPCharSingle 35 = false := by decide

theorem runLen_tokens (m : Part) : ∀ l : List Nat, Tokens (partByte m) (l.take (runLen m l)) := by
  apply runLen_induct
  · simp [runLen]; exact Tokens.nil
  · intro c rest ih1 ih2
    rw [runLen_cons]
    by_cases h1 : (isPCharSingle c || c == 47) = true
    · rw [if_pos h1, List.take_succ_cons]
      refine Tokens.byte c _ ?_ ih1
      cases m <;> simp only [partByte, nssByte, compByte, h1, Bool.true_or]
    · rw [if_neg h1]
      by_cases h2 : (c == 63) = true
      · rw [if_pos h2]
        have hc : c = 63 := by simpa using h2
        cases m with
        | nss => simp only [List.take_zero]; exact Tokens.nil
        | resolve =>
          simp only
          split
          · simp only [List.take_zero]; exact Tokens.nil
          · rw [List.take_succ_cons]
            exact Tokens.byte c _ (by simp [partByte, compByte, hc]) ih1
        | component =>
          simp only
          rw [List.take_succ_cons]
          exact Tokens.byte c _ (by simp [partByte, compByte, hc]) ih1
      · rw [if_neg h2]
        by_cases h3 : pctAt (c :: rest) = true
        · rw [if_pos h3]
          obtain ⟨x1, x2, t, he, hx1, hx2⟩ := (pctAt_iff _).mp h3
          obtain ⟨hc, hr⟩ := List.cons.inj he
          subst hc; subst hr
          simp only [List.drop_succ_cons, List.drop_zero, List.take_succ_cons] at ih2 ⊢
          exact Tokens.triplet x1 x2 _ hx1 hx2 ih2
        · rw [if_neg h3]; simp only [List.take_zero]; exact Tokens.nil


theorem firstLen_ne_zero_iff (l : List Nat) : firstLen l ≠ 0 ↔ StartsWithItem l := by
  rcases l with _ | ⟨c, rest⟩
  · simp [firstLen, StartsWithItem]
  · rw [firstLen_cons]
    constructor
    · intro h
      by_cases h1 : isPCharSingle c = true
      · exact ⟨c, rest, rfl, Or.inl h1⟩
      · rw [if_neg h1] at h
        by_cases h2 : pctAt (c :: rest) = true
        · obtain ⟨x1, x2, t, he, hx1, hx2⟩ := (pctAt_iff _).mp h2
          obtain ⟨hc, hr⟩ := List.cons.inj he
          exact ⟨c, rest, rfl, Or.inr ⟨hc, x1, x2, t, hr, hx1, hx2⟩⟩
        · rw [if_neg h2] at h; exact absurd rfl h
    · rintro ⟨c2, rest2, he, hor⟩
      obtain ⟨hc, hr⟩ := List.cons.inj he
      subst hc; subst hr
      rcases hor with h1 | ⟨hc, x1, x2, t, hr, hx1, hx2⟩
      · rw [if_pos h1]; exact one_ne_zero
      · subst hc; subst hr
        have : pctAt (37 :: x1 :: x2 :: t) = true := (pctAt_iff _).mpr ⟨x1, x2, t, rfl, hx1, hx2⟩
        rw [if_neg (by rw [isPCharSingle_pct]; exact Bool.false_ne_true), if_pos this]
        exact OfNat.ofNat_ne_zero 3

theorem compLen_eq_runLen (m : Part) (l : List Nat) (h : firstLen l ≠ 0) :
    compLen m l = runLen m l := by
  rcases l with _ | ⟨c, rest⟩
  · simp [firstLen] at h
  · unfold compLen
    rw [firstLen_cons] at h ⊢
    rw [runLen_cons]
    by_cases h1 : isPCharSingle c = true
    · have h1b : (isPCharSingle c || c == 47) = true := by simp [h1]
      rw [if_pos h1, if_pos h1b]
      simp only [List.drop_succ_cons, List.drop_zero]
      omega
    · rw [if_neg h1] at h ⊢
      by_cases h2 : pctAt (c :: rest) = true
      · obtain ⟨x1, x2, t, he, -, -⟩ := (pctAt_iff _).mp h2
        obtain ⟨hc, hr⟩ := List.cons.inj he
        subst hc
        rw [if_pos h2, if_neg (by decide), if_neg (by decide), if_pos h2]
        simp only [List.drop_succ_cons]
        omega
      · rw [if_neg h2] at h; exact absurd rfl h

theorem body_tokens (m : Part) (l : List Nat) (h : firstLen l ≠ 0) :
    Tokens (partByte m) (l.take (compLen m l)) := by
  rw [compLen_eq_runLen m l h]; exact runLen_tokens m l

theorem body_starts (m : Part) (l : List Nat) (h : firstLen l ≠ 0) :
    StartsWithItem (l.take (compLen m l)) := by
  obtain ⟨c, rest, he, hor⟩ := (firstLen_ne_zero_iff l).mp h
  subst he
  have hle := compLen_le_length m (c :: rest)
  unfold compLen at hle ⊢
  rw [firstLen_cons] at hle ⊢
  rcases hor with h1 | ⟨hc, x1, x2, t, hr, hx1, hx2⟩
  · rw [if_pos h1, Nat.add_comm, List.take_succ_cons]
    exact ⟨c, _, rfl, Or.inl h1⟩
  · subst hc; subst hr
    have hp : pctAt (37 :: x1 :: x2 :: t) = true := (pctAt_iff _).mpr ⟨x1, x2, t, rfl, hx1, hx2⟩
    rw [if_neg (by decide), if_pos hp, Nat.add_comm]
    simp only [List.take_succ_cons]
    exact ⟨37, _, rfl, Or.inr ⟨rfl, x1, x2, _, rfl, hx1, hx2⟩⟩

theorem StartsWithItem.ne_nil {l : List Nat} (h : StartsWithItem l) : l ≠ [] := by
  obtain ⟨c, rest, he, -⟩ := h
  rw [he]; exact List.cons_ne_nil _ _

theorem StartsWithItem.head_ne {l : List Nat} (h : StartsWithItem l) :
    l.head? ≠ some 47 ∧ l.head? ≠ some 63 ∧ l.head? ≠ some 35 := by
  obtain ⟨c, rest, he, hor⟩ := h
  subst he
  simp only [List.head?_cons, ne_eq, Option.some.injEq]
  rcases hor with h1 | ⟨hc, -⟩
  · refine ⟨?_, ?_, ?_⟩ <;> intro hc <;> subst hc <;> exact absurd h1 (by decide)
  · subst hc; decide

theorem runLen_stop (m : Part) : ∀ l : List Nat, runLen m (l.drop (runLen m l)) = 0 := by
  apply runLen_induct
  · simp [runLen]
  · intro c rest ih1 ih2
    have key := runLen_cons m c rest
    by_cases h1 : (isPCharSingle c || c == 47) = true
    · rw [if_pos h1] at key
      rw [key, List.drop_succ_cons]; exact ih1
    · rw [if_neg h1] at key
      by_cases h2 : (c == 63) = true
      · rw [if_pos h2] at key
        cases m with
        | nss =>
          simp only at key
          rw [key, List.drop_zero, key]
        | resolve =>
          simp only at key
          by_cases h3 : qeAt (c :: rest) = true
          · rw [if_pos h3] at key; rw [key, List.drop_zero, key]
          · rw [if_neg h3] at key; rw [key, List.drop_succ_cons]; exact ih1
        | component =>
          simp only at key
          rw [key, List.drop_succ_cons]; exact ih1
      · rw [if_neg h2] at key
        by_cases h3 : pctAt (c :: rest) = true
        · rw [if_pos h3] at key
          rw [key, List.drop_succ_cons]
          rw [List.drop_drop] at ih2
          rw [Nat.add_comm]; exact ih2
        · rw [if_neg h3] at key; rw [key, List.drop_zero, key]


theorem rpAt_iff (l : List Nat) : rpAt l = true ↔ ∃ t, l = 63 :: 43 :: t := by
  rcases l with _ | ⟨a, _ | ⟨b, t⟩⟩
  · simp [rpAt]
  · simp [rpAt]
  · simp only [rpAt, Bool.and_eq_true, beq_iff_eq, List.cons.injEq]
    constructor
    · rintro ⟨rfl, rfl⟩; exact ⟨t, rfl, rfl, rfl⟩
    · rintro ⟨t2, rfl, rfl, -⟩; exact ⟨rfl, rfl⟩

theorem qeAt_iff (l : List Nat) : qeAt l = true ↔ ∃ t, l = 63 :: 61 :: t := by
  rcases l with _ | ⟨a, _ | ⟨b, t⟩⟩
  · simp [qeAt]
  · simp [qeAt]
  · simp only [qeAt, Bool.and_eq_true, beq_iff_eq, List.cons.injEq]
    constructor
    · rintro ⟨rfl, rfl⟩; exact ⟨t, rfl, rfl, rfl⟩
    · rintro ⟨t2, rfl, rfl, -⟩; exact ⟨rfl, rfl⟩

/-- What `optPart` returns: either the part is introduced and has a body, or it is absent. -/
theorem optPart_some (intro : List Nat → Bool) (m : Part) (l r rest : List Nat)
    (h : optPart intro m l = some (r, rest)) :
    (intro l = true ∧ firstLen (l.drop 2) ≠ 0 ∧
        r = (l.drop 2).take (runLen m (l.drop 2)) ∧
        rest = (l.drop 2).drop (runLen m (l.drop 2)) ∧ StartsWithItem r) ∨
      (intro l = false ∧ r = [] ∧ rest = l) := by
  unfold optPart at h
  by_cases hi : intro l = true
  · rw [if_pos hi] at h
    by_cases h0 : firstLen (l.drop 2) = 0
    · rw [if_pos h0] at h; exact absurd h (by simp)
    · rw [if_neg h0] at h
      simp only [Option.some.injEq, Prod.mk.injEq] at h
      have hs := body_starts m _ h0
      rw [h.1] at hs
      rw [compLen_eq_runLen m _ h0] at h
      exact Or.inl ⟨hi, h0, h.1.symm, h.2.symm, hs⟩
  · rw [if_neg hi] at h
    simp only [Option.some.injEq, Prod.mk.injEq] at h
    exact Or.inr ⟨by simpa using hi, h.1.symm, h.2.symm⟩

theorem optPart_tokens (intro : List Nat → Bool) (m : Part) (l r rest : List Nat)
    (h : optPart intro m l = some (r, rest)) : Tokens (partByte m) r := by
  rcases optPart_some intro m l r rest h with ⟨-, -, hr, -, -⟩ | ⟨-, hr, -⟩
  · rw [hr]; exact runLen_tokens m _
  · rw [hr]; exact Tokens.nil

theorem resolve_append (l r rest : List Nat) (h : optPart rpAt .resolve l = some (r, rest)) :
    l = (if r ≠ [] then [63, 43] ++ r else []) ++ rest := by
  rcases optPart_some _ _ l r rest h with ⟨hi, -, hr, hrest, hs⟩ | ⟨-, hr, hrest⟩
  · obtain ⟨t, ht⟩ := (rpAt_iff l).mp hi
    rw [if_pos hs.ne_nil, hr, hrest, ht]
    simp only [List.drop_succ_cons, List.drop_zero, List.cons_append, List.nil_append,
      List.append_assoc, List.take_append_drop]
  · rw [hr, hrest]; simp

theorem query_append (l q rest : List Nat) (h : optPart qeAt .component l = some (q, rest)) :
    l = (if q ≠ [] then [63, 61] ++ q else []) ++ rest := by
  rcases optPart_some _ _ l q rest h with ⟨hi, -, hr, hrest, hs⟩ | ⟨-, hr, hrest⟩
  · obtain ⟨t, ht⟩ := (qeAt_iff l).mp hi
    rw [if_pos hs.ne_nil, hr, hrest, ht]
    simp only [List.drop_succ_cons, List.drop_zero, List.cons_append, List.nil_append,
      List.append_assoc, List.take_append_drop]
  · rw [hr, hrest]; simp

theorem fragPart_cases (l : List Nat) :
    (∃ t, l = 35 :: t ∧ (fragPart l).1 = t.take (runLen .component t) ∧
        (fragPart l).2.1 = decide (runLen .component t = 0) ∧
        (fragPart l).2.2 = t.drop (runLen .component t)) ∨
      (l.head? ≠ some 35 ∧ (fragPart l).1 = [] ∧ (fragPart l).2.1 = false ∧
        (fragPart l).2.2 = l) := by
  unfold fragPart
  by_cases hi : l.head? = some 35
  · rcases l with _ | ⟨c, t⟩
    · simp at hi
    · simp only [List.head?_cons, Option.some.injEq] at hi
      subst hi
      left
      exact ⟨t, rfl, by simp, by simp, by simp⟩
  · right
    refine ⟨hi, ?_, ?_, ?_⟩ <;> simp only [hi, if_false]

theorem fragPart_append (l : List Nat) :
    l = (if (fragPart l).1 ≠ [] ∨ (fragPart l).2.1 = true then 35 :: (fragPart l).1 else [])
      ++ (fragPart l).2.2 := by
  rcases fragPart_cases l with ⟨t, ht, h1, h2, h3⟩ | ⟨-, h1, h2, h3⟩
  · rw [h1, h2, h3]
    have : t.take (runLen .component t) ≠ [] ∨ decide (runLen .component t = 0) = true := by
      by_cases hz : runLen .component t = 0
      · right; simp [hz]
      · left
        intro hnil
        have := congrArg List.length hnil
        have hle := runLen_le_length .component t
        simp only [List.length_take, List.length_nil] at this
        omega
    rw [if_pos this, ht]
    simp only [List.cons_append, List.take_append_drop]
  · rw [h1, h2, h3]; simp

theorem fragPart_tokens (l : List Nat) : Tokens compByte (fragPart l).1 := by
  rcases fragPart_cases l with ⟨t, -, h1, -, -⟩ | ⟨-, h1, -, -⟩
  · rw [h1]; exact runLen_tokens .component t
  · rw [h1]; exact Tokens.nil

theorem schemeOK_iff (s : List Nat) :
    schemeOK s = true ↔ ∃ c1 c2 c3 t, s = c1 :: c2 :: c3 :: 58 :: t ∧
      (c1 = 117 ∨ c1 = 85) ∧ (c2 = 114 ∨ c2 = 82) ∧ (c3 = 110 ∨ c3 = 78) := by
  rcases s with _ | ⟨c1, _ | ⟨c2, _ | ⟨c3, _ | ⟨c4, t⟩⟩⟩⟩
  · simp [schemeOK]
  · simp [schemeOK]
  · simp [schemeOK]
  · simp [schemeOK]
  · simp only [schemeOK, Bool.and_eq_true, Bool.or_eq_true, beq_iff_eq, List.cons.injEq]
    constructor
    · rintro ⟨⟨⟨h1, h2⟩, h3⟩, rfl⟩
      exact ⟨c1, c2, c3, t, ⟨rfl, rfl, rfl, rfl, rfl⟩, h1, h2, h3⟩
    · rintro ⟨x1, x2, x3, t2, ⟨rfl, rfl, rfl, rfl, -⟩, h1, h2, h3⟩
      exact ⟨⟨⟨h1, h2⟩, h3⟩, rfl⟩

theorem String_eq (u : URN) :
    u.String = u.Scheme ++ 58 :: (u.NID ++ 58 :: (u.NSS ++
      ((if u.Resolve ≠ [] then [63, 43] ++ u.Resolve else []) ++
      ((if u.Query ≠ [] then [63, 61] ++ u.Query else []) ++
      (if u.Fragment ≠ [] ∨ u.ForceFragment = true then 35 :: u.Fragment else []))))) := by
  unfold URN.String
  by_cases h1 : u.Resolve = [] <;> by_cases h2 : u.Query = [] <;>
    by_cases h3 : u.Fragment ≠ [] ∨ u.ForceFragment = true <;>
    simp [h1, h2, h3]


/-! ## The NID scan -/

theorem nidRun_spec : ∀ (b : Nat) (rest : List Nat) (r : Nat), nidRun b rest = some r →
    r ≤ b ∧ r ≤ rest.length ∧
      (∀ c ∈ rest.take r, (isAlphaNum c = true ∨ c = 45) ∧ c ≠ 58) ∧
      (r = b ∨ r = rest.length ∨ rest[r]? = some 58) := by
  intro b
  induction b with
  | zero =>
    intro rest r h
    simp only [nidRun, Option.some.injEq] at h
    subst h
    simp
  | succ b ih =>
    intro rest r h
    rcases rest with _ | ⟨c, t⟩
    · simp only [nidRun, Option.some.injEq] at h
      subst h
      simp
    · simp only [nidRun] at h
      by_cases h58 : c = 58
      · subst h58
        simp only [beq_self_eq_true, if_true, Option.some.injEq] at h
        subst h
        simp
      · have hb : (c == 58) = false := by simp [h58]
        rw [hb] at h
        simp only [Bool.false_eq_true, if_false] at h
        cases ha : (isAlphaNum c || c == 45) with
        | false => rw [ha] at h; simp at h
        | true =>
          rw [ha] at h
          simp only [Bool.not_true, Bool.false_eq_true, if_false, Option.map_eq_some'] at h
          obtain ⟨r2, hr2, hr⟩ := h
          subst hr
          obtain ⟨h1, h2, h3, h4⟩ := ih t r2 hr2
          refine ⟨by omega, by simp only [List.length_cons]; omega, ?_, ?_⟩
          · intro x hx
            rw [List.take_succ_cons, List.mem_cons] at hx
            rcases hx with hx | hx
            · subst hx
              simp only [Bool.or_eq_true, beq_iff_eq] at ha
              exact ⟨ha, h58⟩
            · exact h3 x hx
          · rcases h4 with h4 | h4 | h4
            · left; omega
            · right; left; simp only [List.length_cons]; omega
            · right; right; simpa using h4

theorem nidRun_complete : ∀ (run : List Nat) (b : Nat) (t : List Nat),
    (∀ c ∈ run, isAlphaNum c = true ∨ c = 45) → run.length ≤ b →
    nidRun b (run ++ 58 :: t) = some run.length := by
  intro run
  induction run with
  | nil =>
    intro b t _ _
    rcases b with _ | b <;> simp [nidRun]
  | cons c run ih =>
    intro b t hall hlen
    rcases b with _ | b
    · simp at hlen
    · have hc := hall c (List.mem_cons_self _ _)
      have h58 : (c == 58) = false := by
        rcases hc with hc | hc
        · cases h : (c == 58)
          · rfl
          · have : c = 58 := by simpa using h
            subst this; exact absurd hc (by decide)
        · subst hc; decide
      have ha : (isAlphaNum c || c == 45) = true := by
        rcases hc with hc | hc
        · simp [hc]
        · subst hc; decide
      simp only [List.cons_append, nidRun, h58, ha, Bool.false_eq_true, if_false, Bool.not_true,
        List.length_cons]
      change Option.map (fun x => x + 1) (nidRun b (run ++ 58 :: t)) = _
      rw [ih b t (fun x hx => hall x (List.mem_cons_of_mem _ hx))
        (by simp only [List.length_cons] at hlen; omega)]
      rfl

theorem isAlphaNum_ne_colon (c : Nat) (h : isAlphaNum c = true ∨ c = 45) : c ≠ 58 := by
  rintro rfl
  rcases h with h | h
  · exact absurd h (by decide)
  · exact absurd h (by decide)

theorem nidLen_spec (l : List Nat) (k : Nat) (h : nidLen l = some k) :
    2 ≤ k ∧ k ≤ 32 ∧ l[k]? = some 58 ∧
      (∀ c ∈ l.take k, isAlphaNum c = true ∨ c = 45) ∧
      (∃ c, (l.take k).head? = some c ∧ isAlphaNum c = true) ∧
      (∃ c, (l.take k).getLast? = some c ∧ isAlphaNum c = true) := by
  rcases l with _ | ⟨c0, rest⟩
  · simp [nidLen] at h
  · simp only [nidLen] at h
    cases ha : isAlphaNum c0 with
    | false => rw [ha] at h; simp at h
    | true =>
      rw [ha] at h
      simp only [Bool.not_true, Bool.false_eq_true, if_false] at h
      cases hr : nidRun (MaxLenNID - 1) rest with
      | none => rw [hr] at h; simp at h
      | some r =>
        rw [hr] at h
        simp only at h
        split at h
        · rename_i hc
          rw [Option.some.injEq] at h
          subst h
          obtain ⟨h58, h45, h2⟩ := hc
          obtain ⟨hb, hlen, hall, -⟩ := nidRun_spec _ _ _ hr
          have hmem : ∀ c ∈ (c0 :: rest).take (r + 1), isAlphaNum c = true ∨ c = 45 := by
            intro x hx
            rw [List.take_succ_cons, List.mem_cons] at hx
            rcases hx with hx | hx
            · subst hx; exact Or.inl ha
            · exact (hall x hx).1
          have hrlt : r < (c0 :: rest).length := by simp only [List.length_cons]; omega
          have hlast : ((c0 :: rest).take (r + 1)).getLast? = (c0 :: rest)[r]? := by
            rw [List.getLast?_eq_getElem?, List.length_take,
              Nat.min_eq_left (by omega), Nat.add_sub_cancel, List.getElem?_take]
            simp
          refine ⟨h2, by simp only [MaxLenNID] at hb; omega, h58, hmem, ⟨c0, by simp, ha⟩, ?_⟩
          obtain ⟨x, hx⟩ : ∃ x, (c0 :: rest)[r]? = some x :=
            ⟨_, List.getElem?_eq_getElem hrlt⟩
          refine ⟨x, by rw [hlast, hx], ?_⟩
          have hxm : x ∈ (c0 :: rest).take (r + 1) := by
            apply List.mem_of_mem_getLast?
            rw [hlast, hx]
            exact rfl
          rcases hmem x hxm with hh | hh
          · exact hh
          · subst hh; exact absurd hx h45
        · simp at h

theorem nidLen_append (l : List Nat) (k : Nat) (h : nidLen l = some k) :
    l = l.take k ++ 58 :: l.drop (k + 1) := by
  obtain ⟨-, -, h58, -⟩ := nidLen_spec l k h
  have hk : k < l.length := by
    by_contra hc
    rw [List.getElem?_eq_none (by omega)] at h58
    exact absurd h58 (by simp)
  obtain ⟨c, hg, hd⟩ := drop_cons_of_lt l k hk
  rw [h58] at hg
  have : c = 58 := (Option.some.inj hg).symm
  subst this
  rw [← hd, List.take_append_drop]


/-! ## The shape of a successfully parsed input -/

theorem schemeOK_append (s : List Nat) (h : schemeOK s = true) :
    s = s.take 3 ++ 58 :: s.drop 4 ∧ (s.take 3).length = 3 ∧
      (s.take 3).map lowerByte = [117, 114, 110] := by
  obtain ⟨c1, c2, c3, t, rfl, h1, h2, h3⟩ := (schemeOK_iff s).mp h
  refine ⟨rfl, rfl, ?_⟩
  rcases h1 with rfl | rfl <;> rcases h2 with rfl | rfl <;> rcases h3 with rfl | rfl <;> rfl

/-- Everything the list reading says about an input that parses to `u`: `l3`, `l4`, `l5` are
what is left of the input after the NSS, after the r-component and after the q-component. -/
theorem parse_shape (s : List Nat) (u : URN) (h : Parse s = some (some u, none)) :
    ∃ l3 l4 l5 : List Nat,
      schemeOK s = true ∧ u.Scheme = s.take 3 ∧
      nidLen (s.drop 4) = some u.NID.length ∧ u.NID = (s.drop 4).take u.NID.length ∧
      firstLen ((s.drop 4).drop (u.NID.length + 1)) ≠ 0 ∧
      u.NSS = ((s.drop 4).drop (u.NID.length + 1)).take
        (runLen .nss ((s.drop 4).drop (u.NID.length + 1))) ∧
      l3 = ((s.drop 4).drop (u.NID.length + 1)).drop
        (runLen .nss ((s.drop 4).drop (u.NID.length + 1))) ∧
      optPart rpAt .resolve l3 = some (u.Resolve, l4) ∧
      optPart qeAt .component l4 = some (u.Query, l5) ∧
      (fragPart l5).2.2 = [] ∧ u.Fragment = (fragPart l5).1 ∧
      u.ForceFragment = (fragPart l5).2.1 ∧ u.normalized = false ∧
      s = u.Scheme ++ 58 :: (u.NID ++ 58 :: (u.NSS ++ l3)) := by
  obtain ⟨k, l4, l5, hok, hk, h0, hr, hq, hl6, hsch, hnid, hnss, hf, hff, hnorm⟩ :=
    parseRef_ok s u ((Parse_ok_iff s u).mp h)
  rw [compLen_eq_runLen .nss _ h0] at hr hnss
  obtain ⟨-, -, h58, -⟩ := nidLen_spec _ _ hk
  have hklt : k < (s.drop 4).length := by
    by_contra hc
    rw [List.getElem?_eq_none (by omega)] at h58
    exact absurd h58 (by simp)
  have hlen : u.NID.length = k := by
    rw [hnid, List.length_take]; omega
  rw [← hlen] at hk hnid h0 hr hnss
  refine ⟨_, l4, l5, hok, hsch, hk, hnid, h0, hnss, rfl, hr, hq, hl6, hf, hff, hnorm, ?_⟩
  have h1 := (schemeOK_append s hok).1
  have h2 := nidLen_append _ _ hk
  rw [← hsch] at h1
  rw [← hnid] at h2
  have h3 : (s.drop 4).drop (u.NID.length + 1) = u.NSS ++
      ((s.drop 4).drop (u.NID.length + 1)).drop
        (runLen .nss ((s.drop 4).drop (u.NID.length + 1))) := by
    rw [hnss, List.take_append_drop]
  rw [← h3, ← h2, ← h1]

theorem String_of_Parse (s : List Nat) (u : URN) (h : Parse s = some (some u, none)) :
    u.String = s := by
  obtain ⟨l3, l4, l5, -, -, -, -, -, -, -, hr, hq, hl6, hf, hff, -, hdec⟩ := parse_shape s u h
  have h3 := resolve_append l3 _ _ hr
  have h4 := query_append l4 _ _ hq
  have h5 := fragPart_append l5
  rw [hl6, List.append_nil, ← hf, ← hff] at h5
  rw [String_eq, ← h5, ← h4, ← h3, ← hdec]

/-- C1. Round trip: when `Parse` succeeds on `s` with result `u`, `u.String()` is `s`,
byte for byte. -/
theorem C1_round_trip (s : List Nat) (u : URN) (h : Parse s = some (some u, none)) :
    u.String = s :=
  String_of_Parse s u h

theorem C1_round_trip_witness :
    Parse (bytes "urn:foo:bar?++?+?+?==?=?=?+?#+?+?+?==?=?=?") =
        some (some { Scheme := bytes "urn", NID := bytes "foo", NSS := bytes "bar",
                     Resolve := bytes "+?+?+", Query := bytes "=?=?=?+?",
                     Fragment := bytes "+?+?+?==?=?=?" }, none) ∧
      URN.String { Scheme := bytes "urn", NID := bytes "foo", NSS := bytes "bar",
                   Resolve := bytes "+?+?+", Query := bytes "=?=?=?+?",
                   Fragment := bytes "+?+?+?==?=?=?" } =
        bytes "urn:foo:bar?++?+?+?==?=?=?+?#+?+?+?==?=?=?" :=
  ⟨by decide, C1_round_trip _ _ (by decide)⟩


theorem Tokens.mono {f g : Nat → Bool} (hfg : ∀ c, f c = true → g c = true) {l : List Nat}
    (h : Tokens f l) : Tokens g l := by
  induction h with
  | nil => exact Tokens.nil
  | byte c l hc _ ih => exact Tokens.byte c l (hfg c hc) ih
  | triplet h1 h2 l hh1 hh2 _ ih => exact Tokens.triplet h1 h2 l hh1 hh2 ih

/-- C2. Invariants of a parsed URN: scheme, NID, NSS and the three optional components of
the result of a successful `Parse` obey the grammar of their part. -/
theorem C2_parsed_invariants (s : List Nat) (u : URN) (h : Parse s = some (some u, none)) :
    (u.Scheme = s.take 3 ∧ u.Scheme.length = 3 ∧ u.Scheme.map lowerByte = bytes "urn") ∧
    (2 ≤ u.NID.length ∧ u.NID.length ≤ 32 ∧
      (∀ c ∈ u.NID, isAlphaNum c = true ∨ c = 45) ∧
      (∃ c, u.NID.head? = some c ∧ isAlphaNum c = true) ∧
      (∃ c, u.NID.getLast? = some c ∧ isAlphaNum c = true)) ∧
    (u.NSS ≠ [] ∧ Tokens nssByte u.NSS ∧ u.NSS.head? ≠ some 47) ∧
    (Tokens compByte u.Resolve ∧ Tokens compByte u.Query ∧ Tokens compByte u.Fragment) ∧
    (u.Resolve ≠ [] → StartsWithItem u.Resolve ∧
      u.Resolve.head? ≠ some 47 ∧ u.Resolve.head? ≠ some 63) ∧
    (u.Query ≠ [] → StartsWithItem u.Query ∧
      u.Query.head? ≠ some 47 ∧ u.Query.head? ≠ some 63) := by
  obtain ⟨l3, l4, l5, hok, hsch, hk, hnid, h0, hnss, -, hr, hq, -, hf, -, -, -⟩ :=
    parse_shape s u h
  obtain ⟨-, hlen3, hlow⟩ := schemeOK_append s hok
  obtain ⟨hk2, hk32, -, hall, hfirst, hlast⟩ := nidLen_spec _ _ hk
  rw [← hnid] at hall hfirst hlast
  have hnssS : StartsWithItem u.NSS := by
    rw [hnss, ← compLen_eq_runLen .nss _ h0]; exact body_starts .nss _ h0
  have hnssT : Tokens nssByte u.NSS := by
    rw [hnss]; exact runLen_tokens .nss _
  have hrT : Tokens compByte u.Resolve := optPart_tokens _ _ _ _ _ hr
  have hqT : Tokens compByte u.Query := optPart_tokens _ _ _ _ _ hq
  have hfT : Tokens compByte u.Fragment := by rw [hf]; exact fragPart_tokens l5
  refine ⟨⟨hsch, by rw [hsch]; exact hlen3, by rw [hsch]; exact hlow⟩,
    ⟨hk2, hk32, hall, hfirst, hlast⟩, ⟨hnssS.ne_nil, hnssT, hnssS.head_ne.1⟩,
    ⟨hrT, hqT, hfT⟩, ?_, ?_⟩
  · intro hne
    rcases optPart_some _ _ _ _ _ hr with ⟨-, -, -, -, hs⟩ | ⟨-, hnil, -⟩
    · exact ⟨hs, hs.head_ne.1, hs.head_ne.2.1⟩
    · exact absurd hnil hne
  · intro hne
    rcases optPart_some _ _ _ _ _ hq with ⟨-, -, -, -, hs⟩ | ⟨-, hnil, -⟩
    · exact ⟨hs, hs.head_ne.1, hs.head_ne.2.1⟩
    · exact absurd hnil hne

theorem C2_parsed_invariants_witness :
    Parse (bytes "Urn:a-B:%2fx/?+q%3A?r?=k=v&w#f?/") =
      some (some { Scheme := bytes "Urn", NID := bytes "a-B", NSS := bytes "%2fx/",
                   Resolve := bytes "q%3A?r", Query := bytes "k=v&w",
                   Fragment := bytes "f?/" }, none) ∧
    Tokens nssByte (bytes "%2fx/") ∧ Tokens compByte (bytes "q%3A?r") :=
  have h := C2_parsed_invariants (bytes "Urn:a-B:%2fx/?+q%3A?r?=k=v&w#f?/")
    { Scheme := bytes "Urn", NID := bytes "a-B", NSS := bytes "%2fx/",
      Resolve := bytes "q%3A?r", Query := bytes "k=v&w", Fragment := bytes "f?/" } (by decide)
  ⟨by decide, h.2.2.1.2.1, h.2.2.2.1.1⟩

/-- C3. Parsing is all-or-nothing: `Parse` returns either a URN and no error, or no URN and
an `*Error` with `Op = "parse"`, `Data` the whole input and `Err` one of the six kinds; it
never returns both, and it always returns. -/
theorem C3_all_or_nothing (s : List Nat) :
    (∃ u, Parse s = some (some u, none)) ∨
    (∃ e, Parse s = some (none, some e) ∧ e.Op = "parse" ∧ e.Data = s ∧
      (e.Err = ErrInvalidIdentifier ∨ e.Err = ErrInvalidScheme ∨ e.Err = ErrInvalidNID ∨
        e.Err = ErrInvalidNSS ∨ e.Err = ErrInvalidResolve ∨ e.Err = ErrInvalidQuery)) := by
  have h := Parse_eq s
  cases hr : parseRef s with
  | ok u => rw [hr] at h; exact Or.inl ⟨u, h⟩
  | error k =>
    rw [hr] at h
    obtain ⟨msg, hm⟩ := h
    refine Or.inr ⟨_, hm, rfl, rfl, ?_⟩
    cases k <;> simp


/-! ## Where the optional components end -/

theorem isHex_ne (h : Nat) (hh : isHex h = true) : h ≠ 35 ∧ h ≠ 63 ∧ h ≠ 37 := by
  refine ⟨?_, ?_, ?_⟩ <;> rintro rfl <;> exact absurd hh (by decide)

theorem single_ne (c : Nat) (h : (isPCharSingle c || c == 47) = true) : c ≠ 35 ∧ c ≠ 63 := by
  refine ⟨?_, ?_⟩ <;> rintro rfl <;> exact absurd h (by decide)

theorem upTo_cons_ne (c : Nat) (rest : List Nat) (h1 : c ≠ 35) (h2 : c ≠ 63) :
    upToQueryOrFragment (c :: rest) = c :: upToQueryOrFragment rest := by
  simp [upToQueryOrFragment, h1, h2]

theorem resolve_upTo : ∀ l : List Nat,
    (l.drop (runLen .resolve l) = [] ∨ (l.drop (runLen .resolve l)).head? = some 35 ∨
      qeAt (l.drop (runLen .resolve l)) = true) →
    l.take (runLen .resolve l) = upToQueryOrFragment l := by
  apply runLen_induct
  · intro _; simp [runLen, upToQueryOrFragment]
  · intro c rest ih1 ih2
    have key := runLen_cons .resolve c rest
    by_cases h1 : (isPCharSingle c || c == 47) = true
    · rw [if_pos h1] at key
      rw [key, List.drop_succ_cons, List.take_succ_cons,
        upTo_cons_ne c rest (single_ne c h1).1 (single_ne c h1).2]
      intro hstop; rw [ih1 hstop]
    · rw [if_neg h1] at key
      by_cases h2 : (c == 63) = true
      · rw [if_pos h2] at key
        have hc : c = 63 := by simpa using h2
        subst hc
        simp only at key
        by_cases h3 : qeAt (63 :: rest) = true
        · rw [if_pos h3] at key
          rw [key]
          intro _
          obtain ⟨t, ht⟩ := (qeAt_iff _).mp h3
          obtain ⟨-, hr⟩ := List.cons.inj ht
          subst hr
          simp [upToQueryOrFragment]
        · rw [if_neg h3] at key
          rw [key, List.drop_succ_cons, List.take_succ_cons]
          intro hstop
          rw [ih1 hstop]
          have hne : rest.head? ≠ some 61 := by
            intro hh
            apply h3
            rcases rest with _ | ⟨d, t⟩
            · simp at hh
            · simp only [List.head?_cons, Option.some.injEq] at hh
              subst hh; rfl
          simp [upToQueryOrFragment, hne]
      · rw [if_neg h2] at key
        have hc63 : c ≠ 63 := by simpa using h2
        by_cases h3 : pctAt (c :: rest) = true
        · rw [if_pos h3] at key
          obtain ⟨x1, x2, t, he, hx1, hx2⟩ := (pctAt_iff _).mp h3
          obtain ⟨hc, hr⟩ := List.cons.inj he
          subst hc; subst hr
          simp only [List.drop_succ_cons, List.drop_zero] at key ih2
          rw [key]
          simp only [List.drop_succ_cons, List.take_succ_cons]
          intro hstop
          rw [ih2 hstop, upTo_cons_ne 37 _ (by decide) (by decide),
            upTo_cons_ne x1 _ (isHex_ne x1 hx1).1 (isHex_ne x1 hx1).2.1,
            upTo_cons_ne x2 _ (isHex_ne x2 hx2).1 (isHex_ne x2 hx2).2.1]
        · rw [if_neg h3] at key
          rw [key, List.drop_zero, List.take_zero]
          intro hstop
          rcases hstop with hstop | hstop | hstop
          · exact absurd hstop (List.cons_ne_nil _ _)
          · simp only [List.head?_cons, Option.some.injEq] at hstop
            subst hstop
            simp [upToQueryOrFragment]
          · obtain ⟨t, ht⟩ := (qeAt_iff _).mp hstop
            exact absurd (List.cons.inj ht).1 hc63

theorem component_takeWhile : ∀ l : List Nat,
    (l.drop (runLen .component l) = [] ∨ (l.drop (runLen .component l)).head? = some 35) →
    l.take (runLen .component l) = l.takeWhile (fun c => decide (c ≠ 35)) := by
  apply runLen_induct
  · intro _; simp [runLen]
  · intro c rest ih1 ih2
    have key := runLen_cons .component c rest
    by_cases h1 : (isPCharSingle c || c == 47) = true
    · rw [if_pos h1] at key
      rw [key, List.drop_succ_cons, List.take_succ_cons]
      intro hstop
      rw [ih1 hstop, List.takeWhile_cons_of_pos (by simpa using (single_ne c h1).1)]
    · rw [if_neg h1] at key
      by_cases h2 : (c == 63) = true
      · rw [if_pos h2] at key
        have hc : c = 63 := by simpa using h2
        subst hc
        simp only at key
        rw [key, List.drop_succ_cons, List.take_succ_cons]
        intro hstop
        rw [ih1 hstop, List.takeWhile_cons_of_pos (by decide)]
      · rw [if_neg h2] at key
        by_cases h3 : pctAt (c :: rest) = true
        · rw [if_pos h3] at key
          obtain ⟨x1, x2, t, he, hx1, hx2⟩ := (pctAt_iff _).mp h3
          obtain ⟨hc, hr⟩ := List.cons.inj he
          subst hc; subst hr
          simp only [List.drop_succ_cons, List.drop_zero] at key ih2
          rw [key]
          simp only [List.drop_succ_cons, List.take_succ_cons]
          intro hstop
          rw [ih2 hstop, List.takeWhile_cons_of_pos (by decide),
            List.takeWhile_cons_of_pos (by simpa using (isHex_ne x1 hx1).1),
            List.takeWhile_cons_of_pos (by simpa using (isHex_ne x2 hx2).1)]
        · rw [if_neg h3] at key
          rw [key, List.drop_zero, List.take_zero]
          intro hstop
          rcases hstop with hstop | hstop
          · exact absurd hstop (List.cons_ne_nil _ _)
          · simp only [List.head?_cons, Option.some.injEq] at hstop
            subst hstop
            simp

theorem upTo_head (l : List Nat) (x : Nat) (h : (upToQueryOrFragment l).head? = some x) :
    l.head? = some x := by
  rcases l with _ | ⟨c, rest⟩
  · simp [upToQueryOrFragment] at h
  · unfold upToQueryOrFragment at h
    split at h
    · simp at h
    · simpa using h

theorem upTo_no_qe : ∀ l : List Nat, ¬ [63, 61] <:+: upToQueryOrFragment l := by
  intro l
  induction l with
  | nil => simp [upToQueryOrFragment]
  | cons c rest ih =>
    unfold upToQueryOrFragment
    split
    · simp
    · rename_i hcond
      rw [List.infix_cons_iff]
      rintro (hp | hi)
      · obtain ⟨t, ht⟩ := hp
        simp only [List.cons_append, List.nil_append, List.cons.injEq] at ht
        obtain ⟨hc, ht⟩ := ht
        apply hcond
        right
        refine ⟨hc.symm, upTo_head rest 61 ?_⟩
        rw [← ht]; rfl
      · exact ih hi

theorem stop_after_resolve (m : Part) (l4 q l5 : List Nat)
    (hq : optPart qeAt m l4 = some (q, l5)) (hl6 : (fragPart l5).2.2 = []) :
    l4 = [] ∨ l4.head? = some 35 ∨ qeAt l4 = true := by
  rcases optPart_some _ _ _ _ _ hq with ⟨hi, -⟩ | ⟨-, -, hl5⟩
  · exact Or.inr (Or.inr hi)
  · subst hl5
    rcases fragPart_cases l5 with ⟨t, ht, -⟩ | ⟨-, -, -, h3⟩
    · right; left; rw [ht]; rfl
    · left; rw [← h3]; exact hl6

theorem stop_after_query (l5 : List Nat) (hl6 : (fragPart l5).2.2 = []) :
    l5 = [] ∨ l5.head? = some 35 := by
  rcases fragPart_cases l5 with ⟨t, ht, -⟩ | ⟨-, -, -, h3⟩
  · right; rw [ht]; rfl
  · left; rw [← h3]; exact hl6

theorem drop_after (a b c l : List Nat) :
    (a ++ 58 :: (b ++ 58 :: (c ++ l))).drop (a.length + 1 + b.length + 1 + c.length) = l := by
  have e : a ++ 58 :: (b ++ 58 :: (c ++ l)) = (a ++ 58 :: (b ++ 58 :: c)) ++ l := by simp
  rw [e]
  have hl : (a ++ 58 :: (b ++ 58 :: c)).length = a.length + 1 + b.length + 1 + c.length := by
    simp; omega
  rw [← hl, List.drop_left]


theorem take_two_eq (l : List Nat) (a b : Nat) :
    l.take 2 = [a, b] ↔ ∃ t, l = a :: b :: t := by
  rcases l with _ | ⟨x, _ | ⟨y, t⟩⟩
  · simp
  · simp
  · simp only [List.take_succ_cons, List.take_zero, List.cons.injEq, and_true]
    constructor
    · rintro ⟨rfl, rfl⟩; exact ⟨t, rfl, rfl, rfl⟩
    · rintro ⟨t2, rfl, rfl, -⟩; exact ⟨rfl, rfl⟩

/-- C4. r-component boundary: the Resolve of a parsed URN never contains `"?="`; when `"?+"`
directly follows the NSS, Resolve is the text after that `"?+"` up to (not including) the
first `"?="`, or the first `'#'`, or the end of the input. -/
theorem C4_resolve_boundary (s : List Nat) (u : URN) (h : Parse s = some (some u, none)) :
    ¬ [63, 61] <:+: u.Resolve ∧
    ((s.drop (u.Scheme.length + 1 + u.NID.length + 1 + u.NSS.length)).take 2 = [63, 43] →
      u.Resolve =
        upToQueryOrFragment
          (s.drop (u.Scheme.length + 1 + u.NID.length + 1 + u.NSS.length + 2))) := by
  obtain ⟨l3, l4, l5, -, -, -, -, -, -, -, hr, hq, hl6, -, -, -, hdec⟩ := parse_shape s u h
  have hdrop : s.drop (u.Scheme.length + 1 + u.NID.length + 1 + u.NSS.length) = l3 := by
    conv_lhs => rw [hdec]
    exact drop_after _ _ _ _
  have hstop := stop_after_resolve _ l4 _ l5 hq hl6
  rcases optPart_some _ _ _ _ _ hr with ⟨hi, -, hres, hrest, -⟩ | ⟨hi, hres, -⟩
  · rw [hrest] at hstop
    have hup := resolve_upTo (l3.drop 2) hstop
    rw [← hres] at hup
    refine ⟨by rw [hup]; exact upTo_no_qe _, fun _ => ?_⟩
    rw [← List.drop_drop, hdrop]
    exact hup
  · refine ⟨by rw [hres]; simp, fun h2 => ?_⟩
    rw [hdrop] at h2
    have := (rpAt_iff l3).mpr ((take_two_eq l3 63 43).mp h2)
    rw [hi] at this
    exact absurd this (by simp)

theorem C4_resolve_boundary_witness :
    Parse (bytes "urn:foo:bar?++?+?+?==?=?=?+?#+?+?+?==?=?=?") =
      some (some { Scheme := bytes "urn", NID := bytes "foo", NSS := bytes "bar",
                   Resolve := bytes "+?+?+", Query := bytes "=?=?=?+?",
                   Fragment := bytes "+?+?+?==?=?=?" }, none) ∧
    ((bytes "urn:foo:bar?++?+?+?==?=?=?+?#+?+?+?==?=?=?").drop 11).take 2 = bytes "?+" ∧
    bytes "+?+?+" =
      upToQueryOrFragment ((bytes "urn:foo:bar?++?+?+?==?=?=?+?#+?+?+?==?=?=?").drop 13) :=
  ⟨by decide, by decide,
    (C4_resolve_boundary (bytes "urn:foo:bar?++?+?+?==?=?=?+?#+?+?+?==?=?=?")
      { Scheme := bytes "urn", NID := bytes "foo", NSS := bytes "bar",
        Resolve := bytes "+?+?+", Query := bytes "=?=?=?+?",
        Fragment := bytes "+?+?+?==?=?=?" } (by decide)).2 (by decide)⟩

/-- C5. q-component extent: a non-empty Query of a parsed URN is introduced by `"?="`
right after the NSS (or after the r-component when there is one) and is the whole text from
there up to the first `'#'` or the end of the input; no `'?'` inside it ends it. -/
theorem C5_query_extent (s : List Nat) (u : URN) (h : Parse s = some (some u, none))
    (hne : u.Query ≠ []) :
    (s.drop (u.Scheme.length + 1 + u.NID.length + 1 + u.NSS.length +
        (if u.Resolve = [] then 0 else 2 + u.Resolve.length))).take 2 = [63, 61] ∧
    u.Query =
      (s.drop (u.Scheme.length + 1 + u.NID.length + 1 + u.NSS.length +
        (if u.Resolve = [] then 0 else 2 + u.Resolve.length) + 2)).takeWhile
        (fun c => decide (c ≠ 35)) := by
  obtain ⟨l3, l4, l5, -, -, -, -, -, -, -, hr, hq, hl6, -, -, -, hdec⟩ := parse_shape s u h
  have hdrop : s.drop (u.Scheme.length + 1 + u.NID.length + 1 + u.NSS.length) = l3 := by
    conv_lhs => rw [hdec]
    exact drop_after _ _ _ _
  have hl4 : s.drop (u.Scheme.length + 1 + u.NID.length + 1 + u.NSS.length +
      (if u.Resolve = [] then 0 else 2 + u.Resolve.length)) = l4 := by
    rw [← List.drop_drop, hdrop]
    have h3 := resolve_append l3 _ _ hr
    by_cases hres : u.Resolve = []
    · rw [if_pos hres]
      rw [if_neg (by simpa using hres)] at h3
      simpa using h3
    · rw [if_neg hres]
      rw [if_pos hres] at h3
      conv_lhs => rw [h3]
      have : 2 + u.Resolve.length = ([63, 43] ++ u.Resolve).length := by simp; omega
      rw [this, List.drop_left]
  have hstop := stop_after_query l5 hl6
  rcases optPart_some _ _ _ _ _ hq with ⟨hi, -, hqv, hrest, -⟩ | ⟨-, hnil, -⟩
  · rw [hrest] at hstop
    have htw := component_takeWhile (l4.drop 2) hstop
    rw [← hqv] at htw
    obtain ⟨t, ht⟩ := (qeAt_iff l4).mp hi
    refine ⟨by rw [hl4, ht]; rfl, ?_⟩
    rw [← List.drop_drop, hl4]
    exact htw
  · exact absurd hnil hne

theorem C5_query_extent_witness :
    Parse (bytes "urn:abc:def?=a?+b") =
      some (some { Scheme := bytes "urn", NID := bytes "abc", NSS := bytes "def",
                   Query := bytes "a?+b" }, none) ∧
    ((bytes "urn:abc:def?=a?+b").drop 11).take 2 = [63, 61] ∧
    bytes "a?+b" = ((bytes "urn:abc:def?=a?+b").drop 13).takeWhile (fun c => decide (c ≠ 35)) :=
  ⟨by decide,
    C5_query_extent (bytes "urn:abc:def?=a?+b")
      { Scheme := bytes "urn", NID := bytes "abc", NSS := bytes "def", Query := bytes "a?+b" }
      (by decide) (by decide)⟩


/-! ## The trailing `'#'` -/

theorem tokens_ne_hash {l : List Nat} (h : Tokens compByte l) : ∀ c ∈ l, c ≠ 35 := by
  induction h with
  | nil => intro c hc; simp at hc
  | byte c l hc _ ih =>
    intro x hx
    rw [List.mem_cons] at hx
    rcases hx with rfl | hx
    · rintro rfl; exact absurd hc (by decide)
    · exact ih x hx
  | triplet h1 h2 l hh1 hh2 _ ih =>
    intro x hx
    simp only [List.mem_cons] at hx
    rcases hx with rfl | rfl | rfl | hx
    · decide
    · exact (isHex_ne _ hh1).1
    · exact (isHex_ne _ hh2).1
    · exact ih x hx

theorem nssByte_compByte (c : Nat) (h : nssByte c = true) : compByte c = true := by
  unfold nssByte at h; unfold compByte; rw [h]; rfl

/-- The input of a successful parse is a prefix ending in the NSS and the r- and
q-components, none of whose bytes is `'#'`, followed by the fragment part. -/
theorem parse_tail (s : List Nat) (u : URN) (h : Parse s = some (some u, none)) :
    ∃ pre body l5 : List Nat, s = pre ++ (body ++ l5) ∧ body ≠ [] ∧ (∀ c ∈ body, c ≠ 35) ∧
      (fragPart l5).2.2 = [] ∧ u.Fragment = (fragPart l5).1 ∧
      u.ForceFragment = (fragPart l5).2.1 := by
  obtain ⟨l3, l4, l5, -, -, -, -, h0, hnss, -, hr, hq, hl6, hf, hff, -, hdec⟩ :=
    parse_shape s u h
  have h3 := resolve_append l3 _ _ hr
  have h4 := query_append l4 _ _ hq
  have hnssS : StartsWithItem u.NSS := by
    rw [hnss, ← compLen_eq_runLen .nss _ h0]; exact body_starts .nss _ h0
  have hnssT : ∀ c ∈ u.NSS, c ≠ 35 := by
    apply tokens_ne_hash
    rw [hnss]
    exact Tokens.mono nssByte_compByte (runLen_tokens .nss _)
  have hrT := tokens_ne_hash (optPart_tokens _ _ _ _ _ hr)
  have hqT := tokens_ne_hash (optPart_tokens _ _ _ _ _ hq)
  refine ⟨u.Scheme ++ 58 :: (u.NID ++ [58]),
    u.NSS ++ ((if u.Resolve ≠ [] then [63, 43] ++ u.Resolve else []) ++
      (if u.Query ≠ [] then [63, 61] ++ u.Query else [])), l5, ?_, ?_, ?_, hl6, hf, hff⟩
  · conv_lhs => rw [hdec, h3, h4]
    simp only [List.append_assoc, List.cons_append, List.nil_append]
  · intro hnil
    exact hnssS.ne_nil (List.append_eq_nil.mp hnil).1
  · intro c hc
    simp only [List.mem_append] at hc
    rcases hc with hc | hc | hc
    · exact hnssT c hc
    · split at hc
      · simp only [List.cons_append, List.nil_append, List.mem_cons] at hc
        rcases hc with rfl | rfl | hc
        · decide
        · decide
        · exact hrT c hc
      · simp at hc
    · split at hc
      · simp only [List.cons_append, List.nil_append, List.mem_cons] at hc
        rcases hc with rfl | rfl | hc
        · decide
        · decide
        · exact hqT c hc
      · simp at hc

theorem getLast?_ne_of_forall {l : List Nat} (hall : ∀ c ∈ l, c ≠ 35) :
    l.getLast? ≠ some 35 := by
  intro h
  exact hall 35 (List.mem_of_mem_getLast? h) rfl

theorem forceFragment_iff (s : List Nat) (u : URN) (h : Parse s = some (some u, none)) :
    (u.ForceFragment = true ↔ s.getLast? = some 35) ∧
    (u.ForceFragment = true → u.Fragment = []) := by
  obtain ⟨pre, body, l5, hs, hbne, hball, hl6, hf, hff⟩ := parse_tail s u h
  rcases fragPart_cases l5 with ⟨t, ht, h1, h2, h3⟩ | ⟨-, h1, h2, h3⟩
  · rw [hl6] at h3
    rw [hff, h2, hf, h1]
    have htT : ∀ c ∈ t, c ≠ 35 := by
      have := tokens_ne_hash (runLen_tokens .component t)
      have e : t.take (runLen .component t) = t := by
        conv_rhs => rw [← List.take_append_drop (runLen .component t) t, ← h3, List.append_nil]
      rw [e] at this
      exact this
    have hlast : s.getLast? = (35 :: t).getLast? := by
      rw [hs, ht, ← List.append_assoc, List.getLast?_append_of_ne_nil _ (List.cons_ne_nil _ _)]
    by_cases hz : runLen .component t = 0
    · have htnil : t = [] := by
        rw [hz, List.drop_zero] at h3; exact h3.symm
      subst htnil
      refine ⟨?_, fun _ => by simp⟩
      rw [hlast]
      simp [hz]
    · have htne : t ≠ [] := by
        rintro rfl; exact hz (by simp [runLen])
      refine ⟨?_, fun hd => absurd (by simpa using hd) hz⟩
      constructor
      · intro hd; exact absurd (by simpa using hd) hz
      · intro hl
        rw [hlast] at hl
        obtain ⟨x, t2, hxt⟩ := List.exists_cons_of_ne_nil htne
        rw [hxt, List.getLast?_cons_cons, ← hxt] at hl
        exact absurd hl (getLast?_ne_of_forall htT)
  · rw [hl6] at h3
    rw [hff, h2]
    refine ⟨?_, fun hd => absurd hd (by simp)⟩
    constructor
    · intro hd; exact absurd hd (by simp)
    · intro hl
      rw [hs, ← h3, List.append_nil,
        List.getLast?_append_of_ne_nil _ hbne] at hl
      exact absurd hl (getLast?_ne_of_forall hball)

/-- C6. Empty fragment: for a parsed URN, `ForceFragment` is true exactly when the input
ends with `'#'`; then `Fragment` is empty and `String()` still ends with that `'#'`. -/
theorem C6_empty_fragment (s : List Nat) (u : URN) (h : Parse s = some (some u, none)) :
    (u.ForceFragment = true ↔ s.getLast? = some 35) ∧
    (u.ForceFragment = true → u.Fragment = [] ∧ u.String.getLast? = some 35) := by
  obtain ⟨hiff, hfrag⟩ := forceFragment_iff s u h
  refine ⟨hiff, fun hff => ⟨hfrag hff, ?_⟩⟩
  rw [String_of_Parse s u h]
  exact hiff.mp hff

theorem C6_empty_fragment_witness :
    Parse (bytes "urn:aa:b#") =
      some (some { Scheme := bytes "urn", NID := bytes "aa", NSS := bytes "b",
                   ForceFragment := true }, none) ∧
    (bytes "urn:aa:b#").getLast? = some 35 ∧
    URN.String { Scheme := bytes "urn", NID := bytes "aa", NSS := bytes "b",
                 ForceFragment := true } = bytes "urn:aa:b#" :=
  have h := C6_empty_fragment (bytes "urn:aa:b#")
    { Scheme := bytes "urn", NID := bytes "aa", NSS := bytes "b", ForceFragment := true }
    (by decide)
  ⟨by decide, h.1.mp rfl, by decide⟩


/-! ## Which stage fails -/

theorem schemeOK_iff_urn (s : List Nat) : schemeOK s = true ↔ HasUrnPrefix s := by
  unfold HasUrnPrefix
  rcases s with _ | ⟨c1, _ | ⟨c2, _ | ⟨c3, _ | ⟨c4, t⟩⟩⟩⟩
  · simp [schemeOK]
  · simp [schemeOK]
  · simp [schemeOK]
  · simp [schemeOK]
  · simp only [schemeOK, Bool.and_eq_true, Bool.or_eq_true, beq_iff_eq, List.getElem?_cons_zero,
      List.getElem?_cons_succ, Option.some.injEq]
    constructor
    · rintro ⟨⟨⟨h1, h2⟩, h3⟩, h4⟩; exact ⟨h1, h2, h3, h4⟩
    · rintro ⟨h1, h2, h3, h4⟩; exact ⟨⟨⟨h1, h2⟩, h3⟩, h4⟩

theorem parseRef_scheme (s : List Nat) :
    parseRef s = .error ErrInvalidScheme ↔ schemeOK s = false := by
  unfold parseRef
  cases hok : schemeOK s with
  | false => simp
  | true =>
    simp only [if_true]
    constructor
    · intro h
      repeat' split at h
      all_goals simp at h
    · intro h; simp at h

theorem parseRef_nid (s : List Nat) (hok : schemeOK s = true) :
    parseRef s = .error ErrInvalidNID ↔ nidLen (s.drop 4) = none := by
  unfold parseRef
  simp only [hok, if_true]
  cases hk : nidLen (s.drop 4) with
  | none => simp
  | some k =>
    simp only
    constructor
    · intro h
      repeat' split at h
      all_goals simp at h
    · intro h; simp at h

/-- C7. Scheme stage: `Parse` fails with `ErrInvalidScheme` exactly when the input is shorter
than 4 bytes or its first four bytes are not `urn:` in some letter case; otherwise the scheme
stage records the first three bytes as they are written. -/
theorem C7_scheme_stage (s : List Nat) :
    ((∃ e, Parse s = some (none, some e) ∧ e.Err = ErrInvalidScheme) ↔
      (s.length < 4 ∨ ¬ HasUrnPrefix s)) ∧
    (¬ (s.length < 4 ∨ ¬ HasUrnPrefix s) →
      (∃ p1, (parser.start s).consumeScheme = some (none, p1) ∧ p1.id.Scheme = s.take 3) ∧
      ∀ u, Parse s = some (some u, none) → u.Scheme = s.take 3) := by
  have hlen : s.length < 4 → ¬ HasUrnPrefix s := by
    intro hl hp
    have h3 := hp.2.2.2
    rw [List.getElem?_eq_none (by omega)] at h3
    exact absurd h3 (by simp)
  constructor
  · rw [Parse_err_iff, parseRef_scheme]
    constructor
    · intro h
      right
      rw [← schemeOK_iff_urn, h]
      exact Bool.false_ne_true
    · intro h
      have : ¬ HasUrnPrefix s := by
        rcases h with h | h
        · exact hlen h
        · exact h
      rw [← schemeOK_iff_urn] at this
      simpa using this
  · intro h
    have hp : HasUrnPrefix s := by
      by_contra hc; exact h (Or.inr hc)
    have hok := (schemeOK_iff_urn s).mpr hp
    have hs := consumeScheme_eq s {} 0
    rw [if_pos hok] at hs
    refine ⟨⟨_, hs, rfl⟩, fun u hu => ?_⟩
    obtain ⟨_, _, _, -, hsch, -⟩ := parse_shape s u hu
    exact hsch


theorem nidLen_of_NIDRun (nid rest : List Nat) (h2 : 2 ≤ nid.length) (h32 : nid.length ≤ 32)
    (hall : ∀ c ∈ nid, isAlphaNum c = true ∨ c = 45)
    (hfirst : ∃ c, nid.head? = some c ∧ isAlphaNum c = true)
    (hlast : ∃ c, nid.getLast? = some c ∧ isAlphaNum c = true) :
    nidLen (nid ++ 58 :: rest) = some nid.length := by
  rcases nid with _ | ⟨c0, run⟩
  · simp at h2
  · obtain ⟨c, hc, hca⟩ := hfirst
    simp only [List.head?_cons, Option.some.injEq] at hc
    subst hc
    have hrun := nidRun_complete run (MaxLenNID - 1) rest
      (fun x hx => hall x (List.mem_cons_of_mem _ hx))
      (by simp only [List.length_cons, MaxLenNID] at h32 ⊢; omega)
    simp only [List.cons_append, nidLen, hca, Bool.not_true, Bool.false_eq_true, if_false, hrun]
    have e58 : (c0 :: (run ++ 58 :: rest))[run.length + 1]? = some 58 := by
      rw [List.getElem?_cons_succ, List.getElem?_append_right (Nat.le_refl _)]
      simp
    obtain ⟨x, hx, hxa⟩ := hlast
    have elast : (c0 :: (run ++ 58 :: rest))[run.length]? = some x := by
      have e1 : (c0 :: (run ++ 58 :: rest)) = (c0 :: run) ++ 58 :: rest := rfl
      rw [e1, List.getElem?_append_left (by simp), ← hx, List.getLast?_eq_getElem?]
      simp
    have hne : (c0 :: (run ++ 58 :: rest))[run.length]? ≠ some 45 := by
      rw [elast]
      intro h45
      rw [Option.some.injEq] at h45
      subst h45
      exact absurd hxa (by decide)
    rw [if_pos ⟨e58, hne, by simp only [List.length_cons] at h2; omega⟩]
    rfl

theorem nidLen_none_iff (l : List Nat) : nidLen l = none ↔ ¬ NIDRun l := by
  constructor
  · rintro h ⟨nid, rest, rfl, h2, h32, hall, hfirst, hlast⟩
    rw [nidLen_of_NIDRun nid rest h2 h32 hall hfirst hlast] at h
    exact absurd h (by simp)
  · intro h
    cases hk : nidLen l with
    | none => rfl
    | some k =>
      exfalso
      apply h
      obtain ⟨h2, h32, h58, hall, hfirst, hlast⟩ := nidLen_spec l k hk
      have hlen : (l.take k).length = k := by
        rw [List.length_take]
        have : k < l.length := by
          by_contra hc
          rw [List.getElem?_eq_none (by omega)] at h58
          exact absurd h58 (by simp)
        omega
      exact ⟨l.take k, l.drop (k + 1), nidLen_append l k hk, by omega, by omega, hall,
        hfirst, hlast⟩

theorem takeWhile_colon (nid rest : List Nat) (hall : ∀ c ∈ nid, isAlphaNum c = true ∨ c = 45) :
    (nid ++ 58 :: rest).takeWhile (fun c => decide (c ≠ 58)) = nid := by
  induction nid with
  | nil => simp
  | cons c nid ih =>
    have hc := isAlphaNum_ne_colon c (hall c (List.mem_cons_self _ _))
    rw [List.cons_append, List.takeWhile_cons_of_pos (by simpa using hc),
      ih (fun x hx => hall x (List.mem_cons_of_mem _ hx))]

/-- C8. NID stage: for an input that begins with `urn:` in any letter case, `Parse` fails with
`ErrInvalidNID` exactly when what follows the fourth byte does not begin with a run of 2 to 32
alphanumerics or hyphens, first and last alphanumeric, immediately followed by `':'`. In
particular the bytes before the first `':'` are rejected when they are none, a single byte,
start or end with `'-'`, contain another byte, are 33 or more, or when there is no `':'`; and
a valid 32-byte NID is accepted by the NID stage. -/
theorem C8_nid_stage (s : List Nat) (hs : HasUrnPrefix s) :
    ((∃ e, Parse s = some (none, some e) ∧ e.Err = ErrInvalidNID) ↔ ¬ NIDRun (s.drop 4)) ∧
    (((s.drop 4).takeWhile (fun c => decide (c ≠ 58)) = [] ∨
        ((s.drop 4).takeWhile (fun c => decide (c ≠ 58))).length = 1 ∨
        ((s.drop 4).takeWhile (fun c => decide (c ≠ 58))).head? = some 45 ∨
        ((s.drop 4).takeWhile (fun c => decide (c ≠ 58))).getLast? = some 45 ∨
        (∃ c ∈ (s.drop 4).takeWhile (fun c => decide (c ≠ 58)),
          ¬ (isAlphaNum c = true ∨ c = 45)) ∨
        33 ≤ ((s.drop 4).takeWhile (fun c => decide (c ≠ 58))).length ∨
        58 ∉ s.drop 4) →
      ∃ e, Parse s = some (none, some e) ∧ e.Err = ErrInvalidNID) ∧
    (∀ nid rest, s.drop 4 = nid ++ 58 :: rest → nid.length = 32 →
      (∀ c ∈ nid, isAlphaNum c = true ∨ c = 45) →
      (∃ c, nid.head? = some c ∧ isAlphaNum c = true) →
      (∃ c, nid.getLast? = some c ∧ isAlphaNum c = true) →
      (¬ ∃ e, Parse s = some (none, some e) ∧ e.Err = ErrInvalidNID) ∧
      ∃ p1 p2, (parser.start s).consumeScheme = some (none, p1) ∧
        p1.consumeNID = some (none, p2) ∧ p2.id.NID = nid) := by
  have hok := (schemeOK_iff_urn s).mpr hs
  have hiff : (∃ e, Parse s = some (none, some e) ∧ e.Err = ErrInvalidNID) ↔
      ¬ NIDRun (s.drop 4) := by
    rw [Parse_err_iff, parseRef_nid s hok, nidLen_none_iff]
  refine ⟨hiff, ?_, ?_⟩
  · intro hbad
    rw [hiff]
    rintro ⟨nid, rest, hl, h2, h32, hall, ⟨c1, hc1, hc1a⟩, ⟨c2, hc2, hc2a⟩⟩
    rw [hl, takeWhile_colon nid rest hall] at hbad
    rcases hbad with h | h | h | h | ⟨c, hc, hcn⟩ | h | h
    · rw [h] at h2; simp at h2
    · omega
    · rw [hc1, Option.some.injEq] at h; subst h; exact absurd hc1a (by decide)
    · rw [hc2, Option.some.injEq] at h; subst h; exact absurd hc2a (by decide)
    · exact hcn (hall c hc)
    · omega
    · exact h (by simp)
  · intro nid rest hl h32 hall hfirst hlast
    have hk := nidLen_of_NIDRun nid rest (by omega) (by omega) hall hfirst hlast
    rw [← hl] at hk
    refine ⟨?_, ?_⟩
    · rw [hiff, not_not]
      exact ⟨nid, rest, hl, by omega, by omega, hall, hfirst, hlast⟩
    · have h1 := consumeScheme_eq s {} 0
      rw [if_pos hok] at h1
      have h2 := consumeNID_eq s { Scheme := s.take 3 } 4
      rw [hk] at h2
      refine ⟨_, _, h1, h2, ?_⟩
      simp only
      rw [hl, List.take_left]

theorem C8_nid_stage_witness :
    HasUrnPrefix (bytes "Urn:abcdefghilmnopqrstuvzabcdefghilm:x") ∧
    ¬ (∃ e, Parse (bytes "Urn:abcdefghilmnopqrstuvzabcdefghilm:x") = some (none, some e) ∧
        e.Err = ErrInvalidNID) :=
  ⟨by decide,
    ((C8_nid_stage (bytes "Urn:abcdefghilmnopqrstuvzabcdefghilm:x") (by decide)).2.2
      (bytes "abcdefghilmnopqrstuvzabcdefghilm") (bytes "x") (by decide) (by decide)
      (by decide) (by decide) (by decide)).1⟩


/-! ## What a stage that succeeded has done -/

theorem scheme_inv (s : List Nat) (id : URN) (off : Nat) (p1 : parser)
    (h : parser.consumeScheme ⟨s, s.length, id, off⟩ = some (none, p1)) :
    schemeOK s = true ∧ p1 = ⟨s, s.length, { id with Scheme := s.take 3 }, 4⟩ := by
  have hs := consumeScheme_eq s id off
  by_cases hok : schemeOK s = true
  · rw [if_pos hok, h] at hs
    simp only [Option.some.injEq, Prod.mk.injEq, true_and] at hs
    exact ⟨hok, hs⟩
  · rw [if_neg hok, h] at hs
    obtain ⟨msg, hm⟩ := hs
    simp at hm

theorem nid_inv (s : List Nat) (id : URN) (off : Nat) (p2 : parser)
    (h : parser.consumeNID ⟨s, s.length, id, off⟩ = some (none, p2)) :
    ∃ k, nidLen (s.drop off) = some k ∧
      p2 = ⟨s, s.length, { id with NID := (s.drop off).take k }, off + k + 1⟩ := by
  have hs := consumeNID_eq s id off
  cases hk : nidLen (s.drop off) with
  | none =>
    rw [hk, h] at hs
    obtain ⟨msg, hm⟩ := hs
    simp at hm
  | some k =>
    rw [hk, h] at hs
    simp only [Option.some.injEq, Prod.mk.injEq, true_and] at hs
    exact ⟨k, rfl, hs⟩

theorem nss_inv (s : List Nat) (id : URN) (off : Nat) (p3 : parser)
    (h : parser.consumeNSS ⟨s, s.length, id, off⟩ = some (none, p3)) :
    firstLen (s.drop off) ≠ 0 ∧
      p3 = ⟨s, s.length, { id with NSS := (s.drop off).take (compLen .nss (s.drop off)) },
        off + compLen .nss (s.drop off)⟩ := by
  have hs := consumeNSS_eq s id off
  by_cases h0 : firstLen (s.drop off) = 0
  · rw [if_pos h0, h] at hs
    obtain ⟨msg, hm⟩ := hs
    simp at hm
  · rw [if_neg h0, h] at hs
    simp only [Option.some.injEq, Prod.mk.injEq, true_and] at hs
    exact ⟨h0, hs⟩

theorem resolve_pres (s : List Nat) (id : URN) (off : Nat) (p4 : parser)
    (h : parser.consumeResolve ⟨s, s.length, id, off⟩ = some (none, p4)) :
    ∃ id1 off1, p4 = ⟨s, s.length, id1, off1⟩ := by
  have hs := consumeResolve_eq s id off
  rw [h] at hs
  split at hs
  · split at hs
    · obtain ⟨msg, p1, hm⟩ := hs; simp at hm
    · simp only [Option.some.injEq, Prod.mk.injEq, true_and] at hs
      exact ⟨_, _, hs⟩
  · simp only [Option.some.injEq, Prod.mk.injEq, true_and] at hs
    exact ⟨_, _, hs⟩

theorem query_pres (s : List Nat) (id : URN) (off : Nat) (p5 : parser)
    (h : parser.consumeQuery ⟨s, s.length, id, off⟩ = some (none, p5)) :
    ∃ id1 off1, p5 = ⟨s, s.length, id1, off1⟩ := by
  have hs := consumeQuery_eq s id off
  rw [h] at hs
  split at hs
  · split at hs
    · obtain ⟨msg, p1, hm⟩ := hs; simp at hm
    · simp only [Option.some.injEq, Prod.mk.injEq, true_and] at hs
      exact ⟨_, _, hs⟩
  · simp only [Option.some.injEq, Prod.mk.injEq, true_and] at hs
    exact ⟨_, _, hs⟩

theorem fragment_pres (s : List Nat) (id : URN) (off : Nat) (p6 : parser)
    (h : parser.consumeFragment ⟨s, s.length, id, off⟩ = some (none, p6)) :
    ∃ id1 off1, p6 = ⟨s, s.length, id1, off1⟩ := by
  have hs := consumeFragment_eq s id off
  rw [h] at hs
  split at hs
  · simp only [Option.some.injEq, Prod.mk.injEq, true_and] at hs
    exact ⟨_, _, hs⟩
  · simp only [Option.some.injEq, Prod.mk.injEq, true_and] at hs
    exact ⟨_, _, hs⟩

/-- The first two stages succeeded: the input has the `urn:` prefix and a NID of length `k`,
and the cursor stands after the NID's `':'`. -/
theorem two_stages_inv (s : List Nat) (p1 p2 : parser)
    (h1 : (parser.start s).consumeScheme = some (none, p1))
    (h2 : p1.consumeNID = some (none, p2)) :
    ∃ k, schemeOK s = true ∧ nidLen (s.drop 4) = some k ∧
      p2 = ⟨s, s.length, { Scheme := s.take 3, NID := (s.drop 4).take k }, 4 + k + 1⟩ ∧
      s.drop (4 + k + 1) = (s.drop 4).drop (k + 1) := by
  obtain ⟨hok, hp1⟩ := scheme_inv s {} 0 p1 h1
  subst hp1
  obtain ⟨k, hk, hp2⟩ := nid_inv s _ 4 p2 h2
  exact ⟨k, hok, hk, hp2, by rw [List.drop_drop, Nat.add_assoc]⟩

theorem runLen_max {t : List Nat} (ht : Tokens nssByte t) :
    ∀ l, t <+: l → t.length ≤ runLen .nss l := by
  induction ht with
  | nil => intro l _; exact Nat.zero_le _
  | byte c t hc _ ih =>
    rintro l ⟨r, rfl⟩
    have hc2 : (isPCharSingle c || c == 47) = true := hc
    rw [List.cons_append, runLen_cons, if_pos hc2]
    have := ih (t ++ r) (List.prefix_append _ _)
    simp only [List.length_cons]; omega
  | triplet x1 x2 t hx1 hx2 _ ih =>
    rintro l ⟨r, rfl⟩
    have hp : pctAt (37 :: x1 :: x2 :: (t ++ r)) = true :=
      (pctAt_iff _).mpr ⟨x1, x2, _, rfl, hx1, hx2⟩
    simp only [List.cons_append]
    rw [runLen_cons, if_neg (by decide), if_neg (by decide), if_pos hp]
    have := ih (t ++ r) (List.prefix_append _ _)
    simp only [List.drop_succ_cons, List.drop_zero, List.length_cons]; omega

theorem parseRef_nss_first (s : List Nat) (k : Nat) (hok : schemeOK s = true)
    (hk : nidLen (s.drop 4) = some k) (h0 : firstLen ((s.drop 4).drop (k + 1)) = 0) :
    parseRef s = .error ErrInvalidNSS := by
  unfold parseRef
  simp only [hok, hk, h0, if_true]

/-- C9. NSS stage: when the scheme and NID stages have succeeded, `Parse` fails with
`ErrInvalidNSS` if what follows the NID's `':'` does not begin with a pchar or a `%XX` triplet
(nothing follows, or a byte such as `'/'`); otherwise the NSS stage succeeds and the NSS is
the longest run of pchars, `'/'` and triplets starting there. -/
theorem C9_nss_stage (s : List Nat) (p1 p2 : parser)
    (h1 : (parser.start s).consumeScheme = some (none, p1))
    (h2 : p1.consumeNID = some (none, p2)) :
    (¬ StartsWithItem (s.drop p2.offset) →
      ∃ e, Parse s = some (none, some e) ∧ e.Err = ErrInvalidNSS) ∧
    ((s.drop p2.offset = [] ∨ (s.drop p2.offset).head? = some 47) →
      ¬ StartsWithItem (s.drop p2.offset)) ∧
    (StartsWithItem (s.drop p2.offset) →
      ∃ p3, p2.consumeNSS = some (none, p3) ∧
        p3.id.NSS <+: s.drop p2.offset ∧ Tokens nssByte p3.id.NSS ∧
        (∀ t, t <+: s.drop p2.offset → Tokens nssByte t → t.length ≤ p3.id.NSS.length) ∧
        (∀ u, Parse s = some (some u, none) → u.NSS = p3.id.NSS)) := by
  obtain ⟨k, hok, hk, hp2, hdrop⟩ := two_stages_inv s p1 p2 h1 h2
  subst hp2
  simp only
  refine ⟨?_, ?_, ?_⟩
  · intro hns
    rw [← firstLen_ne_zero_iff, not_not, hdrop] at hns
    rw [Parse_err_iff]
    exact parseRef_nss_first s k hok hk hns
  · rintro (h | h) hst
    · exact hst.ne_nil h
    · exact hst.head_ne.1 h
  · intro hst
    have h0 := (firstLen_ne_zero_iff _).mpr hst
    have h3 := consumeNSS_eq s { Scheme := s.take 3, NID := (s.drop 4).take k } (4 + k + 1)
    rw [if_neg h0] at h3
    refine ⟨_, h3, ?_, ?_, ?_, ?_⟩
    · exact List.take_prefix _ _
    · simp only
      rw [compLen_eq_runLen .nss _ h0]; exact runLen_tokens .nss _
    · intro t htp htt
      have hle := runLen_max htt _ htp
      have hlen := runLen_le_length .nss (s.drop (4 + k + 1))
      simp only
      rw [compLen_eq_runLen .nss _ h0, List.length_take]
      omega
    · intro u hu
      obtain ⟨_, _, _, -, -, hk2, -, -, hnss, -⟩ := parse_shape s u hu
      rw [hk] at hk2
      have hkk : k = u.NID.length := Option.some.inj hk2
      simp only
      rw [compLen_eq_runLen .nss _ h0, hdrop, hkk]
      exact hnss

theorem C9_nss_stage_witness :
    parser.consumeScheme (parser.start (bytes "urn:foo:/")) =
      some (none, ⟨bytes "urn:foo:/", 9, { Scheme := bytes "urn" }, 4⟩) ∧
    parser.consumeNID ⟨bytes "urn:foo:/", 9, { Scheme := bytes "urn" }, 4⟩ =
      some (none, ⟨bytes "urn:foo:/", 9, { Scheme := bytes "urn", NID := bytes "foo" }, 8⟩) ∧
    ∃ e, Parse (bytes "urn:foo:/") = some (none, some e) ∧ e.Err = ErrInvalidNSS :=
  ⟨by decide, by decide,
    (C9_nss_stage (bytes "urn:foo:/") ⟨bytes "urn:foo:/", 9, { Scheme := bytes "urn" }, 4⟩
      ⟨bytes "urn:foo:/", 9, { Scheme := bytes "urn", NID := bytes "foo" }, 8⟩
      (by decide) (by decide)).1
      (((C9_nss_stage (bytes "urn:foo:/") ⟨bytes "urn:foo:/", 9, { Scheme := bytes "urn" }, 4⟩
        ⟨bytes "urn:foo:/", 9, { Scheme := bytes "urn", NID := bytes "foo" }, 8⟩
        (by decide) (by decide)).2.1) (Or.inr (by decide)))⟩


/-! ## The undefined `'?'` -/

theorem runLen_question (m : Part) (t : List Nat) (h : runLen m (63 :: t) = 0) :
    m = .nss ∨ (m = .resolve ∧ qeAt (63 :: t) = true) := by
  rw [runLen_cons, if_neg (by decide), if_pos (by decide)] at h
  cases m with
  | nss => exact Or.inl rfl
  | resolve =>
    simp only at h
    by_cases hq : qeAt (63 :: t) = true
    · exact Or.inr ⟨rfl, hq⟩
    · rw [if_neg hq] at h; omega
  | component => simp only at h; omega

theorem after_component_no_question (l : List Nat) :
    (l.drop (runLen .component l)).head? ≠ some 63 := by
  intro h
  have hstop := runLen_stop .component l
  rcases hl : l.drop (runLen .component l) with _ | ⟨c, t⟩
  · rw [hl] at h; simp at h
  · rw [hl] at h hstop
    simp only [List.head?_cons, Option.some.injEq] at h
    subst h
    rcases runLen_question _ _ hstop with h1 | ⟨h1, -⟩ <;> simp at h1

theorem after_resolve_question (l : List Nat)
    (h : (l.drop (runLen .resolve l)).head? = some 63) :
    qeAt (l.drop (runLen .resolve l)) = true := by
  have hstop := runLen_stop .resolve l
  rcases hl : l.drop (runLen .resolve l) with _ | ⟨c, t⟩
  · rw [hl] at h; simp at h
  · rw [hl] at h hstop
    simp only [List.head?_cons, Option.some.injEq] at h
    subst h
    rcases runLen_question _ _ hstop with h1 | ⟨-, h1⟩
    · simp at h1
    · exact h1

theorem fragPart_no_question (l5 : List Nat) (h : l5.head? ≠ some 63) :
    (fragPart l5).2.2.head? ≠ some 63 := by
  rcases fragPart_cases l5 with ⟨t, -, -, -, h3⟩ | ⟨-, -, -, h3⟩
  · rw [h3]; exact after_component_no_question t
  · rw [h3]; exact h

theorem query_no_question (l4 q l5 : List Nat) (hq : optPart qeAt .component l4 = some (q, l5))
    (h : l4.head? = some 63 → qeAt l4 = true) : l5.head? ≠ some 63 := by
  rcases optPart_some _ _ _ _ _ hq with ⟨-, -, -, hrest, -⟩ | ⟨hi, -, hrest⟩
  · rw [hrest]; exact after_component_no_question _
  · rw [hrest]
    intro h63
    rw [h h63] at hi
    exact absurd hi (by simp)

/-- A bare `'?'`: the list starts with `'?'` and neither `'+'` nor `'='` follows it. -/
theorem bare_question_iff (l : List Nat) :
    (l.head? = some 63 ∧ rpAt l = false ∧ qeAt l = false) ↔
      (l[0]? = some 63 ∧ l[1]? ≠ some 43 ∧ l[1]? ≠ some 61) := by
  rcases l with _ | ⟨a, _ | ⟨b, t⟩⟩
  · simp [rpAt, qeAt]
  · simp [rpAt, qeAt]
  · simp only [List.head?_cons, Option.some.injEq, rpAt, qeAt, Bool.and_eq_false_imp,
      beq_iff_eq, beq_eq_false_iff_ne, ne_eq, List.getElem?_cons_zero, List.getElem?_cons_succ]
    constructor
    · rintro ⟨h1, h2, h3⟩; exact ⟨h1, h2 h1, h3 h1⟩
    · rintro ⟨h1, h2, h3⟩; exact ⟨h1, fun _ => h2, fun _ => h3⟩

theorem parseRef_identifier (s : List Nat) (k : Nat) (hok : schemeOK s = true)
    (hk : nidLen (s.drop 4) = some k) (h0 : firstLen ((s.drop 4).drop (k + 1)) ≠ 0)
    (l3 : List Nat)
    (hl3 : l3 = ((s.drop 4).drop (k + 1)).drop (compLen .nss ((s.drop 4).drop (k + 1)))) :
    parseRef s = .error ErrInvalidIdentifier ↔
      (l3.head? = some 63 ∧ rpAt l3 = false ∧ qeAt l3 = false) := by
  unfold parseRef
  simp only [hok, hk, h0, if_true, if_false, ← hl3]
  cases hr : optPart rpAt .resolve l3 with
  | none =>
    constructor
    · intro herr; simp at herr
    · rintro ⟨h63, hrp, hqe⟩
      exfalso
      unfold optPart at hr
      rw [hrp] at hr
      simp at hr
  | some rr =>
    obtain ⟨r, l4⟩ := rr
    simp only
    cases hq : optPart qeAt .component l4 with
    | none =>
      constructor
      · intro herr; simp at herr
      · rintro ⟨h63, hrp, hqe⟩
        exfalso
        rcases optPart_some _ _ _ _ _ hr with ⟨hi, -⟩ | ⟨-, -, hl4⟩
        · rw [hrp] at hi; exact absurd hi (by simp)
        · subst hl4
          unfold optPart at hq
          rw [hqe] at hq
          simp at hq
    | some qq =>
      obtain ⟨q, l5⟩ := qq
      simp only
      have hl4q : rpAt l3 = true → l4.head? = some 63 → qeAt l4 = true := by
        intro hrp h63
        rcases optPart_some _ _ _ _ _ hr with ⟨-, -, -, hrest, -⟩ | ⟨hi, -, -⟩
        · rw [hrest] at h63 ⊢; exact after_resolve_question _ h63
        · rw [hrp] at hi; exact absurd hi (by simp)
      constructor
      · intro herr
        have h63 : (fragPart l5).2.2.head? = some 63 := by
          split at herr
          · simp at herr
          · rename_i c t hc
            split at herr
            · rename_i hc63
              have : c = 63 := by simpa using hc63
              rw [hc, this]; rfl
            · simp at herr
        by_cases hrp : rpAt l3 = true
        · exact absurd h63
            (fragPart_no_question l5 (query_no_question l4 q l5 hq (hl4q hrp)))
        · have hrp2 : rpAt l3 = false := by simpa using hrp
          have hl4 : l4 = l3 := by
            rcases optPart_some _ _ _ _ _ hr with ⟨hi, -⟩ | ⟨-, -, hl4⟩
            · rw [hrp2] at hi; exact absurd hi (by simp)
            · exact hl4
          subst hl4
          by_cases hqe : qeAt l4 = true
          · exact absurd h63
              (fragPart_no_question l5 (query_no_question l4 q l5 hq (fun _ => hqe)))
          · have hqe2 : qeAt l4 = false := by simpa using hqe
            have hl5 : l5 = l4 := by
              rcases optPart_some _ _ _ _ _ hq with ⟨hi, -⟩ | ⟨-, -, hl5⟩
              · rw [hqe2] at hi; exact absurd hi (by simp)
              · exact hl5
            subst hl5
            refine ⟨?_, hrp2, hqe2⟩
            by_contra hne
            exact fragPart_no_question l5 hne h63
      · rintro ⟨h63, hrp, hqe⟩
        have hl4 : l4 = l3 := by
          rcases optPart_some _ _ _ _ _ hr with ⟨hi, -⟩ | ⟨-, -, hl4⟩
          · rw [hrp] at hi; exact absurd hi (by simp)
          · exact hl4
        subst hl4
        have hl5 : l5 = l4 := by
          rcases optPart_some _ _ _ _ _ hq with ⟨hi, -⟩ | ⟨-, -, hl5⟩
          · rw [hqe] at hi; exact absurd hi (by simp)
          · exact hl5
        subst hl5
        have hl6 : (fragPart l5).2.2 = l5 := by
          rcases fragPart_cases l5 with ⟨t, ht, -⟩ | ⟨-, -, -, h3⟩
          · rw [ht] at h63; simp at h63
          · exact h3
        rw [hl6]
        rcases l5 with _ | ⟨c, t⟩
        · simp at h63
        · simp only [List.head?_cons, Option.some.injEq] at h63
          subst h63
          simp


/-- C10. Undefined `'?'` sequence: when the scheme, NID and NSS stages have succeeded, `Parse`
fails with `ErrInvalidIdentifier` exactly when the byte at which the NSS scan stopped is a
`'?'` not immediately followed by `'+'` or `'='` (a final `'?'` included); any other byte
left unconsumed after all six stages makes `Parse` fail with `ErrInvalidNSS`. -/
theorem C10_undefined_question (s : List Nat) (p1 p2 p3 : parser)
    (h1 : (parser.start s).consumeScheme = some (none, p1))
    (h2 : p1.consumeNID = some (none, p2))
    (h3 : p2.consumeNSS = some (none, p3)) :
    ((∃ e, Parse s = some (none, some e) ∧ e.Err = ErrInvalidIdentifier) ↔
      (s[p3.offset]? = some 63 ∧ s[p3.offset + 1]? ≠ some 43 ∧
        s[p3.offset + 1]? ≠ some 61)) ∧
    (∀ p4 p5 p6 : parser, p3.consumeResolve = some (none, p4) →
      p4.consumeQuery = some (none, p5) → p5.consumeFragment = some (none, p6) →
      p6.offset < s.length → s[p6.offset]? ≠ some 63 →
      ∃ e, Parse s = some (none, some e) ∧ e.Err = ErrInvalidNSS) := by
  obtain ⟨k, hok, hk, hp2, hdrop⟩ := two_stages_inv s p1 p2 h1 h2
  have h1c := h1
  have h2c := h2
  have h3c := h3
  subst hp2
  obtain ⟨h0, hp3⟩ := nss_inv s _ _ p3 h3
  subst hp3
  simp only
  rw [hdrop] at h0
  constructor
  · rw [Parse_err_iff, parseRef_identifier s k hok hk h0 _ rfl, bare_question_iff,
      ← hdrop, List.drop_drop, List.getElem?_drop, List.getElem?_drop]
    simp only [Nat.add_zero]
  · intro p4 p5 p6 h4 h5 h6 hlt hne
    obtain ⟨hok1, hp1⟩ := scheme_inv s {} 0 p1 h1c
    subst hp1
    obtain ⟨id4, off4, hp4⟩ := resolve_pres s _ _ p4 h4
    subst hp4
    obtain ⟨id5, off5, hp5⟩ := query_pres s _ _ p5 h5
    subst hp5
    obtain ⟨id6, off6, hp6⟩ := fragment_pres s _ _ p6 h6
    subst hp6
    simp only at hlt hne
    obtain ⟨c, hc, -⟩ := drop_cons_of_lt s off6 hlt
    have hc63 : (c == 63) = false := by
      cases hb : (c == 63)
      · rfl
      · have : c = 63 := by simpa using hb
        rw [hc, this] at hne; exact absurd rfl hne
    unfold parser.start at h1c
    refine ⟨⟨"parse", s, ErrInvalidNSS, .text "trailing characters"⟩, ?_, rfl⟩
    unfold Parse parser.Parse
    simp only [Option.bind_eq_bind, Option.pure_def, h1c, h2c, h3c, h4, h5, h6,
      Option.some_bind, hlt, if_true, hc, hc63, Bool.false_eq_true, if_false]
    rfl

theorem C10_undefined_question_witness :
    parser.consumeScheme (parser.start (bytes "urn:abc:def?#?+Resolve")) =
      some (none, ⟨bytes "urn:abc:def?#?+Resolve", 22, { Scheme := bytes "urn" }, 4⟩) ∧
    parser.consumeNID ⟨bytes "urn:abc:def?#?+Resolve", 22, { Scheme := bytes "urn" }, 4⟩ =
      some (none, ⟨bytes "urn:abc:def?#?+Resolve", 22,
        { Scheme := bytes "urn", NID := bytes "abc" }, 8⟩) ∧
    parser.consumeNSS ⟨bytes "urn:abc:def?#?+Resolve", 22,
        { Scheme := bytes "urn", NID := bytes "abc" }, 8⟩ =
      some (none, ⟨bytes "urn:abc:def?#?+Resolve", 22,
        { Scheme := bytes "urn", NID := bytes "abc", NSS := bytes "def" }, 11⟩) ∧
    (∃ e, Parse (bytes "urn:abc:def?#?+Resolve") = some (none, some e) ∧
      e.Err = ErrInvalidIdentifier) ∧
    ∃ e, Parse (bytes "urn:foo:a%P") = some (none, some e) ∧ e.Err = ErrInvalidNSS :=
  ⟨by decide, by decide, by decide,
    (C10_undefined_question (bytes "urn:abc:def?#?+Resolve")
      ⟨bytes "urn:abc:def?#?+Resolve", 22, { Scheme := bytes "urn" }, 4⟩
      ⟨bytes "urn:abc:def?#?+Resolve", 22, { Scheme := bytes "urn", NID := bytes "abc" }, 8⟩
      ⟨bytes "urn:abc:def?#?+Resolve", 22,
        { Scheme := bytes "urn", NID := bytes "abc", NSS := bytes "def" }, 11⟩
      (by decide) (by decide) (by decide)).1.mpr (by decide),
    (C10_undefined_question (bytes "urn:foo:a%P")
      ⟨bytes "urn:foo:a%P", 11, { Scheme := bytes "urn" }, 4⟩
      ⟨bytes "urn:foo:a%P", 11, { Scheme := bytes "urn", NID := bytes "foo" }, 8⟩
      ⟨bytes "urn:foo:a%P", 11,
        { Scheme := bytes "urn", NID := bytes "foo", NSS := bytes "a" }, 9⟩
      (by decide) (by decide) (by decide)).2
      ⟨bytes "urn:foo:a%P", 11,
        { Scheme := bytes "urn", NID := bytes "foo", NSS := bytes "a" }, 9⟩
      ⟨bytes "urn:foo:a%P", 11,
        { Scheme := bytes "urn", NID := bytes "foo", NSS := bytes "a" }, 9⟩
      ⟨bytes "urn:foo:a%P", 11,
        { Scheme := bytes "urn", NID := bytes "foo", NSS := bytes "a" }, 9⟩
      (by decide) (by decide) (by decide) (by decide) (by decide)⟩


/-! ## An introduced component needs a body -/

theorem resolve_inv (s : List Nat) (id : URN) (off : Nat) (p4 : parser) (hid : id.Resolve = [])
    (h : parser.consumeResolve ⟨s, s.length, id, off⟩ = some (none, p4)) :
    ∃ r l4 off1, optPart rpAt .resolve (s.drop off) = some (r, l4) ∧
      p4 = ⟨s, s.length, { id with Resolve := r }, off1⟩ ∧ s.drop off1 = l4 := by
  have hs := resolveStage s id off hid
  cases hr : optPart rpAt .resolve (s.drop off) with
  | none =>
    rw [hr, h] at hs
    obtain ⟨msg, p1, hm⟩ := hs
    simp at hm
  | some rr =>
    obtain ⟨r, l4⟩ := rr
    rw [hr, h] at hs
    obtain ⟨off1, hm, hd⟩ := hs
    simp only [Option.some.injEq, Prod.mk.injEq, true_and] at hm
    exact ⟨r, l4, off1, rfl, hm, hd⟩

theorem query_inv (s : List Nat) (id : URN) (off : Nat) (p5 : parser) (hid : id.Query = [])
    (h : parser.consumeQuery ⟨s, s.length, id, off⟩ = some (none, p5)) :
    ∃ q l5 off1, optPart qeAt .component (s.drop off) = some (q, l5) ∧
      p5 = ⟨s, s.length, { id with Query := q }, off1⟩ ∧ s.drop off1 = l5 := by
  have hs := queryStage s id off hid
  cases hr : optPart qeAt .component (s.drop off) with
  | none =>
    rw [hr, h] at hs
    obtain ⟨msg, p1, hm⟩ := hs
    simp at hm
  | some rr =>
    obtain ⟨r, l4⟩ := rr
    rw [hr, h] at hs
    obtain ⟨off1, hm, hd⟩ := hs
    simp only [Option.some.injEq, Prod.mk.injEq, true_and] at hm
    exact ⟨r, l4, off1, rfl, hm, hd⟩

theorem optPart_none (intro : List Nat → Bool) (m : Part) (l : List Nat)
    (hi : l.take 2 = [63, 43] ∧ intro = rpAt ∨ l.take 2 = [63, 61] ∧ intro = qeAt)
    (h0 : ¬ StartsWithItem (l.drop 2)) : optPart intro m l = none := by
  have hint : intro l = true := by
    rcases hi with ⟨h, rfl⟩ | ⟨h, rfl⟩
    · exact (rpAt_iff l).mpr ((take_two_eq l 63 43).mp h)
    · exact (qeAt_iff l).mpr ((take_two_eq l 63 61).mp h)
  rw [← firstLen_ne_zero_iff, not_not] at h0
  unfold optPart
  rw [if_pos hint, if_pos h0]

theorem parseRef_resolve_none (s : List Nat) (k : Nat) (hok : schemeOK s = true)
    (hk : nidLen (s.drop 4) = some k) (h0 : firstLen ((s.drop 4).drop (k + 1)) ≠ 0)
    (hr : optPart rpAt .resolve (((s.drop 4).drop (k + 1)).drop
      (compLen .nss ((s.drop 4).drop (k + 1)))) = none) :
    parseRef s = .error ErrInvalidResolve := by
  unfold parseRef
  simp only [hok, hk, h0, hr, if_true, if_false]

theorem parseRef_query_none (s : List Nat) (k : Nat) (r l4 : List Nat)
    (hok : schemeOK s = true)
    (hk : nidLen (s.drop 4) = some k) (h0 : firstLen ((s.drop 4).drop (k + 1)) ≠ 0)
    (hr : optPart rpAt .resolve (((s.drop 4).drop (k + 1)).drop
      (compLen .nss ((s.drop 4).drop (k + 1)))) = some (r, l4))
    (hq : optPart qeAt .component l4 = none) :
    parseRef s = .error ErrInvalidQuery := by
  unfold parseRef
  simp only [hok, hk, h0, hr, hq, if_true, if_false]

/-- C11. Introduced but empty component: when the scheme, NID and NSS stages have succeeded
and `"?+"` directly follows the NSS, `Parse` fails with `ErrInvalidResolve` if what follows
does not begin with a pchar or a `%XX` triplet (nothing, or a byte such as `'/'` or `'?'`);
and when `"?="` stands at the cursor left by the r-component stage (after the NSS, or after a
parsed r-component) and is followed by nothing or by such a byte, `Parse` fails with
`ErrInvalidQuery`. -/
theorem C11_introduced_component_needs_body (s : List Nat) (p1 p2 p3 : parser)
    (h1 : (parser.start s).consumeScheme = some (none, p1))
    (h2 : p1.consumeNID = some (none, p2))
    (h3 : p2.consumeNSS = some (none, p3)) :
    ((s.drop p3.offset).take 2 = [63, 43] → ¬ StartsWithItem (s.drop (p3.offset + 2)) →
      ∃ e, Parse s = some (none, some e) ∧ e.Err = ErrInvalidResolve) ∧
    (∀ p4 : parser, p3.consumeResolve = some (none, p4) →
      (s.drop p4.offset).take 2 = [63, 61] → ¬ StartsWithItem (s.drop (p4.offset + 2)) →
      ∃ e, Parse s = some (none, some e) ∧ e.Err = ErrInvalidQuery) ∧
    (∀ l : List Nat, (l = [] ∨ l.head? = some 47 ∨ l.head? = some 63) →
      ¬ StartsWithItem l) := by
  obtain ⟨k, hok, hk, hp2, hdrop⟩ := two_stages_inv s p1 p2 h1 h2
  subst hp2
  obtain ⟨h0, hp3⟩ := nss_inv s _ _ p3 h3
  subst hp3
  simp only
  rw [hdrop] at h0
  have hl3 : s.drop (4 + k + 1 + compLen .nss (s.drop (4 + k + 1))) =
      ((s.drop 4).drop (k + 1)).drop (compLen .nss ((s.drop 4).drop (k + 1))) := by
    rw [← List.drop_drop, hdrop]
  refine ⟨?_, ?_, ?_⟩
  · intro hi hns
    rw [← List.drop_drop, hl3] at hns
    rw [hl3] at hi
    rw [Parse_err_iff]
    exact parseRef_resolve_none s k hok hk h0 (optPart_none _ _ _ (Or.inl ⟨hi, rfl⟩) hns)
  · intro p4 h4 hi hns
    obtain ⟨r, l4, off1, hr, hp4, hd4⟩ := resolve_inv s _ _ p4 rfl h4
    subst hp4
    simp only at hi hns
    rw [hl3] at hr
    rw [← List.drop_drop, hd4] at hns
    rw [hd4] at hi
    rw [Parse_err_iff]
    exact parseRef_query_none s k r l4 hok hk h0 hr (optPart_none _ _ _ (Or.inr ⟨hi, rfl⟩) hns)
  · rintro l (h | h | h) hst
    · exact hst.ne_nil h
    · exact hst.head_ne.1 h
    · exact hst.head_ne.2.1 h

theorem C11_introduced_component_needs_body_witness :
    (∃ e, Parse (bytes "urn:abc:def?+/abc") = some (none, some e) ∧
      e.Err = ErrInvalidResolve) ∧
    ∃ e, Parse (bytes "urn:abc:def?+a?=") = some (none, some e) ∧ e.Err = ErrInvalidQuery :=
  ⟨(C11_introduced_component_needs_body (bytes "urn:abc:def?+/abc")
      ⟨bytes "urn:abc:def?+/abc", 17, { Scheme := bytes "urn" }, 4⟩
      ⟨bytes "urn:abc:def?+/abc", 17, { Scheme := bytes "urn", NID := bytes "abc" }, 8⟩
      ⟨bytes "urn:abc:def?+/abc", 17,
        { Scheme := bytes "urn", NID := bytes "abc", NSS := bytes "def" }, 11⟩
      (by decide) (by decide) (by decide)).1 (by decide)
      ((C11_introduced_component_needs_body (bytes "urn:abc:def?+/abc")
        ⟨bytes "urn:abc:def?+/abc", 17, { Scheme := bytes "urn" }, 4⟩
        ⟨bytes "urn:abc:def?+/abc", 17, { Scheme := bytes "urn", NID := bytes "abc" }, 8⟩
        ⟨bytes "urn:abc:def?+/abc", 17,
          { Scheme := bytes "urn", NID := bytes "abc", NSS := bytes "def" }, 11⟩
        (by decide) (by decide) (by decide)).2.2 _ (Or.inr (Or.inl (by decide)))),
    (C11_introduced_component_needs_body (bytes "urn:abc:def?+a?=")
      ⟨bytes "urn:abc:def?+a?=", 16, { Scheme := bytes "urn" }, 4⟩
      ⟨bytes "urn:abc:def?+a?=", 16, { Scheme := bytes "urn", NID := bytes "abc" }, 8⟩
      ⟨bytes "urn:abc:def?+a?=", 16,
        { Scheme := bytes "urn", NID := bytes "abc", NSS := bytes "def" }, 11⟩
      (by decide) (by decide) (by decide)).2.1
      ⟨bytes "urn:abc:def?+a?=", 16,
        { Scheme := bytes "urn", NID := bytes "abc", NSS := bytes "def",
          Resolve := bytes "a" }, 14⟩
      (by decide) (by decide)
      ((C11_introduced_component_needs_body (bytes "urn:abc:def?+a?=")
        ⟨bytes "urn:abc:def?+a?=", 16, { Scheme := bytes "urn" }, 4⟩
        ⟨bytes "urn:abc:def?+a?=", 16, { Scheme := bytes "urn", NID := bytes "abc" }, 8⟩
        ⟨bytes "urn:abc:def?+a?=", 16,
          { Scheme := bytes "urn", NID := bytes "abc", NSS := bytes "def" }, 11⟩
        (by decide) (by decide) (by decide)).2.2 _ (Or.inl (by decide)))⟩


/-! ## The parser accepts what the serializer writes -/

theorem infix_cons_of_tail {a : List Nat} {c : Nat} {l : List Nat} (h : a <:+: l) :
    a <:+: c :: l :=
  (List.infix_cons_iff).mpr (Or.inr h)

/-- A run of tokens of a part, followed by something the loop of the part cannot enter, is
consumed whole; in an r-component no `'?'` of the run may be followed by `'='`. -/
theorem runLen_append (m : Part) (rest : List Nat) (hrest : runLen m rest = 0)
    {t : List Nat} (ht : Tokens (partByte m) t) :
    (m = .resolve → ¬ [63, 61] <:+: (t ++ rest.take 1)) → runLen m (t ++ rest) = t.length := by
  induction ht with
  | nil => intro _; simpa using hrest
  | byte c t hc _ ih =>
    intro hqe
    have hqe2 : m = .resolve → ¬ [63, 61] <:+: (t ++ rest.take 1) :=
      fun hm hi => hqe hm (infix_cons_of_tail hi)
    rw [List.cons_append, runLen_cons, ih hqe2]
    by_cases h1 : (isPCharSingle c || c == 47) = true
    · rw [if_pos h1]; rfl
    · rw [if_neg h1]
      have hc63 : c = 63 := by
        cases m <;> simp only [partByte, nssByte, compByte, Bool.or_eq_true, beq_iff_eq] at hc h1
        · exact absurd hc h1
        · rcases hc with hc | hc
          · exact absurd hc h1
          · exact hc
        · rcases hc with hc | hc
          · exact absurd hc h1
          · exact hc
      subst hc63
      rw [if_pos (by decide)]
      cases m with
      | nss => exact absurd hc (by decide)
      | component => rfl
      | resolve =>
        simp only
        have hq : qeAt (63 :: (t ++ rest)) = false := by
          cases hqq : qeAt (63 :: (t ++ rest))
          · rfl
          · exfalso
            obtain ⟨t2, ht2⟩ := (qeAt_iff _).mp hqq
            have htail := (List.cons.inj ht2).2
            apply hqe rfl
            rcases t with _ | ⟨d, t3⟩
            · simp only [List.nil_append] at htail ⊢
              rw [htail]
              exact ⟨[], [], by simp⟩
            · simp only [List.cons_append, List.cons.injEq] at htail
              rw [htail.1]
              exact ⟨[], t3 ++ rest.take 1, by simp⟩
        rw [hq]; rfl
  | triplet x1 x2 t hx1 hx2 _ ih =>
    intro hqe
    have hqe2 : m = .resolve → ¬ [63, 61] <:+: (t ++ rest.take 1) :=
      fun hm hi => hqe hm
        (infix_cons_of_tail (infix_cons_of_tail (infix_cons_of_tail hi)))
    have hp : pctAt (37 :: x1 :: x2 :: (t ++ rest)) = true :=
      (pctAt_iff _).mpr ⟨x1, x2, _, rfl, hx1, hx2⟩
    simp only [List.cons_append]
    rw [runLen_cons, if_neg (by decide), if_neg (by decide), if_pos hp]
    simp only [List.drop_succ_cons, List.drop_zero, List.length_cons]
    rw [ih hqe2]

theorem StartsWithItem.append {t : List Nat} (h : StartsWithItem t) (rest : List Nat) :
    StartsWithItem (t ++ rest) := by
  obtain ⟨c, r, rfl, hor⟩ := h
  refine ⟨c, r ++ rest, rfl, ?_⟩
  rcases hor with h1 | ⟨hc, x1, x2, t2, hr, hx1, hx2⟩
  · exact Or.inl h1
  · subst hr
    exact Or.inr ⟨hc, x1, x2, t2 ++ rest, rfl, hx1, hx2⟩

theorem runLen_hash (m : Part) (l : List Nat) : runLen m (35 :: l) = 0 := by
  rw [runLen_cons, if_neg (by decide), if_neg (by decide)]
  have : pctAt (35 :: l) = false := by
    rcases l with _ | ⟨a, _ | ⟨b, t⟩⟩ <;> simp [pctAt]
  rw [this]; rfl

/-- The body of an introduced part is read back, given what may follow it. -/
theorem body_read (m : Part) (t rest : List Nat) (ht : Tokens (partByte m) t)
    (hs : StartsWithItem t) (hrest : runLen m rest = 0)
    (hqe : m = .resolve → ¬ [63, 61] <:+: (t ++ rest.take 1)) :
    firstLen (t ++ rest) ≠ 0 ∧ (t ++ rest).take (compLen m (t ++ rest)) = t ∧
      (t ++ rest).drop (compLen m (t ++ rest)) = rest := by
  have h0 : firstLen (t ++ rest) ≠ 0 := (firstLen_ne_zero_iff _).mpr (hs.append rest)
  rw [compLen_eq_runLen m _ h0, runLen_append m rest hrest ht hqe]
  exact ⟨h0, List.take_left _ _, List.drop_left _ _⟩


theorem no_qe_concat (r : List Nat) (x : Nat) (h : ¬ [63, 61] <:+: r) (hx : x ≠ 61) :
    ¬ [63, 61] <:+: r ++ [x] := by
  rw [List.infix_concat_iff, List.suffix_concat_iff]
  rintro ((h0 | ⟨t, ht, -⟩) | hi)
  · exact absurd h0 (by simp)
  · rcases t with _ | ⟨a, _ | ⟨b, t2⟩⟩
    · simp at ht
    · simp only [List.cons_append, List.nil_append, List.cons.injEq, and_true] at ht
      exact hx ht.2.symm
    · simp at ht
  · exact h hi

theorem fragPart_build (f : List Nat) (ff : Bool) (hf : Tokens compByte f)
    (hff : ff = true → f = []) :
    fragPart (if f ≠ [] ∨ ff = true then 35 :: f else []) = (f, ff, []) := by
  have hrun : runLen .component f = f.length := by
    have := runLen_append .component [] (by simp [runLen]) (t := f) hf (by simp)
    rwa [List.append_nil] at this
  by_cases hc : f ≠ [] ∨ ff = true
  · rw [if_pos hc]
    simp only [fragPart, List.head?_cons, if_true, List.drop_succ_cons, List.drop_zero, hrun,
      List.take_length, List.drop_length, Prod.mk.injEq, true_and, and_true]
    by_cases hnil : f = []
    · rcases hc with hc | hc
      · exact absurd hnil hc
      · simp [hnil, hc]
    · have : ff = false := by
        cases ff
        · rfl
        · exact absurd (hff rfl) hnil
      simp [this, hnil]
  · rw [if_neg hc]
    simp only [not_or, not_not] at hc
    have : ff = false := by simpa using hc.2
    simp [fragPart, hc.1, this]

theorem rpAt_of_stop (l : List Nat) (h : l = [] ∨ l.head? = some 35 ∨ qeAt l = true) :
    rpAt l = false := by
  rcases h with rfl | h | h
  · rfl
  · rcases l with _ | ⟨a, _ | ⟨b, t⟩⟩
    · rfl
    · rfl
    · simp only [List.head?_cons, Option.some.injEq] at h
      subst h; rfl
  · obtain ⟨t, rfl⟩ := (qeAt_iff l).mp h
    rfl

theorem qeAt_of_stop (l : List Nat) (h : l = [] ∨ l.head? = some 35) : qeAt l = false := by
  rcases h with rfl | h
  · rfl
  · rcases l with _ | ⟨a, _ | ⟨b, t⟩⟩
    · rfl
    · rfl
    · simp only [List.head?_cons, Option.some.injEq] at h
      subst h; rfl

theorem runLen_resolve_stop (l : List Nat) (h : l = [] ∨ l.head? = some 35 ∨ qeAt l = true) :
    runLen .resolve l = 0 ∧ ∀ r : List Nat, ¬ [63, 61] <:+: r → ¬ [63, 61] <:+: r ++ l.take 1 := by
  rcases h with rfl | h | h
  · exact ⟨by simp [runLen], fun r hr => by simpa using hr⟩
  · rcases l with _ | ⟨a, t⟩
    · simp at h
    · simp only [List.head?_cons, Option.some.injEq] at h
      subst h
      exact ⟨runLen_hash _ _, fun r hr => no_qe_concat r 35 hr (by decide)⟩
  · obtain ⟨t, rfl⟩ := (qeAt_iff l).mp h
    refine ⟨?_, fun r hr => no_qe_concat r 63 hr (by decide)⟩
    rw [runLen_cons, if_neg (by decide), if_pos (by decide)]
    simp only [h, if_true]

theorem runLen_component_stop (l : List Nat) (h : l = [] ∨ l.head? = some 35) :
    runLen .component l = 0 := by
  rcases h with rfl | h
  · simp [runLen]
  · rcases l with _ | ⟨a, t⟩
    · simp at h
    · simp only [List.head?_cons, Option.some.injEq] at h
      subst h
      exact runLen_hash _ _

theorem resolve_build (r rest : List Nat)
    (hr : r = [] ∨ (Tokens compByte r ∧ StartsWithItem r)) (hqe : ¬ [63, 61] <:+: r)
    (hrest : rest = [] ∨ rest.head? = some 35 ∨ qeAt rest = true) :
    optPart rpAt .resolve ((if r ≠ [] then [63, 43] ++ r else []) ++ rest) = some (r, rest) := by
  obtain ⟨hstop, hcat⟩ := runLen_resolve_stop rest hrest
  rcases hr with rfl | ⟨ht, hs⟩
  · simp only [ne_eq, not_true_eq_false, if_false, List.nil_append, optPart,
      rpAt_of_stop rest hrest, Bool.false_eq_true]
  · rw [if_pos hs.ne_nil]
    obtain ⟨h0, htake, hdrop⟩ := body_read .resolve r rest ht hs hstop (fun _ => hcat r hqe)
    simp only [optPart, List.cons_append, List.nil_append, rpAt, beq_self_eq_true,
      Bool.and_self, if_true, List.drop_succ_cons, List.drop_zero, h0, if_false, htake, hdrop]

theorem query_build (q rest : List Nat)
    (hq : q = [] ∨ (Tokens compByte q ∧ StartsWithItem q))
    (hrest : rest = [] ∨ rest.head? = some 35) :
    optPart qeAt .component ((if q ≠ [] then [63, 61] ++ q else []) ++ rest) =
      some (q, rest) := by
  have hstop := runLen_component_stop rest hrest
  rcases hq with rfl | ⟨ht, hs⟩
  · simp only [ne_eq, not_true_eq_false, if_false, List.nil_append, optPart,
      qeAt_of_stop rest hrest, Bool.false_eq_true]
  · rw [if_pos hs.ne_nil]
    obtain ⟨h0, htake, hdrop⟩ := body_read .component q rest ht hs hstop (by simp)
    simp only [optPart, List.cons_append, List.nil_append, qeAt, beq_self_eq_true,
      Bool.and_self, if_true, List.drop_succ_cons, List.drop_zero, h0, if_false, htake, hdrop]


theorem parseRef_build (s sch nid l2 nss rest3 r rest4 q fp f : List Nat) (ff : Bool)
    (hs : s = sch ++ 58 :: (nid ++ 58 :: l2)) (hsch : sch.length = 3)
    (hok : schemeOK s = true) (hnid : nidLen (nid ++ 58 :: l2) = some nid.length)
    (h0 : firstLen l2 ≠ 0) (hnss : l2.take (compLen .nss l2) = nss)
    (hrest3 : l2.drop (compLen .nss l2) = rest3)
    (hr : optPart rpAt .resolve rest3 = some (r, rest4))
    (hq : optPart qeAt .component rest4 = some (q, fp))
    (hf : fragPart fp = (f, ff, [])) :
    parseRef s = .ok { Scheme := sch, NID := nid, NSS := nss, Resolve := r, Query := q,
                       Fragment := f, ForceFragment := ff } := by
  have htake : s.take 3 = sch := by
    rw [hs, ← hsch, List.take_left]
  have hdrop : s.drop 4 = nid ++ 58 :: l2 := by
    have e : s = (sch ++ [58]) ++ (nid ++ 58 :: l2) := by rw [hs]; simp
    have hl : (sch ++ [58]).length = 4 := by simp [hsch]
    rw [e, ← hl, List.drop_left]
  have hd2 : (nid ++ 58 :: l2).drop (nid.length + 1) = l2 := by
    have e : nid ++ 58 :: l2 = (nid ++ [58]) ++ l2 := by simp
    have hl : (nid ++ [58]).length = nid.length + 1 := by simp
    rw [e, ← hl, List.drop_left]
  unfold parseRef
  simp only [hok, if_true, hdrop, hnid, hd2, h0, if_false, hnss, hrest3, hr, hq, hf, htake,
    List.take_left]

theorem runLen_nss_stop (l : List Nat)
    (h : l = [] ∨ l.head? = some 35 ∨ l.head? = some 63) : runLen .nss l = 0 := by
  rcases h with rfl | h | h
  · simp [runLen]
  · rcases l with _ | ⟨a, t⟩
    · simp at h
    · simp only [List.head?_cons, Option.some.injEq] at h
      subst h; exact runLen_hash _ _
  · rcases l with _ | ⟨a, t⟩
    · simp at h
    · simp only [List.head?_cons, Option.some.injEq] at h
      subst h
      rw [runLen_cons, if_neg (by decide), if_pos (by decide)]

theorem scheme_of_lower (sch : List Nat) (h : sch.map lowerByte = [117, 114, 110]) :
    ∃ c1 c2 c3, sch = [c1, c2, c3] ∧ (c1 = 117 ∨ c1 = 85) ∧ (c2 = 114 ∨ c2 = 82) ∧
      (c3 = 110 ∨ c3 = 78) := by
  rcases sch with _ | ⟨c1, _ | ⟨c2, _ | ⟨c3, _ | ⟨c4, t⟩⟩⟩⟩ <;>
    simp only [List.map_cons, List.map_nil, List.cons.injEq, and_true, reduceCtorEq,
      and_false] at h
  refine ⟨c1, c2, c3, rfl, ?_, ?_, ?_⟩
  · have := h.1; unfold lowerByte at this; split at this <;> omega
  · have := h.2.1; unfold lowerByte at this; split at this <;> omega
  · have := h.2.2; unfold lowerByte at this; split at this <;> omega

/-- Parsing the serialization of a grammatical URN gives back its seven exported fields,
with the cache bit unset. -/
theorem Parse_String (u : URN) (hg : Grammatical u) :
    Parse u.String = some (some { u with normalized := false }, none) := by
  rw [Parse_ok_iff]
  obtain ⟨c1, c2, c3, hsch, hc1, hc2, hc3⟩ := scheme_of_lower u.Scheme hg.scheme
  have hfp : (if u.Fragment ≠ [] ∨ u.ForceFragment = true then 35 :: u.Fragment else []) = [] ∨
      (if u.Fragment ≠ [] ∨ u.ForceFragment = true then 35 :: u.Fragment
        else []).head? = some 35 := by
    split
    · right; rfl
    · left; rfl
  have hf := fragPart_build u.Fragment u.ForceFragment hg.fragment hg.force
  have hq := query_build u.Query _ hg.query hfp
  have hrest4 : ((if u.Query ≠ [] then [63, 61] ++ u.Query else []) ++
      (if u.Fragment ≠ [] ∨ u.ForceFragment = true then 35 :: u.Fragment else [])) = [] ∨
      ((if u.Query ≠ [] then [63, 61] ++ u.Query else []) ++
        (if u.Fragment ≠ [] ∨ u.ForceFragment = true then 35 :: u.Fragment
          else [])).head? = some 35 ∨
      qeAt ((if u.Query ≠ [] then [63, 61] ++ u.Query else []) ++
        (if u.Fragment ≠ [] ∨ u.ForceFragment = true then 35 :: u.Fragment else [])) = true := by
    by_cases hqn : u.Query ≠ []
    · rw [if_pos hqn]
      right; right
      obtain ⟨x, t, hx⟩ := List.exists_cons_of_ne_nil hqn
      rw [hx]; rfl
    · rw [if_neg hqn, List.nil_append]
      rcases hfp with h | h
      · exact Or.inl h
      · exact Or.inr (Or.inl h)
  have hr := resolve_build u.Resolve _ hg.resolve hg.resolve_no_qe hrest4
  have hrest3 : ∀ l : List Nat, (l = [] ∨ l.head? = some 35 ∨ qeAt l = true) →
      ∀ r : List Nat, ((if r ≠ [] then [63, 43] ++ r else []) ++ l) = [] ∨
        ((if r ≠ [] then [63, 43] ++ r else []) ++ l).head? = some 35 ∨
        ((if r ≠ [] then [63, 43] ++ r else []) ++ l).head? = some 63 := by
    intro l hl r
    by_cases hrn : r ≠ []
    · rw [if_pos hrn]; right; right; rfl
    · rw [if_neg hrn, List.nil_append]
      rcases hl with h | h | h
      · exact Or.inl h
      · exact Or.inr (Or.inl h)
      · obtain ⟨t, rfl⟩ := (qeAt_iff l).mp h
        right; right; rfl
  obtain ⟨h0, hnss, hd3⟩ := body_read .nss u.NSS _ hg.nss.1 hg.nss.2
    (runLen_nss_stop _ (hrest3 _ hrest4 u.Resolve)) (by simp)
  have hnid := nidLen_of_NIDRun u.NID
    (u.NSS ++ ((if u.Resolve ≠ [] then [63, 43] ++ u.Resolve else []) ++
      ((if u.Query ≠ [] then [63, 61] ++ u.Query else []) ++
        (if u.Fragment ≠ [] ∨ u.ForceFragment = true then 35 :: u.Fragment else []))))
    hg.nid_len.1 hg.nid_len.2 hg.nid_bytes hg.nid_first hg.nid_last
  have hok : schemeOK u.String = true := by
    rw [String_eq, schemeOK_iff, hsch]
    exact ⟨c1, c2, c3, _, rfl, hc1, hc2, hc3⟩
  have := parseRef_build u.String u.Scheme u.NID _ u.NSS _ u.Resolve _ u.Query _ u.Fragment
    u.ForceFragment (String_eq u) (by rw [hsch]; rfl) hok hnid h0 hnss hd3 hr hq hf
  rw [this]


/-- C12, as stated, fails: a grammatical URN whose cache bit `normalized` is set is not what
`Parse` returns for its serialization, because `Parse` always returns the bit unset. -/
theorem C12_counterexample :
    Grammatical { Scheme := bytes "urn", NID := bytes "ab", NSS := bytes "c",
                  normalized := true } ∧
    Parse (URN.String { Scheme := bytes "urn", NID := bytes "ab", NSS := bytes "c",
                        normalized := true }) ≠
      some (some { Scheme := bytes "urn", NID := bytes "ab", NSS := bytes "c",
                   normalized := true }, none) :=
  ⟨{ scheme := rfl
     nid_len := by decide
     nid_bytes := by decide
     nid_first := ⟨97, rfl, by decide⟩
     nid_last := ⟨98, rfl, by decide⟩
     nss := ⟨Tokens.byte 99 [] (by decide) Tokens.nil, ⟨99, [], rfl, Or.inl (by decide)⟩⟩
     resolve := Or.inl rfl
     resolve_no_qe := by simp
     query := Or.inl rfl
     fragment := Tokens.nil
     force := fun _ => rfl },
   by decide⟩

/-- C12 (amended). The parser is a left inverse of the serializer on grammatical values, up
to the cache bit: for a grammatical URN `u`, `Parse(u.String())` succeeds and returns the
Scheme, NID, NSS, Resolve, Query, Fragment and ForceFragment of `u` with `normalized` unset;
it returns `u` itself when `u.normalized` is unset. -/
theorem C12_parse_after_string (u : URN) (hg : Grammatical u) :
    Parse u.String = some (some { u with normalized := false }, none) ∧
    (u.normalized = false → Parse u.String = some (some u, none)) := by
  have h := Parse_String u hg
  refine ⟨h, fun hn => ?_⟩
  rw [h]
  cases u
  simp only at hn
  subst hn
  rfl

theorem C12_parse_after_string_witness :
    Parse (URN.String { Scheme := bytes "URN", NID := bytes "ab", NSS := bytes "c",
                        Resolve := bytes "r?", Query := bytes "q", ForceFragment := true,
                        normalized := true }) =
      some (some { Scheme := bytes "URN", NID := bytes "ab", NSS := bytes "c",
                   Resolve := bytes "r?", Query := bytes "q", ForceFragment := true,
                   normalized := false }, none) :=
  (C12_parse_after_string
    { Scheme := bytes "URN", NID := bytes "ab", NSS := bytes "c", Resolve := bytes "r?",
      Query := bytes "q", ForceFragment := true, normalized := true }
    { scheme := rfl
      nid_len := by decide
      nid_bytes := by decide
      nid_first := ⟨97, rfl, by decide⟩
      nid_last := ⟨98, rfl, by decide⟩
      nss := ⟨Tokens.byte 99 [] (by decide) Tokens.nil, ⟨99, [], rfl, Or.inl (by decide)⟩⟩
      resolve := Or.inr ⟨Tokens.byte 114 [63] (by decide) (Tokens.byte 63 [] (by decide) Tokens.nil),
        ⟨114, [63], rfl, Or.inl (by decide)⟩⟩
      resolve_no_qe := by decide
      query := Or.inr ⟨Tokens.byte 113 [] (by decide) Tokens.nil,
        ⟨113, [], rfl, Or.inl (by decide)⟩⟩
      fragment := Tokens.nil
      force := fun _ => rfl }).1


/-! ## The codec: `Decode` -/

theorem setByte_append (out : List Nat) (k v : Nat) :
    setByte (out ++ List.replicate (k + 1) 0) out.length v
      = some ((out ++ [v]) ++ List.replicate k 0) := by
  unfold setByte
  simp [List.replicate_succ]

theorem setByte_full (out : List Nat) (v : Nat) : setByte out out.length v = none := by
  simp [setByte]

theorem unhex_eq (c : Nat) (h : isHex c = true) : unhex c = hexValue c ∧ hexValue c < 16 := by
  unfold isHex at h
  unfold unhex hexValue isDigit
  simp at h
  constructor
  · split_ifs <;> simp_all <;> omega
  · split_ifs <;> simp_all <;> omega

theorem decodeRef_cons_ne (c : Nat) (rest : List Nat) (h : c ≠ 37) :
    decodeRef (c :: rest) = c :: decodeRef rest := by
  rcases rest with _ | ⟨x, _ | ⟨y, r⟩⟩ <;> simp [decodeRef, h]

theorem decodeRef_triplet (x y : Nat) (r : List Nat) (hx : isHex x = true) (hy : isHex y = true) :
    decodeRef (37 :: x :: y :: r) = (16 * hexValue x + hexValue y) :: decodeRef r := by
  simp [decodeRef, hx, hy]

theorem decodeRef_copy (c : Nat) (rest : List Nat)
    (h : ∀ x y r, rest = x :: y :: r → ¬ (c = 37 ∧ isHex x = true ∧ isHex y = true)) :
    decodeRef (c :: rest) = c :: decodeRef rest := by
  rcases rest with _ | ⟨x, _ | ⟨y, r⟩⟩
  · simp [decodeRef]
  · simp [decodeRef]
  · have := h x y r rfl
    simp only [decodeRef]
    rw [if_neg this]

theorem getElem?_mid (pre : List Nat) (c : Nat) (rest : List Nat) :
    (pre ++ c :: rest)[pre.length]? = some c := by
  rw [List.getElem?_append_right (le_refl _)]
  simp

theorem getElem?_mid1 (pre : List Nat) (c : Nat) (rest : List Nat) :
    (pre ++ c :: rest)[pre.length + 1]? = rest[0]? := by
  rw [List.getElem?_append_right (by omega)]
  simp

theorem getElem?_mid2 (pre : List Nat) (c : Nat) (rest : List Nat) :
    (pre ++ c :: rest)[pre.length + 2]? = rest[1]? := by
  rw [List.getElem?_append_right (by omega)]
  simp

/-- The loop condition of `Decode` read on the list: a triplet starts here. -/
theorem DecodeCond_eq (pre : List Nat) (c : Nat) (rest : List Nat) :
    DecodeCond (pre ++ c :: rest) (pre ++ c :: rest).length pre.length c
      = some (pctAt (c :: rest)) := by
  unfold DecodeCond
  rw [getElem?_mid1, getElem?_mid2]
  rcases rest with _ | ⟨x, _ | ⟨y, r⟩⟩
  · simp [pctAt]
  · simp [pctAt]
  · by_cases hc : c = 37
    · by_cases hx : isHex x = true
      · simp [pctAt, hc, hx]
      · simp [pctAt, hc, hx]
    · simp [pctAt, hc]

theorem decodeRef_of_pctAt (c : Nat) (rest : List Nat) (h : pctAt (c :: rest) = true) :
    ∃ x y r, rest = x :: y :: r ∧ c = 37 ∧ isHex x = true ∧ isHex y = true ∧
      decodeRef (c :: rest) = (16 * hexValue x + hexValue y) :: decodeRef r := by
  rcases rest with _ | ⟨x, _ | ⟨y, r⟩⟩
  · simp [pctAt] at h
  · simp [pctAt] at h
  · simp [pctAt] at h
    obtain ⟨⟨hc, hx⟩, hy⟩ := h
    exact ⟨x, y, r, rfl, hc, hx, hy, by rw [hc, decodeRef_triplet x y r hx hy]⟩

theorem decodeRef_of_not_pctAt (c : Nat) (rest : List Nat) (h : pctAt (c :: rest) = false) :
    decodeRef (c :: rest) = c :: decodeRef rest := by
  apply decodeRef_copy
  rintro x y r rfl ⟨hc, hx, hy⟩
  simp [pctAt, hc, hx, hy] at h

/-- The loop of `Decode` from any position: with room for the rest of the scan it writes
the scan of the remaining text after what is already written; with less room it panics. -/
theorem DecodeLoop_eq (d : List Nat) : ∀ (fuel : Nat) (pre suf out : List Nat) (k : Nat),
    d = pre ++ suf → suf.length < fuel →
    DecodeLoop d d.length fuel pre.length out.length (out ++ List.replicate k 0)
      = if (decodeRef suf).length ≤ k
        then some (out ++ decodeRef suf ++ List.replicate (k - (decodeRef suf).length) 0)
        else none := by
  intro fuel
  induction fuel with
  | zero => intro pre suf out k _ h; omega
  | succ fuel ih =>
    intro pre suf out k hd hf
    unfold DecodeLoop
    rcases suf with _ | ⟨c, rest⟩
    · simp [hd, decodeRef]
    · have hlt : pre.length < d.length := by rw [hd]; simp
      rw [if_pos hlt]
      have h0 : d[pre.length]? = some c := by rw [hd]; exact getElem?_mid pre c rest
      have hcond := DecodeCond_eq pre c rest
      rw [← hd] at hcond
      rw [h0]
      simp only [Option.bind_eq_bind, Option.some_bind]
      rw [hcond]
      simp only [Option.some_bind]
      cases hp : pctAt (c :: rest)
      · -- a literal byte
        rw [decodeRef_of_not_pctAt c rest hp]
        simp only [Bool.false_eq_true, if_false]
        rcases k with _ | k
        · have : out ++ List.replicate 0 0 = out := by simp
          rw [this, setByte_full]
          simp
        · rw [setByte_append]
          simp only [Option.some_bind]
          have := ih (pre ++ [c]) rest (out ++ [c]) k (by rw [hd]; simp)
            (by simp at hf; omega)
          simp only [List.length_append, List.length_singleton] at this
          rw [this]
          simp
      · -- a triplet
        obtain ⟨x, y, r, hr, hc, hx, hy, hdec⟩ := decodeRef_of_pctAt c rest hp
        rw [hdec]
        subst hr
        have h1 : d[pre.length + 1]? = some x := by
          rw [hd, getElem?_mid1]; simp
        have h2 : d[pre.length + 2]? = some y := by
          rw [hd, getElem?_mid2]; simp
        simp only [if_true, h1, h2, Option.some_bind]
        have hv : ((unhex x * 16) % 256 + unhex y) % 256 = 16 * hexValue x + hexValue y := by
          have hx2 := unhex_eq x hx
          have hy2 := unhex_eq y hy
          rw [hx2.1, hy2.1]
          omega
        rw [hv]
        rcases k with _ | k
        · have : out ++ List.replicate 0 0 = out := by simp
          rw [this, setByte_full]
          simp
        · rw [setByte_append]
          simp only [Option.some_bind]
          have := ih (pre ++ [c, x, y]) r (out ++ [16 * hexValue x + hexValue y]) k
            (by rw [hd]; simp) (by simp at hf; omega)
          simp only [List.length_append, List.length_singleton, List.length_cons,
            List.length_nil] at this
          rw [this]
          simp


theorem wellFormed_hex (x : Nat) (rest : List Nat) (hx : isHex x = true) :
    wellFormed (x :: rest) = wellFormed rest := by
  have : x ≠ 37 := by
    intro h
    rw [h] at hx
    revert hx
    decide
  simp [wellFormed, this]

/-- The scan shortens the text by two bytes for each triplet it decodes; every `'%'` is
decoded exactly when the text is well formed. -/
theorem decodeRef_length : ∀ (n : Nat) (l : List Nat), l.length ≤ n →
    l.length ≤ (decodeRef l).length + 2 * l.count 37 ∧
    (wellFormed l = true → (decodeRef l).length + 2 * l.count 37 = l.length) ∧
    (wellFormed l = false → l.length < (decodeRef l).length + 2 * l.count 37) := by
  intro n
  induction n with
  | zero =>
    intro l hl
    have : l = [] := List.eq_nil_of_length_eq_zero (by omega)
    subst this
    simp [decodeRef, wellFormed]
  | succ n ih =>
    intro l hl
    rcases l with _ | ⟨c, rest⟩
    · simp [decodeRef, wellFormed]
    · have hrest := ih rest (by simp at hl; omega)
      cases hp : pctAt (c :: rest)
      · rw [decodeRef_of_not_pctAt c rest hp]
        by_cases hc : c = 37
        · have hw : wellFormed (c :: rest) = false := by
            rcases rest with _ | ⟨x, _ | ⟨y, r⟩⟩
            · simp [wellFormed, hc]
            · simp [wellFormed, hc]
            · simp [pctAt, hc] at hp
              simp only [wellFormed, hc, if_true]
              by_cases hx : isHex x = true
              · simp [hx, hp hx]
              · simp [hx]
          have hcnt : (c :: rest).count 37 = rest.count 37 + 1 := by
            simp [List.count_cons, hc]
          rw [hw, hcnt]
          simp only [List.length_cons]
          obtain ⟨h1, -, -⟩ := hrest
          refine ⟨by omega, fun h => ?_, fun _ => by omega⟩
          simp at h
        · have hw : wellFormed (c :: rest) = wellFormed rest := by simp [wellFormed, hc]
          have hcnt : (c :: rest).count 37 = rest.count 37 := by
            simp [List.count_cons, hc]
          rw [hw, hcnt]
          simp only [List.length_cons]
          obtain ⟨h1, h2, h3⟩ := hrest
          refine ⟨by omega, fun h => ?_, fun h => ?_⟩
          · have := h2 h; omega
          · have := h3 h; omega
      · obtain ⟨x, y, r, hr, hc, hx, hy, hdec⟩ := decodeRef_of_pctAt c rest hp
        rw [hdec]
        subst hr
        subst hc
        have hr := ih r (by simp at hl; omega)
        have hw : wellFormed (37 :: x :: y :: r) = wellFormed r := by
          have : wellFormed (37 :: x :: y :: r) = wellFormed (x :: y :: r) := by
            simp [wellFormed, hx, hy]
          rw [this, wellFormed_hex x _ hx, wellFormed_hex y _ hy]
        have hx37 : x ≠ 37 := by
          intro h
          rw [h] at hx
          revert hx
          decide
        have hy37 : y ≠ 37 := by
          intro h
          rw [h] at hy
          revert hy
          decide
        have hcnt : (37 :: x :: y :: r).count 37 = r.count 37 + 1 := by
          simp [List.count_cons, hx37, hy37]
        rw [hw, hcnt]
        simp only [List.length_cons]
        obtain ⟨h1, h2, h3⟩ := hr
        refine ⟨by omega, fun h => ?_, fun h => ?_⟩
        · have := h2 h; omega
        · have := h3 h; omega

/-- What `Decode` does on every input: the scan of the text when every `'%'` is followed
by two hex digits, a panic otherwise. -/
theorem Decode_eq (d : List Nat) :
    Decode d = if wellFormed d = true then some (decodeRef d) else none := by
  obtain ⟨h1, h2, h3⟩ := decodeRef_length d.length d (le_refl _)
  unfold Decode makeBytes
  simp only [Option.bind_eq_bind]
  by_cases hneg : ((d.length : Int) - (d.count 37 : Int) * 2) < 0
  · rw [if_pos hneg]
    have hw : wellFormed d = false := by
      cases h : wellFormed d
      · rfl
      · have := h2 h
        omega
    simp [hw]
  · rw [if_neg hneg]
    simp only [Option.some_bind]
    have hk : ((d.length : Int) - (d.count 37 : Int) * 2).toNat = d.length - 2 * d.count 37 := by
      omega
    rw [hk]
    have := DecodeLoop_eq d (d.length + 1) [] d [] (d.length - 2 * d.count 37) rfl (by omega)
    simp only [List.length_nil, List.nil_append] at this
    rw [this]
    cases h : wellFormed d
    · have := h3 h
      rw [if_neg (by omega)]
      simp
    · have := h2 h
      rw [if_pos (by omega)]
      have hz : d.length - 2 * d.count 37 - (decodeRef d).length = 0 := by omega
      rw [hz]
      simp

/-- C13. On text in which every `'%'` is followed by two hex digits, `Decode` returns the
left-to-right scan that replaces each triplet `%XY` by the byte `16*value(X)+value(Y)` and
copies every other byte; the result is `len(d)` minus twice the number of `'%'` long. -/
theorem C13_decode_well_formed (d : List Nat) (hw : wellFormed d = true) :
    Decode d = some (decodeRef d) ∧
    ((decodeRef d).length : Int) = (d.length : Int) - 2 * (d.count 37 : Int) ∧
    (∀ c rest, c ≠ 37 → decodeRef (c :: rest) = c :: decodeRef rest) ∧
    (∀ x y rest, isHex x = true → isHex y = true →
      decodeRef (37 :: x :: y :: rest) = (16 * hexValue x + hexValue y) :: decodeRef rest) ∧
    decodeRef [] = [] ∧
    (∀ k, k < 10 → hexValue (48 + k) = k) ∧
    (∀ k, k < 6 → hexValue (65 + k) = 10 + k ∧ hexValue (97 + k) = 10 + k) := by
  refine ⟨?_, ?_, decodeRef_cons_ne, decodeRef_triplet, rfl, ?_, ?_⟩
  · rw [Decode_eq, if_pos hw]
  · have := (decodeRef_length d.length d (le_refl _)).2.1 hw
    omega
  · intro k hk
    unfold hexValue isDigit
    simp
    omega
  · intro k hk
    unfold hexValue isDigit
    constructor
    · have : ¬ (65 + k ≤ 57) := by omega
      have h2 : ¬ (97 ≤ 65 + k) := by omega
      simp [this, h2]
      omega
    · have : ¬ (97 + k ≤ 57) := by omega
      simp [this]
      omega

theorem C13_decode_well_formed_witness :
    wellFormed (bytes "%41%00%1A") = true ∧
    Decode (bytes "%41%00%1A") = some [65, 0, 26] ∧
    Decode (bytes "%20") = some (bytes " ") ∧
    Decode (bytes "abc") = some (bytes "abc") ∧
    Decode (bytes "a%2fb%Fa") = some [97, 47, 98, 250] :=
  ⟨by decide, (C13_decode_well_formed (bytes "%41%00%1A") (by decide)).1,
    (C13_decode_well_formed (bytes "%20") (by decide)).1,
    (C13_decode_well_formed (bytes "abc") (by decide)).1,
    (C13_decode_well_formed (bytes "a%2fb%Fa") (by decide)).1⟩


theorem Decode_malformed (d : List Nat) (h : wellFormed d = false) : Decode d = none := by
  rw [Decode_eq]
  simp [h]

/-- C14. `Decode` does not return on text with a `'%'` that is not followed by two hex
digits: on `"%"` the buffer length is negative, on `"%zz"` and `"a%4"` the copied bytes run
past the end of the buffer, which was sized as if every `'%'` began a triplet. -/
theorem C14_decode_malformed_panics :
    Decode (bytes "%") = none ∧ Decode (bytes "%zz") = none ∧ Decode (bytes "a%4") = none ∧
    makeBytes (((bytes "%").length : Int) - (((bytes "%").count 37 : Nat) : Int) * 2) = none ∧
    makeBytes (((bytes "%zz").length : Int) - (((bytes "%zz").count 37 : Nat) : Int) * 2)
      = some [0] ∧
    decodeRef (bytes "%zz") = bytes "%zz" := by
  refine ⟨by decide, by decide, by decide, by decide, by decide, by decide⟩

/-! ## The codec: `Encode` -/

theorem setByte_at (out : List Nat) (k v pos : Nat) (h : pos = out.length) :
    setByte (out ++ List.replicate (k + 1) 0) pos v
      = some ((out ++ [v]) ++ List.replicate k 0) := by
  subst h
  exact setByte_append out k v

theorem upperHex_get (k : Nat) (h : k < 16) : upperHex[k]? = some (hexDigit k) := by
  interval_cases k <;> rfl

theorem shouldEscape_eq (e : escaper) (c : Nat) :
    e.shouldEscape c = true ↔ ¬ (isPCharSingle c = true ∨ c ∈ e.allow) := by
  unfold escaper.shouldEscape
  by_cases h1 : isPCharSingle c = true
  · simp [h1]
  · by_cases h2 : c ∈ e.allow
    · have : (e.allow.any fun b => c == b) = true := by
        rw [List.any_eq_true]
        exact ⟨c, h2, by simp⟩
      simp [h1, this, h2]
    · have : ¬ (e.allow.any fun b => c == b) = true := by
        rw [List.any_eq_true]
        rintro ⟨b, hb, hcb⟩
        simp at hcb
        exact h2 (hcb ▸ hb)
      simp [h1, this, h2]

theorem encodeRef_keep (A : List Nat) (c : Nat) (rest : List Nat)
    (h : isPCharSingle c = true ∨ c ∈ A) : encodeRef A (c :: rest) = c :: encodeRef A rest := by
  simp [encodeRef, h]

theorem encodeRef_escape (A : List Nat) (c : Nat) (rest : List Nat)
    (h : ¬ (isPCharSingle c = true ∨ c ∈ A)) :
    encodeRef A (c :: rest) = 37 :: hexDigit (c / 16) :: hexDigit (c % 16) :: encodeRef A rest := by
  simp only [encodeRef, if_neg h]
  rfl

/-- The loop of `(*escaper).Encode` from any position, with room for the rest of the text. -/
theorem EncodeLoop_eq (e : escaper) (hn : e.n = e.input.length) (hb : ∀ c ∈ e.input, c < 256) :
    ∀ (fuel : Nat) (pre suf out : List Nat) (k i pos : Nat),
    e.input = pre ++ suf → i = pre.length → pos = out.length → suf.length < fuel →
    (encodeRef e.allow suf).length ≤ k →
    e.EncodeLoop fuel i pos (out ++ List.replicate k 0)
      = some (out ++ encodeRef e.allow suf
          ++ List.replicate (k - (encodeRef e.allow suf).length) 0) := by
  intro fuel
  induction fuel with
  | zero => intro pre suf out k i pos _ _ _ h; omega
  | succ fuel ih =>
    intro pre suf out k i pos hd hi hpos hf hk
    unfold escaper.EncodeLoop
    rcases suf with _ | ⟨c, rest⟩
    · have : ¬ i < e.n := by rw [hn, hd, hi]; simp
      rw [if_neg this]
      simp [encodeRef]
    · have hlt : i < e.n := by rw [hn, hd, hi]; simp
      rw [if_pos hlt]
      have h0 : e.input[i]? = some c := by rw [hd, hi]; exact getElem?_mid pre c rest
      have hc : c < 256 := hb c (by rw [hd]; simp)
      rw [h0]
      simp only [Option.bind_eq_bind, Option.some_bind]
      by_cases hesc : e.shouldEscape c = true
      · have hne := (shouldEscape_eq e c).1 hesc
        rw [encodeRef_escape _ c rest hne] at hk ⊢
        simp only [List.length_cons] at hk
        obtain ⟨k2, rfl⟩ : ∃ k2, k = k2 + 3 := ⟨k - 3, by omega⟩
        rw [if_pos hesc, setByte_at out (k2 + 2) 37 pos hpos]
        simp only [Option.some_bind]
        rw [upperHex_get (c / 16) (by omega)]
        simp only [Option.some_bind]
        rw [setByte_at (out ++ [37]) (k2 + 1) _ (pos + 1) (by simp [hpos])]
        simp only [Option.some_bind]
        rw [upperHex_get (c % 16) (by omega)]
        simp only [Option.some_bind]
        rw [setByte_at (out ++ [37] ++ [hexDigit (c / 16)]) k2 _ (pos + 2) (by simp [hpos])]
        simp only [Option.some_bind]
        rw [ih (pre ++ [c]) rest (out ++ [37] ++ [hexDigit (c / 16)] ++ [hexDigit (c % 16)]) k2
          (i + 1) (pos + 3) (by rw [hd]; simp) (by simp [hi]) (by simp [hpos])
          (by simp at hf; omega) (by omega)]
        simp only [List.length_cons]
        have : k2 + 3 - ((encodeRef e.allow rest).length + 1 + 1 + 1)
            = k2 - (encodeRef e.allow rest).length := by omega
        rw [this]
        simp
      · have hkeep : isPCharSingle c = true ∨ c ∈ e.allow := by
          by_contra hne
          exact hesc ((shouldEscape_eq e c).2 hne)
        rw [encodeRef_keep _ c rest hkeep] at hk ⊢
        simp only [List.length_cons] at hk
        obtain ⟨k2, rfl⟩ : ∃ k2, k = k2 + 1 := ⟨k - 1, by omega⟩
        rw [if_neg hesc, setByte_at out k2 c pos hpos]
        simp only [Option.some_bind]
        rw [ih (pre ++ [c]) rest (out ++ [c]) k2 (i + 1) (pos + 1) (by rw [hd]; simp)
          (by simp [hi]) (by simp [hpos]) (by simp at hf; omega) (by omega)]
        simp


theorem escapedBytes_cons (A : List Nat) (c : Nat) (rest : List Nat) :
    escapedBytes A (c :: rest)
      = if isPCharSingle c = true ∨ c ∈ A then escapedBytes A rest
        else c :: escapedBytes A rest := by
  unfold escapedBytes
  by_cases h1 : isPCharSingle c = true
  · simp [List.filter_cons, h1]
  · by_cases h2 : c ∈ A
    · simp [List.filter_cons, h1, h2]
    · simp [List.filter_cons, h1, h2]

theorem computeOutputSize_fold (e : escaper) (l : List Nat) : ∀ (acc : Nat),
    l.foldl (fun sz c => if e.shouldEscape c = true then sz + 2 else sz) acc
      = acc + 2 * (escapedBytes e.allow l).length := by
  induction l with
  | nil => intro acc; simp [escapedBytes]
  | cons c rest ih =>
    intro acc
    rw [List.foldl_cons, ih, escapedBytes_cons]
    by_cases h : isPCharSingle c = true ∨ c ∈ e.allow
    · have : ¬ e.shouldEscape c = true := fun hs => (shouldEscape_eq e c).1 hs h
      rw [if_neg this, if_pos h]
    · have : e.shouldEscape c = true := (shouldEscape_eq e c).2 h
      rw [if_pos this, if_neg h]
      simp only [List.length_cons]
      omega

theorem encodeRef_length (A : List Nat) (l : List Nat) :
    (encodeRef A l).length = l.length + 2 * (escapedBytes A l).length := by
  induction l with
  | nil => simp [encodeRef, escapedBytes]
  | cons c rest ih =>
    rw [escapedBytes_cons]
    by_cases h : isPCharSingle c = true ∨ c ∈ A
    · rw [encodeRef_keep A c rest h, if_pos h]
      simp only [List.length_cons, ih]
      omega
    · rw [encodeRef_escape A c rest h, if_neg h]
      simp only [List.length_cons, ih]
      omega

theorem encodeRef_id (A : List Nat) (l : List Nat) (h : (escapedBytes A l).length = 0) :
    encodeRef A l = l := by
  induction l with
  | nil => simp [encodeRef]
  | cons c rest ih =>
    rw [escapedBytes_cons] at h
    by_cases hk : isPCharSingle c = true ∨ c ∈ A
    · rw [if_pos hk] at h
      rw [encodeRef_keep A c rest hk, ih h]
    · rw [if_neg hk] at h
      simp at h

/-- What `(*Encoder).Encode` returns on every byte sequence. -/
theorem Encode_eq (e : Encoder) (d : List Nat) (hb : ∀ c ∈ d, c < 256) :
    e.Encode d = some (encodeRef e.Allowed d) := by
  unfold Encoder.Encode
  by_cases h0 : d.length = 0
  · rw [if_pos h0]
    have : d = [] := List.eq_nil_of_length_eq_zero h0
    subst this
    rfl
  · rw [if_neg h0]
    simp only
    have hsize : escaper.computeOutputSize { input := d, n := d.length, allow := e.Allowed }
        = d.length + 2 * (escapedBytes e.Allowed d).length := by
      unfold escaper.computeOutputSize
      exact computeOutputSize_fold _ d d.length
    rw [hsize]
    by_cases hz : d.length + 2 * (escapedBytes e.Allowed d).length = d.length
    · rw [if_pos hz, encodeRef_id e.Allowed d (by omega)]
    · rw [if_neg hz]
      unfold makeBytes escaper.Encode
      have hnn : ¬ (((d.length + 2 * (escapedBytes e.Allowed d).length : Nat) : Int) < 0) := by
        omega
      rw [if_neg hnn]
      simp only [Option.bind_eq_bind, Option.some_bind, Int.toNat_ofNat]
      have := EncodeLoop_eq
        { input := d, n := d.length, allow := e.Allowed,
          data := List.replicate (d.length + 2 * (escapedBytes e.Allowed d).length) 0 }
        rfl hb (d.length + 1) [] d [] (d.length + 2 * (escapedBytes e.Allowed d).length) 0 0
        rfl rfl rfl (by omega) (by simp only [encodeRef_length]; exact le_refl _)
      simp only [List.nil_append] at this
      rw [this]
      simp [encodeRef_length]

theorem EncodeComponent_eq (d : List Nat) (hb : ∀ c ∈ d, c < 256) :
    EncodeComponent d = some (encodeRef [47, 63] d) :=
  Encode_eq (NewEncoder [WithKeepUnescaped [47, 63]]) d hb

theorem EncodeNSS_eq (d : List Nat) (hb : ∀ c ∈ d, c < 256) :
    EncodeNSS d = some (encodeRef [47] d) :=
  Encode_eq (NewEncoder [WithKeepUnescaped [47]]) d hb

/-- C15. For every byte sequence `d` and every encoder with keep-unescaped set `A`,
`Encode(d)` is the concatenation over the bytes `c` of `d` of `c` itself when `c` is a pchar
or in `A`, and of `'%'` with the two uppercase hex digits of `c` (high nibble first)
otherwise; its length is `len(d)` plus twice the number of escaped bytes; `EncodeComponent`
keeps `'/'` and `'?'`, `EncodeNSS` keeps `'/'`. -/
theorem C15_encode_reference (e : Encoder) (d : List Nat) (hb : ∀ c ∈ d, c < 256) :
    e.Encode d = some (encodeRef e.Allowed d) ∧
    (encodeRef e.Allowed d).length = d.length + 2 * (escapedBytes e.Allowed d).length ∧
    EncodeComponent d = some (encodeRef [47, 63] d) ∧
    EncodeNSS d = some (encodeRef [47] d) ∧
    encodeRef e.Allowed [] = [] ∧
    (∀ c rest, isPCharSingle c = true ∨ c ∈ e.Allowed →
      encodeRef e.Allowed (c :: rest) = c :: encodeRef e.Allowed rest) ∧
    (∀ c rest, ¬ (isPCharSingle c = true ∨ c ∈ e.Allowed) →
      encodeRef e.Allowed (c :: rest)
        = 37 :: hexDigit (c / 16) :: hexDigit (c % 16) :: encodeRef e.Allowed rest) ∧
    (∀ k, k < 16 → (bytes "0123456789ABCDEF")[k]? = some (hexDigit k)) :=
  ⟨Encode_eq e d hb, encodeRef_length e.Allowed d, EncodeComponent_eq d hb, EncodeNSS_eq d hb,
    rfl, encodeRef_keep e.Allowed, encodeRef_escape e.Allowed, upperHex_get⟩

theorem C15_encode_reference_witness :
    (∀ c ∈ bytes "?a&b=1/", c < 256) ∧
    EncodeNSS (bytes "?a&b=1/") = some (bytes "%3Fa&b=1/") ∧
    EncodeComponent (bytes "?a&b=1/") = some (bytes "?a&b=1/") ∧
    Encoder.Encode { Allowed := [38] } [0, 255, 38, 32] = some (bytes "%00%FF&%20") :=
  ⟨by decide,
    (C15_encode_reference {} (bytes "?a&b=1/") (by decide)).2.2.2.1.trans (by decide),
    (C15_encode_reference {} (bytes "?a&b=1/") (by decide)).2.2.1.trans (by decide),
    (C15_encode_reference { Allowed := [38] } [0, 255, 38, 32] (by decide)).1.trans (by decide)⟩


/-! ## The codec: `Recode` -/

theorem hexDigit_spec (k : Nat) (h : k < 16) :
    isUpperHex (hexDigit k) = true ∧ hexValue (hexDigit k) = k ∧ isHex (hexDigit k) = true := by
  interval_cases k <;> decide

theorem decodeRef_lt : ∀ (n : Nat) (l : List Nat), l.length ≤ n → (∀ c ∈ l, c < 256) →
    ∀ c ∈ decodeRef l, c < 256 := by
  intro n
  induction n with
  | zero =>
    intro l hl _
    have : l = [] := List.eq_nil_of_length_eq_zero (by omega)
    subst this
    simp [decodeRef]
  | succ n ih =>
    intro l hl hb
    rcases l with _ | ⟨c, rest⟩
    · simp [decodeRef]
    · cases hp : pctAt (c :: rest)
      · rw [decodeRef_of_not_pctAt c rest hp]
        intro b hbm
        rcases List.mem_cons.1 hbm with rfl | hbm
        · exact hb b (by simp)
        · exact ih rest (by simp at hl; omega) (fun a ha => hb a (by simp [ha])) b hbm
      · obtain ⟨x, y, r, hr, hc, hx, hy, hdec⟩ := decodeRef_of_pctAt c rest hp
        rw [hdec]
        subst hr
        intro b hbm
        rcases List.mem_cons.1 hbm with rfl | hbm
        · have := (unhex_eq x hx).2
          have := (unhex_eq y hy).2
          omega
        · exact ih r (by simp at hl; omega) (fun a ha => hb a (by simp [ha])) b hbm

/-- The encoder's output has a triplet only for a byte it must escape, in uppercase. -/
theorem encodeRef_min (A : List Nat) (hA : 37 ∉ A) : ∀ (l : List Nat), (∀ c ∈ l, c < 256) →
    MinEscaped A (encodeRef A l) := by
  intro l
  induction l with
  | nil => intro _; exact MinEscaped.nil
  | cons c rest ih =>
    intro hb
    have hrest := ih (fun a ha => hb a (by simp [ha]))
    have hc : c < 256 := hb c (by simp)
    by_cases hk : isPCharSingle c = true ∨ c ∈ A
    · rw [encodeRef_keep A c rest hk]
      refine MinEscaped.lit c _ ?_ hrest
      rintro rfl
      rcases hk with hk | hk
      · exact absurd hk (by decide)
      · exact hA hk
    · rw [encodeRef_escape A c rest hk]
      have h1 := hexDigit_spec (c / 16) (by omega)
      have h2 := hexDigit_spec (c % 16) (by omega)
      have hv : 16 * hexValue (hexDigit (c / 16)) + hexValue (hexDigit (c % 16)) = c := by
        rw [h1.2.1, h2.2.1]
        omega
      exact MinEscaped.triplet _ _ _ h1.1 h2.1 (by rw [hv]; exact hk) hrest

theorem RecodeStringNSS_eq (s : List Nat) (hb : ∀ c ∈ s, c < 256) (hw : wellFormed s = true) :
    RecodeStringNSS s = some (encodeRef [47] (decodeRef s)) := by
  unfold RecodeStringNSS
  rw [Decode_eq, if_pos hw]
  exact EncodeNSS_eq _ (decodeRef_lt s.length s (le_refl _) hb)

theorem RecodeStringComponent_eq (s : List Nat) (hb : ∀ c ∈ s, c < 256)
    (hw : wellFormed s = true) :
    RecodeStringComponent s = some (encodeRef [47, 63] (decodeRef s)) := by
  unfold RecodeStringComponent
  rw [Decode_eq, if_pos hw]
  exact EncodeComponent_eq _ (decodeRef_lt s.length s (le_refl _) hb)

/-- C16. For every string in which every `'%'` is followed by two hex digits,
`RecodeStringNSS` and `RecodeStringComponent` return text that has a percent-triplet only
where the encoded byte is neither a pchar nor kept by that encoder (`'/'` for NSS, `'/'` and
`'?'` for Component), and every triplet uses uppercase hex digits. -/
theorem C16_recode_minimal (s : List Nat) (hb : ∀ c ∈ s, c < 256) (hw : wellFormed s = true) :
    (∃ t, RecodeStringNSS s = some t ∧ t = encodeRef [47] (decodeRef s) ∧ MinEscaped [47] t) ∧
    (∃ t, RecodeStringComponent s = some t ∧ t = encodeRef [47, 63] (decodeRef s) ∧
      MinEscaped [47, 63] t) :=
  ⟨⟨_, RecodeStringNSS_eq s hb hw, rfl,
      encodeRef_min [47] (by decide) _ (decodeRef_lt s.length s (le_refl _) hb)⟩,
    ⟨_, RecodeStringComponent_eq s hb hw, rfl,
      encodeRef_min [47, 63] (by decide) _ (decodeRef_lt s.length s (le_refl _) hb)⟩⟩

theorem C16_recode_minimal_witness :
    ((∀ c ∈ bytes "%32%33%34%3f", c < 256) ∧ wellFormed (bytes "%32%33%34%3f") = true) ∧
    RecodeStringNSS (bytes "%32%33%34%3f") = some (bytes "234%3F") ∧
    RecodeStringComponent (bytes "%32%33%34%3f") = some (bytes "234?") ∧
    RecodeStringComponent (bytes "ab%32c%61") = some (bytes "ab2ca") ∧
    MinEscaped [47] (bytes "234%3F") ∧ MinEscaped [47, 63] (bytes "234?") := by
  have h := C16_recode_minimal (bytes "%32%33%34%3f") (by decide) (by decide)
  obtain ⟨⟨t1, h1, e1, m1⟩, ⟨t2, h2, e2, m2⟩⟩ := h
  have e1b : t1 = bytes "234%3F" := e1.trans (by decide)
  have e2b : t2 = bytes "234?" := e2.trans (by decide)
  subst e1b
  subst e2b
  exact ⟨⟨by decide, by decide⟩, h1, h2, by decide, m1, m2⟩


/-! ## Encoded text as a part of a URN -/

/-- Every field of a parsed URN obeys the grammar of its part. -/
theorem parsed_grammatical (s : List Nat) (u : URN) (h : Parse s = some (some u, none)) :
    Grammatical u := by
  obtain ⟨l3, l4, l5, hok, hsch, hk, hnid, h0, hnss, -, hr, hq, hl6, hf, -, -, -⟩ :=
    parse_shape s u h
  obtain ⟨-, -, hlow⟩ := schemeOK_append s hok
  obtain ⟨hk2, hk32, -, hall, hfirst, hlast⟩ := nidLen_spec _ _ hk
  rw [← hnid] at hall hfirst hlast
  have hnssS : StartsWithItem u.NSS := by
    rw [hnss, ← compLen_eq_runLen .nss _ h0]; exact body_starts .nss _ h0
  have hnssT : Tokens nssByte u.NSS := by
    rw [hnss]; exact runLen_tokens .nss _
  have hrT : Tokens compByte u.Resolve := optPart_tokens _ _ _ _ _ hr
  have hqT : Tokens compByte u.Query := optPart_tokens _ _ _ _ _ hq
  have hfT : Tokens compByte u.Fragment := by rw [hf]; exact fragPart_tokens l5
  have hstop := stop_after_resolve _ l4 _ l5 hq hl6
  have hres : u.Resolve = [] ∨ (Tokens compByte u.Resolve ∧ StartsWithItem u.Resolve) := by
    rcases optPart_some _ _ _ _ _ hr with ⟨-, -, -, -, hs⟩ | ⟨-, hnil, -⟩
    · exact Or.inr ⟨hrT, hs⟩
    · exact Or.inl hnil
  have hqry : u.Query = [] ∨ (Tokens compByte u.Query ∧ StartsWithItem u.Query) := by
    rcases optPart_some _ _ _ _ _ hq with ⟨-, -, -, -, hs⟩ | ⟨-, hnil, -⟩
    · exact Or.inr ⟨hqT, hs⟩
    · exact Or.inl hnil
  have hnoqe : ¬ [63, 61] <:+: u.Resolve := by
    rcases optPart_some _ _ _ _ _ hr with ⟨-, -, hres, hrest, -⟩ | ⟨-, hres, -⟩
    · rw [hrest] at hstop
      have hup := resolve_upTo (l3.drop 2) hstop
      rw [← hres] at hup
      rw [hup]; exact upTo_no_qe _
    · rw [hres]; simp
  exact
    { scheme := (by rw [hsch]; exact hlow)
      nid_len := ⟨hk2, hk32⟩
      nid_bytes := hall
      nid_first := hfirst
      nid_last := hlast
      nss := ⟨hnssT, hnssS⟩
      resolve := hres
      resolve_no_qe := hnoqe
      query := hqry
      fragment := hfT
      force := (forceFragment_iff s u h).2 }

/-- The encoder's output is made of bytes it keeps and of `%XX` triplets. -/
theorem encodeRef_tokens (A : List Nat) (single : Nat → Bool)
    (hp : ∀ c, isPCharSingle c = true → single c = true) (hA : ∀ c ∈ A, single c = true) :
    ∀ (l : List Nat), (∀ c ∈ l, c < 256) → Tokens single (encodeRef A l) := by
  intro l
  induction l with
  | nil => intro _; exact Tokens.nil
  | cons c rest ih =>
    intro hb
    have hrest := ih (fun a ha => hb a (by simp [ha]))
    have hc : c < 256 := hb c (by simp)
    by_cases hk : isPCharSingle c = true ∨ c ∈ A
    · rw [encodeRef_keep A c rest hk]
      exact Tokens.byte c _ (hk.elim (hp c) (hA c)) hrest
    · rw [encodeRef_escape A c rest hk]
      exact Tokens.triplet _ _ _ (hexDigit_spec (c / 16) (by omega)).2.2
        (hexDigit_spec (c % 16) (by omega)).2.2 hrest

/-- The encoder's output begins with a pchar or a triplet unless the input begins with a
byte of the keep-unescaped set. -/
theorem encodeRef_starts (A : List Nat) (hA : ∀ c ∈ A, isPCharSingle c = false ∧ c ≠ 37)
    (c : Nat) (rest : List Nat) (hc : c < 256) :
    StartsWithItem (encodeRef A (c :: rest)) ↔ c ∉ A := by
  by_cases hk : isPCharSingle c = true ∨ c ∈ A
  · rw [encodeRef_keep A c rest hk]
    constructor
    · rintro ⟨c2, r2, he, hor⟩ hmem
      simp only [List.cons.injEq] at he
      obtain ⟨rfl, -⟩ := he
      rcases hor with h1 | ⟨h37, -⟩
      · rw [(hA c hmem).1] at h1
        exact absurd h1 (by simp)
      · exact (hA c hmem).2 h37
    · intro hmem
      rcases hk with h1 | h1
      · exact ⟨c, _, rfl, Or.inl h1⟩
      · exact absurd h1 hmem
  · rw [encodeRef_escape A c rest hk]
    constructor
    · intro _ hmem
      exact hk (Or.inr hmem)
    · intro _
      exact ⟨37, _, rfl, Or.inr ⟨rfl, _, _, _, rfl, (hexDigit_spec (c / 16) (by omega)).2.2,
        (hexDigit_spec (c % 16) (by omega)).2.2⟩⟩

theorem encodeRef_head (A : List Nat) (c : Nat) (rest : List Nat) (hc : c ∈ A) :
    (encodeRef A (c :: rest)).head? = some c := by
  rw [encodeRef_keep A c rest (Or.inr hc)]
  rfl

/-- A value with scheme `urn` and NID `ab` is grammatical when its other parts are. -/
theorem grammatical_ab (nss r q f : List Nat) (ff : Bool)
    (hnss : Tokens nssByte nss ∧ StartsWithItem nss)
    (hr : r = [] ∨ (Tokens compByte r ∧ StartsWithItem r)) (hqe : ¬ [63, 61] <:+: r)
    (hq : q = [] ∨ (Tokens compByte q ∧ StartsWithItem q)) (hf : Tokens compByte f)
    (hff : ff = true → f = []) :
    Grammatical { Scheme := bytes "urn", NID := bytes "ab", NSS := nss, Resolve := r,
                  Query := q, Fragment := f, ForceFragment := ff } :=
  { scheme := rfl
    nid_len := (show 2 ≤ (bytes "ab").length ∧ (bytes "ab").length ≤ 32 by decide)
    nid_bytes := (show ∀ c ∈ bytes "ab", isAlphaNum c = true ∨ c = 45 by decide)
    nid_first := ⟨97, rfl, by decide⟩
    nid_last := ⟨98, rfl, by decide⟩
    nss := hnss
    resolve := hr
    resolve_no_qe := hqe
    query := hq
    fragment := hf
    force := hff }

/-- C17. `EncodeStringNSS` keeps a leading `'/'`, which no NSS may begin with: the encoded
`"/"` is `"/"` and `"urn:ab:/"` is rejected with `ErrInvalidNSS`; on every non-empty `d` the
encoded text parses back as the NSS exactly when `d` does not begin with `'/'`. -/
theorem C17_encode_nss_leading_slash :
    EncodeStringNSS (bytes "/") = some (bytes "/") ∧
    (Parse (bytes "urn:ab:" ++ bytes "/")).map (fun r => (r.1, r.2.map Error.Err))
      = some (none, some ErrInvalidNSS) ∧
    (∀ d : List Nat, d ≠ [] → (∀ c ∈ d, c < 256) →
      ∃ e, EncodeStringNSS d = some e ∧
        ((∃ u, Parse (bytes "urn:ab:" ++ e) = some (some u, none) ∧ u.NSS = e)
          ↔ d.head? ≠ some 47)) := by
  refine ⟨by decide, by decide, ?_⟩
  intro d hne hb
  refine ⟨encodeRef [47] d, EncodeNSS_eq d hb, ?_⟩
  rcases d with _ | ⟨c, rest⟩
  · exact absurd rfl hne
  have hc : c < 256 := hb c (by simp)
  have hstart := encodeRef_starts [47] (by decide) c rest hc
  constructor
  · rintro ⟨u, hu, hnss⟩ hhead
    have hg := parsed_grammatical _ u hu
    have hs := hg.nss.2
    rw [hnss, hstart] at hs
    simp at hhead
    exact hs (by simp [hhead])
  · intro hhead
    have hnot : c ∉ [47] := by
      simp at hhead
      simpa using hhead
    have hg := grammatical_ab (encodeRef [47] (c :: rest)) [] [] [] false
      ⟨encodeRef_tokens [47] nssByte (fun c h => by simp [nssByte, h]) (by decide) _ hb,
        hstart.2 hnot⟩ (Or.inl rfl) (by simp) (Or.inl rfl) Tokens.nil (by simp)
    have hp := Parse_String _ hg
    rw [String_eq] at hp
    simp only [ne_eq, not_true_eq_false, if_false, List.nil_append, Bool.false_eq_true,
      or_self, List.append_nil] at hp
    exact ⟨_, hp, rfl⟩


theorem encodeRef_ne_nil (A : List Nat) (d : List Nat) (h : d ≠ []) : encodeRef A d ≠ [] := by
  rcases d with _ | ⟨c, rest⟩
  · exact absurd rfl h
  · by_cases hk : isPCharSingle c = true ∨ c ∈ A
    · rw [encodeRef_keep A c rest hk]; simp
    · rw [encodeRef_escape A c rest hk]; simp

theorem encodeRef_head_eq (A : List Nat) (d : List Nat) :
    (encodeRef A d).head? = some 61 ↔ d.head? = some 61 := by
  rcases d with _ | ⟨c, rest⟩
  · simp [encodeRef]
  · by_cases hk : isPCharSingle c = true ∨ c ∈ A
    · rw [encodeRef_keep A c rest hk]; simp
    · rw [encodeRef_escape A c rest hk]
      simp only [List.head?_cons, Option.some.injEq]
      constructor
      · intro h; exact absurd h (by decide)
      · rintro rfl
        exact absurd (Or.inl (by decide)) hk

theorem qe_prefix_iff (c : Nat) (l : List Nat) :
    [63, 61] <+: c :: l ↔ c = 63 ∧ l.head? = some 61 := by
  rw [List.cons_prefix_cons]
  rcases l with _ | ⟨x, r⟩
  · simp
  · rw [List.cons_prefix_cons]
    simp [eq_comm]

/-- The encoded text contains `"?="` exactly when the input does, the encoder keeping `'?'`. -/
theorem encodeRef_qe (A : List Nat) (hA : 63 ∈ A) : ∀ (d : List Nat), (∀ c ∈ d, c < 256) →
    ([63, 61] <:+: encodeRef A d ↔ [63, 61] <:+: d) := by
  intro d
  induction d with
  | nil => intro _; simp [encodeRef]
  | cons c rest ih =>
    intro hb
    have hrest := ih (fun a ha => hb a (by simp [ha]))
    have hc : c < 256 := hb c (by simp)
    by_cases hk : isPCharSingle c = true ∨ c ∈ A
    · rw [encodeRef_keep A c rest hk, List.infix_cons_iff, List.infix_cons_iff, hrest,
        qe_prefix_iff, qe_prefix_iff, encodeRef_head_eq]
    · rw [encodeRef_escape A c rest hk, List.infix_cons_iff, List.infix_cons_iff,
        List.infix_cons_iff, List.infix_cons_iff, hrest, qe_prefix_iff, qe_prefix_iff,
        qe_prefix_iff, qe_prefix_iff]
      have h1 := (hexDigit_spec (c / 16) (by omega)).2.2
      have h2 := (hexDigit_spec (c % 16) (by omega)).2.2
      have hc63 : c ≠ 63 := by
        rintro rfl
        exact hk (Or.inr hA)
      have hx : hexDigit (c / 16) ≠ 63 := (isHex_ne _ h1).2.1
      have hy : hexDigit (c % 16) ≠ 63 := (isHex_ne _ h2).2.1
      simp [hc63, hx, hy]

/-- C18 as stated fails on the input of the repository's own test: the encoded `"?a&b=1/"`
is `"?a&b=1/"`, which is rejected after `"?+"` and after `"?="`; and the encoded `"a?=b"` is
`"a?=b"`, which after `"?+"` is read as Resolve `"a"` and Query `"b"`. -/
theorem C18_counterexample :
    bytes "?a&b=1/" ≠ [] ∧
    EncodeStringComponent (bytes "?a&b=1/") = some (bytes "?a&b=1/") ∧
    (Parse (bytes "urn:ab:c?+" ++ bytes "?a&b=1/")).map (fun r => (r.1, r.2.map Error.Err))
      = some (none, some ErrInvalidResolve) ∧
    (Parse (bytes "urn:ab:c?=" ++ bytes "?a&b=1/")).map (fun r => (r.1, r.2.map Error.Err))
      = some (none, some ErrInvalidQuery) ∧
    EncodeStringComponent (bytes "a?=b") = some (bytes "a?=b") ∧
    Parse (bytes "urn:ab:c?+" ++ bytes "a?=b")
      = some (some { Scheme := bytes "urn", NID := bytes "ab", NSS := bytes "c",
                     Resolve := bytes "a", Query := bytes "b" }, none) ∧
    bytes "a" ≠ bytes "a?=b" := by
  refine ⟨by decide, by decide, by decide, by decide, by decide, by decide, by decide⟩

/-- C18 (amended). For every non-empty `d`, with `e = EncodeStringComponent(d)`: after
`"#"` the text `e` is read back as the Fragment; after `"?="` it is read back as the Query
exactly when `d` does not begin with `'/'` or `'?'`; after `"?+"` it is read back as the
Resolve exactly when moreover `d` does not contain `"?="`. -/
theorem C18_encode_component_suitable (d : List Nat) (hne : d ≠ []) (hb : ∀ c ∈ d, c < 256) :
    ∃ e, EncodeStringComponent d = some e ∧
      (∃ u, Parse (bytes "urn:ab:c#" ++ e) = some (some u, none) ∧ u.Fragment = e) ∧
      ((∃ u, Parse (bytes "urn:ab:c?=" ++ e) = some (some u, none) ∧ u.Query = e)
        ↔ d.head? ≠ some 47 ∧ d.head? ≠ some 63) ∧
      ((∃ u, Parse (bytes "urn:ab:c?+" ++ e) = some (some u, none) ∧ u.Resolve = e)
        ↔ d.head? ≠ some 47 ∧ d.head? ≠ some 63 ∧ ¬ [63, 61] <:+: d) := by
  refine ⟨encodeRef [47, 63] d, EncodeComponent_eq d hb, ?_⟩
  have hT : Tokens compByte (encodeRef [47, 63] d) :=
    encodeRef_tokens [47, 63] compByte (fun c h => by simp [compByte, h]) (by decide) d hb
  have heNe : encodeRef [47, 63] d ≠ [] := encodeRef_ne_nil _ d hne
  have hqe := encodeRef_qe [47, 63] (by decide) d hb
  have hnssC : Tokens nssByte (bytes "c") ∧ StartsWithItem (bytes "c") :=
    ⟨Tokens.byte 99 [] (by decide) Tokens.nil, ⟨99, [], rfl, Or.inl (by decide)⟩⟩
  rcases d with _ | ⟨c, rest⟩
  · exact absurd rfl hne
  have hc : c < 256 := hb c (by simp)
  have hstart := encodeRef_starts [47, 63] (by decide) c rest hc
  have hhead : c ∉ [47, 63] ↔
      (c :: rest).head? ≠ some 47 ∧ (c :: rest).head? ≠ some 63 := by
    simp
  refine ⟨?_, ?_, ?_⟩
  · have hg := grammatical_ab (bytes "c") [] [] (encodeRef [47, 63] (c :: rest)) false
      hnssC (Or.inl rfl) (by simp) (Or.inl rfl) hT (by simp)
    have hp := Parse_String _ hg
    rw [String_eq] at hp
    simp only [ne_eq, not_true_eq_false, if_false, List.nil_append, heNe, not_false_eq_true,
      true_or, if_true] at hp
    exact ⟨_, hp, rfl⟩
  · constructor
    · rintro ⟨u, hu, hq⟩
      have hg := parsed_grammatical _ u hu
      rcases hg.query with h0 | ⟨-, hs⟩
      · rw [hq] at h0
        exact absurd h0 heNe
      · rw [hq, hstart] at hs
        exact hhead.1 hs
    · intro hh
      have hg := grammatical_ab (bytes "c") [] (encodeRef [47, 63] (c :: rest)) [] false
        hnssC (Or.inl rfl) (by simp) (Or.inr ⟨hT, hstart.2 (hhead.2 hh)⟩) Tokens.nil (by simp)
      have hp := Parse_String _ hg
      rw [String_eq] at hp
      simp only [ne_eq, not_true_eq_false, if_false, List.nil_append, heNe, not_false_eq_true,
        if_true, Bool.false_eq_true, or_self, List.append_nil] at hp
      exact ⟨_, hp, rfl⟩
  · constructor
    · rintro ⟨u, hu, hr⟩
      have hg := parsed_grammatical _ u hu
      have hno := hg.resolve_no_qe
      rw [hr, hqe] at hno
      rcases hg.resolve with h0 | ⟨-, hs⟩
      · rw [hr] at h0
        exact absurd h0 heNe
      · rw [hr, hstart] at hs
        exact ⟨(hhead.1 hs).1, (hhead.1 hs).2, hno⟩
    · rintro ⟨h1, h2, h3⟩
      have hg := grammatical_ab (bytes "c") (encodeRef [47, 63] (c :: rest)) [] [] false
        hnssC (Or.inr ⟨hT, hstart.2 (hhead.2 ⟨h1, h2⟩)⟩) (by rw [hqe]; exact h3) (Or.inl rfl)
        Tokens.nil (by simp)
      have hp := Parse_String _ hg
      rw [String_eq] at hp
      simp only [ne_eq, not_true_eq_false, if_false, List.nil_append, heNe, not_false_eq_true,
        if_true, Bool.false_eq_true, or_self, List.append_nil] at hp
      exact ⟨_, hp, rfl⟩

theorem C18_encode_component_suitable_witness :
    (bytes "a?b/%" ≠ [] ∧ ∀ c ∈ bytes "a?b/%", c < 256) ∧
    EncodeStringComponent (bytes "a?b/%") = some (bytes "a?b/%25") ∧
    (∃ u, Parse (bytes "urn:ab:c#" ++ bytes "a?b/%25") = some (some u, none) ∧
      u.Fragment = bytes "a?b/%25") ∧
    (∃ u, Parse (bytes "urn:ab:c?=" ++ bytes "a?b/%25") = some (some u, none) ∧
      u.Query = bytes "a?b/%25") ∧
    (∃ u, Parse (bytes "urn:ab:c?+" ++ bytes "a?b/%25") = some (some u, none) ∧
      u.Resolve = bytes "a?b/%25") := by
  obtain ⟨e, he, hf, hq, hr⟩ :=
    C18_encode_component_suitable (bytes "a?b/%") (by decide) (by decide)
  have x : e = bytes "a?b/%25" := Option.some.inj (he.symm.trans (by decide))
  subst x
  exact ⟨⟨by decide, by decide⟩, he, hf, hq.2 (by decide), hr.2 (by decide)⟩


/-! ## Normalization -/

theorem upperTriplets_cons_ne (c : Nat) (rest : List Nat) (h : c ≠ 37) :
    upperTriplets (c :: rest) = c :: upperTriplets rest := by
  rcases rest with _ | ⟨x, _ | ⟨y, r⟩⟩ <;> simp [upperTriplets, h]

theorem upperTriplets_triplet (x y : Nat) (r : List Nat) (hx : isHex x = true)
    (hy : isHex y = true) :
    upperTriplets (37 :: x :: y :: r) = 37 :: upperByte x :: upperByte y :: upperTriplets r := by
  simp [upperTriplets, hx, hy]

theorem compByte_lt (c : Nat) (h : compByte c = true) : c < 128 ∧ c ≠ 37 := by
  constructor
  · by_contra hc
    have hge : 128 ≤ c := by omega
    revert h
    unfold compByte isPCharSingle isUnreserved isSubDelim isAlpha isDigit
    have e1 : ¬ (65 ≤ c ∧ c ≤ 90) := by omega
    have e2 : ¬ (97 ≤ c ∧ c ≤ 122) := by omega
    have e3 : ¬ (c ≤ 57) := by omega
    have e4 : ¬ (c = 45 ∨ c = 46 ∨ c = 95 ∨ c = 126) := by omega
    have e5 : ¬ (c = 33 ∨ c = 36 ∨ c = 38 ∨ c = 39 ∨ c = 40 ∨ c = 41 ∨ c = 42 ∨ c = 43 ∨
        c = 44 ∨ c = 59 ∨ c = 61) := by omega
    have e6 : c ≠ 58 := by omega
    have e7 : c ≠ 64 := by omega
    have e8 : c ≠ 47 := by omega
    have e9 : c ≠ 63 := by omega
    simp [e1, e2, e3, e4, e5, e6, e7, e8, e9]
  · rintro rfl
    exact absurd h (by decide)

theorem isHex_upper (c : Nat) (h : isHex c = true) :
    c < 128 ∧ isHex (upperByte c) = true ∧ compByte (upperByte c) = true ∧
      isUpperHex (upperByte c) = true := by
  have hc : c < 128 := by
    unfold isHex at h
    by_contra hc
    have e1 : ¬ (48 ≤ c ∧ c ≤ 57) := by omega
    have e2 : ¬ (65 ≤ c ∧ c ≤ 70) := by omega
    have e3 : ¬ (97 ≤ c ∧ c ≤ 102) := by omega
    simp [e1, e2, e3] at h
  refine ⟨hc, ?_⟩
  revert h
  interval_cases c <;> decide

theorem upperTriplets_length : ∀ (n : Nat) (l : List Nat), l.length ≤ n →
    (upperTriplets l).length = l.length := by
  intro n
  induction n with
  | zero =>
    intro l hl
    have : l = [] := List.eq_nil_of_length_eq_zero (by omega)
    subst this
    rfl
  | succ n ih =>
    intro l hl
    rcases l with _ | ⟨c, _ | ⟨x, _ | ⟨y, r⟩⟩⟩
    · rfl
    · rfl
    · simp [upperTriplets]
    · simp only [upperTriplets]
      split
      · simp only [List.length_cons, Nat.add_right_cancel_iff]
        exact ih r (by simp at hl; omega)
      · simp only [List.length_cons, Nat.add_right_cancel_iff]
        have := ih (x :: y :: r) (by simp at hl ⊢; omega)
        simpa using this

theorem upperTriplets_id (l : List Nat) (h : 37 ∉ l) : upperTriplets l = l := by
  induction l with
  | nil => rfl
  | cons c rest ih =>
    have hc : c ≠ 37 := by
      rintro rfl
      exact h (by simp)
    rw [upperTriplets_cons_ne c rest hc, ih (fun hm => h (by simp [hm]))]

theorem setByte_mid (pre : List Nat) (a : Nat) (rest : List Nat) (v pos : Nat)
    (h : pos = pre.length) : setByte (pre ++ a :: rest) pos v = some (pre ++ v :: rest) := by
  subst h
  unfold setByte
  simp

/-- The loop of `normalizePercentEncoding` from any position, on text made of single bytes
and triplets: the rest of the text gets its triplets in uppercase. -/
theorem normalizePercentEncodingLoop_eq (uc : UnicodeCase) (n : Nat) :
    ∀ (fuel : Nat) (pre suf : List Nat) (i : Nat),
    n = (pre ++ suf).length → i = pre.length → Tokens compByte suf → suf.length < fuel →
    normalizePercentEncodingLoop uc n fuel i (pre ++ suf) = some (pre ++ upperTriplets suf) := by
  intro fuel
  induction fuel with
  | zero => intro pre suf i _ _ _ h; omega
  | succ fuel ih =>
    intro pre suf i hn hi ht hf
    unfold normalizePercentEncodingLoop
    cases ht with
    | nil =>
      have : ¬ i < n := by rw [hn, hi]; simp
      rw [if_neg this]
      rfl
    | byte c l hc hl =>
      have hlt : i < n := by rw [hn, hi]; simp
      rw [if_pos hlt]
      have h0 : (pre ++ c :: l)[i]? = some c := by rw [hi]; exact getElem?_mid pre c l
      have hc37 := (compByte_lt c hc).2
      rw [h0]
      simp only [Option.bind_eq_bind, Option.some_bind]
      have hne : (c != 37) = true := by simp [hc37]
      rw [if_pos hne]
      have := ih (pre ++ [c]) l (i + 1) (by rw [hn]; simp) (by simp [hi]) hl
        (by simp at hf; omega)
      simp only [List.append_assoc, List.singleton_append] at this
      rw [this, upperTriplets_cons_ne c l hc37]
    | triplet x y l hx hy hl =>
      have hlt : i < n := by rw [hn, hi]; simp
      rw [if_pos hlt]
      have h0 : (pre ++ 37 :: x :: y :: l)[i]? = some 37 := by
        rw [hi]; exact getElem?_mid pre 37 _
      rw [h0]
      simp only [Option.bind_eq_bind, Option.some_bind]
      have hne : ¬ ((37 != 37) = true) := by simp
      rw [if_neg hne]
      have hge : ¬ (i + 2 ≥ n) := by rw [hn, hi]; simp
      rw [if_neg hge]
      have hsl : slice (pre ++ 37 :: x :: y :: l) (i + 1) (i + 3) = some [x, y] := by
        have := slice_drop (pre ++ 37 :: x :: y :: l) (i + 1) 2
          (by rw [hi]; simp only [List.length_append, List.length_cons]; omega)
        rw [this, hi]
        have e : pre ++ 37 :: x :: y :: l = (pre ++ [37]) ++ (x :: y :: l) := by simp
        have hl2 : (pre ++ [37]).length = pre.length + 1 := by simp
        rw [e, ← hl2, List.drop_left]
        rfl
      rw [hsl]
      simp only [Option.some_bind]
      have hux := isHex_upper x hx
      have huy := isHex_upper y hy
      have hup : bytesToUpper uc [x, y] = [upperByte x, upperByte y] := by
        unfold bytesToUpper
        have : ([x, y].all fun c => decide (c < 128)) = true := by
          simp [hux.1, huy.1]
        rw [if_pos this]
        rfl
      rw [hup]
      simp only [List.getElem?_cons_zero, List.getElem?_cons_succ, Option.some_bind]
      have e1 : pre ++ 37 :: x :: y :: l = (pre ++ [37]) ++ x :: (y :: l) := by simp
      rw [e1, setByte_mid (pre ++ [37]) x (y :: l) (upperByte x) (i + 1) (by simp [hi])]
      simp only [Option.some_bind]
      have e2 : (pre ++ [37]) ++ upperByte x :: (y :: l)
          = (pre ++ [37, upperByte x]) ++ y :: l := by simp
      rw [e2, setByte_mid (pre ++ [37, upperByte x]) y l (upperByte y) (i + 2) (by simp [hi])]
      simp only [Option.some_bind]
      have := ih (pre ++ [37, upperByte x]) (upperByte y :: l) (i + 2) (by rw [hn]; simp)
        (by simp [hi]) (Tokens.byte _ l huy.2.2.1 hl) (by simp at hf ⊢; omega)
      rw [this, upperTriplets_triplet x y l hx hy,
        upperTriplets_cons_ne _ l (compByte_lt _ huy.2.2.1).2]
      simp

theorem normalizePercentEncoding_eq (uc : UnicodeCase) (s : List Nat) (ht : Tokens compByte s) :
    normalizePercentEncoding uc s = some (upperTriplets s) := by
  unfold normalizePercentEncoding
  by_cases hc : s.contains 37 = true
  · rw [if_neg (not_not.mpr hc)]
    have := normalizePercentEncodingLoop_eq uc s.length (s.length + 1) [] s 0 rfl rfl ht
      (by omega)
    simpa using this
  · rw [if_pos hc]
    rw [upperTriplets_id s (by simpa using hc)]


theorem stringsToLower_ascii (uc : UnicodeCase) (s : List Nat) (h : ∀ c ∈ s, c < 128) :
    stringsToLower uc s = s.map lowerByte := by
  unfold stringsToLower
  have : (s.all fun c => decide (c < 128)) = true := by
    rw [List.all_eq_true]
    intro c hc
    simpa using h c hc
  rw [if_pos this]
  rfl

theorem lowerByte_ge (c : Nat) : c ≤ lowerByte c := by
  unfold lowerByte
  split <;> omega

theorem grammatical_ascii (u : URN) (hg : Grammatical u) :
    (∀ c ∈ u.Scheme, c < 128) ∧ (∀ c ∈ u.NID, c < 128) := by
  constructor
  · intro c hc
    have hm : lowerByte c ∈ u.Scheme.map lowerByte := List.mem_map_of_mem _ hc
    rw [hg.scheme] at hm
    have hle : lowerByte c ≤ 117 := by
      have : lowerByte c = 117 ∨ lowerByte c = 114 ∨ lowerByte c = 110 := by
        simpa [bytes] using hm
      omega
    have := lowerByte_ge c
    omega
  · intro c hc
    rcases hg.nid_bytes c hc with h | h
    · by_contra hge
      revert h
      unfold isAlphaNum isAlpha isDigit
      have e1 : ¬ (65 ≤ c ∧ c ≤ 90) := by omega
      have e2 : ¬ (97 ≤ c ∧ c ≤ 122) := by omega
      have e3 : ¬ (c ≤ 57) := by omega
      simp [e1, e2, e3]
    · omega

/-- What `Normalize` leaves in a URN whose fields obey the grammar. -/
theorem Normalize_eq (uc : UnicodeCase) (u : URN) (hg : Grammatical u) :
    u.Normalize uc = some
      { Scheme := u.Scheme.map lowerByte, NID := u.NID.map lowerByte,
        NSS := upperTriplets u.NSS, Resolve := upperTriplets u.Resolve,
        Query := upperTriplets u.Query, Fragment := upperTriplets u.Fragment,
        ForceFragment := u.ForceFragment, normalized := true } := by
  obtain ⟨hs, hn⟩ := grammatical_ascii u hg
  have hr : Tokens compByte u.Resolve := by
    rcases hg.resolve with h | h
    · rw [h]; exact Tokens.nil
    · exact h.1
  have hq : Tokens compByte u.Query := by
    rcases hg.query with h | h
    · rw [h]; exact Tokens.nil
    · exact h.1
  unfold URN.Normalize
  simp only [Option.bind_eq_bind, stringsToLower_ascii uc _ hs, stringsToLower_ascii uc _ hn,
    normalizePercentEncoding_eq uc _ (Tokens.mono nssByte_compByte hg.nss.1),
    normalizePercentEncoding_eq uc _ hr, normalizePercentEncoding_eq uc _ hq,
    normalizePercentEncoding_eq uc _ hg.fragment, Option.some_bind]
  rfl

/-- C19. For every URN produced by `Parse`, `Normalize` returns, replaces Scheme and NID by
their lowercase forms and each of NSS, Resolve, Query and Fragment by the same text with the
two hex digits of every percent-triplet in uppercase (same length, nothing decoded, other
bytes as they are), keeps ForceFragment and makes `IsNormalized()` true. -/
theorem C19_normalize_case (uc : UnicodeCase) (s : List Nat) (u : URN)
    (h : Parse s = some (some u, none)) :
    ∃ v, u.Normalize uc = some v ∧
      v.Scheme = u.Scheme.map lowerByte ∧ v.NID = u.NID.map lowerByte ∧
      v.NSS = upperTriplets u.NSS ∧ v.Resolve = upperTriplets u.Resolve ∧
      v.Query = upperTriplets u.Query ∧ v.Fragment = upperTriplets u.Fragment ∧
      (v.NSS.length = u.NSS.length ∧ v.Resolve.length = u.Resolve.length ∧
        v.Query.length = u.Query.length ∧ v.Fragment.length = u.Fragment.length) ∧
      v.ForceFragment = u.ForceFragment ∧ v.IsNormalized = true ∧
      (∀ c rest, c ≠ 37 → upperTriplets (c :: rest) = c :: upperTriplets rest) ∧
      (∀ x y rest, isHex x = true → isHex y = true →
        upperTriplets (37 :: x :: y :: rest)
          = 37 :: upperByte x :: upperByte y :: upperTriplets rest) ∧
      upperTriplets [] = [] :=
  ⟨_, Normalize_eq uc u (parsed_grammatical s u h), rfl, rfl, rfl, rfl, rfl, rfl,
    ⟨upperTriplets_length _ _ (le_refl _), upperTriplets_length _ _ (le_refl _),
      upperTriplets_length _ _ (le_refl _), upperTriplets_length _ _ (le_refl _)⟩,
    rfl, rfl, upperTriplets_cons_ne, upperTriplets_triplet, rfl⟩

theorem C19_normalize_case_witness :
    Parse (bytes "Urn:Xx:abc%1Dz%2F%3az?+r%aa#F%fb") =
      some (some { Scheme := bytes "Urn", NID := bytes "Xx", NSS := bytes "abc%1Dz%2F%3az",
                   Resolve := bytes "r%aa", Fragment := bytes "F%fb" }, none) ∧
    ∃ v, URN.Normalize ⟨id, id⟩
        { Scheme := bytes "Urn", NID := bytes "Xx", NSS := bytes "abc%1Dz%2F%3az",
          Resolve := bytes "r%aa", Fragment := bytes "F%fb" } = some v ∧
      v.Scheme = bytes "urn" ∧ v.NID = bytes "xx" ∧ v.NSS = bytes "abc%1Dz%2F%3Az" ∧
      v.Resolve = bytes "r%AA" ∧ v.Query = [] ∧ v.Fragment = bytes "F%FB" := by
  obtain ⟨v, hv, h1, h2, h3, h4, h5, h6, -⟩ :=
    C19_normalize_case ⟨id, id⟩ (bytes "Urn:Xx:abc%1Dz%2F%3az?+r%aa#F%fb")
      { Scheme := bytes "Urn", NID := bytes "Xx", NSS := bytes "abc%1Dz%2F%3az",
        Resolve := bytes "r%aa", Fragment := bytes "F%fb" } (by decide)
  exact ⟨by decide, v, hv, h1.trans (by decide), h2.trans (by decide), h3.trans (by decide),
    h4.trans (by decide), h5.trans (by decide), h6.trans (by decide)⟩


theorem tokens_wellFormed {l : List Nat} (h : Tokens compByte l) :
    wellFormed l = true ∧ ∀ c ∈ l, c < 256 := by
  induction h with
  | nil => exact ⟨rfl, by simp⟩
  | byte c l hc _ ih =>
    obtain ⟨hlt, h37⟩ := compByte_lt c hc
    refine ⟨?_, ?_⟩
    · simp [wellFormed, h37, ih.1]
    · intro a ha
      rcases List.mem_cons.1 ha with rfl | ha
      · omega
      · exact ih.2 a ha
  | triplet h1 h2 l hh1 hh2 _ ih =>
    refine ⟨?_, ?_⟩
    · have : wellFormed (37 :: h1 :: h2 :: l) = wellFormed (h1 :: h2 :: l) := by
        simp [wellFormed, hh1, hh2]
      rw [this, wellFormed_hex h1 _ hh1, wellFormed_hex h2 _ hh2]
      exact ih.1
    · intro a ha
      have b1 := (isHex_upper h1 hh1).1
      have b2 := (isHex_upper h2 hh2).1
      simp only [List.mem_cons] at ha
      rcases ha with rfl | rfl | rfl | ha
      · omega
      · omega
      · omega
      · exact ih.2 a ha

/-- What `EncodingNormalize` leaves in a URN whose fields obey the grammar: every field is
decoded and encoded again. -/
theorem EncodingNormalize_eq (uc : UnicodeCase) (u : URN) (hg : Grammatical u) :
    u.EncodingNormalize uc = some
      { Scheme := u.Scheme.map lowerByte, NID := u.NID.map lowerByte,
        NSS := encodeRef [47] (decodeRef u.NSS),
        Resolve := encodeRef [47, 63] (decodeRef u.Resolve),
        Query := encodeRef [47, 63] (decodeRef u.Query),
        Fragment := encodeRef [47, 63] (decodeRef u.Fragment),
        ForceFragment := u.ForceFragment, normalized := true } := by
  obtain ⟨hs, hn⟩ := grammatical_ascii u hg
  have hr : Tokens compByte u.Resolve := by
    rcases hg.resolve with h | h
    · rw [h]; exact Tokens.nil
    · exact h.1
  have hq : Tokens compByte u.Query := by
    rcases hg.query with h | h
    · rw [h]; exact Tokens.nil
    · exact h.1
  have wn := tokens_wellFormed (Tokens.mono nssByte_compByte hg.nss.1)
  have wr := tokens_wellFormed hr
  have wq := tokens_wellFormed hq
  have wf := tokens_wellFormed hg.fragment
  unfold URN.EncodingNormalize
  simp only [Option.bind_eq_bind, stringsToLower_ascii uc _ hs, stringsToLower_ascii uc _ hn,
    RecodeStringNSS_eq _ wn.2 wn.1, RecodeStringComponent_eq _ wr.2 wr.1,
    RecodeStringComponent_eq _ wq.2 wq.1, RecodeStringComponent_eq _ wf.2 wf.1,
    Option.some_bind]
  rfl

theorem decodeKept_cons_ne (A : List Nat) (c : Nat) (rest : List Nat) (h : c ≠ 37) :
    decodeKept A (c :: rest) = c :: decodeKept A rest := by
  rcases rest with _ | ⟨x, _ | ⟨y, r⟩⟩ <;> simp [decodeKept, h]

theorem decodeKept_decoded (A : List Nat) (x y : Nat) (r : List Nat) (hx : isHex x = true)
    (hy : isHex y = true)
    (hk : isPCharSingle (16 * hexValue x + hexValue y) = true ∨
      16 * hexValue x + hexValue y ∈ A) :
    decodeKept A (37 :: x :: y :: r) = (16 * hexValue x + hexValue y) :: decodeKept A r := by
  simp only [decodeKept]
  rw [if_pos ⟨trivial, hx, hy⟩, if_pos hk]

theorem decodeKept_kept (A : List Nat) (x y : Nat) (r : List Nat) (hx : isHex x = true)
    (hy : isHex y = true)
    (hk : ¬ (isPCharSingle (16 * hexValue x + hexValue y) = true ∨
      16 * hexValue x + hexValue y ∈ A)) :
    decodeKept A (37 :: x :: y :: r) = 37 :: upperByte x :: upperByte y :: decodeKept A r := by
  simp only [decodeKept]
  rw [if_pos ⟨trivial, hx, hy⟩, if_neg hk]

theorem hexDigit_hexValue (c : Nat) (h : isHex c = true) :
    hexDigit (hexValue c) = upperByte c := by
  have hc := (isHex_upper c h).1
  revert h
  interval_cases c <;> decide

/-- Decoding text made of single bytes the encoder keeps and of triplets, and encoding the
result, replaces exactly the triplets of bytes the encoder keeps and uppercases the rest. -/
theorem recode_eq_decodeKept (A : List Nat) (single : Nat → Bool)
    (hs : ∀ c, single c = true → (isPCharSingle c = true ∨ c ∈ A) ∧ c ≠ 37) {l : List Nat}
    (h : Tokens single l) : encodeRef A (decodeRef l) = decodeKept A l := by
  induction h with
  | nil => rfl
  | byte c l hc _ ih =>
    rw [decodeRef_cons_ne c l (hs c hc).2, encodeRef_keep A c _ (hs c hc).1,
      decodeKept_cons_ne A c l (hs c hc).2, ih]
  | triplet x y l hx hy _ ih =>
    rw [decodeRef_triplet x y l hx hy]
    by_cases hk : isPCharSingle (16 * hexValue x + hexValue y) = true ∨
        16 * hexValue x + hexValue y ∈ A
    · rw [encodeRef_keep A _ _ hk, decodeKept_decoded A x y l hx hy hk, ih]
    · rw [encodeRef_escape A _ _ hk, decodeKept_kept A x y l hx hy hk, ih]
      have vx := (unhex_eq x hx).2
      have vy := (unhex_eq y hy).2
      have e1 : (16 * hexValue x + hexValue y) / 16 = hexValue x := by omega
      have e2 : (16 * hexValue x + hexValue y) % 16 = hexValue y := by omega
      rw [e1, e2, hexDigit_hexValue x hx, hexDigit_hexValue y hy]

theorem nssByte_kept (c : Nat) (h : nssByte c = true) :
    (isPCharSingle c = true ∨ c ∈ [47]) ∧ c ≠ 37 := by
  refine ⟨?_, (compByte_lt c (by unfold compByte; unfold nssByte at h; rw [h]; rfl)).2⟩
  unfold nssByte at h
  simp only [Bool.or_eq_true, beq_iff_eq] at h
  rcases h with h | h
  · exact Or.inl h
  · exact Or.inr (by simp [h])

theorem compByte_kept (c : Nat) (h : compByte c = true) :
    (isPCharSingle c = true ∨ c ∈ [47, 63]) ∧ c ≠ 37 := by
  refine ⟨?_, (compByte_lt c h).2⟩
  unfold compByte at h
  simp only [Bool.or_eq_true, beq_iff_eq] at h
  rcases h with (h | h) | h
  · exact Or.inl h
  · exact Or.inr (by simp [h])
  · exact Or.inr (by simp [h])

/-- C20 as stated fails: `','` is not unreserved, yet the NSS `a%2Cb` becomes `a,b`; and on
the text of the repository's own test the Resolve `%32%33%34%3f` becomes `234?`, the
reserved `'?'` decoded as well. -/
theorem C20_counterexample :
    Parse (bytes "urn:ab:a%2Cb") =
      some (some { Scheme := bytes "urn", NID := bytes "ab", NSS := bytes "a%2Cb" }, none) ∧
    isUnreserved 44 = false ∧ 16 * hexValue 50 + hexValue 67 = 44 ∧
    URN.EncodingNormalize ⟨id, id⟩
        { Scheme := bytes "urn", NID := bytes "ab", NSS := bytes "a%2Cb" }
      = some { Scheme := bytes "urn", NID := bytes "ab", NSS := bytes "a,b",
               normalized := true } ∧
    bytes "a,b" ≠ bytes "a%2Cb" ∧
    Parse (bytes "urn:ab:c?+%32%33%34%3f") =
      some (some { Scheme := bytes "urn", NID := bytes "ab", NSS := bytes "c",
                   Resolve := bytes "%32%33%34%3f" }, none) ∧
    isUnreserved 63 = false ∧
    URN.EncodingNormalize ⟨id, id⟩
        { Scheme := bytes "urn", NID := bytes "ab", NSS := bytes "c",
          Resolve := bytes "%32%33%34%3f" }
      = some { Scheme := bytes "urn", NID := bytes "ab", NSS := bytes "c",
               Resolve := bytes "234?", normalized := true } ∧
    bytes "234?" ≠ bytes "234%3F" := by
  refine ⟨by decide, by decide, by decide, by decide, by decide, by decide, by decide,
    by decide, by decide⟩

/-- C20 (amended). For every URN produced by `Parse`, `EncodingNormalize` returns,
lowercases Scheme and NID and, in each of NSS, Resolve, Query and Fragment, replaces by its
literal byte exactly the percent-triplets whose octet is a pchar or `'/'` (in Resolve, Query
and Fragment also `'?'`), leaves every other triplet in place with its hex digits in
uppercase and every other byte as it is; ForceFragment is kept and the cache bit set. -/
theorem C20_encoding_normalize_decodes_kept (uc : UnicodeCase) (s : List Nat) (u : URN)
    (h : Parse s = some (some u, none)) :
    ∃ v, u.EncodingNormalize uc = some v ∧
      v.Scheme = u.Scheme.map lowerByte ∧ v.NID = u.NID.map lowerByte ∧
      v.NSS = decodeKept [47] u.NSS ∧ v.Resolve = decodeKept [47, 63] u.Resolve ∧
      v.Query = decodeKept [47, 63] u.Query ∧ v.Fragment = decodeKept [47, 63] u.Fragment ∧
      v.ForceFragment = u.ForceFragment ∧ v.IsNormalized = true ∧
      (∀ A : List Nat, decodeKept A [] = []) ∧
      (∀ (A : List Nat) (c : Nat) (rest : List Nat), c ≠ 37 →
        decodeKept A (c :: rest) = c :: decodeKept A rest) ∧
      (∀ (A : List Nat) (x y : Nat) (rest : List Nat), isHex x = true → isHex y = true →
        (isPCharSingle (16 * hexValue x + hexValue y) = true ∨
          16 * hexValue x + hexValue y ∈ A) →
        decodeKept A (37 :: x :: y :: rest)
          = (16 * hexValue x + hexValue y) :: decodeKept A rest) ∧
      (∀ (A : List Nat) (x y : Nat) (rest : List Nat), isHex x = true → isHex y = true →
        ¬ (isPCharSingle (16 * hexValue x + hexValue y) = true ∨
          16 * hexValue x + hexValue y ∈ A) →
        decodeKept A (37 :: x :: y :: rest)
          = 37 :: upperByte x :: upperByte y :: decodeKept A rest) := by
  have hg := parsed_grammatical s u h
  have hr : Tokens compByte u.Resolve := hg.resolve.elim (fun h => h ▸ Tokens.nil) (fun h => h.1)
  have hq : Tokens compByte u.Query := hg.query.elim (fun h => h ▸ Tokens.nil) (fun h => h.1)
  refine ⟨_, EncodingNormalize_eq uc u hg, rfl, rfl,
    recode_eq_decodeKept [47] nssByte nssByte_kept hg.nss.1,
    recode_eq_decodeKept [47, 63] compByte compByte_kept hr,
    recode_eq_decodeKept [47, 63] compByte compByte_kept hq,
    recode_eq_decodeKept [47, 63] compByte compByte_kept hg.fragment,
    rfl, rfl, fun _ => rfl, decodeKept_cons_ne, decodeKept_decoded, decodeKept_kept⟩

theorem C20_encoding_normalize_decodes_kept_witness :
    Parse (bytes "Urn:Ab:a%2Cb%2f%7e%3f%c3?+%3f%5b") =
      some (some { Scheme := bytes "Urn", NID := bytes "Ab", NSS := bytes "a%2Cb%2f%7e%3f%c3",
                   Resolve := bytes "%3f%5b" }, none) ∧
    ∃ v, URN.EncodingNormalize ⟨id, id⟩
        { Scheme := bytes "Urn", NID := bytes "Ab", NSS := bytes "a%2Cb%2f%7e%3f%c3",
          Resolve := bytes "%3f%5b" } = some v ∧
      v.Scheme = bytes "urn" ∧ v.NID = bytes "ab" ∧ v.NSS = bytes "a,b/~%3F%C3" ∧
      v.Resolve = bytes "?%5B" := by
  obtain ⟨v, hv, h1, h2, h3, h4, -⟩ :=
    C20_encoding_normalize_decodes_kept ⟨id, id⟩ (bytes "Urn:Ab:a%2Cb%2f%7e%3f%c3?+%3f%5b")
      { Scheme := bytes "Urn", NID := bytes "Ab", NSS := bytes "a%2Cb%2f%7e%3f%c3",
        Resolve := bytes "%3f%5b" } (by decide)
  exact ⟨by decide, v, hv, h1.trans (by decide), h2.trans (by decide), h3.trans (by decide),
    h4.trans (by decide)⟩


/-! ## Algebra of the normalizers -/

theorem lowerByte_idem (c : Nat) : lowerByte (lowerByte c) = lowerByte c := by
  unfold lowerByte
  split_ifs <;> omega

theorem map_lowerByte_idem (l : List Nat) : (l.map lowerByte).map lowerByte = l.map lowerByte := by
  rw [List.map_map]
  apply List.map_congr_left
  intro c _
  exact lowerByte_idem c

theorem map_lowerByte_ascii (l : List Nat) (h : ∀ c ∈ l, c < 128) :
    ∀ c ∈ l.map lowerByte, c < 128 := by
  intro c hc
  obtain ⟨a, ha, rfl⟩ := List.mem_map.1 hc
  have := h a ha
  unfold lowerByte
  split_ifs <;> omega

theorem isHex_upper_value (c : Nat) (h : isHex c = true) :
    hexValue (upperByte c) = hexValue c ∧ upperByte (upperByte c) = upperByte c := by
  have hc := (isHex_upper c h).1
  revert h
  interval_cases c <;> decide

theorem hexDigit_upper (k : Nat) (h : k < 16) : upperByte (hexDigit k) = hexDigit k := by
  interval_cases k <;> decide

/-- Uppercasing the triplets of text made of single bytes and triplets gives such text
again, changes nothing when done twice, and does not change what the text decodes to. -/
theorem upperTriplets_tokens {l : List Nat} (h : Tokens compByte l) :
    Tokens compByte (upperTriplets l) ∧ upperTriplets (upperTriplets l) = upperTriplets l ∧
      decodeRef (upperTriplets l) = decodeRef l := by
  induction h with
  | nil => exact ⟨Tokens.nil, rfl, rfl⟩
  | byte c l hc _ ih =>
    have h37 := (compByte_lt c hc).2
    rw [upperTriplets_cons_ne c l h37]
    refine ⟨Tokens.byte c _ hc ih.1, ?_, ?_⟩
    · rw [upperTriplets_cons_ne c _ h37, ih.2.1]
    · rw [decodeRef_cons_ne c _ h37, decodeRef_cons_ne c _ h37, ih.2.2]
  | triplet x y l hx hy _ ih =>
    have ux := isHex_upper x hx
    have uy := isHex_upper y hy
    have vx := isHex_upper_value x hx
    have vy := isHex_upper_value y hy
    rw [upperTriplets_triplet x y l hx hy]
    refine ⟨Tokens.triplet _ _ _ ux.2.1 uy.2.1 ih.1, ?_, ?_⟩
    · rw [upperTriplets_triplet _ _ _ ux.2.1 uy.2.1, vx.2, vy.2, ih.2.1]
    · rw [decodeRef_triplet _ _ _ ux.2.1 uy.2.1, decodeRef_triplet x y l hx hy, vx.1, vy.1,
        ih.2.2]

/-- Decoding the encoder's output gives the bytes back, and uppercasing its triplets
changes nothing. -/
theorem decodeRef_encodeRef (A : List Nat) (hA : 37 ∉ A) : ∀ (l : List Nat),
    (∀ c ∈ l, c < 256) →
    decodeRef (encodeRef A l) = l ∧ upperTriplets (encodeRef A l) = encodeRef A l := by
  intro l
  induction l with
  | nil => intro _; exact ⟨rfl, rfl⟩
  | cons c rest ih =>
    intro hb
    have hrest := ih (fun a ha => hb a (by simp [ha]))
    have hc : c < 256 := hb c (by simp)
    by_cases hk : isPCharSingle c = true ∨ c ∈ A
    · have h37 : c ≠ 37 := by
        rintro rfl
        rcases hk with hk | hk
        · exact absurd hk (by decide)
        · exact hA hk
      rw [encodeRef_keep A c rest hk, decodeRef_cons_ne c _ h37, upperTriplets_cons_ne c _ h37,
        hrest.1, hrest.2]
      exact ⟨rfl, rfl⟩
    · have h1 := hexDigit_spec (c / 16) (by omega)
      have h2 := hexDigit_spec (c % 16) (by omega)
      rw [encodeRef_escape A c rest hk, decodeRef_triplet _ _ _ h1.2.2 h2.2.2,
        upperTriplets_triplet _ _ _ h1.2.2 h2.2.2, h1.2.1, h2.2.1, hrest.1, hrest.2,
        hexDigit_upper _ (by omega), hexDigit_upper _ (by omega)]
      refine ⟨?_, rfl⟩
      congr 1
      omega

theorem decodeRef_ne_nil (l : List Nat) (h : l ≠ []) : decodeRef l ≠ [] := by
  rcases l with _ | ⟨c, rest⟩
  · exact absurd rfl h
  · cases hp : pctAt (c :: rest)
    · rw [decodeRef_of_not_pctAt c rest hp]; simp
    · obtain ⟨x, y, r, -, -, -, -, hdec⟩ := decodeRef_of_pctAt c rest hp
      rw [hdec]; simp

theorem grammatical_normalizable (u : URN) (hg : Grammatical u) : Normalizable u :=
  { scheme := (grammatical_ascii u hg).1
    nid := (grammatical_ascii u hg).2
    nss := Tokens.mono nssByte_compByte hg.nss.1
    resolve := hg.resolve.elim (fun h => h ▸ Tokens.nil) (fun h => h.1)
    query := hg.query.elim (fun h => h ▸ Tokens.nil) (fun h => h.1)
    fragment := hg.fragment }

theorem parsed_normalizable (s : List Nat) (u : URN) (h : Parse s = some (some u, none)) :
    Normalizable u :=
  grammatical_normalizable u (parsed_grammatical s u h)

/-- On a normalizable URN `Normalize` returns and leaves the case-normalized form. -/
theorem Normalize_of (uc : UnicodeCase) (u : URN) (h : Normalizable u) :
    u.Normalize uc = some (normalForm u) := by
  unfold URN.Normalize
  simp only [Option.bind_eq_bind, stringsToLower_ascii uc _ h.scheme,
    stringsToLower_ascii uc _ h.nid, normalizePercentEncoding_eq uc _ h.nss,
    normalizePercentEncoding_eq uc _ h.resolve, normalizePercentEncoding_eq uc _ h.query,
    normalizePercentEncoding_eq uc _ h.fragment, Option.some_bind]
  rfl

/-- On a normalizable URN `EncodingNormalize` returns and leaves every field decoded and
encoded again. -/
theorem EncodingNormalize_of (uc : UnicodeCase) (u : URN) (h : Normalizable u) :
    u.EncodingNormalize uc = some (recodedForm u) := by
  have wn := tokens_wellFormed h.nss
  have wr := tokens_wellFormed h.resolve
  have wq := tokens_wellFormed h.query
  have wf := tokens_wellFormed h.fragment
  unfold URN.EncodingNormalize
  simp only [Option.bind_eq_bind, stringsToLower_ascii uc _ h.scheme,
    stringsToLower_ascii uc _ h.nid,
    RecodeStringNSS_eq _ wn.2 wn.1, RecodeStringComponent_eq _ wr.2 wr.1,
    RecodeStringComponent_eq _ wq.2 wq.1, RecodeStringComponent_eq _ wf.2 wf.1,
    Option.some_bind]
  rfl

theorem normalizable_normalForm (u : URN) (h : Normalizable u) : Normalizable (normalForm u) :=
  { scheme := map_lowerByte_ascii _ h.scheme
    nid := map_lowerByte_ascii _ h.nid
    nss := (upperTriplets_tokens h.nss).1
    resolve := (upperTriplets_tokens h.resolve).1
    query := (upperTriplets_tokens h.query).1
    fragment := (upperTriplets_tokens h.fragment).1 }

theorem recoded_tokens (A : List Nat) (hA : ∀ c ∈ A, compByte c = true) {l : List Nat}
    (h : Tokens compByte l) : Tokens compByte (encodeRef A (decodeRef l)) :=
  encodeRef_tokens A compByte (fun c hc => by simp [compByte, hc]) hA _
    (decodeRef_lt l.length l (le_refl _) (tokens_wellFormed h).2)

theorem normalizable_recodedForm (u : URN) (h : Normalizable u) :
    Normalizable (recodedForm u) :=
  { scheme := map_lowerByte_ascii _ h.scheme
    nid := map_lowerByte_ascii _ h.nid
    nss := recoded_tokens [47] (by decide) h.nss
    resolve := recoded_tokens [47, 63] (by decide) h.resolve
    query := recoded_tokens [47, 63] (by decide) h.query
    fragment := recoded_tokens [47, 63] (by decide) h.fragment }

theorem normalForm_idem (u : URN) (h : Normalizable u) :
    normalForm (normalForm u) = normalForm u := by
  simp only [normalForm, map_lowerByte_idem, (upperTriplets_tokens h.nss).2.1,
    (upperTriplets_tokens h.resolve).2.1, (upperTriplets_tokens h.query).2.1,
    (upperTriplets_tokens h.fragment).2.1]

theorem recode_fix (A : List Nat) (hA : 37 ∉ A) {l : List Nat} (h : Tokens compByte l) :
    decodeRef (encodeRef A (decodeRef l)) = decodeRef l ∧
      upperTriplets (encodeRef A (decodeRef l)) = encodeRef A (decodeRef l) :=
  decodeRef_encodeRef A hA _ (decodeRef_lt l.length l (le_refl _) (tokens_wellFormed h).2)

theorem recodedForm_idem (u : URN) (h : Normalizable u) :
    recodedForm (recodedForm u) = recodedForm u := by
  simp only [recodedForm, map_lowerByte_idem, (recode_fix [47] (by decide) h.nss).1,
    (recode_fix [47, 63] (by decide) h.resolve).1, (recode_fix [47, 63] (by decide) h.query).1,
    (recode_fix [47, 63] (by decide) h.fragment).1]

theorem normalForm_recodedForm (u : URN) (h : Normalizable u) :
    normalForm (recodedForm u) = recodedForm u := by
  simp only [normalForm, recodedForm, map_lowerByte_idem,
    (recode_fix [47] (by decide) h.nss).2, (recode_fix [47, 63] (by decide) h.resolve).2,
    (recode_fix [47, 63] (by decide) h.query).2, (recode_fix [47, 63] (by decide) h.fragment).2]

theorem recodedForm_normalForm (u : URN) (h : Normalizable u) :
    recodedForm (normalForm u) = recodedForm u := by
  simp only [normalForm, recodedForm, map_lowerByte_idem, (upperTriplets_tokens h.nss).2.2,
    (upperTriplets_tokens h.resolve).2.2, (upperTriplets_tokens h.query).2.2,
    (upperTriplets_tokens h.fragment).2.2]


/-- C21. For every URN produced by `Parse`, `Normalize` applied to the result of `Normalize`
leaves every field as it is, and so does `EncodingNormalize` applied to the result of
`EncodingNormalize`. -/
theorem C21_normalization_idempotent (uc : UnicodeCase) (s : List Nat) (u : URN)
    (h : Parse s = some (some u, none)) :
    (∃ v, u.Normalize uc = some v ∧ v.Normalize uc = some v) ∧
    (∃ w, u.EncodingNormalize uc = some w ∧ w.EncodingNormalize uc = some w) := by
  have hn := parsed_normalizable s u h
  refine ⟨⟨normalForm u, Normalize_of uc u hn, ?_⟩, ⟨recodedForm u, EncodingNormalize_of uc u hn, ?_⟩⟩
  · rw [Normalize_of uc _ (normalizable_normalForm u hn), normalForm_idem u hn]
  · rw [EncodingNormalize_of uc _ (normalizable_recodedForm u hn), recodedForm_idem u hn]

theorem C21_normalization_idempotent_witness :
    Parse (bytes "URN:Ab:x%2fy%41%3a?+r%7e#%c3") =
      some (some { Scheme := bytes "URN", NID := bytes "Ab", NSS := bytes "x%2fy%41%3a",
                   Resolve := bytes "r%7e", Fragment := bytes "%c3" }, none) ∧
    (∃ v, URN.Normalize ⟨id, id⟩
        { Scheme := bytes "URN", NID := bytes "Ab", NSS := bytes "x%2fy%41%3a",
          Resolve := bytes "r%7e", Fragment := bytes "%c3" } = some v ∧
      v.Normalize ⟨id, id⟩ = some v ∧ v.NSS = bytes "x%2Fy%41%3A") ∧
    (∃ w, URN.EncodingNormalize ⟨id, id⟩
        { Scheme := bytes "URN", NID := bytes "Ab", NSS := bytes "x%2fy%41%3a",
          Resolve := bytes "r%7e", Fragment := bytes "%c3" } = some w ∧
      w.EncodingNormalize ⟨id, id⟩ = some w ∧ w.NSS = bytes "x/yA:" ∧
      w.Fragment = bytes "%C3") := by
  obtain ⟨⟨v, hv, hv2⟩, ⟨w, hw, hw2⟩⟩ :=
    C21_normalization_idempotent ⟨id, id⟩ (bytes "URN:Ab:x%2fy%41%3a?+r%7e#%c3")
      { Scheme := bytes "URN", NID := bytes "Ab", NSS := bytes "x%2fy%41%3a",
        Resolve := bytes "r%7e", Fragment := bytes "%c3" } (by decide)
  have ev : v = normalForm { Scheme := bytes "URN", NID := bytes "Ab",
                             NSS := bytes "x%2fy%41%3a", Resolve := bytes "r%7e",
                             Fragment := bytes "%c3" } :=
    Option.some.inj (hv.symm.trans (by decide))
  have ew : w = recodedForm { Scheme := bytes "URN", NID := bytes "Ab",
                              NSS := bytes "x%2fy%41%3a", Resolve := bytes "r%7e",
                              Fragment := bytes "%c3" } :=
    Option.some.inj (hw.symm.trans (by decide))
  refine ⟨by decide, ⟨v, hv, hv2, ?_⟩, ⟨w, hw, hw2, ?_, ?_⟩⟩
  · rw [ev]; decide
  · rw [ew]; decide
  · rw [ew]; decide

/-- C22. For every URN produced by `Parse`, `Normalize` changes no field of the result of
`EncodingNormalize`, and `EncodingNormalize` after `Normalize` leaves the same fields as
`EncodingNormalize` alone. -/
theorem C22_encoding_subsumes_case (uc : UnicodeCase) (s : List Nat) (u : URN)
    (h : Parse s = some (some u, none)) :
    ∃ w, u.EncodingNormalize uc = some w ∧ w.Normalize uc = some w ∧
      ∃ v, u.Normalize uc = some v ∧ v.EncodingNormalize uc = some w := by
  have hn := parsed_normalizable s u h
  refine ⟨recodedForm u, EncodingNormalize_of uc u hn, ?_, normalForm u, Normalize_of uc u hn, ?_⟩
  · rw [Normalize_of uc _ (normalizable_recodedForm u hn), normalForm_recodedForm u hn]
  · rw [EncodingNormalize_of uc _ (normalizable_normalForm u hn), recodedForm_normalForm u hn]

theorem C22_encoding_subsumes_case_witness :
    Parse (bytes "URN:Ab:x%2fy%41%3a?=q%3f%5b") =
      some (some { Scheme := bytes "URN", NID := bytes "Ab", NSS := bytes "x%2fy%41%3a",
                   Query := bytes "q%3f%5b" }, none) ∧
    ∃ w, URN.EncodingNormalize ⟨id, id⟩
        { Scheme := bytes "URN", NID := bytes "Ab", NSS := bytes "x%2fy%41%3a",
          Query := bytes "q%3f%5b" } = some w ∧
      w.Normalize ⟨id, id⟩ = some w ∧ w.Query = bytes "q?%5B" ∧
      ∃ v, URN.Normalize ⟨id, id⟩
          { Scheme := bytes "URN", NID := bytes "Ab", NSS := bytes "x%2fy%41%3a",
            Query := bytes "q%3f%5b" } = some v ∧
        v.EncodingNormalize ⟨id, id⟩ = some w := by
  obtain ⟨w, hw, hw2, v, hv, hv2⟩ :=
    C22_encoding_subsumes_case ⟨id, id⟩ (bytes "URN:Ab:x%2fy%41%3a?=q%3f%5b")
      { Scheme := bytes "URN", NID := bytes "Ab", NSS := bytes "x%2fy%41%3a",
        Query := bytes "q%3f%5b" } (by decide)
  have ew : w = recodedForm { Scheme := bytes "URN", NID := bytes "Ab",
                              NSS := bytes "x%2fy%41%3a", Query := bytes "q%3f%5b" } :=
    Option.some.inj (hw.symm.trans (by decide))
  refine ⟨by decide, w, hw, hw2, ?_, v, hv, hv2⟩
  rw [ew]; decide

/-- C23. `EncodingNormalize` can leave an NSS and a Resolve that begin with `'/'`: from
`urn:ab:%2Fx?+%2Fy` it makes NSS `/x` and Resolve `/y`, and the text of the result is no
longer accepted by `Parse`. What it keeps on every parsed URN: the NSS stays non-empty, the
NSS is made of pchar, `'/'` and triplets, the components of pchar, `'/'`, `'?'` and triplets. -/
theorem C23_encoding_normalize_leading_slash :
    Parse (bytes "urn:ab:%2Fx?+%2Fy") =
      some (some { Scheme := bytes "urn", NID := bytes "ab", NSS := bytes "%2Fx",
                   Resolve := bytes "%2Fy" }, none) ∧
    (∀ uc : UnicodeCase,
      URN.EncodingNormalize uc { Scheme := bytes "urn", NID := bytes "ab", NSS := bytes "%2Fx",
                                 Resolve := bytes "%2Fy" }
        = some { Scheme := bytes "urn", NID := bytes "ab", NSS := bytes "/x",
                 Resolve := bytes "/y", normalized := true }) ∧
    (bytes "/x").head? = some 47 ∧ (bytes "/y").head? = some 47 ∧
    (Parse (URN.String { Scheme := bytes "urn", NID := bytes "ab", NSS := bytes "/x",
                         Resolve := bytes "/y", normalized := true })).map
        (fun r => (r.1, r.2.map Error.Err)) = some (none, some ErrInvalidNSS) ∧
    (∀ (uc : UnicodeCase) (s : List Nat) (u : URN), Parse s = some (some u, none) →
      ∃ w, u.EncodingNormalize uc = some w ∧ w.NSS ≠ [] ∧ Tokens nssByte w.NSS ∧
        Tokens compByte w.Resolve ∧ Tokens compByte w.Query ∧ Tokens compByte w.Fragment) := by
  refine ⟨by decide, fun uc => ?_, by decide, by decide, by decide, fun uc s u h => ?_⟩
  · rw [EncodingNormalize_of uc _ (parsed_normalizable (bytes "urn:ab:%2Fx?+%2Fy") _ (by decide))]
    decide
  · have hn := parsed_normalizable s u h
    have hg := parsed_grammatical s u h
    have hr := normalizable_recodedForm u hn
    refine ⟨recodedForm u, EncodingNormalize_of uc u hn, ?_, ?_, hr.resolve, hr.query,
      hr.fragment⟩
    · exact encodeRef_ne_nil _ _ (decodeRef_ne_nil _ hg.nss.2.ne_nil)
    · exact encodeRef_tokens [47] nssByte (fun c hc => by simp [nssByte, hc]) (by decide) _
        (decodeRef_lt _ _ (le_refl _) (tokens_wellFormed hn.nss).2)


/-! ## Pointers -/

theorem Copy_eq (u : URN) : u.Copy = u := by
  cases u
  rfl

theorem load_mem (h : Heap) (p : Ptr) (u : URN) (hl : Heap.load h p = some u) :
    ∃ a, p = some a ∧ a < h.length ∧ h[a]? = some u ∧ u ∈ h := by
  rcases p with _ | a
  · simp [Heap.load] at hl
  · have hl2 : h[a]? = some u := hl
    obtain ⟨hlt, hget⟩ := List.getElem?_eq_some_iff.1 hl2
    exact ⟨a, rfl, hlt, hl2, hget ▸ List.getElem_mem _⟩

theorem load_append (h : Heap) (v : URN) (p : Ptr) (u : URN) (hl : Heap.load h p = some u) :
    Heap.load (h ++ [v]) p = some u := by
  obtain ⟨a, rfl, hlt, hget, -⟩ := load_mem h p u hl
  show (h ++ [v])[a]? = some u
  rw [List.getElem?_append_left hlt]
  exact hget

theorem load_new (h : Heap) (v : URN) : Heap.load (h ++ [v]) (some h.length) = some v := by
  show (h ++ [v])[h.length]? = some v
  rw [List.getElem?_append_right (le_refl _)]
  simp

theorem store_new (h : Heap) (v w : URN) :
    Heap.store (h ++ [v]) (some h.length) w = some (h ++ [w]) := by
  unfold Heap.store
  simp

theorem Ptr_Copy_eq (h : Heap) (p : Ptr) (u : URN) (hl : Heap.load h p = some u) :
    Ptr.Copy h p = some (h ++ [u], some h.length) := by
  unfold Ptr.Copy
  rw [hl]
  simp [Heap.alloc, Copy_eq]

theorem Ptr_Normalize_eq (uc : UnicodeCase) (h : Heap) (p : Ptr) (u : URN)
    (hl : Heap.load h p = some u) (hn : Normalizable u) :
    ∃ a, p = some a ∧ a < h.length ∧
      Ptr.Normalize uc h p = some (h.set a (normalForm u)) := by
  obtain ⟨a, rfl, hlt, -, -⟩ := load_mem h p u hl
  refine ⟨a, rfl, hlt, ?_⟩
  unfold Ptr.Normalize
  rw [hl]
  simp [Normalize_of uc u hn, Heap.store, hlt]

theorem Ptr_EncodingNormalize_eq (uc : UnicodeCase) (h : Heap) (p : Ptr) (u : URN)
    (hl : Heap.load h p = some u) (hn : Normalizable u) :
    ∃ a, p = some a ∧ a < h.length ∧
      Ptr.EncodingNormalize uc h p = some (h.set a (recodedForm u)) := by
  obtain ⟨a, rfl, hlt, -, -⟩ := load_mem h p u hl
  refine ⟨a, rfl, hlt, ?_⟩
  unfold Ptr.EncodingNormalize
  rw [hl]
  simp [EncodingNormalize_of uc u hn, Heap.store, hlt]

theorem set_new (h : Heap) (v w : URN) : (h ++ [v]).set h.length w = h ++ [w] := by
  simp

/-- What `Normalized` does on a pointer to a normalizable URN: with the cache bit set it
returns the pointer and leaves the heap alone, otherwise it returns a new struct holding the
case-normalized form. -/
theorem Ptr_Normalized_eq (uc : UnicodeCase) (h : Heap) (p : Ptr) (u : URN)
    (hl : Heap.load h p = some u) (hn : Normalizable u) :
    Ptr.Normalized uc h p
      = some (if u.normalized = true then (h, p) else (h ++ [normalForm u], some h.length)) := by
  obtain ⟨a, rfl, hlt, -, -⟩ := load_mem h p u hl
  unfold Ptr.Normalized
  simp only [Ptr.IsNormalized, hl, Option.map_some', Option.bind_eq_bind, Option.some_bind,
    URN.IsNormalized]
  by_cases hb : u.normalized = true
  · rw [if_pos hb, if_pos hb]
  · rw [if_neg hb, if_neg hb, Ptr_Copy_eq h (some a) u hl]
    simp only [Option.some_bind]
    obtain ⟨a2, ha2, -, hnorm⟩ := Ptr_Normalize_eq uc (h ++ [u]) (some h.length) u
      (load_new h u) hn
    rw [hnorm]
    simp only [Option.some.injEq] at ha2
    subst ha2
    simp

/-- What `EncodingNormalized` does on a pointer to a normalizable URN: it returns a new
struct holding the recoded form. -/
theorem Ptr_EncodingNormalized_eq (uc : UnicodeCase) (h : Heap) (p : Ptr) (u : URN)
    (hl : Heap.load h p = some u) (hn : Normalizable u) :
    Ptr.EncodingNormalized uc h p = some (h ++ [recodedForm u], some h.length) := by
  obtain ⟨a, rfl, hlt, -, -⟩ := load_mem h p u hl
  unfold Ptr.EncodingNormalized
  simp only [Option.bind_eq_bind, Ptr_Copy_eq h (some a) u hl, Option.some_bind]
  obtain ⟨a2, ha2, -, hnorm⟩ := Ptr_EncodingNormalize_eq uc (h ++ [u]) (some h.length) u
    (load_new h u) hn
  rw [hnorm]
  simp only [Option.some.injEq] at ha2
  subst ha2
  simp


theorem sound_append (h : Heap) (v : URN) (hs : Sound h)
    (hv : Normalizable v ∧ (v.normalized = true → normalForm v = v)) : Sound (h ++ [v]) := by
  intro u hu
  rcases List.mem_append.1 hu with hu | hu
  · exact hs u hu
  · rw [List.mem_singleton.1 hu]
    exact hv

theorem sound_set (h : Heap) (a : Nat) (v : URN) (hs : Sound h)
    (hv : Normalizable v ∧ (v.normalized = true → normalForm v = v)) : Sound (h.set a v) := by
  intro u hu
  rcases List.mem_or_eq_of_mem_set hu with hu | hu
  · exact hs u hu
  · rw [hu]
    exact hv

theorem parsed_normalized (s : List Nat) (u : URN) (h : Parse s = some (some u, none)) :
    u.normalized = false := by
  obtain ⟨l3, l4, l5, -, -, -, -, -, -, -, -, -, -, -, -, hnorm, -⟩ := parse_shape s u h
  exact hnorm

/-- Parsing leaves the heap as it is or adds the parsed URN, with the cache bit unset. -/
theorem Ptr_Parse_cases (h h1 : Heap) (s : List Nat) (p : Ptr) (e : Option Error)
    (hp : Ptr.Parse h s = some (h1, p, e)) :
    (h1 = h ∧ p = none) ∨
      (∃ u, Parse s = some (some u, none) ∧ h1 = h ++ [u] ∧ p = some h.length ∧ e = none) := by
  have hpe := Parse_eq s
  unfold Ptr.Parse at hp
  cases hr : parseRef s with
  | ok u =>
    rw [hr] at hpe
    simp only at hpe
    rw [hpe] at hp
    simp only [Option.bind_eq_bind, Option.some_bind, Heap.alloc, Option.some.injEq,
      Prod.mk.injEq] at hp
    obtain ⟨h1e, pe, ee⟩ := hp
    exact Or.inr ⟨u, hpe, h1e.symm, pe.symm, ee.symm⟩
  | error k =>
    rw [hr] at hpe
    simp only at hpe
    obtain ⟨msg, hmsg⟩ := hpe
    rw [hmsg] at hp
    simp only [Option.bind_eq_bind, Option.some_bind, Option.some.injEq, Prod.mk.injEq] at hp
    exact Or.inl ⟨hp.1.symm, hp.2.1.symm⟩

theorem sound_normalForm (u : URN) (hn : Normalizable u) :
    Normalizable (normalForm u) ∧ ((normalForm u).normalized = true →
      normalForm (normalForm u) = normalForm u) :=
  ⟨normalizable_normalForm u hn, fun _ => normalForm_idem u hn⟩

theorem sound_recodedForm (u : URN) (hn : Normalizable u) :
    Normalizable (recodedForm u) ∧ ((recodedForm u).normalized = true →
      normalForm (recodedForm u) = recodedForm u) :=
  ⟨normalizable_recodedForm u hn, fun _ => normalForm_recodedForm u hn⟩

/-- The cache bit is sound in every reachable heap. -/
theorem reachable_sound (uc : UnicodeCase) (h : Heap) (hr : Reachable uc h) : Sound h := by
  induction hr with
  | start => intro u hu; simp at hu
  | parse h h1 s p e _ hp ih =>
    rcases Ptr_Parse_cases h h1 s p e hp with ⟨rfl, -⟩ | ⟨u, hu, rfl, -, -⟩
    · exact ih
    · refine sound_append h u ih ⟨parsed_normalizable s u hu, fun hn => ?_⟩
      rw [parsed_normalized s u hu] at hn
      exact absurd hn (by simp)
  | copy h h1 p q _ hp ih =>
    cases hl : Heap.load h p with
    | none => simp [Ptr.Copy, hl] at hp
    | some u =>
      rw [Ptr_Copy_eq h p u hl] at hp
      simp only [Option.some.injEq, Prod.mk.injEq] at hp
      obtain ⟨-, -, -, -, hmem⟩ := load_mem h p u hl
      rw [← hp.1]
      exact sound_append h u ih (ih u hmem)
  | normalize h h1 p _ hp ih =>
    cases hl : Heap.load h p with
    | none => simp [Ptr.Normalize, hl] at hp
    | some u =>
      obtain ⟨-, -, -, -, hmem⟩ := load_mem h p u hl
      obtain ⟨a, -, -, heq⟩ := Ptr_Normalize_eq uc h p u hl (ih u hmem).1
      rw [heq] at hp
      simp only [Option.some.injEq] at hp
      rw [← hp]
      exact sound_set h a _ ih (sound_normalForm u (ih u hmem).1)
  | encodingNormalize h h1 p _ hp ih =>
    cases hl : Heap.load h p with
    | none => simp [Ptr.EncodingNormalize, hl] at hp
    | some u =>
      obtain ⟨-, -, -, -, hmem⟩ := load_mem h p u hl
      obtain ⟨a, -, -, heq⟩ := Ptr_EncodingNormalize_eq uc h p u hl (ih u hmem).1
      rw [heq] at hp
      simp only [Option.some.injEq] at hp
      rw [← hp]
      exact sound_set h a _ ih (sound_recodedForm u (ih u hmem).1)
  | normalized h h1 p q _ hp ih =>
    rcases p with _ | a
    · simp only [Ptr.Normalized, Option.some.injEq, Prod.mk.injEq] at hp
      rw [← hp.1]
      exact ih
    · cases hl : Heap.load h (some a) with
      | none => simp [Ptr.Normalized, Ptr.IsNormalized, hl] at hp
      | some u =>
        obtain ⟨-, -, -, -, hmem⟩ := load_mem h (some a) u hl
        rw [Ptr_Normalized_eq uc h (some a) u hl (ih u hmem).1] at hp
        by_cases hb : u.normalized = true
        · rw [if_pos hb] at hp
          simp only [Option.some.injEq, Prod.mk.injEq] at hp
          rw [← hp.1]
          exact ih
        · rw [if_neg hb] at hp
          simp only [Option.some.injEq, Prod.mk.injEq] at hp
          rw [← hp.1]
          exact sound_append h _ ih (sound_normalForm u (ih u hmem).1)
  | encodingNormalized h h1 p q _ hp ih =>
    rcases p with _ | a
    · simp only [Ptr.EncodingNormalized, Option.some.injEq, Prod.mk.injEq] at hp
      rw [← hp.1]
      exact ih
    · cases hl : Heap.load h (some a) with
      | none => simp [Ptr.EncodingNormalized, Ptr.Copy, hl] at hp
      | some u =>
        obtain ⟨-, -, -, -, hmem⟩ := load_mem h (some a) u hl
        rw [Ptr_EncodingNormalized_eq uc h (some a) u hl (ih u hmem).1] at hp
        simp only [Option.some.injEq, Prod.mk.injEq] at hp
        rw [← hp.1]
        exact sound_append h _ ih (sound_recodedForm u (ih u hmem).1)

/-- C24. In every heap reachable by `Parse`, `Copy`, `Normalize`, `EncodingNormalize`,
`Normalized` and `EncodingNormalized`, a URN whose `IsNormalized()` is true is left as it is
by `Normalize`; `Normalized()` returns a pointer to a URN equal to what `Normalize` makes
of a copy of the receiver (the receiver itself when the bit is set), and it changes no
struct that was on the heap, the receiver included. -/
theorem C24_cache_bit_sound (uc : UnicodeCase) (h : Heap) (hr : Reachable uc h) (p : Ptr)
    (u : URN) (hp : Heap.load h p = some u) :
    (u.IsNormalized = true → u.Normalize uc = some u) ∧
    ∃ h1 q r, Ptr.Normalized uc h p = some (h1, q) ∧ Heap.load h1 q = some r ∧
      u.Copy.Normalize uc = some r ∧
      (u.IsNormalized = true → q = p ∧ h1 = h) ∧
      (∀ p2 v, Heap.load h p2 = some v → Heap.load h1 p2 = some v) := by
  obtain ⟨-, -, -, -, hmem⟩ := load_mem h p u hp
  obtain ⟨hn, hfix⟩ := reachable_sound uc h hr u hmem
  have hnorm := Normalize_of uc u hn
  refine ⟨fun hb => ?_, ?_⟩
  · rw [hnorm, hfix hb]
  · rw [Ptr_Normalized_eq uc h p u hp hn, Copy_eq]
    by_cases hb : u.normalized = true
    · rw [if_pos hb]
      refine ⟨h, p, u, rfl, hp, ?_, fun _ => ⟨rfl, rfl⟩, fun _ _ hv => hv⟩
      rw [hnorm, hfix hb]
    · rw [if_neg hb]
      refine ⟨_, _, normalForm u, rfl, load_new h _, hnorm, fun hb2 => absurd hb2 hb,
        fun p2 v hv => load_append h _ p2 v hv⟩

theorem C24_cache_bit_sound_witness :
    Reachable ⟨id, id⟩
      [{ Scheme := bytes "urn", NID := bytes "ab", NSS := bytes "%3A", normalized := true },
       { Scheme := bytes "URN", NID := bytes "Ab", NSS := bytes "x%3az" }] ∧
    Ptr.Normalized ⟨id, id⟩
        [{ Scheme := bytes "urn", NID := bytes "ab", NSS := bytes "%3A", normalized := true },
         { Scheme := bytes "URN", NID := bytes "Ab", NSS := bytes "x%3az" }] (some 0)
      = some ([{ Scheme := bytes "urn", NID := bytes "ab", NSS := bytes "%3A",
                 normalized := true },
               { Scheme := bytes "URN", NID := bytes "Ab", NSS := bytes "x%3az" }], some 0) ∧
    ∃ h1 q r, Ptr.Normalized ⟨id, id⟩
        [{ Scheme := bytes "urn", NID := bytes "ab", NSS := bytes "%3A", normalized := true },
         { Scheme := bytes "URN", NID := bytes "Ab", NSS := bytes "x%3az" }] (some 1)
          = some (h1, q) ∧
      Heap.load h1 q = some r ∧
      URN.Normalize ⟨id, id⟩
        (URN.Copy { Scheme := bytes "URN", NID := bytes "Ab", NSS := bytes "x%3az" }) = some r ∧
      Heap.load h1 (some 1)
        = some { Scheme := bytes "URN", NID := bytes "Ab", NSS := bytes "x%3az" } := by
  have hreach : Reachable ⟨id, id⟩
      [{ Scheme := bytes "urn", NID := bytes "ab", NSS := bytes "%3A", normalized := true },
       { Scheme := bytes "URN", NID := bytes "Ab", NSS := bytes "x%3az" }] :=
    Reachable.parse
      [{ Scheme := bytes "urn", NID := bytes "ab", NSS := bytes "%3A", normalized := true }]
      _ (bytes "URN:Ab:x%3az") (some 1) none
      (Reachable.normalize
        [{ Scheme := bytes "urn", NID := bytes "ab", NSS := bytes "%3a" }]
        [{ Scheme := bytes "urn", NID := bytes "ab", NSS := bytes "%3A", normalized := true }]
        (some 0)
        (Reachable.parse [] [{ Scheme := bytes "urn", NID := bytes "ab", NSS := bytes "%3a" }]
          (bytes "urn:ab:%3a") (some 0) none Reachable.start (by decide))
        (by decide))
      (by decide)
  obtain ⟨-, h1, q, r, hq, hl, hc, -, hkeep⟩ :=
    C24_cache_bit_sound ⟨id, id⟩ _ hreach (some 1)
      { Scheme := bytes "URN", NID := bytes "Ab", NSS := bytes "x%3az" } (by decide)
  exact ⟨hreach, by decide, h1, q, r, hq, hl, hc, hkeep (some 1) _ (by decide)⟩


/-! ## `Equal` on the values behind its operands -/

theorem Ptr_Normalized_spec (uc : UnicodeCase) (h : Heap) (p : Ptr) (u : URN)
    (hl : Heap.load h p = some u) (hn : Normalizable u) :
    ∃ h1 q, Ptr.Normalized uc h p = some (h1, q) ∧
      Heap.load h1 q = some (if u.normalized = true then u else normalForm u) ∧
      ∀ p2 v, Heap.load h p2 = some v → Heap.load h1 p2 = some v := by
  rw [Ptr_Normalized_eq uc h p u hl hn]
  by_cases hb : u.normalized = true
  · rw [if_pos hb, if_pos hb]
    exact ⟨h, p, rfl, hl, fun _ _ hv => hv⟩
  · rw [if_neg hb, if_neg hb]
    exact ⟨_, _, rfl, load_new h _, fun p2 v hv => load_append h _ p2 v hv⟩

theorem Ptr_EncodingNormalized_spec (uc : UnicodeCase) (h : Heap) (p : Ptr) (u : URN)
    (hl : Heap.load h p = some u) (hn : Normalizable u) :
    ∃ h1 q, Ptr.EncodingNormalized uc h p = some (h1, q) ∧
      Heap.load h1 q = some (recodedForm u) ∧
      ∀ p2 v, Heap.load h p2 = some v → Heap.load h1 p2 = some v := by
  rw [Ptr_EncodingNormalized_eq uc h p u hl hn]
  exact ⟨_, _, rfl, load_new h _, fun p2 v hv => load_append h _ p2 v hv⟩

/-- The `switch method` of `Equal` returns pointers to the viewed forms of its operands. -/
theorem transform_eq (uc : UnicodeCase) (h : Heap) (a b : Ptr) (A B : URN)
    (ha : Heap.load h a = some A) (hb : Heap.load h b = some B)
    (hA : Normalizable A) (hB : Normalizable B) (method : ComparisonMethod) :
    ∃ h1 a1 b1, Equal.transform uc h a b method = some (h1, a1, b1) ∧
      Heap.load h1 a1 = some (viewed method A) ∧ Heap.load h1 b1 = some (viewed method B) := by
  unfold Equal.transform viewed
  by_cases h0 : method = Simple
  · subst h0
    rw [if_pos rfl, if_neg (by decide), if_neg (by decide), if_neg (by decide),
      if_neg (by decide)]
    exact ⟨h, a, b, rfl, ha, hb⟩
  · rw [if_neg h0]
    by_cases h1 : method = CaseNormalized
    · rw [if_pos h1, if_pos h1, if_pos h1]
      obtain ⟨g1, a1, e1, l1, k1⟩ := Ptr_Normalized_spec uc h a A ha hA
      obtain ⟨g2, b1, e2, l2, k2⟩ := Ptr_Normalized_spec uc g1 b B (k1 b B hb) hB
      refine ⟨g2, a1, b1, ?_, k2 a1 _ l1, l2⟩
      simp only [Option.bind_eq_bind, e1, Option.some_bind, e2]
    · rw [if_neg h1, if_neg h1, if_neg h1]
      by_cases h2 : method = EncodingNormalized
      · rw [if_pos h2, if_pos h2, if_pos h2]
        obtain ⟨g1, a1, e1, l1, k1⟩ := Ptr_EncodingNormalized_spec uc h a A ha hA
        obtain ⟨g2, b1, e2, l2, k2⟩ := Ptr_EncodingNormalized_spec uc g1 b B (k1 b B hb) hB
        refine ⟨g2, a1, b1, ?_, k2 a1 _ l1, l2⟩
        simp only [Option.bind_eq_bind, e1, Option.some_bind, e2]
      · rw [if_neg h2, if_neg h2, if_neg h2]
        exact ⟨h, a, b, rfl, ha, hb⟩

/-- What `Equal` returns on two different pointers to normalizable URNs: whether the
compared texts of the viewed forms are the same. -/
theorem Equal_eq (uc : UnicodeCase) (h : Heap) (a b : Ptr) (A B : URN)
    (ha : Heap.load h a = some A) (hb : Heap.load h b = some B)
    (hA : Normalizable A) (hB : Normalizable B) (hne : a ≠ b)
    (part : ComparisonPart) (method : ComparisonMethod) (x y : List Nat)
    (hx : compared part (viewed method A) = some x)
    (hy : compared part (viewed method B) = some y) :
    ∃ h1, Equal uc h a b part method = some (h1, x == y) := by
  obtain ⟨h1, a1, b1, ht, la, lb⟩ := transform_eq uc h a b A B ha hb hA hB method
  refine ⟨h1, ?_⟩
  unfold Equal
  rw [if_neg hne]
  simp only [Option.bind_eq_bind, ht, Option.some_bind]
  unfold compared at hx hy
  by_cases hp : part = AssignedName
  · rw [if_pos hp] at hx hy ⊢
    simp only [Option.some.injEq] at hx hy
    simp [Ptr.AssignedName, la, lb, hx, hy]
  · rw [if_neg hp] at hx hy ⊢
    by_cases hq : part = AllParts
    · rw [if_pos hq] at hx hy ⊢
      simp only [Option.some.injEq] at hx hy
      simp [Ptr.String, la, lb, hx, hy]
    · rw [if_neg hq] at hx
      exact absurd hx (by simp)

theorem Equal_none (uc : UnicodeCase) (h : Heap) (a b : Ptr) (A B : URN)
    (ha : Heap.load h a = some A) (hb : Heap.load h b = some B)
    (hA : Normalizable A) (hB : Normalizable B) (hne : a ≠ b)
    (part : ComparisonPart) (method : ComparisonMethod)
    (hp : part ≠ AssignedName) (hq : part ≠ AllParts) :
    Equal uc h a b part method = none := by
  obtain ⟨h1, a1, b1, ht, -, -⟩ := transform_eq uc h a b A B ha hb hA hB method
  unfold Equal
  rw [if_neg hne]
  simp only [Option.bind_eq_bind, ht, Option.some_bind]
  rw [if_neg hp, if_neg hq]

theorem Equal_same (uc : UnicodeCase) (h : Heap) (a : Ptr) (part : ComparisonPart)
    (method : ComparisonMethod) : Equal uc h a a part method = some (h, true) := by
  unfold Equal
  rw [if_pos rfl]

theorem viewed_parsed (s : List Nat) (u : URN) (h : Parse s = some (some u, none)) :
    viewed Simple u = u ∧ viewed CaseNormalized u = normalForm u ∧
      viewed EncodingNormalized u = recodedForm u := by
  have hn := parsed_normalized s u h
  refine ⟨rfl, ?_, rfl⟩
  unfold viewed
  rw [if_pos rfl, hn]
  rfl


/-! ## The assigned name -/

theorem takeWhile_stop (p : Nat → Bool) : ∀ (l t : List Nat), (∀ c ∈ l, p c = true) →
    (t = [] ∨ ∃ c r, t = c :: r ∧ p c = false) → (l ++ t).takeWhile p = l := by
  intro l
  induction l with
  | nil =>
    intro t _ ht
    rcases ht with rfl | ⟨c, r, rfl, hc⟩
    · rfl
    · simp [List.takeWhile_cons, hc]
  | cons c l ih =>
    intro t hl ht
    rw [List.cons_append, List.takeWhile_cons_of_pos (hl c (by simp)),
      ih t (fun x hx => hl x (by simp [hx])) ht]

theorem tokens_nss_ne {l : List Nat} (h : Tokens nssByte l) : ∀ c ∈ l, c ≠ 63 ∧ c ≠ 35 := by
  induction h with
  | nil => intro c hc; simp at hc
  | byte c l hc _ ih =>
    intro x hx
    rw [List.mem_cons] at hx
    rcases hx with rfl | hx
    · exact ⟨(single_ne x hc).2, (single_ne x hc).1⟩
    · exact ih x hx
  | triplet h1 h2 l hh1 hh2 _ ih =>
    intro x hx
    simp only [List.mem_cons] at hx
    rcases hx with rfl | rfl | rfl | hx
    · decide
    · exact ⟨(isHex_ne x hh1).2.1, (isHex_ne x hh1).1⟩
    · exact ⟨(isHex_ne x hh2).2.1, (isHex_ne x hh2).1⟩
    · exact ih x hx

theorem alnum_lt (c : Nat) (h : isAlphaNum c = true ∨ c = 45) : c < 128 := by
  rcases h with h | h
  · by_contra hge
    revert h
    unfold isAlphaNum isAlpha isDigit
    have e1 : ¬ (65 ≤ c ∧ c ≤ 90) := by omega
    have e2 : ¬ (97 ≤ c ∧ c ≤ 122) := by omega
    have e3 : ¬ (c ≤ 57) := by omega
    simp [e1, e2, e3]
  · omega

theorem alnum_facts (c : Nat) (h : isAlphaNum c = true ∨ c = 45) :
    c ≠ 63 ∧ c ≠ 35 ∧ (isAlphaNum (lowerByte c) = true ∨ lowerByte c = 45) := by
  have hc := alnum_lt c h
  revert h
  interval_cases c <;> decide

/-- No byte of the assigned name of a grammatical URN is `'?'` or `'#'`. -/
theorem assigned_bytes (u : URN) (hg : Grammatical u) :
    ∀ c ∈ u.AssignedName, c ≠ 63 ∧ c ≠ 35 := by
  intro c hc
  unfold URN.AssignedName at hc
  simp only [List.mem_append, List.mem_singleton] at hc
  rcases hc with (((hc | hc) | hc) | hc) | hc
  · have hm : lowerByte c ∈ u.Scheme.map lowerByte := List.mem_map_of_mem _ hc
    rw [hg.scheme] at hm
    have hl : lowerByte c = 117 ∨ lowerByte c = 114 ∨ lowerByte c = 110 := by
      simpa [bytes] using hm
    have hge := lowerByte_ge c
    constructor
    · rintro rfl
      revert hl
      decide
    · rintro rfl
      revert hl
      decide
  · subst hc; decide
  · have := alnum_facts c (hg.nid_bytes c hc)
    exact ⟨this.1, this.2.1⟩
  · subst hc; decide
  · exact tokens_nss_ne hg.nss.1 c hc

/-- The text of a URN is its assigned name followed by nothing or by text that begins with
`'?'` or `'#'`. -/
theorem String_assigned (u : URN) :
    ∃ t, u.String = u.AssignedName ++ t ∧
      (t = [] ∨ ∃ c r, t = c :: r ∧ (c != 63 && c != 35) = false) := by
  refine ⟨(if u.Resolve ≠ [] then [63, 43] ++ u.Resolve else []) ++
      ((if u.Query ≠ [] then [63, 61] ++ u.Query else []) ++
      (if u.Fragment ≠ [] ∨ u.ForceFragment = true then 35 :: u.Fragment else [])), ?_, ?_⟩
  · rw [String_eq]
    unfold URN.AssignedName
    simp
  · by_cases h1 : u.Resolve ≠ []
    · rw [if_pos h1]
      exact Or.inr ⟨63, _, rfl, by decide⟩
    · rw [if_neg h1]
      by_cases h2 : u.Query ≠ []
      · rw [if_pos h2]
        exact Or.inr ⟨63, _, rfl, by decide⟩
      · rw [if_neg h2]
        by_cases h3 : u.Fragment ≠ [] ∨ u.ForceFragment = true
        · rw [if_pos h3]
          exact Or.inr ⟨35, _, rfl, by decide⟩
        · rw [if_neg h3]
          exact Or.inl rfl

theorem assigned_before (u : URN) (hg : Grammatical u) :
    beforeComponents u.String = u.AssignedName := by
  obtain ⟨t, ht, hstop⟩ := String_assigned u
  unfold beforeComponents
  rw [ht]
  apply takeWhile_stop _ _ _ _ hstop
  intro c hc
  have := assigned_bytes u hg c hc
  simp [this.1, this.2]

/-- C29. When `Parse` succeeds on `s` with result `U`, `U.AssignedName()` is
`Scheme + ":" + NID + ":" + NSS`, it is the part of `s` before the first `'?'` or `'#'`
(all of `s` when there is none), and `U.String()` begins with it. -/
theorem C29_assigned_name (s : List Nat) (u : URN) (h : Parse s = some (some u, none)) :
    u.AssignedName = u.Scheme ++ bytes ":" ++ u.NID ++ bytes ":" ++ u.NSS ∧
    u.AssignedName = s.takeWhile (fun c => c != 63 && c != 35) ∧
    u.AssignedName <+: s ∧
    ((∀ c ∈ s, c ≠ 63 ∧ c ≠ 35) → u.AssignedName = s) ∧
    u.AssignedName <+: u.String := by
  have hg := parsed_grammatical s u h
  have hs := String_of_Parse s u h
  have hb := assigned_before u hg
  rw [hs] at hb
  obtain ⟨t, ht, -⟩ := String_assigned u
  refine ⟨rfl, hb.symm, ?_, ?_, ⟨t, ht.symm⟩⟩
  · rw [← hs]
    exact ⟨t, ht.symm⟩
  · intro hall
    rw [← hb]
    unfold beforeComponents
    rw [List.takeWhile_eq_self_iff]
    intro c hc
    have := hall c hc
    simp [this.1, this.2]

theorem C29_assigned_name_witness :
    Parse (bytes "urn:ex:a/b%3F?+r?=q#f") =
      some (some { Scheme := bytes "urn", NID := bytes "ex", NSS := bytes "a/b%3F",
                   Resolve := bytes "r", Query := bytes "q", Fragment := bytes "f" }, none) ∧
    URN.AssignedName { Scheme := bytes "urn", NID := bytes "ex", NSS := bytes "a/b%3F",
                       Resolve := bytes "r", Query := bytes "q", Fragment := bytes "f" }
      = bytes "urn:ex:a/b%3F" ∧
    bytes "urn:ex:a/b%3F" = (bytes "urn:ex:a/b%3F?+r?=q#f").takeWhile
      (fun c => c != 63 && c != 35) := by
  have h := C29_assigned_name (bytes "urn:ex:a/b%3F?+r?=q#f")
    { Scheme := bytes "urn", NID := bytes "ex", NSS := bytes "a/b%3F",
      Resolve := bytes "r", Query := bytes "q", Fragment := bytes "f" } (by decide)
  exact ⟨by decide, by decide, (by decide : bytes "urn:ex:a/b%3F" = URN.AssignedName _).trans h.2.1⟩


/-! ## Equivalence -/

theorem compared_some (part : ComparisonPart) (u : URN)
    (hp : part = AssignedName ∨ part = AllParts) : ∃ x, compared part u = some x := by
  unfold compared
  rcases hp with rfl | rfl
  · exact ⟨_, rfl⟩
  · exact ⟨_, rfl⟩

theorem beq_list_comm (x y : List Nat) : (x == y) = (y == x) := by
  by_cases h : x = y
  · subst h; rfl
  · have h1 : (x == y) = false := by simpa using h
    have h2 : (y == x) = false := by simpa using fun e => h e.symm
    rw [h1, h2]

/-- The assigned names of two case-normalized grammatical URNs agree exactly when the
lowercased NIDs and the NSS with uppercased triplets agree. -/
theorem assigned_normalForm_inj (A B : URN) (hgA : Grammatical A) (hgB : Grammatical B) :
    (normalForm A).AssignedName = (normalForm B).AssignedName ↔
      A.Scheme.map lowerByte = B.Scheme.map lowerByte ∧
      A.NID.map lowerByte = B.NID.map lowerByte ∧
      upperTriplets A.NSS = upperTriplets B.NSS := by
  constructor
  · intro h
    unfold URN.AssignedName normalForm at h
    simp only [hgA.scheme, hgB.scheme, List.append_assoc, List.singleton_append,
      List.cons_append, List.nil_append] at h
    have h2 := List.append_cancel_left h
    simp only [List.cons.injEq, true_and] at h2
    have hallA : ∀ c ∈ A.NID.map lowerByte, isAlphaNum c = true ∨ c = 45 := by
      intro c hc
      obtain ⟨x, hx, rfl⟩ := List.mem_map.1 hc
      exact (alnum_facts x (hgA.nid_bytes x hx)).2.2
    have hallB : ∀ c ∈ B.NID.map lowerByte, isAlphaNum c = true ∨ c = 45 := by
      intro c hc
      obtain ⟨x, hx, rfl⟩ := List.mem_map.1 hc
      exact (alnum_facts x (hgB.nid_bytes x hx)).2.2
    have h3 := congrArg (List.takeWhile (fun c => decide (c ≠ 58))) h2
    rw [takeWhile_colon _ _ hallA, takeWhile_colon _ _ hallB] at h3
    rw [h3] at h2
    have h4 := List.append_cancel_left h2
    simp only [List.cons.injEq, true_and] at h4
    exact ⟨by rw [hgA.scheme, hgB.scheme], h3, h4⟩
  · rintro ⟨h1, h2, h3⟩
    unfold URN.AssignedName normalForm
    simp only [h1, h2, h3]

/-- C25. For URNs `A` and `B` produced by `Parse`, `Equal(A, B, AssignedName,
CaseNormalized)` returns, and is true exactly when the Schemes agree ignoring case, the
NIDs agree ignoring case and the NSS strings agree after uppercasing the hex digits of
every percent-triplet; the other fields play no part. -/
theorem C25_urn_equivalence (uc : UnicodeCase) (h : Heap) (a b : Ptr) (sA sB : List Nat)
    (A B : URN) (ha : Heap.load h a = some A) (hb : Heap.load h b = some B)
    (hA : Parse sA = some (some A, none)) (hB : Parse sB = some (some B, none)) :
    ∃ h1 r, Equal uc h a b AssignedName CaseNormalized = some (h1, r) ∧
      (r = true ↔
        A.Scheme.map lowerByte = B.Scheme.map lowerByte ∧
        A.NID.map lowerByte = B.NID.map lowerByte ∧
        upperTriplets A.NSS = upperTriplets B.NSS) := by
  by_cases hab : a = b
  · subst hab
    have hAB : A = B := Option.some.inj (ha.symm.trans hb)
    subst hAB
    exact ⟨h, true, Equal_same uc h a _ _, by simp⟩
  · have hx : compared AssignedName (viewed CaseNormalized A)
        = some (normalForm A).AssignedName := by
      rw [(viewed_parsed sA A hA).2.1]; rfl
    have hy : compared AssignedName (viewed CaseNormalized B)
        = some (normalForm B).AssignedName := by
      rw [(viewed_parsed sB B hB).2.1]; rfl
    obtain ⟨h1, he⟩ := Equal_eq uc h a b A B ha hb (parsed_normalizable sA A hA)
      (parsed_normalizable sB B hB) hab AssignedName CaseNormalized _ _ hx hy
    refine ⟨h1, _, he, ?_⟩
    rw [beq_iff_eq]
    exact assigned_normalForm_inj A B (parsed_grammatical sA A hA) (parsed_grammatical sB B hB)

theorem C25_urn_equivalence_witness :
    (Parse (bytes "URN:FOO:x") =
        some (some { Scheme := bytes "URN", NID := bytes "FOO", NSS := bytes "x" }, none) ∧
      Parse (bytes "urn:foo:x") =
        some (some { Scheme := bytes "urn", NID := bytes "foo", NSS := bytes "x" }, none)) ∧
    (∃ h1, Equal ⟨id, id⟩
        [{ Scheme := bytes "URN", NID := bytes "FOO", NSS := bytes "x" },
         { Scheme := bytes "urn", NID := bytes "foo", NSS := bytes "x" }]
        (some 0) (some 1) AssignedName CaseNormalized = some (h1, true)) ∧
    (Ptr.Parse [] (bytes "URN:FOO:x")).bind (fun p =>
      (Ptr.Parse p.1 (bytes "urn:foo:x")).bind (fun q =>
        (Equal ⟨id, id⟩ q.1 p.2.1 q.2.1 AssignedName CaseNormalized).map Prod.snd))
      = some true ∧
    (Ptr.Parse [] (bytes "urn:foo:a123%2c456")).bind (fun p =>
      (Ptr.Parse p.1 (bytes "urn:foo:a123%2C456")).bind (fun q =>
        (Equal ⟨id, id⟩ q.1 p.2.1 q.2.1 AssignedName CaseNormalized).map Prod.snd))
      = some true ∧
    (Ptr.Parse [] (bytes "urn:example:a123,z456?+abc")).bind (fun p =>
      (Ptr.Parse p.1 (bytes "urn:example:a123,z456")).bind (fun q =>
        (Equal ⟨id, id⟩ q.1 p.2.1 q.2.1 AssignedName CaseNormalized).map Prod.snd))
      = some true ∧
    (Ptr.Parse [] (bytes "urn:example:a123%2Cz456")).bind (fun p =>
      (Ptr.Parse p.1 (bytes "urn:example:a123,z456")).bind (fun q =>
        (Equal ⟨id, id⟩ q.1 p.2.1 q.2.1 AssignedName CaseNormalized).map Prod.snd))
      = some false ∧
    (Ptr.Parse [] (bytes "urn:example:A123,z456")).bind (fun p =>
      (Ptr.Parse p.1 (bytes "urn:example:a123,z456")).bind (fun q =>
        (Equal ⟨id, id⟩ q.1 p.2.1 q.2.1 AssignedName CaseNormalized).map Prod.snd))
      = some false ∧
    (Ptr.Parse [] (bytes "urn:example:a123,z456/foo")).bind (fun p =>
      (Ptr.Parse p.1 (bytes "urn:example:a123,z456/bar")).bind (fun q =>
        (Equal ⟨id, id⟩ q.1 p.2.1 q.2.1 AssignedName CaseNormalized).map Prod.snd))
      = some false := by
  obtain ⟨h1, r, he, hr⟩ := C25_urn_equivalence ⟨id, id⟩
    [{ Scheme := bytes "URN", NID := bytes "FOO", NSS := bytes "x" },
     { Scheme := bytes "urn", NID := bytes "foo", NSS := bytes "x" }]
    (some 0) (some 1) (bytes "URN:FOO:x") (bytes "urn:foo:x")
    { Scheme := bytes "URN", NID := bytes "FOO", NSS := bytes "x" }
    { Scheme := bytes "urn", NID := bytes "foo", NSS := bytes "x" }
    (by decide) (by decide) (by decide) (by decide)
  have hr2 : r = true := hr.2 (by decide)
  subst hr2
  exact ⟨⟨by decide, by decide⟩, ⟨h1, he⟩, by decide, by decide, by decide, by decide,
    by decide, by decide⟩

/-- C26. For every URN `U` produced by `Parse`, both scopes and every method,
`Equal(U, U, scope, method)` is true, and so is `Equal(U, V, scope, method)` for any pointer
`V` to a URN with the same fields, the same pointer or another. -/
theorem C26_equal_reflexive (uc : UnicodeCase) (h : Heap) (a b : Ptr) (s : List Nat) (U : URN)
    (ha : Heap.load h a = some U) (hb : Heap.load h b = some U)
    (hU : Parse s = some (some U, none)) (part : ComparisonPart) (method : ComparisonMethod)
    (hp : part = AssignedName ∨ part = AllParts) :
    Equal uc h a a part method = some (h, true) ∧
    ∃ h1, Equal uc h a b part method = some (h1, true) := by
  refine ⟨Equal_same uc h a part method, ?_⟩
  by_cases hab : a = b
  · subst hab
    exact ⟨h, Equal_same uc h a part method⟩
  · obtain ⟨x, hx⟩ := compared_some part (viewed method U) hp
    have hn := parsed_normalizable s U hU
    obtain ⟨h1, he⟩ := Equal_eq uc h a b U U ha hb hn hn hab part method x x hx hx
    refine ⟨h1, ?_⟩
    rw [he]
    simp

theorem C26_equal_reflexive_witness :
    Parse (bytes "Urn:Ab:x%2fy?+r#f") =
      some (some { Scheme := bytes "Urn", NID := bytes "Ab", NSS := bytes "x%2fy",
                   Resolve := bytes "r", Fragment := bytes "f" }, none) ∧
    ∃ h1, Equal ⟨id, id⟩
        [{ Scheme := bytes "Urn", NID := bytes "Ab", NSS := bytes "x%2fy",
           Resolve := bytes "r", Fragment := bytes "f" },
         { Scheme := bytes "Urn", NID := bytes "Ab", NSS := bytes "x%2fy",
           Resolve := bytes "r", Fragment := bytes "f" }]
        (some 0) (some 1) AllParts EncodingNormalized = some (h1, true) :=
  ⟨by decide,
    (C26_equal_reflexive ⟨id, id⟩
      [{ Scheme := bytes "Urn", NID := bytes "Ab", NSS := bytes "x%2fy",
         Resolve := bytes "r", Fragment := bytes "f" },
       { Scheme := bytes "Urn", NID := bytes "Ab", NSS := bytes "x%2fy",
         Resolve := bytes "r", Fragment := bytes "f" }]
      (some 0) (some 1) (bytes "Urn:Ab:x%2fy?+r#f")
      { Scheme := bytes "Urn", NID := bytes "Ab", NSS := bytes "x%2fy",
        Resolve := bytes "r", Fragment := bytes "f" }
      (by decide) (by decide) (by decide) AllParts EncodingNormalized (Or.inr rfl)).2⟩

/-- C27. For URNs `A` and `B` produced by `Parse`, every scope and every method,
`Equal(A, B, scope, method)` and `Equal(B, A, scope, method)` give the same result (for a
scope that is neither constant both panic), and for the two scopes `Equal` returns. -/
theorem C27_equal_symmetric (uc : UnicodeCase) (h : Heap) (a b : Ptr) (sA sB : List Nat)
    (A B : URN) (ha : Heap.load h a = some A) (hb : Heap.load h b = some B)
    (hA : Parse sA = some (some A, none)) (hB : Parse sB = some (some B, none))
    (part : ComparisonPart) (method : ComparisonMethod) :
    (Equal uc h a b part method).map Prod.snd = (Equal uc h b a part method).map Prod.snd ∧
    ((part = AssignedName ∨ part = AllParts) →
      ∃ h1 r, Equal uc h a b part method = some (h1, r)) := by
  have hnA := parsed_normalizable sA A hA
  have hnB := parsed_normalizable sB B hB
  by_cases hab : a = b
  · subst hab
    exact ⟨rfl, fun _ => ⟨h, true, Equal_same uc h a part method⟩⟩
  · have hba : b ≠ a := fun e => hab e.symm
    by_cases hp : part = AssignedName ∨ part = AllParts
    · obtain ⟨x, hx⟩ := compared_some part (viewed method A) hp
      obtain ⟨y, hy⟩ := compared_some part (viewed method B) hp
      obtain ⟨h1, he1⟩ := Equal_eq uc h a b A B ha hb hnA hnB hab part method x y hx hy
      obtain ⟨h2, he2⟩ := Equal_eq uc h b a B A hb ha hnB hnA hba part method y x hy hx
      refine ⟨?_, fun _ => ⟨h1, _, he1⟩⟩
      rw [he1, he2]
      simp only [Option.map_some', Option.some.injEq]
      exact beq_list_comm x y
    · have hp1 : part ≠ AssignedName := fun e => hp (Or.inl e)
      have hp2 : part ≠ AllParts := fun e => hp (Or.inr e)
      refine ⟨?_, fun hv => absurd hv hp⟩
      rw [Equal_none uc h a b A B ha hb hnA hnB hab part method hp1 hp2,
        Equal_none uc h b a B A hb ha hnB hnA hba part method hp1 hp2]

theorem C27_equal_symmetric_witness :
    (Equal ⟨id, id⟩
        [{ Scheme := bytes "URN", NID := bytes "ex", NSS := bytes "a%2c" },
         { Scheme := bytes "urn", NID := bytes "EX", NSS := bytes "a%2C", Query := bytes "q" }]
        (some 0) (some 1) AssignedName CaseNormalized).map Prod.snd = some true ∧
    (Equal ⟨id, id⟩
        [{ Scheme := bytes "URN", NID := bytes "ex", NSS := bytes "a%2c" },
         { Scheme := bytes "urn", NID := bytes "EX", NSS := bytes "a%2C", Query := bytes "q" }]
        (some 1) (some 0) AssignedName CaseNormalized).map Prod.snd = some true := by
  have h := (C27_equal_symmetric ⟨id, id⟩
    [{ Scheme := bytes "URN", NID := bytes "ex", NSS := bytes "a%2c" },
     { Scheme := bytes "urn", NID := bytes "EX", NSS := bytes "a%2C", Query := bytes "q" }]
    (some 0) (some 1) (bytes "URN:ex:a%2c") (bytes "urn:EX:a%2C?=q")
    { Scheme := bytes "URN", NID := bytes "ex", NSS := bytes "a%2c" }
    { Scheme := bytes "urn", NID := bytes "EX", NSS := bytes "a%2C", Query := bytes "q" }
    (by decide) (by decide) (by decide) (by decide) AssignedName CaseNormalized).1
  have h1 : (Equal ⟨id, id⟩
      [{ Scheme := bytes "URN", NID := bytes "ex", NSS := bytes "a%2c" },
       { Scheme := bytes "urn", NID := bytes "EX", NSS := bytes "a%2C", Query := bytes "q" }]
      (some 0) (some 1) AssignedName CaseNormalized).map Prod.snd = some true := by decide
  exact ⟨h1, h ▸ h1⟩

/-- C28. For inputs `s` and `t` on which `Parse` succeeds, `Equal(Parse(s), Parse(t),
AllParts, Simple)` is true exactly when `s = t`, and `Equal(Parse(s), Parse(t),
AssignedName, Simple)` exactly when the parts of `s` and `t` before the first `'?'` or `'#'`
are the same. -/
theorem C28_simple_comparison (uc : UnicodeCase) (h : Heap) (a b : Ptr) (s t : List Nat)
    (A B : URN) (ha : Heap.load h a = some A) (hb : Heap.load h b = some B)
    (hA : Parse s = some (some A, none)) (hB : Parse t = some (some B, none)) :
    (∃ h1 r, Equal uc h a b AllParts Simple = some (h1, r) ∧ (r = true ↔ s = t)) ∧
    (∃ h1 r, Equal uc h a b AssignedName Simple = some (h1, r) ∧
      (r = true ↔ s.takeWhile (fun c => c != 63 && c != 35)
        = t.takeWhile (fun c => c != 63 && c != 35))) := by
  have hsA := String_of_Parse s A hA
  have hsB := String_of_Parse t B hB
  have hbA := assigned_before A (parsed_grammatical s A hA)
  have hbB := assigned_before B (parsed_grammatical t B hB)
  rw [hsA] at hbA
  rw [hsB] at hbB
  unfold beforeComponents at hbA hbB
  by_cases hab : a = b
  · subst hab
    have hAB : A = B := Option.some.inj (ha.symm.trans hb)
    subst hAB
    have hst : s = t := hsA.symm.trans hsB
    subst hst
    exact ⟨⟨h, true, Equal_same uc h a _ _, by simp⟩, ⟨h, true, Equal_same uc h a _ _, by simp⟩⟩
  · have hnA := parsed_normalizable s A hA
    have hnB := parsed_normalizable t B hB
    obtain ⟨h1, he1⟩ := Equal_eq uc h a b A B ha hb hnA hnB hab AllParts Simple
      A.String B.String rfl rfl
    obtain ⟨h2, he2⟩ := Equal_eq uc h a b A B ha hb hnA hnB hab AssignedName Simple
      A.AssignedName B.AssignedName rfl rfl
    refine ⟨⟨h1, _, he1, ?_⟩, ⟨h2, _, he2, ?_⟩⟩
    · rw [beq_iff_eq, hsA, hsB]
    · rw [beq_iff_eq, hbA, hbB]

theorem C28_simple_comparison_witness :
    (∃ h1 r, Equal ⟨id, id⟩
        [{ Scheme := bytes "urn", NID := bytes "ex", NSS := bytes "a", Resolve := bytes "r" },
         { Scheme := bytes "urn", NID := bytes "ex", NSS := bytes "a", Fragment := bytes "f" }]
        (some 0) (some 1) AllParts Simple = some (h1, r) ∧
      (r = true ↔ bytes "urn:ex:a?+r" = bytes "urn:ex:a#f")) ∧
    (Equal ⟨id, id⟩
        [{ Scheme := bytes "urn", NID := bytes "ex", NSS := bytes "a", Resolve := bytes "r" },
         { Scheme := bytes "urn", NID := bytes "ex", NSS := bytes "a", Fragment := bytes "f" }]
        (some 0) (some 1) AllParts Simple).map Prod.snd = some false ∧
    (Equal ⟨id, id⟩
        [{ Scheme := bytes "urn", NID := bytes "ex", NSS := bytes "a", Resolve := bytes "r" },
         { Scheme := bytes "urn", NID := bytes "ex", NSS := bytes "a", Fragment := bytes "f" }]
        (some 0) (some 1) AssignedName Simple).map Prod.snd = some true :=
  ⟨(C28_simple_comparison ⟨id, id⟩
      [{ Scheme := bytes "urn", NID := bytes "ex", NSS := bytes "a", Resolve := bytes "r" },
       { Scheme := bytes "urn", NID := bytes "ex", NSS := bytes "a", Fragment := bytes "f" }]
      (some 0) (some 1) (bytes "urn:ex:a?+r") (bytes "urn:ex:a#f")
      { Scheme := bytes "urn", NID := bytes "ex", NSS := bytes "a", Resolve := bytes "r" }
      { Scheme := bytes "urn", NID := bytes "ex", NSS := bytes "a", Fragment := bytes "f" }
      (by decide) (by decide) (by decide) (by decide)).1,
    by decide, by decide⟩


/-! ## Text marshaling -/

theorem UnmarshalText_ok (h : Heap) (u : Ptr) (v : URN) (hl : Heap.load h u = some v)
    (b : List Nat) (w : URN) (hp : Parse b = some (some w, none)) :
    ∃ a, u = some a ∧ a < h.length ∧
      Ptr.UnmarshalText h u b = some ((h ++ [w]).set a w, none) := by
  obtain ⟨a, rfl, hlt, -, -⟩ := load_mem h u v hl
  refine ⟨a, rfl, hlt, ?_⟩
  unfold Ptr.UnmarshalText Ptr.Parse
  simp only [Option.bind_eq_bind, hp, Option.some_bind, Heap.alloc, load_new]
  have hlt2 : a < h.length + 1 := by omega
  simp [Heap.store, hlt2]

theorem UnmarshalText_err (h : Heap) (u : Ptr) (b : List Nat) (e : Error)
    (hp : Parse b = some (none, some e)) :
    Ptr.UnmarshalText h u b = some (h, some { format := "urn.UnmarshalText: %w", err := e }) := by
  unfold Ptr.UnmarshalText Ptr.Parse
  simp only [Option.bind_eq_bind, hp, Option.some_bind]

theorem load_set_same (h : Heap) (a : Nat) (w : URN) (hlt : a < h.length) :
    Heap.load (h.set a w) (some a) = some w := by
  show (h.set a w)[a]? = some w
  rw [List.getElem?_set_self hlt]

/-- C30. `MarshalText` returns the bytes of `String()` and no error. `UnmarshalText(b)`
returns no error exactly when `Parse` accepts `b`; then the receiver holds the parsed URN;
when `Parse` rejects `b` the heap is left as it was and the error wraps the parser's
`*Error`. So unmarshalling the marshalled text of a parsed URN gives a URN with the same
`String()`. -/
theorem C30_text_marshaling (h : Heap) (u : Ptr) (v : URN) (hl : Heap.load h u = some v)
    (b : List Nat) :
    Ptr.MarshalText h u = some (v.String, none) ∧
    ((∃ h1, Ptr.UnmarshalText h u b = some (h1, none)) ↔ ∃ w, Parse b = some (some w, none)) ∧
    (∀ w, Parse b = some (some w, none) →
      ∃ h1, Ptr.UnmarshalText h u b = some (h1, none) ∧ Heap.load h1 u = some w) ∧
    (∀ e, Parse b = some (none, some e) →
      Ptr.UnmarshalText h u b
        = some (h, some { format := "urn.UnmarshalText: %w", err := e })) ∧
    (∀ (s : List Nat) (p : Ptr) (U : URN), Parse s = some (some U, none) →
      Heap.load h p = some U →
      ∃ t h1 w, Ptr.MarshalText h p = some (t, none) ∧
        Ptr.UnmarshalText h u t = some (h1, none) ∧ Heap.load h1 u = some w ∧
        w.String = U.String) := by
  have hok : ∀ w, Parse b = some (some w, none) →
      ∃ h1, Ptr.UnmarshalText h u b = some (h1, none) ∧ Heap.load h1 u = some w := by
    intro w hw
    obtain ⟨a, rfl, hlt, he⟩ := UnmarshalText_ok h u v hl b w hw
    exact ⟨_, he, load_set_same _ a w (by simp; omega)⟩
  refine ⟨by simp [Ptr.MarshalText, Ptr.String, hl], ⟨?_, ?_⟩, hok,
    fun e he => UnmarshalText_err h u b e he, ?_⟩
  · rintro ⟨h1, hu⟩
    have hpe := Parse_eq b
    cases hr : parseRef b with
    | ok w =>
      rw [hr] at hpe
      exact ⟨w, hpe⟩
    | error k =>
      rw [hr] at hpe
      obtain ⟨msg, hmsg⟩ := hpe
      rw [UnmarshalText_err h u b _ hmsg] at hu
      simp at hu
  · rintro ⟨w, hw⟩
    obtain ⟨h1, he, -⟩ := hok w hw
    exact ⟨h1, he⟩
  · intro s p U hU hpU
    have hs := String_of_Parse s U hU
    obtain ⟨a, rfl, hlt, he⟩ := UnmarshalText_ok h u v hl U.String U (by rw [hs]; exact hU)
    exact ⟨U.String, _, U, by simp [Ptr.MarshalText, Ptr.String, hpU], he,
      load_set_same _ a U (by simp; omega), rfl⟩

theorem C30_text_marshaling_witness :
    Heap.load [{ Scheme := bytes "urn", NID := bytes "ab", NSS := bytes "c" }] (some 0)
      = some { Scheme := bytes "urn", NID := bytes "ab", NSS := bytes "c" } ∧
    Ptr.MarshalText [{ Scheme := bytes "urn", NID := bytes "ab", NSS := bytes "c" }] (some 0)
      = some (bytes "urn:ab:c", none) ∧
    Ptr.UnmarshalText [{ Scheme := bytes "urn", NID := bytes "ab", NSS := bytes "c" }] (some 0)
        (bytes "URN:xy:z%3a#")
      = some ([{ Scheme := bytes "URN", NID := bytes "xy", NSS := bytes "z%3a",
                 ForceFragment := true },
               { Scheme := bytes "URN", NID := bytes "xy", NSS := bytes "z%3a",
                 ForceFragment := true }], none) ∧
    (Ptr.UnmarshalText [{ Scheme := bytes "urn", NID := bytes "ab", NSS := bytes "c" }] (some 0)
        (bytes "urn:x")).map (fun r => (r.1, r.2.map (fun e => (e.format, e.err.Err))))
      = some ([{ Scheme := bytes "urn", NID := bytes "ab", NSS := bytes "c" }],
          some ("urn.UnmarshalText: %w", ErrInvalidNID)) := by
  have h := C30_text_marshaling [{ Scheme := bytes "urn", NID := bytes "ab", NSS := bytes "c" }]
    (some 0) { Scheme := bytes "urn", NID := bytes "ab", NSS := bytes "c" } (by decide)
    (bytes "URN:xy:z%3a#")
  exact ⟨by decide, h.1.trans (by decide), by decide, by decide⟩


/-! ## Round trips of the codec -/

/-- In the output of an encoder that keeps only bytes a component may hold, every `'%'`
begins a triplet, and every byte is below 256. -/
theorem encoded_wellFormed (A : List Nat) (hA : ∀ c ∈ A, compByte c = true) (l : List Nat)
    (hb : ∀ c ∈ l, c < 256) :
    wellFormed (encodeRef A l) = true ∧ ∀ c ∈ encodeRef A l, c < 256 :=
  tokens_wellFormed
    (encodeRef_tokens A compByte (fun c hc => by simp [compByte, hc]) hA l hb)

theorem Decode_encoded (A : List Nat) (hA : ∀ c ∈ A, compByte c = true) (l : List Nat)
    (hb : ∀ c ∈ l, c < 256) : Decode (encodeRef A l) = some l := by
  have h37 : 37 ∉ A := by
    intro hm
    exact absurd (hA 37 hm) (by decide)
  rw [Decode_eq, if_pos (encoded_wellFormed A hA l hb).1, (decodeRef_encodeRef A h37 l hb).1]

/-- C31. For every byte sequence `d`, `Decode(EncodeNSS(d))` and `Decode(EncodeComponent(d))`
return `d`; in particular `Decode` does not run past its buffer on the output of these
encoders, whose length is that of `d` plus two for each `'%'`. -/
theorem C31_decode_undoes_encode (d : List Nat) (hb : ∀ c ∈ d, c < 256) :
    (∃ e, EncodeNSS d = some e ∧ Decode e = some d ∧ e.length = d.length + 2 * e.count 37) ∧
    (∃ e, EncodeComponent d = some e ∧ Decode e = some d ∧
      e.length = d.length + 2 * e.count 37) := by
  have h1 := encoded_wellFormed [47] (by decide) d hb
  have h2 := encoded_wellFormed [47, 63] (by decide) d hb
  have l1 := (decodeRef_length _ (encodeRef [47] d) (le_refl _)).2.1 h1.1
  have l2 := (decodeRef_length _ (encodeRef [47, 63] d) (le_refl _)).2.1 h2.1
  rw [(decodeRef_encodeRef [47] (by decide) d hb).1] at l1
  rw [(decodeRef_encodeRef [47, 63] (by decide) d hb).1] at l2
  exact ⟨⟨_, EncodeNSS_eq d hb, Decode_encoded [47] (by decide) d hb, l1.symm⟩,
    ⟨_, EncodeComponent_eq d hb, Decode_encoded [47, 63] (by decide) d hb, l2.symm⟩⟩

theorem C31_decode_undoes_encode_witness :
    (∀ c ∈ [0, 37, 200, 47, 63, 97, 255], c < 256) ∧
    EncodeNSS [0, 37, 200, 47, 63, 97, 255] = some (bytes "%00%25%C8/%3Fa%FF") ∧
    Decode (bytes "%00%25%C8/%3Fa%FF") = some [0, 37, 200, 47, 63, 97, 255] ∧
    EncodeComponent [0, 37, 200, 47, 63, 97, 255] = some (bytes "%00%25%C8/?a%FF") ∧
    Decode (bytes "%00%25%C8/?a%FF") = some [0, 37, 200, 47, 63, 97, 255] := by
  obtain ⟨⟨e1, he1, hd1, -⟩, ⟨e2, he2, hd2, -⟩⟩ :=
    C31_decode_undoes_encode [0, 37, 200, 47, 63, 97, 255] (by decide)
  have x1 : e1 = bytes "%00%25%C8/%3Fa%FF" := Option.some.inj (he1.symm.trans (by decide))
  have x2 : e2 = bytes "%00%25%C8/?a%FF" := Option.some.inj (he2.symm.trans (by decide))
  subst x1
  subst x2
  exact ⟨by decide, he1, hd1, he2, hd2⟩

theorem recode_twice (A : List Nat) (hA : ∀ c ∈ A, compByte c = true) (s : List Nat)
    (hb : ∀ c ∈ s, c < 256) :
    Decode (encodeRef A (decodeRef s)) = some (decodeRef s) ∧
      wellFormed (encodeRef A (decodeRef s)) = true ∧
      (∀ c ∈ encodeRef A (decodeRef s), c < 256) ∧
      encodeRef A (decodeRef (encodeRef A (decodeRef s))) = encodeRef A (decodeRef s) := by
  have hd := decodeRef_lt s.length s (le_refl _) hb
  have hw := encoded_wellFormed A hA (decodeRef s) hd
  have h37 : 37 ∉ A := by
    intro hm
    exact absurd (hA 37 hm) (by decide)
  refine ⟨Decode_encoded A hA _ hd, hw.1, hw.2, ?_⟩
  rw [(decodeRef_encodeRef A h37 _ hd).1]

/-- C32. For every string `s` in which every `'%'` is followed by two hex digits, the
recoded text decodes to what `s` decodes to, and recoding the recoded text returns it
unchanged, for `RecodeStringNSS` and for `RecodeStringComponent`. -/
theorem C32_recode_preserves_idempotent (s : List Nat) (hb : ∀ c ∈ s, c < 256)
    (hw : wellFormed s = true) :
    (∃ r, RecodeStringNSS s = some r ∧ Decode r = Decode s ∧ RecodeStringNSS r = some r) ∧
    (∃ r, RecodeStringComponent s = some r ∧ Decode r = Decode s ∧
      RecodeStringComponent r = some r) := by
  have hs : Decode s = some (decodeRef s) := by rw [Decode_eq, if_pos hw]
  obtain ⟨a1, a2, a3, a4⟩ := recode_twice [47] (by decide) s hb
  obtain ⟨b1, b2, b3, b4⟩ := recode_twice [47, 63] (by decide) s hb
  refine ⟨⟨_, RecodeStringNSS_eq s hb hw, by rw [a1, hs], ?_⟩,
    ⟨_, RecodeStringComponent_eq s hb hw, by rw [b1, hs], ?_⟩⟩
  · rw [RecodeStringNSS_eq _ a3 a2, a4]
  · rw [RecodeStringComponent_eq _ b3 b2, b4]

theorem C32_recode_preserves_idempotent_witness :
    ((∀ c ∈ bytes "a%2fb%3f%41%c3%25", c < 256) ∧
      wellFormed (bytes "a%2fb%3f%41%c3%25") = true) ∧
    RecodeStringNSS (bytes "a%2fb%3f%41%c3%25") = some (bytes "a/b%3FA%C3%25") ∧
    RecodeStringNSS (bytes "a/b%3FA%C3%25") = some (bytes "a/b%3FA%C3%25") ∧
    Decode (bytes "a/b%3FA%C3%25") = Decode (bytes "a%2fb%3f%41%c3%25") ∧
    RecodeStringComponent (bytes "a%2fb%3f%41%c3%25") = some (bytes "a/b?A%C3%25") := by
  obtain ⟨⟨r1, h1, d1, i1⟩, ⟨r2, h2, -, -⟩⟩ :=
    C32_recode_preserves_idempotent (bytes "a%2fb%3f%41%c3%25") (by decide) (by decide)
  have x1 : r1 = bytes "a/b%3FA%C3%25" := Option.some.inj (h1.symm.trans (by decide))
  have x2 : r2 = bytes "a/b?A%C3%25" := Option.some.inj (h2.symm.trans (by decide))
  subst x1
  subst x2
  exact ⟨⟨by decide, by decide⟩, h1, i1, d1, h2⟩


/-! ## Safety -/

/-- C34. `Parse` returns on every input, with a URN and no error or with an error and no
URN: the loops end within their fuel and no index or slice leaves the input, each of which
would make the model return nothing. The inputs that end inside a triplet or right after
`"?"`, `"?+"`, `"?="` or `"#"` are evaluated. -/
theorem C34_parse_total :
    (∀ s : List Nat, ∃ r, Parse s = some r ∧
      ((∃ u, r = (some u, none)) ∨ (∃ e, r = (none, some e)))) ∧
    (Parse (bytes "")).map (fun r => (r.1, r.2.map Error.Err))
      = some (none, some ErrInvalidScheme) ∧
    (Parse (bytes "urn:ab:c%4")).map (fun r => (r.1, r.2.map Error.Err))
      = some (none, some ErrInvalidNSS) ∧
    (Parse (bytes "urn:ab:%")).map (fun r => (r.1, r.2.map Error.Err))
      = some (none, some ErrInvalidNSS) ∧
    (Parse (bytes "urn:ab:c?")).map (fun r => (r.1, r.2.map Error.Err))
      = some (none, some ErrInvalidIdentifier) ∧
    (Parse (bytes "urn:ab:c?+")).map (fun r => (r.1, r.2.map Error.Err))
      = some (none, some ErrInvalidResolve) ∧
    (Parse (bytes "urn:ab:c?=")).map (fun r => (r.1, r.2.map Error.Err))
      = some (none, some ErrInvalidQuery) ∧
    Parse (bytes "urn:ab:c#")
      = some (some { Scheme := bytes "urn", NID := bytes "ab", NSS := bytes "c",
                     ForceFragment := true }, none) := by
  refine ⟨fun s => ?_, by decide, by decide, by decide, by decide, by decide, by decide,
    by decide⟩
  have h := Parse_eq s
  cases hr : parseRef s with
  | ok u =>
    rw [hr] at h
    exact ⟨_, h, Or.inl ⟨u, rfl⟩⟩
  | error k =>
    rw [hr] at h
    obtain ⟨msg, hmsg⟩ := h
    exact ⟨_, hmsg, Or.inr ⟨_, rfl⟩⟩

theorem derived_normalizable (uc : UnicodeCase) (u v : URN) (hn : Normalizable u)
    (hd : Derived uc u v) : Normalizable v := by
  induction hd with
  | self => exact hn
  | normalize v w _ hw ih =>
    rw [Normalize_of uc v ih] at hw
    rw [← Option.some.inj hw]
    exact normalizable_normalForm v ih
  | encodingNormalize v w _ hw ih =>
    rw [EncodingNormalize_of uc v ih] at hw
    rw [← Option.some.inj hw]
    exact normalizable_recodedForm v ih

theorem Decode_tokens {l : List Nat} (h : Tokens compByte l) :
    wellFormed l = true ∧ ∃ d, Decode l = some d ∧
      (d.length : Int) = (l.length : Int) - 2 * (l.count 37 : Int) := by
  have hw := (tokens_wellFormed h).1
  refine ⟨hw, decodeRef l, by rw [Decode_eq, if_pos hw], ?_⟩
  have := (decodeRef_length l.length l (le_refl _)).2.1 hw
  omega

/-- C35. For every URN `U` produced by `Parse` and every URN `V` obtained from it by
`Normalize` and `EncodingNormalize`: in each of NSS, Resolve, Query and Fragment of `V`
every `'%'` begins a triplet, so `Decode` returns on it with a buffer of `len - 2*count`
bytes filled exactly; `EncodingNormalize` returns on `V`; and `Equal` with the method
`EncodingNormalized` returns on pointers to two such URNs, for both scopes. -/
theorem C35_encoding_normalize_safe (uc : UnicodeCase) (s : List Nat) (U V : URN)
    (hU : Parse s = some (some U, none)) (hV : Derived uc U V) :
    (wellFormed V.NSS = true ∧ wellFormed V.Resolve = true ∧ wellFormed V.Query = true ∧
      wellFormed V.Fragment = true) ∧
    ((∃ d, Decode V.NSS = some d ∧
        (d.length : Int) = (V.NSS.length : Int) - 2 * (V.NSS.count 37 : Int)) ∧
      (∃ d, Decode V.Resolve = some d ∧
        (d.length : Int) = (V.Resolve.length : Int) - 2 * (V.Resolve.count 37 : Int)) ∧
      (∃ d, Decode V.Query = some d ∧
        (d.length : Int) = (V.Query.length : Int) - 2 * (V.Query.count 37 : Int)) ∧
      (∃ d, Decode V.Fragment = some d ∧
        (d.length : Int) = (V.Fragment.length : Int) - 2 * (V.Fragment.count 37 : Int))) ∧
    (∃ W, V.EncodingNormalize uc = some W) ∧
    (∀ (t : List Nat) (U2 V2 : URN), Parse t = some (some U2, none) → Derived uc U2 V2 →
      ∀ (h : Heap) (a b : Ptr), Heap.load h a = some V → Heap.load h b = some V2 →
      ∀ part : ComparisonPart, part = AssignedName ∨ part = AllParts →
        ∃ h1 r, Equal uc h a b part EncodingNormalized = some (h1, r)) := by
  have hn := derived_normalizable uc U V (parsed_normalizable s U hU) hV
  have d1 := Decode_tokens hn.nss
  have d2 := Decode_tokens hn.resolve
  have d3 := Decode_tokens hn.query
  have d4 := Decode_tokens hn.fragment
  refine ⟨⟨d1.1, d2.1, d3.1, d4.1⟩, ⟨d1.2, d2.2, d3.2, d4.2⟩,
    ⟨_, EncodingNormalize_of uc V hn⟩, ?_⟩
  intro t U2 V2 hU2 hV2 h a b ha hb part hp
  have hn2 := derived_normalizable uc U2 V2 (parsed_normalizable t U2 hU2) hV2
  by_cases hab : a = b
  · subst hab
    exact ⟨h, true, Equal_same uc h a part _⟩
  · obtain ⟨x, hx⟩ := compared_some part (viewed EncodingNormalized V) hp
    obtain ⟨y, hy⟩ := compared_some part (viewed EncodingNormalized V2) hp
    obtain ⟨h1, he⟩ := Equal_eq uc h a b V V2 ha hb hn hn2 hab part EncodingNormalized x y hx hy
    exact ⟨h1, _, he⟩

theorem C35_encoding_normalize_safe_witness :
    Parse (bytes "urn:ab:c%2f%c3?=%3f") =
      some (some { Scheme := bytes "urn", NID := bytes "ab", NSS := bytes "c%2f%c3",
                   Query := bytes "%3f" }, none) ∧
    Derived ⟨id, id⟩
      { Scheme := bytes "urn", NID := bytes "ab", NSS := bytes "c%2f%c3", Query := bytes "%3f" }
      { Scheme := bytes "urn", NID := bytes "ab", NSS := bytes "c/%C3", Query := bytes "?",
        normalized := true } ∧
    (∃ W, URN.EncodingNormalize ⟨id, id⟩
        { Scheme := bytes "urn", NID := bytes "ab", NSS := bytes "c/%C3", Query := bytes "?",
          normalized := true } = some W) ∧
    ∃ h1 r, Equal ⟨id, id⟩
        [{ Scheme := bytes "urn", NID := bytes "ab", NSS := bytes "c/%C3", Query := bytes "?",
           normalized := true },
         { Scheme := bytes "urn", NID := bytes "ab", NSS := bytes "c%2f%c3",
           Query := bytes "%3f" }]
        (some 0) (some 1) AllParts EncodingNormalized = some (h1, r) := by
  have hd : Derived ⟨id, id⟩
      { Scheme := bytes "urn", NID := bytes "ab", NSS := bytes "c%2f%c3", Query := bytes "%3f" }
      { Scheme := bytes "urn", NID := bytes "ab", NSS := bytes "c/%C3", Query := bytes "?",
        normalized := true } :=
    Derived.encodingNormalize
      { Scheme := bytes "urn", NID := bytes "ab", NSS := bytes "c%2F%C3", Query := bytes "%3F",
        normalized := true } _
      (Derived.normalize
        { Scheme := bytes "urn", NID := bytes "ab", NSS := bytes "c%2f%c3",
          Query := bytes "%3f" } _ Derived.self (by decide))
      (by decide)
  have h := C35_encoding_normalize_safe ⟨id, id⟩ (bytes "urn:ab:c%2f%c3?=%3f") _ _
    (by decide) hd
  exact ⟨by decide, hd, h.2.2.1,
    h.2.2.2 (bytes "urn:ab:c%2f%c3?=%3f")
      { Scheme := bytes "urn", NID := bytes "ab", NSS := bytes "c%2f%c3", Query := bytes "%3f" }
      { Scheme := bytes "urn", NID := bytes "ab", NSS := bytes "c%2f%c3", Query := bytes "%3f" }
      (by decide) Derived.self
      [{ Scheme := bytes "urn", NID := bytes "ab", NSS := bytes "c/%C3", Query := bytes "?",
         normalized := true },
       { Scheme := bytes "urn", NID := bytes "ab", NSS := bytes "c%2f%c3",
         Query := bytes "%3f" }]
      (some 0) (some 1) (by decide) (by decide) AllParts (Or.inr rfl)⟩


/-! ## The ladder of comparison methods -/

theorem isAlphaNum_lower (c : Nat) (h : isAlphaNum c = true) :
    isAlphaNum (lowerByte c) = true := by
  have hc := alnum_lt c (Or.inl h)
  revert h
  interval_cases c <;> decide

/-- Uppercasing the triplets keeps text of single bytes and triplets such text, and keeps
its first byte. -/
theorem upperTriplets_tokens_of (single : Nat → Bool) (h37 : ∀ c, single c = true → c ≠ 37)
    {l : List Nat} (h : Tokens single l) :
    Tokens single (upperTriplets l) ∧ (upperTriplets l).head? = l.head? := by
  induction h with
  | nil => exact ⟨Tokens.nil, rfl⟩
  | byte c l hc _ ih =>
    rw [upperTriplets_cons_ne c l (h37 c hc)]
    exact ⟨Tokens.byte c _ hc ih.1, rfl⟩
  | triplet x y l hx hy _ ih =>
    rw [upperTriplets_triplet x y l hx hy]
    exact ⟨Tokens.triplet _ _ _ (isHex_upper x hx).2.1 (isHex_upper y hy).2.1 ih.1, rfl⟩

theorem nssByte_ne (c : Nat) (h : nssByte c = true) : c ≠ 37 :=
  (compByte_lt c (nssByte_compByte c h)).2

theorem upperTriplets_starts {l : List Nat} (h : StartsWithItem l) :
    StartsWithItem (upperTriplets l) := by
  obtain ⟨c, rest, rfl, hor⟩ := h
  rcases hor with h1 | ⟨hc, x, y, t, hr, hx, hy⟩
  · have h37 : c ≠ 37 := by
      rintro rfl
      exact absurd h1 (by decide)
    rw [upperTriplets_cons_ne c rest h37]
    exact ⟨c, _, rfl, Or.inl h1⟩
  · subst hc
    subst hr
    rw [upperTriplets_triplet x y t hx hy]
    exact ⟨37, _, rfl, Or.inr ⟨rfl, _, _, _, rfl, (isHex_upper x hx).2.1,
      (isHex_upper y hy).2.1⟩⟩

/-- Uppercasing the triplets does not make a `"?="`. -/
theorem upperTriplets_qe {l : List Nat} (h : Tokens compByte l) :
    [63, 61] <:+: upperTriplets l → [63, 61] <:+: l := by
  induction h with
  | nil => intro hi; exact hi
  | byte c l hc hl ih =>
    rw [upperTriplets_cons_ne c l (compByte_lt c hc).2, List.infix_cons_iff,
      List.infix_cons_iff, qe_prefix_iff, qe_prefix_iff,
      (upperTriplets_tokens_of compByte (fun c hc => (compByte_lt c hc).2) hl).2]
    rintro (hp | hi)
    · exact Or.inl hp
    · exact Or.inr (ih hi)
  | triplet x y l hx hy hl ih =>
    have ux := (isHex_upper x hx).2.1
    have uy := (isHex_upper y hy).2.1
    rw [upperTriplets_triplet x y l hx hy, List.infix_cons_iff, List.infix_cons_iff,
      List.infix_cons_iff, qe_prefix_iff, qe_prefix_iff, qe_prefix_iff]
    rintro (⟨h0, -⟩ | ⟨h0, -⟩ | ⟨h0, -⟩ | hi)
    · exact absurd h0 (by decide)
    · exact absurd h0 (isHex_ne _ ux).2.1
    · exact absurd h0 (isHex_ne _ uy).2.1
    · exact infix_cons_of_tail (infix_cons_of_tail (infix_cons_of_tail (ih hi)))

/-- The case-normalized form of a grammatical URN is grammatical. -/
theorem grammatical_normalForm (u : URN) (hg : Grammatical u) : Grammatical (normalForm u) := by
  have hc37 : ∀ c, compByte c = true → c ≠ 37 := fun c hc => (compByte_lt c hc).2
  have hpart : ∀ l : List Nat, l = [] ∨ (Tokens compByte l ∧ StartsWithItem l) →
      upperTriplets l = [] ∨
        (Tokens compByte (upperTriplets l) ∧ StartsWithItem (upperTriplets l)) := by
    rintro l (rfl | ⟨ht, hs⟩)
    · exact Or.inl rfl
    · exact Or.inr ⟨(upperTriplets_tokens_of compByte hc37 ht).1, upperTriplets_starts hs⟩
  have hr : Tokens compByte u.Resolve := hg.resolve.elim (fun h => h ▸ Tokens.nil) (fun h => h.1)
  obtain ⟨c1, hc1, ha1⟩ := hg.nid_first
  obtain ⟨c2, hc2, ha2⟩ := hg.nid_last
  exact
    { scheme := (show (u.Scheme.map lowerByte).map lowerByte = bytes "urn" by
        rw [map_lowerByte_idem]; exact hg.scheme)
      nid_len := (show 2 ≤ (u.NID.map lowerByte).length ∧ (u.NID.map lowerByte).length ≤ 32 by
        rw [List.length_map]; exact hg.nid_len)
      nid_bytes := (fun c hc => by
        obtain ⟨x, hx, rfl⟩ := List.mem_map.1 hc
        exact (alnum_facts x (hg.nid_bytes x hx)).2.2)
      nid_first := ⟨lowerByte c1, (show (u.NID.map lowerByte).head? = some (lowerByte c1) by
        rw [List.head?_map, hc1]; rfl), isAlphaNum_lower c1 ha1⟩
      nid_last := ⟨lowerByte c2, (show (u.NID.map lowerByte).getLast? = some (lowerByte c2) by
        rw [List.getLast?_map, hc2]; rfl), isAlphaNum_lower c2 ha2⟩
      nss := ⟨(upperTriplets_tokens_of nssByte nssByte_ne hg.nss.1).1,
        upperTriplets_starts hg.nss.2⟩
      resolve := hpart u.Resolve hg.resolve
      resolve_no_qe := (fun hi => hg.resolve_no_qe (upperTriplets_qe hr hi))
      query := hpart u.Query hg.query
      fragment := (upperTriplets_tokens_of compByte hc37 hg.fragment).1
      force := (fun hf => by
        show upperTriplets u.Fragment = []
        rw [hg.force hf]
        rfl) }


theorem recodedForm_bit (u : URN) :
    recodedForm { u with normalized := false } = recodedForm u := rfl

/-- Two grammatical URNs whose case-normalized forms have the same text have the same
recoded form. -/
theorem recoded_of_normal_text (A B : URN) (hgA : Grammatical A) (hgB : Grammatical B)
    (h : (normalForm A).String = (normalForm B).String) : recodedForm A = recodedForm B := by
  have pA := Parse_String _ (grammatical_normalForm A hgA)
  have pB := Parse_String _ (grammatical_normalForm B hgB)
  rw [h, pB] at pA
  simp only [Option.some.injEq, Prod.mk.injEq, and_true] at pA
  have e := congrArg recodedForm pA
  rw [recodedForm_bit, recodedForm_bit,
    recodedForm_normalForm A (grammatical_normalizable A hgA),
    recodedForm_normalForm B (grammatical_normalizable B hgB)] at e
  exact e.symm

/-- The assigned names of two grammatical URNs agree only when Scheme, NID and NSS agree. -/
theorem assigned_inj (A B : URN) (hgA : Grammatical A) (hgB : Grammatical B)
    (h : A.AssignedName = B.AssignedName) :
    A.Scheme = B.Scheme ∧ A.NID = B.NID ∧ A.NSS = B.NSS := by
  obtain ⟨a1, a2, a3, hsA, -⟩ := scheme_of_lower A.Scheme hgA.scheme
  obtain ⟨b1, b2, b3, hsB, -⟩ := scheme_of_lower B.Scheme hgB.scheme
  unfold URN.AssignedName at h
  simp only [List.append_assoc, List.singleton_append, List.cons_append, List.nil_append] at h
  have hlen : A.Scheme.length = B.Scheme.length := by rw [hsA, hsB]; rfl
  obtain ⟨h1, h2⟩ := List.append_inj h hlen
  simp only [List.cons.injEq, true_and] at h2
  have h3 := congrArg (List.takeWhile (fun c => decide (c ≠ 58))) h2
  rw [takeWhile_colon _ _ hgA.nid_bytes, takeWhile_colon _ _ hgB.nid_bytes] at h3
  rw [h3] at h2
  have h4 := List.append_cancel_left h2
  simp only [List.cons.injEq, true_and] at h4
  exact ⟨h1, h3, h4⟩

theorem before_of_bytes (v : URN) (hb : ∀ c ∈ v.AssignedName, c ≠ 63 ∧ c ≠ 35) :
    beforeComponents v.String = v.AssignedName := by
  obtain ⟨t, ht, hstop⟩ := String_assigned v
  unfold beforeComponents
  rw [ht]
  apply takeWhile_stop _ _ _ _ hstop
  intro c hc
  have := hb c hc
  simp [this.1, this.2]

theorem recoded_assigned_bytes (u : URN) (hg : Grammatical u) :
    ∀ c ∈ (recodedForm u).AssignedName, c ≠ 63 ∧ c ≠ 35 := by
  intro c hc
  unfold URN.AssignedName recodedForm at hc
  simp only [List.mem_append, List.mem_singleton] at hc
  rcases hc with (((hc | hc) | hc) | hc) | hc
  · rw [hg.scheme] at hc
    have hl : c = 117 ∨ c = 114 ∨ c = 110 := by simpa [bytes] using hc
    omega
  · subst hc; decide
  · obtain ⟨x, hx, rfl⟩ := List.mem_map.1 hc
    have := alnum_facts _ (alnum_facts x (hg.nid_bytes x hx)).2.2
    exact ⟨this.1, this.2.1⟩
  · subst hc; decide
  · have ht : Tokens nssByte (encodeRef [47] (decodeRef u.NSS)) :=
      encodeRef_tokens [47] nssByte (fun c hc => by simp [nssByte, hc]) (by decide) _
        (decodeRef_lt _ _ (le_refl _)
          (tokens_wellFormed (Tokens.mono nssByte_compByte hg.nss.1)).2)
    exact tokens_nss_ne ht c hc

/-- Under every method the text that `Equal` compares for `AllParts` begins with the text it
compares for `AssignedName`, which ends before the first `'?'` or `'#'`. -/
theorem viewed_before (s : List Nat) (u : URN) (h : Parse s = some (some u, none))
    (method : ComparisonMethod) :
    beforeComponents (viewed method u).String = (viewed method u).AssignedName := by
  have hg := parsed_grammatical s u h
  have hn := parsed_normalized s u h
  unfold viewed
  by_cases h1 : method = CaseNormalized
  · rw [if_pos h1, hn]
    simp only [Bool.false_eq_true, if_false]
    exact assigned_before _ (grammatical_normalForm u hg)
  · rw [if_neg h1]
    by_cases h2 : method = EncodingNormalized
    · rw [if_pos h2]
      exact before_of_bytes _ (recoded_assigned_bytes u hg)
    · rw [if_neg h2]
      exact assigned_before u hg

/-- C33. For URNs `A` and `B` produced by `Parse` and each of the two scopes, `Equal` under
`Simple` implies `Equal` under `CaseNormalized`, which implies `Equal` under
`EncodingNormalized`; and under every method `Equal` for `AllParts` implies `Equal` for
`AssignedName`. All these calls return. -/
theorem C33_comparison_ladder (uc : UnicodeCase) (h : Heap) (a b : Ptr) (sA sB : List Nat)
    (A B : URN) (ha : Heap.load h a = some A) (hb : Heap.load h b = some B)
    (hA : Parse sA = some (some A, none)) (hB : Parse sB = some (some B, none)) :
    (∀ part : ComparisonPart, part = AssignedName ∨ part = AllParts →
      ∃ h1 r1 h2 r2 h3 r3,
        Equal uc h a b part Simple = some (h1, r1) ∧
        Equal uc h a b part CaseNormalized = some (h2, r2) ∧
        Equal uc h a b part EncodingNormalized = some (h3, r3) ∧
        (r1 = true → r2 = true) ∧ (r2 = true → r3 = true)) ∧
    (∀ method : ComparisonMethod,
      ∃ h1 r1 h2 r2,
        Equal uc h a b AllParts method = some (h1, r1) ∧
        Equal uc h a b AssignedName method = some (h2, r2) ∧
        (r1 = true → r2 = true)) := by
  have hgA := parsed_grammatical sA A hA
  have hgB := parsed_grammatical sB B hB
  have hnA := parsed_normalizable sA A hA
  have hnB := parsed_normalizable sB B hB
  obtain ⟨vA0, vA1, vA2⟩ := viewed_parsed sA A hA
  obtain ⟨vB0, vB1, vB2⟩ := viewed_parsed sB B hB
  by_cases hab : a = b
  · subst hab
    exact ⟨fun part _ => ⟨h, true, h, true, h, true, Equal_same uc h a _ _,
        Equal_same uc h a _ _, Equal_same uc h a _ _, fun _ => rfl, fun _ => rfl⟩,
      fun method => ⟨h, true, h, true, Equal_same uc h a _ _, Equal_same uc h a _ _,
        fun _ => rfl⟩⟩
  constructor
  · intro part hp
    rcases hp with rfl | rfl
    · -- the assigned names
      obtain ⟨h1, e1⟩ := Equal_eq uc h a b A B ha hb hnA hnB hab AssignedName Simple
        A.AssignedName B.AssignedName (by rw [vA0]; rfl) (by rw [vB0]; rfl)
      obtain ⟨h2, e2⟩ := Equal_eq uc h a b A B ha hb hnA hnB hab AssignedName CaseNormalized
        (normalForm A).AssignedName (normalForm B).AssignedName
        (by rw [vA1]; rfl) (by rw [vB1]; rfl)
      obtain ⟨h3, e3⟩ := Equal_eq uc h a b A B ha hb hnA hnB hab AssignedName
        EncodingNormalized (recodedForm A).AssignedName (recodedForm B).AssignedName
        (by rw [vA2]; rfl) (by rw [vB2]; rfl)
      refine ⟨h1, _, h2, _, h3, _, e1, e2, e3, ?_, ?_⟩
      · rw [beq_iff_eq, beq_iff_eq]
        intro he
        obtain ⟨x1, x2, x3⟩ := assigned_inj A B hgA hgB he
        exact (assigned_normalForm_inj A B hgA hgB).2 ⟨by rw [x1], by rw [x2], by rw [x3]⟩
      · rw [beq_iff_eq, beq_iff_eq]
        intro he
        obtain ⟨x1, x2, x3⟩ := (assigned_normalForm_inj A B hgA hgB).1 he
        have x4 : decodeRef A.NSS = decodeRef B.NSS := by
          rw [← (upperTriplets_tokens hnA.nss).2.2, ← (upperTriplets_tokens hnB.nss).2.2, x3]
        unfold URN.AssignedName recodedForm
        simp only [x1, x2, x4]
    · -- the whole texts
      obtain ⟨h1, e1⟩ := Equal_eq uc h a b A B ha hb hnA hnB hab AllParts Simple
        A.String B.String (by rw [vA0]; rfl) (by rw [vB0]; rfl)
      obtain ⟨h2, e2⟩ := Equal_eq uc h a b A B ha hb hnA hnB hab AllParts CaseNormalized
        (normalForm A).String (normalForm B).String (by rw [vA1]; rfl) (by rw [vB1]; rfl)
      obtain ⟨h3, e3⟩ := Equal_eq uc h a b A B ha hb hnA hnB hab AllParts
        EncodingNormalized (recodedForm A).String (recodedForm B).String
        (by rw [vA2]; rfl) (by rw [vB2]; rfl)
      refine ⟨h1, _, h2, _, h3, _, e1, e2, e3, ?_, ?_⟩
      · rw [beq_iff_eq, beq_iff_eq]
        intro he
        have hst : sA = sB := by
          rw [← String_of_Parse sA A hA, ← String_of_Parse sB B hB, he]
        subst hst
        have hAB : A = B := by
          have := hA.symm.trans hB
          simpa using this
        rw [hAB]
      · rw [beq_iff_eq, beq_iff_eq]
        intro he
        rw [recoded_of_normal_text A B hgA hgB he]
  · intro method
    obtain ⟨h1, e1⟩ := Equal_eq uc h a b A B ha hb hnA hnB hab AllParts method
      (viewed method A).String (viewed method B).String rfl rfl
    obtain ⟨h2, e2⟩ := Equal_eq uc h a b A B ha hb hnA hnB hab AssignedName method
      (viewed method A).AssignedName (viewed method B).AssignedName rfl rfl
    refine ⟨h1, _, h2, _, e1, e2, ?_⟩
    rw [beq_iff_eq, beq_iff_eq]
    intro he
    rw [← viewed_before sA A hA method, ← viewed_before sB B hB method, he]

theorem C33_comparison_ladder_witness :
    (Parse (bytes "URN:Ab:x%2fy?+r") =
        some (some { Scheme := bytes "URN", NID := bytes "Ab", NSS := bytes "x%2fy",
                     Resolve := bytes "r" }, none) ∧
      Parse (bytes "urn:ab:x/y?+r") =
        some (some { Scheme := bytes "urn", NID := bytes "ab", NSS := bytes "x/y",
                     Resolve := bytes "r" }, none)) ∧
    (Equal ⟨id, id⟩
        [{ Scheme := bytes "URN", NID := bytes "Ab", NSS := bytes "x%2fy", Resolve := bytes "r" },
         { Scheme := bytes "urn", NID := bytes "ab", NSS := bytes "x/y", Resolve := bytes "r" }]
        (some 0) (some 1) AllParts CaseNormalized).map Prod.snd = some false ∧
    (Equal ⟨id, id⟩
        [{ Scheme := bytes "URN", NID := bytes "Ab", NSS := bytes "x%2fy", Resolve := bytes "r" },
         { Scheme := bytes "urn", NID := bytes "ab", NSS := bytes "x/y", Resolve := bytes "r" }]
        (some 0) (some 1) AllParts EncodingNormalized).map Prod.snd = some true ∧
    ∃ h1 r1 h2 r2,
      Equal ⟨id, id⟩
        [{ Scheme := bytes "URN", NID := bytes "Ab", NSS := bytes "x%2fy", Resolve := bytes "r" },
         { Scheme := bytes "urn", NID := bytes "ab", NSS := bytes "x/y", Resolve := bytes "r" }]
        (some 0) (some 1) AllParts EncodingNormalized = some (h1, r1) ∧
      Equal ⟨id, id⟩
        [{ Scheme := bytes "URN", NID := bytes "Ab", NSS := bytes "x%2fy", Resolve := bytes "r" },
         { Scheme := bytes "urn", NID := bytes "ab", NSS := bytes "x/y", Resolve := bytes "r" }]
        (some 0) (some 1) AssignedName EncodingNormalized = some (h2, r2) ∧
      (r1 = true → r2 = true) :=
  ⟨⟨by decide, by decide⟩, by decide, by decide,
    (C33_comparison_ladder ⟨id, id⟩
      [{ Scheme := bytes "URN", NID := bytes "Ab", NSS := bytes "x%2fy", Resolve := bytes "r" },
       { Scheme := bytes "urn", NID := bytes "ab", NSS := bytes "x/y", Resolve := bytes "r" }]
      (some 0) (some 1) (bytes "URN:Ab:x%2fy?+r") (bytes "urn:ab:x/y?+r")
      { Scheme := bytes "URN", NID := bytes "Ab", NSS := bytes "x%2fy", Resolve := bytes "r" }
      { Scheme := bytes "urn", NID := bytes "ab", NSS := bytes "x/y", Resolve := bytes "r" }
      (by decide) (by decide) (by decide) (by decide)).2 EncodingNormalized⟩

end urn
